import Mathlib

/-!
Bitmap engine (`src/src/bitmap.c`, `src/include/bitmap.h`).

A shallow embedding of the fixed-capacity bitmap of the repository and proofs of
its specification.

Conventions of the embedding.

* `u16` and `u32` values are natural numbers; every increment of a machine counter
  is written with its explicit wrap (`% 65536`, `% 4294967296`).
* The flexible array `buf[0]` of `struct bitmap` is the list `buf`; its length is the
  number of words that were allocated.  Every access `bm->buf[i]` goes through
  `rd` / `wr`, which fault with `Fault.out_of_bounds` when `i` is not an allocated
  word (undefined behaviour in C).
* Loops are structurally recursive on a bound that covers every possible value of
  their machine counter; running out of the bound is the separate fault
  `Fault.no_fuel`, so that a result `Except.ok _` always is a real return.
* A `struct bitmap *` argument is a `Bitmap` (the `NULL` test of the source is the
  absence of a value); the self pointer `bm_self` is kept as the boolean
  "`bm->bm_self == bm`".  A returned pointer is an `Option Bitmap`, `none` being
  `NULL`.  Functions returning `bool` return the boolean together with the state
  of the bitmap after the call.
-/

/-! ## Data model -/

/-- Ways in which a run of the C code can fail to return. -/
inductive Fault where
  | out_of_bounds
  | no_fuel
deriving DecidableEq, Repr

deriving instance DecidableEq for Except

/-- The `struct bitmap` of `bitmap.h`. -/
structure Bitmap where
  /-- Whether `bm->bm_self == bm`. -/
  bm_self : Bool
  max_value : Nat
  first_value : Nat
  last_value : Nat
  numbers : Nat
  buf_len : Nat
  buf : List Nat
deriving DecidableEq, Repr

def UINT16_MAX : Nat := 65535

/-- The macro `BITSIZEOF(u32)`. -/
def BITSIZEOF_u32 : Nat := 32

/-- The complement `~w` of a `u32`. -/
def not_u32 (w : Nat) : Nat := w ^^^ 4294967295

/-- Read of `buf[i]`. -/
def rd (buf : List Nat) (i : Nat) : Except Fault Nat :=
  match buf[i]? with
  | some w => .ok w
  | none => .error .out_of_bounds

/-- Write `buf[i] = w`. -/
def wr (buf : List Nat) (i : Nat) (w : Nat) : Except Fault (List Nat) :=
  if i < buf.length then .ok (buf.set i w) else .error .out_of_bounds

/-! ## `update_info` -/

/-- Body of the `for` loop of `update_info` at counter `i`, given the word read. -/
def update_info_step (bm : Bitmap) (i : Nat) (w : Nat) : Bitmap :=
  if w &&& (1 <<< (i % BITSIZEOF_u32)) ≠ 0 then
    { bm with
      numbers := (bm.numbers + 1) % 65536
      first_value := if i < bm.first_value then i else bm.first_value
      last_value := if i > bm.last_value then i else bm.last_value }
  else bm

/-- The loop `for (i = 0; i < bm->max_value; i++)` of `update_info`, from counter `i`. -/
def update_info_loop : Nat → Nat → Bitmap → Except Fault Bitmap
  | 0, _, _ => .error .no_fuel
  | fuel + 1, i, bm =>
    if i < bm.max_value then
      match rd bm.buf (i / BITSIZEOF_u32) with
      | .ok w => update_info_loop fuel ((i + 1) % 65536) (update_info_step bm i w)
      | .error e => .error e
    else .ok bm

def update_info (bm : Bitmap) : Except Fault Bitmap :=
  update_info_loop 65536 0
    { bm with first_value := UINT16_MAX, last_value := 0, numbers := 0 }

/-! ## Lifecycle and validity -/

/-- The function `bitmap_create`; `malloc_ok` tells whether the allocation succeeds. -/
def bitmap_create (malloc_ok : Bool) (capacity : Nat) : Option Bitmap :=
  if capacity = 0 then none
  else
    let buf_len0 := capacity / BITSIZEOF_u32
    let buf_len := if buf_len0 * BITSIZEOF_u32 < capacity then (buf_len0 + 1) % 65536 else buf_len0
    if !malloc_ok then none
    else some
      { bm_self := true
        max_value := capacity
        first_value := UINT16_MAX
        last_value := 0
        numbers := 0
        buf_len := buf_len
        buf := List.replicate buf_len 0 }

def bitmap_check (bm : Bitmap) : Bool :=
  if bm.bm_self ≠ true then false
  else if bm.max_value = 0 ∨ bm.buf_len = 0 then false
  else if bm.numbers > bm.max_value then false
  else if bm.buf_len * BITSIZEOF_u32 < bm.max_value then false
  else true

/-! ## Mutation -/

def bitmap_add_value (bm : Bitmap) (value : Nat) : Except Fault (Bool × Bitmap) :=
  if !bitmap_check bm ∨ value ≥ bm.max_value then .ok (false, bm)
  else
    let index := value / BITSIZEOF_u32
    let bit_position := value % BITSIZEOF_u32
    match rd bm.buf index with
    | .error e => .error e
    | .ok w =>
      if w &&& (1 <<< bit_position) ≠ 0 then .ok (true, bm)
      else
        match wr bm.buf index (w ||| (1 <<< bit_position)) with
        | .error e => .error e
        | .ok buf1 =>
          .ok (true,
            { bm with
              buf := buf1
              first_value := if value < bm.first_value then value else bm.first_value
              last_value := if value > bm.last_value then value else bm.last_value
              numbers := (bm.numbers + 1) % 65536 })

def bitmap_del_value (bm : Bitmap) (value : Nat) : Except Fault (Bool × Bitmap) :=
  if !bitmap_check bm ∨ value ≥ bm.max_value then .ok (false, bm)
  else
    let index := value / BITSIZEOF_u32
    let bit_position := value % BITSIZEOF_u32
    match rd bm.buf index with
    | .error e => .error e
    | .ok w =>
      if w &&& (1 <<< bit_position) = 0 then .ok (true, bm)
      else
        match wr bm.buf index (w &&& not_u32 (1 <<< bit_position)) with
        | .error e => .error e
        | .ok buf1 =>
          match update_info { bm with buf := buf1 } with
          | .error e => .error e
          | .ok bm1 => .ok (true, bm1)

/-! ## Set algebra and clone -/

/-- The function `bitmap_clone`: `memcpy` of the structure and of its `buf_len` words. -/
def bitmap_clone (malloc_ok : Bool) (bm : Bitmap) : Except Fault (Option Bitmap) :=
  if !bitmap_check bm then .ok none
  else if !malloc_ok then .ok none
  else if bm.buf_len ≤ bm.buf.length then
    .ok (some { bm with bm_self := true, buf := bm.buf.take bm.buf_len })
  else .error .out_of_bounds

/-- The re-mask statement
`bm->buf[bm->max_value / BITSIZEOF(u32)] &= (1u << num_bits_in_last_buf) - 1`. -/
def mask_last (bm : Bitmap) : Except Fault Bitmap :=
  let num_bits_in_last_buf := bm.max_value % BITSIZEOF_u32
  let idx := bm.max_value / BITSIZEOF_u32
  match rd bm.buf idx with
  | .error e => .error e
  | .ok w =>
    match wr bm.buf idx (w &&& ((1 <<< num_bits_in_last_buf) - 1)) with
    | .error e => .error e
    | .ok buf1 => .ok { bm with buf := buf1 }

/-- The loop `for (i = 0; i <= bm->max_value / BITSIZEOF(u32); i++)` of `bitmap_not`. -/
def bitmap_not_loop : Nat → Nat → Bitmap → Except Fault Bitmap
  | 0, _, _ => .error .no_fuel
  | fuel + 1, i, bm =>
    if i ≤ bm.max_value / BITSIZEOF_u32 then
      match rd bm.buf i with
      | .error e => .error e
      | .ok w =>
        match wr bm.buf i (not_u32 w) with
        | .error e => .error e
        | .ok buf1 => bitmap_not_loop fuel ((i + 1) % 4294967296) { bm with buf := buf1 }
    else .ok bm

def bitmap_not (bm : Bitmap) : Except Fault (Bool × Bitmap) :=
  if !bitmap_check bm then .ok (false, bm)
  else
    match bitmap_not_loop 65536 0 bm with
    | .error e => .error e
    | .ok bm1 =>
      match mask_last bm1 with
      | .error e => .error e
      | .ok bm2 =>
        match update_info bm2 with
        | .error e => .error e
        | .ok bm3 => .ok (true, bm3)

/-- The loop `for (i = 0; i < min_buffer_len; i++) bm_store->buf[i] |= bm->buf[i]`. -/
def bitmap_or_loop (min_buffer_len : Nat) (bm : Bitmap) : Nat → Nat → Bitmap → Except Fault Bitmap
  | 0, _, _ => .error .no_fuel
  | fuel + 1, i, bm_store =>
    if i < min_buffer_len then
      match rd bm_store.buf i, rd bm.buf i with
      | .ok a, .ok b =>
        match wr bm_store.buf i (a ||| b) with
        | .error e => .error e
        | .ok buf1 =>
          bitmap_or_loop min_buffer_len bm fuel ((i + 1) % 65536) { bm_store with buf := buf1 }
      | .error e, _ => .error e
      | _, .error e => .error e
    else .ok bm_store

/-- The function `bitmap_or`; the result carries the state of `bm_store` (the source
operand `bm` is only read). -/
def bitmap_or (bm_store bm : Bitmap) : Except Fault (Bool × Bitmap) :=
  if !bitmap_check bm_store ∨ !bitmap_check bm then .ok (false, bm_store)
  else
    let min_buffer_len := if bm_store.buf_len < bm.buf_len then bm_store.buf_len else bm.buf_len
    match bitmap_or_loop min_buffer_len bm 65536 0 bm_store with
    | .error e => .error e
    | .ok bm1 =>
      match mask_last bm1 with
      | .error e => .error e
      | .ok bm2 =>
        match update_info bm2 with
        | .error e => .error e
        | .ok bm3 => .ok (true, bm3)

/-- The loop `for (i = 0; i < min_buffer_len; i++) bm_store->buf[i] &= bm->buf[i]`;
returns the final counter as well, which the clearing loop continues from. -/
def bitmap_and_loop (min_buffer_len : Nat) (bm : Bitmap) :
    Nat → Nat → Bitmap → Except Fault (Nat × Bitmap)
  | 0, _, _ => .error .no_fuel
  | fuel + 1, i, bm_store =>
    if i < min_buffer_len then
      match rd bm_store.buf i, rd bm.buf i with
      | .ok a, .ok b =>
        match wr bm_store.buf i (a &&& b) with
        | .error e => .error e
        | .ok buf1 =>
          bitmap_and_loop min_buffer_len bm fuel ((i + 1) % 65536) { bm_store with buf := buf1 }
      | .error e, _ => .error e
      | _, .error e => .error e
    else .ok (i, bm_store)

/-- The loop `while (i < bm_store->buf_len) { bm_store->buf[i] = 0; i++; }`. -/
def bitmap_and_clear : Nat → Nat → Bitmap → Except Fault Bitmap
  | 0, _, _ => .error .no_fuel
  | fuel + 1, i, bm_store =>
    if i < bm_store.buf_len then
      match wr bm_store.buf i 0 with
      | .error e => .error e
      | .ok buf1 => bitmap_and_clear fuel ((i + 1) % 65536) { bm_store with buf := buf1 }
    else .ok bm_store

/-- The function `bitmap_and`; the result carries the state of `bm_store`. -/
def bitmap_and (bm_store bm : Bitmap) : Except Fault (Bool × Bitmap) :=
  if !bitmap_check bm_store ∨ !bitmap_check bm then .ok (false, bm_store)
  else
    let min_buffer_len := if bm_store.buf_len < bm.buf_len then bm_store.buf_len else bm.buf_len
    match bitmap_and_loop min_buffer_len bm 65536 0 bm_store with
    | .error e => .error e
    | .ok (i, bm1) =>
      match mask_last bm1 with
      | .error e => .error e
      | .ok bm2 =>
        match bitmap_and_clear 65536 i bm2 with
        | .error e => .error e
        | .ok bm3 =>
          match update_info bm3 with
          | .error e => .error e
          | .ok bm4 => .ok (true, bm4)

/-! ## Text codec

Text is a list of characters; a pointer into a NUL-terminated string is the list of the
characters from that position on, so that `*p` is the head of the list, or NUL at its end.
The block under `#ifdef DEBUG` of `bitmap_print` is not compiled. -/

def CHAR_SPACE : Char := ' '
def CHAR_NULL : Char := Char.ofNat 0
def CHAR_ENTRY_SEPARATOR : Char := ','
def CHAR_RANGE_SEPARATOR : Char := '-'

/-- The byte `*p`. -/
def deref (p : List Char) : Char := p.headD CHAR_NULL

/-- The function `skip_space`. -/
def skip_space (str : List Char) : List Char := str.dropWhile (fun c => c = CHAR_SPACE)

/-- The C library predicate `isspace` in the "C" locale. -/
def isspace (c : Char) : Bool := c = ' ' || (9 ≤ c.toNat && c.toNat ≤ 13)

/-- The C library predicate `isdigit`. -/
def isdigit (c : Char) : Bool := '0' ≤ c && c ≤ '9'

def LONG_MAX : Int := 9223372036854775807

/-- Value of a string of decimal digits. -/
def digits_value (ds : List Char) : Nat :=
  ds.foldl (fun acc c => 10 * acc + (c.toNat - 48)) 0

/-- What a call `strtol(p, &endptr, 10)` yields: the value, `endptr` and whether `errno`
was set to `ERANGE`. -/
structure StrtolResult where
  value : Int
  endptr : List Char
  erange : Bool
deriving DecidableEq, Repr

/-- The C library function `strtol` in base 10 (with a 64-bit `long`): optional white space,
an optional sign, then decimal digits; without digits no conversion is made, the value is 0
and `endptr` is the argument; a value that does not fit a `long` is clamped with `ERANGE`. -/
def strtol (p : List Char) : StrtolResult :=
  let p1 := p.dropWhile isspace
  let neg := decide (deref p1 = '-')
  let p2 := if deref p1 = '-' ∨ deref p1 = '+' then p1.tail else p1
  let ds := p2.takeWhile isdigit
  if ds = [] then { value := 0, endptr := p, erange := false }
  else
    let n : Int := digits_value ds
    let rest := p2.dropWhile isdigit
    if neg then
      if n > LONG_MAX + 1 then { value := -LONG_MAX - 1, endptr := rest, erange := true }
      else { value := -n, endptr := rest, erange := false }
    else
      if n > LONG_MAX then { value := LONG_MAX, endptr := rest, erange := true }
      else { value := n, endptr := rest, erange := false }

/-- The first loop of `bitmap_parse_str` (validation and maximum), from `startptr` with the
maximum found so far; `none` is `goto cleanup`. -/
def parse_scan : Nat → List Char → Int → Except Fault (Option Int)
  | 0, _, _ => .error .no_fuel
  | fuel + 1, startptr, max_value =>
    if deref startptr = CHAR_NULL then .ok (some max_value)
    else if deref startptr = CHAR_SPACE ∨ deref startptr = CHAR_RANGE_SEPARATOR ∨
        deref startptr = CHAR_ENTRY_SEPARATOR then
      parse_scan fuel startptr.tail max_value
    else if isdigit (deref startptr) then
      let r := strtol startptr
      if r.value ≥ 65535 ∨ r.value < 0 ∨ r.erange then .ok none
      else parse_scan fuel r.endptr (if r.value > max_value then r.value else max_value)
    else .ok none

/-- The loop `while (start_value <= value) { bitmap_add_value(bm, start_value); start_value++; }`
(the result of `bitmap_add_value` is ignored); returns the final `start_value` too. -/
def parse_expand : Nat → Nat → Int → Bitmap → Except Fault (Nat × Bitmap)
  | 0, _, _, _ => .error .no_fuel
  | fuel + 1, start_value, value, bm =>
    if (start_value : Int) ≤ value then
      match bitmap_add_value bm start_value with
      | .error e => .error e
      | .ok (_, bm1) => parse_expand fuel ((start_value + 1) % 65536) value bm1
    else .ok (start_value, bm)

/-- The second loop of `bitmap_parse_str` (population) and the statements after it; `none`
is `goto cleanup`, after which `NULL` is returned. -/
def parse_fill : Nat → List Char → Bool → Nat → Bitmap → Except Fault (Option Bitmap)
  | 0, _, _, _, _ => .error .no_fuel
  | fuel + 1, startptr, in_range, start_value, bm =>
    if deref startptr = CHAR_NULL then
      if in_range then .ok none else .ok (some bm)
    else
      let p1 := skip_space startptr
      if deref p1 = CHAR_NULL then
        if in_range then .ok none else .ok (some bm)
      else if deref p1 = CHAR_RANGE_SEPARATOR then .ok none
      else
        let r := strtol p1
        if r.value ≥ 65535 ∨ r.value < 0 ∨ r.erange then .ok none
        else if r.value = 0 ∧ r.endptr = p1 then .ok none
        else
          let p2 := skip_space r.endptr
          if deref p2 = CHAR_ENTRY_SEPARATOR ∨ deref p2 = CHAR_NULL then
            let p3 := if deref p2 = CHAR_ENTRY_SEPARATOR then p2.tail else p2
            if in_range then
              if (start_value : Int) > r.value then .ok none
              else
                match parse_expand 65536 start_value r.value bm with
                | .error e => .error e
                | .ok (start_value1, bm1) => parse_fill fuel p3 false start_value1 bm1
            else
              match bitmap_add_value bm (r.value.toNat % 65536) with
              | .error e => .error e
              | .ok (_, bm1) => parse_fill fuel p3 false start_value bm1
          else if deref p2 = CHAR_RANGE_SEPARATOR ∧ in_range = false then
            parse_fill fuel p2.tail true (r.value.toNat % 65536) bm
          else .ok none

/-- The function `bitmap_parse_str`; `malloc_ok` tells whether the allocation of
`bitmap_create` succeeds.  Each loop consumes at least one character per iteration, hence
the bound `str.length + 1`. -/
def bitmap_parse_str (malloc_ok : Bool) (str : List Char) : Except Fault (Option Bitmap) :=
  if deref str = CHAR_NULL then .ok none
  else
    match parse_scan (str.length + 1) str (-1) with
    | .error e => .error e
    | .ok none => .ok none
    | .ok (some max_value) =>
      if max_value < 0 then .ok none
      else
        match bitmap_create malloc_ok ((max_value.toNat % 65536 + 1) % 65536) with
        | none => .ok none
        | some bm => parse_fill (str.length + 1) str false 0 bm

/-! ### The parser with its calls recorded

The two loops of `bitmap_parse_str` again, statement for statement, with ghost lists that
record, in order, the calls of `strtol` and of `bitmap_add_value` that a run makes. -/

/-- A call `strtol(p, &endptr, 10)`: its argument and what it yields. -/
structure StrtolCall where
  arg : List Char
  res : StrtolResult
deriving DecidableEq, Repr

/-- A call `bitmap_add_value(bm, value)`: the value, `bm->max_value` at the call and the
value returned (which the parser ignores). -/
structure AddCall where
  value : Nat
  max_value : Nat
  result : Bool
deriving DecidableEq, Repr

/-- The first loop of `bitmap_parse_str` as `parse_scan`, with the calls of `strtol`. -/
def parse_scan_log : Nat → List Char → Int → Except Fault (Option Int × List StrtolCall)
  | 0, _, _ => .error .no_fuel
  | fuel + 1, startptr, max_value =>
    if deref startptr = CHAR_NULL then .ok (some max_value, [])
    else if deref startptr = CHAR_SPACE ∨ deref startptr = CHAR_RANGE_SEPARATOR ∨
        deref startptr = CHAR_ENTRY_SEPARATOR then
      parse_scan_log fuel startptr.tail max_value
    else if isdigit (deref startptr) then
      let r := strtol startptr
      if r.value ≥ 65535 ∨ r.value < 0 ∨ r.erange then .ok (none, [⟨startptr, r⟩])
      else
        match parse_scan_log fuel r.endptr (if r.value > max_value then r.value else max_value) with
        | .error e => .error e
        | .ok (res, log) => .ok (res, ⟨startptr, r⟩ :: log)
    else .ok (none, [])

/-- The loop `while (start_value <= value)` as `parse_expand`, with the calls of
`bitmap_add_value`. -/
def parse_expand_log : Nat → Nat → Int → Bitmap → Except Fault (Nat × Bitmap × List AddCall)
  | 0, _, _, _ => .error .no_fuel
  | fuel + 1, start_value, value, bm =>
    if (start_value : Int) ≤ value then
      match bitmap_add_value bm start_value with
      | .error e => .error e
      | .ok (b, bm1) =>
        match parse_expand_log fuel ((start_value + 1) % 65536) value bm1 with
        | .error e => .error e
        | .ok (start_value1, bm2, calls) =>
          .ok (start_value1, bm2, ⟨start_value, bm.max_value, b⟩ :: calls)
    else .ok (start_value, bm, [])

/-- The calls `s` and `a`, followed by those of the rest of a run. -/
def with_calls (s : List StrtolCall) (a : List AddCall) :
    Except Fault (Option Bitmap × List StrtolCall × List AddCall) →
    Except Fault (Option Bitmap × List StrtolCall × List AddCall)
  | .error e => .error e
  | .ok (r, s1, a1) => .ok (r, s ++ s1, a ++ a1)

/-- The second loop of `bitmap_parse_str` as `parse_fill`, with the calls of `strtol` and
of `bitmap_add_value`; the calls made before a `goto cleanup` are recorded too. -/
def parse_fill_log : Nat → List Char → Bool → Nat → Bitmap →
    Except Fault (Option Bitmap × List StrtolCall × List AddCall)
  | 0, _, _, _, _ => .error .no_fuel
  | fuel + 1, startptr, in_range, start_value, bm =>
    if deref startptr = CHAR_NULL then
      if in_range then .ok (none, [], []) else .ok (some bm, [], [])
    else
      let p1 := skip_space startptr
      if deref p1 = CHAR_NULL then
        if in_range then .ok (none, [], []) else .ok (some bm, [], [])
      else if deref p1 = CHAR_RANGE_SEPARATOR then .ok (none, [], [])
      else
        let r := strtol p1
        if r.value ≥ 65535 ∨ r.value < 0 ∨ r.erange then .ok (none, [⟨p1, r⟩], [])
        else if r.value = 0 ∧ r.endptr = p1 then .ok (none, [⟨p1, r⟩], [])
        else
          let p2 := skip_space r.endptr
          if deref p2 = CHAR_ENTRY_SEPARATOR ∨ deref p2 = CHAR_NULL then
            let p3 := if deref p2 = CHAR_ENTRY_SEPARATOR then p2.tail else p2
            if in_range then
              if (start_value : Int) > r.value then .ok (none, [⟨p1, r⟩], [])
              else
                match parse_expand_log 65536 start_value r.value bm with
                | .error e => .error e
                | .ok (start_value1, bm1, calls) =>
                  with_calls [⟨p1, r⟩] calls (parse_fill_log fuel p3 false start_value1 bm1)
            else
              match bitmap_add_value bm (r.value.toNat % 65536) with
              | .error e => .error e
              | .ok (b, bm1) =>
                with_calls [⟨p1, r⟩] [⟨r.value.toNat % 65536, bm.max_value, b⟩]
                  (parse_fill_log fuel p3 false start_value bm1)
          else if deref p2 = CHAR_RANGE_SEPARATOR ∧ in_range = false then
            with_calls [⟨p1, r⟩] [] (parse_fill_log fuel p2.tail true (r.value.toNat % 65536) bm)
          else .ok (none, [⟨p1, r⟩], [])

/-- The conversion `%u` of `printf`: the decimal digits, without leading zeros. -/
def fmt_u (n : Nat) : List Char := Nat.toDigits 10 n

/-- The output of `printf("%u", range_start)` or
`printf("%u%c%u", range_start, CHAR_RANGE_SEPARATOR, range_end)`. -/
def print_range (range_start range_end : Nat) : List Char :=
  if range_start = range_end then fmt_u range_start
  else fmt_u range_start ++ [CHAR_RANGE_SEPARATOR] ++ fmt_u range_end

/-- The local variables of `bitmap_print` and the text written so far. -/
structure PrintState where
  in_range : Bool
  range_start : Nat
  range_end : Nat
  out : List Char
deriving DecidableEq, Repr

/-- Body of the `for` loop of `bitmap_print` at counter `i`, given the word read. -/
def bitmap_print_step (bm : Bitmap) (i : Nat) (w : Nat) (st : PrintState) : PrintState :=
  if w &&& (1 <<< (i % BITSIZEOF_u32)) ≠ 0 then
    if st.in_range = false then { st with range_start := i, in_range := true } else st
  else
    if st.in_range then
      let range_end := (i + 65535) % 65536
      let out1 := st.out ++ print_range st.range_start range_end
      { st with
        range_end := range_end
        in_range := false
        out := if i < bm.last_value then out1 ++ [CHAR_ENTRY_SEPARATOR] else out1 }
    else st

/-- The loop `for (i = bm->first_value; i <= bm->last_value; i++)` of `bitmap_print`. -/
def bitmap_print_loop (bm : Bitmap) : Nat → Nat → PrintState → Except Fault PrintState
  | 0, _, _ => .error .no_fuel
  | fuel + 1, i, st =>
    if i ≤ bm.last_value then
      match rd bm.buf (i / BITSIZEOF_u32) with
      | .error e => .error e
      | .ok w => bitmap_print_loop bm fuel ((i + 1) % 65536) (bitmap_print_step bm i w st)
    else .ok st

/-- The function `bitmap_print`; the result is the text written to the standard output. -/
def bitmap_print (bm : Bitmap) : Except Fault (List Char) :=
  if !bitmap_check bm then .ok ("Invalid Bitmap".toList ++ [Char.ofNat 10])
  else if bm.numbers = 0 then .ok ("No values".toList ++ [Char.ofNat 10])
  else
    match bitmap_print_loop bm 65536 bm.first_value
        { in_range := false, range_start := 0, range_end := 0, out := [] } with
    | .error e => .error e
    | .ok st =>
      let out :=
        if st.in_range then st.out ++ print_range st.range_start bm.last_value else st.out
      .ok (out ++ [Char.ofNat 10])

/-! ## The grammar of well-formed text -/

/-- A number of the grammar: a non-empty string of decimal digits, with `pre` space
characters before it and `post` space characters after it. -/
structure NumTok where
  pre : Nat
  digits : List Char
  post : Nat
deriving DecidableEq, Repr

def NumTok.text (t : NumTok) : List Char :=
  List.replicate t.pre CHAR_SPACE ++ (t.digits ++ List.replicate t.post CHAR_SPACE)

def NumTok.value (t : NumTok) : Nat := digits_value t.digits

/-- A decimal literal below 65535. -/
def NumTok.ok (t : NumTok) : Prop :=
  t.digits ≠ [] ∧ (∀ c ∈ t.digits, isdigit c = true) ∧ t.value < 65535

instance (t : NumTok) : Decidable t.ok := by
  unfold NumTok.ok; infer_instance

/-- An entry of the grammar: a single number `N` or a range `A-B`. -/
inductive Entry where
  | single (n : NumTok)
  | range (a b : NumTok)
deriving DecidableEq, Repr

def Entry.text : Entry → List Char
  | .single n => n.text
  | .range a b => a.text ++ CHAR_RANGE_SEPARATOR :: b.text

/-- The entry is `N < 65535` or `A-B` with `A ≤ B < 65535`. -/
def Entry.ok : Entry → Prop
  | .single n => n.ok
  | .range a b => a.ok ∧ b.ok ∧ a.value ≤ b.value

instance (e : Entry) : Decidable e.ok := by
  cases e <;> unfold Entry.ok <;> infer_instance

/-- The values an entry denotes: `{N}` or `{A, ..., B}`. -/
def Entry.covers : Entry → Nat → Bool
  | .single n, v => decide (v = n.value)
  | .range a b, v => decide (a.value ≤ v) && decide (v ≤ b.value)

/-- The literals written in an entry. -/
def Entry.literals : Entry → List Nat
  | .single n => [n.value]
  | .range a b => [a.value, b.value]

/-- The entries of the tail of a text, each preceded by its separating comma. -/
def tail_text (es : List Entry) : List Char :=
  es.foldr (fun e acc => CHAR_ENTRY_SEPARATOR :: (e.text ++ acc)) []

/-- The text of a comma-separated sequence of entries. -/
def entries_text : List Entry → List Char
  | [] => []
  | e :: es => e.text ++ tail_text es

/-- All literals of a sequence of entries, in the order of the text. -/
def all_literals (es : List Entry) : List Nat :=
  es.foldr (fun e acc => e.literals ++ acc) []

/-- The maximum that the first loop of `bitmap_parse_str` tracks, over a list of literals. -/
def scan_max (m : Int) (lits : List Nat) : Int :=
  lits.foldl (fun (acc : Int) (n : Nat) => if (n : Int) > acc then (n : Int) else acc) m

/-- From `startptr` with maximum `m`, the first loop of the parser ends with `r`, whatever
bound at least the length of the text it is given. -/
def ScanTo (startptr : List Char) (m : Int) (r : Option Int) : Prop :=
  ∀ fuel, startptr.length < fuel → parse_scan fuel startptr m = .ok r

/-- From `startptr` in the given state, the second loop of the parser ends with `r`. -/
def FillTo (startptr : List Char) (in_range : Bool) (start_value : Nat) (bm : Bitmap)
    (r : Option Bitmap) : Prop :=
  ∀ fuel, startptr.length < fuel → parse_fill fuel startptr in_range start_value bm = .ok r

/-- The shape of what follows the last number of an entry: the end of the text, or a comma
and the rest `p3` of the text. -/
def EntryEnd (tl p3 : List Char) : Prop :=
  (tl = [] ∧ p3 = []) ∨ tl = CHAR_ENTRY_SEPARATOR :: p3

/-- A character that the first loop of the parser lets through: a decimal digit, a space,
the range separator or the entry separator. -/
def Alpha (c : Char) : Bool :=
  isdigit c || decide (c = CHAR_SPACE) || decide (c = CHAR_RANGE_SEPARATOR) ||
    decide (c = CHAR_ENTRY_SEPARATOR)

/-- A text made of characters that the first loop of the parser lets through. -/
def AlphaText (s : List Char) : Prop := ∀ c ∈ s, Alpha c = true

instance (s : List Char) : Decidable (AlphaText s) := by
  unfold AlphaText; infer_instance

/-- The characters of a C string before its terminator: none of them is NUL. -/
def CString (s : List Char) : Prop := CHAR_NULL ∉ s

instance (s : List Char) : Decidable (CString s) := by
  unfold CString; infer_instance

/-- A decimal literal of any size: a non-empty string of decimal digits. -/
def Literal (ds : List Char) : Prop := ds ≠ [] ∧ ∀ c ∈ ds, isdigit c = true

instance (ds : List Char) : Decidable (Literal ds) := by
  unfold Literal; infer_instance

/-- The character before a position of a text is a decimal digit; `pre` is the text before
that position. -/
def digit_before (pre : List Char) : Bool :=
  match pre.getLast? with
  | some c => isdigit c
  | none => false

/-- The shape of what precedes an entry: the start of the text, or a comma. -/
def EntryStart (pre : List Char) : Prop :=
  pre = [] ∨ ∃ p, pre = p ++ [CHAR_ENTRY_SEPARATOR]

/-! ## Canonical text -/

/-- An entry of a canonical text for the run of consecutive values `r.1 .. r.2`: the decimal
`A` for a single value, `A-B` for a run of two or more values; no spaces, no leading zeros. -/
def canon_entry (r : Nat × Nat) : List Char :=
  if r.1 = r.2 then Nat.toDigits 10 r.1
  else Nat.toDigits 10 r.1 ++ '-' :: Nat.toDigits 10 r.2

/-- The entries of the tail of a canonical text, each preceded by its comma. -/
def canon_tail (rs : List (Nat × Nat)) : List Char :=
  rs.foldr (fun r acc => ',' :: (canon_entry r ++ acc)) []

/-- The canonical text of a list of runs. -/
def canon_text : List (Nat × Nat) → List Char
  | [] => []
  | r :: rs => canon_entry r ++ canon_tail rs

/-- Canonical form: at least one entry, every literal below 65535, every entry a run
`A ≤ B`, and consecutive entries in ascending order with at least one missing value between
them (so that every run is maximal). -/
def Canonical (rs : List (Nat × Nat)) : Prop :=
  rs ≠ [] ∧ (∀ r ∈ rs, r.1 ≤ r.2 ∧ r.2 < 65535) ∧
    List.Chain' (fun r s : Nat × Nat => r.2 + 1 < s.1) rs

/-- The entry of the grammar that a run is written as in canonical text. -/
def run_entry (r : Nat × Nat) : Entry :=
  if r.1 = r.2 then .single ⟨0, Nat.toDigits 10 r.1, 0⟩
  else .range ⟨0, Nat.toDigits 10 r.1, 0⟩ ⟨0, Nat.toDigits 10 r.2, 0⟩

/-- Membership of a value in one of the runs. -/
def in_runs (rs : List (Nat × Nat)) (u : Nat) : Bool :=
  rs.any (fun r => decide (r.1 ≤ u) && decide (u ≤ r.2))

/-- From counter `i` in state `st`, the scan of `bitmap_print` ends in state `r`, whatever
bound above the number of remaining positions it is given. -/
def PrintTo (bm : Bitmap) (i : Nat) (st r : PrintState) : Prop :=
  ∀ fuel, bm.last_value + 1 - i < fuel → bitmap_print_loop bm fuel i st = .ok r

/-- The upper end of the last run of the non-empty list `r :: rs`. -/
def last_end : Nat × Nat → List (Nat × Nat) → Nat
  | r, [] => r.2
  | _, s :: rs => last_end s rs

/-! ## Specification vocabulary -/

/-- Bit `v` of the packed words, whatever the capacity. -/
def bit_set (bm : Bitmap) (v : Nat) : Bool :=
  (bm.buf.getD (v / 32) 0).testBit (v % 32)

/-- Membership: `v` is below the capacity and its bit is set. -/
def member (bm : Bitmap) (v : Nat) : Bool :=
  decide (v < bm.max_value) && bit_set bm v

/-- Number of set bits at positions in `[0, max_value)`. -/
def count_set (bm : Bitmap) : Nat :=
  Nat.count (fun v => bit_set bm v = true) bm.max_value

/-- The representation the data model describes: the words that were allocated are
`buf_len` 32-bit words, `buf_len = ceil(max_value / 32)`, and every field is a `u16`. -/
def WellFormed (bm : Bitmap) : Prop :=
  bm.buf.length = bm.buf_len ∧
  bm.buf_len = (bm.max_value + 31) / 32 ∧
  bm.max_value < 65536 ∧ bm.first_value < 65536 ∧ bm.last_value < 65536 ∧
  bm.numbers < 65536 ∧
  ∀ w ∈ bm.buf, w < 4294967296

instance (bm : Bitmap) : Decidable (WellFormed bm) := by
  unfold WellFormed; infer_instance

/-- A valid bitmap: well formed and accepted by `bitmap_check`. -/
def Valid (bm : Bitmap) : Prop := WellFormed bm ∧ bitmap_check bm = true

instance (bm : Bitmap) : Decidable (Valid bm) := by
  unfold Valid; infer_instance

/-- Invariant 1: every bit of the words at a position `≥ max_value` is zero. -/
def OverflowZero (bm : Bitmap) : Prop :=
  ∀ v < bm.buf.length * 32, bm.max_value ≤ v → bit_set bm v = false

instance (bm : Bitmap) : Decidable (OverflowZero bm) := by
  unfold OverflowZero; infer_instance

/-- Invariants 2 and 3: the cached statistics agree with the words. -/
def StatsOK (bm : Bitmap) : Prop :=
  bm.numbers = count_set bm ∧
  (0 < count_set bm →
    bm.first_value < bm.max_value ∧ bit_set bm bm.first_value = true ∧
    bm.last_value < bm.max_value ∧ bit_set bm bm.last_value = true ∧
    ∀ v < bm.max_value, bit_set bm v = true → bm.first_value ≤ v ∧ v ≤ bm.last_value) ∧
  (count_set bm = 0 → bm.first_value = 65535 ∧ bm.last_value = 0)

instance (bm : Bitmap) : Decidable (StatsOK bm) := by
  unfold StatsOK; infer_instance

/-- The three invariants of the data model. -/
def Invariants (bm : Bitmap) : Prop := OverflowZero bm ∧ StatsOK bm

instance (bm : Bitmap) : Decidable (Invariants bm) := by
  unfold Invariants; infer_instance

/-- The statistics invariant restricted to the positions below `n`: the state of the
rescan of `update_info` when its counter is `n`. -/
def StatsUpTo (bm : Bitmap) (n : Nat) : Prop :=
  bm.numbers = Nat.count (fun v => bit_set bm v = true) n ∧
  (0 < Nat.count (fun v => bit_set bm v = true) n →
    bm.first_value < n ∧ bit_set bm bm.first_value = true ∧
    bm.last_value < n ∧ bit_set bm bm.last_value = true ∧
    ∀ v < n, bit_set bm v = true → bm.first_value ≤ v ∧ v ≤ bm.last_value) ∧
  (Nat.count (fun v => bit_set bm v = true) n = 0 → bm.first_value = 65535 ∧ bm.last_value = 0)

/-- Two states of a bitmap that differ at most in the cached statistics. -/
def SameFrame (a b : Bitmap) : Prop :=
  a.bm_self = b.bm_self ∧ a.max_value = b.max_value ∧ a.buf_len = b.buf_len ∧ a.buf = b.buf

/-- Two states of a bitmap with the same identity, capacity and number of words. -/
def SameShape (a b : Bitmap) : Prop :=
  a.bm_self = b.bm_self ∧ a.max_value = b.max_value ∧ a.buf_len = b.buf_len ∧
    a.buf.length = b.buf.length

/-! ## Sample bitmaps -/

/-- A bitmap of capacity 10 holding the members 1 and 5. -/
def sample_dst : Bitmap :=
  { bm_self := true, max_value := 10, first_value := 1, last_value := 5, numbers := 2,
    buf_len := 1, buf := [34] }

/-- A bitmap of capacity 100 holding the members 5, 9, 40 and 99. -/
def sample_src : Bitmap :=
  { bm_self := true, max_value := 100, first_value := 5, last_value := 99, numbers := 4,
    buf_len := 4, buf := [544, 256, 0, 8] }

/-- An empty bitmap of capacity 10. -/
def sample_empty : Bitmap :=
  { bm_self := true, max_value := 10, first_value := 65535, last_value := 0, numbers := 0,
    buf_len := 1, buf := [0] }

/-- A bitmap of capacity 10 that passes `bitmap_check` although its `numbers` (10) is not
the number of its set bits (none). -/
def sample_miscounted : Bitmap :=
  { bm_self := true, max_value := 10, first_value := 65535, last_value := 0, numbers := 10,
    buf_len := 1, buf := [0] }

/-- The bitmap `sample_dst` with a self pointer that does not point to it. -/
def sample_stale : Bitmap := { sample_dst with bm_self := false }

/-- A bitmap of capacity 10 holding the members 1 and 2. -/
def sample_pair : Bitmap :=
  { bm_self := true, max_value := 10, first_value := 1, last_value := 2, numbers := 2,
    buf_len := 1, buf := [6] }

/-- The empty bitmap of capacity 32 that `bitmap_create(32)` returns: one word. -/
def sample_cap32 : Bitmap :=
  { bm_self := true, max_value := 32, first_value := 65535, last_value := 0, numbers := 0,
    buf_len := 1, buf := [0] }

/-- The bitmap `sample_cap32` seen with the word of memory that follows its buffer. -/
def sample_cap32_spare : Bitmap := { sample_cap32 with buf := [0, 0] }

/-! ## Theorems -/

/-! ### Words and bits -/

theorem and_one_shl_ne_zero (w p : Nat) : w &&& (1 <<< p) ≠ 0 ↔ w.testBit p = true := by
  rw [Nat.one_shiftLeft, Nat.and_two_pow]
  cases h : w.testBit p <;> simp [Nat.pos_iff_ne_zero.mp (Nat.two_pow_pos p)]

theorem and_one_shl_eq_zero (w p : Nat) : w &&& (1 <<< p) = 0 ↔ w.testBit p = false := by
  have := and_one_shl_ne_zero w p
  cases h : w.testBit p <;> simp_all

theorem rd_of_lt {buf : List Nat} {i : Nat} (h : i < buf.length) :
    rd buf i = .ok (buf.getD i 0) := by
  simp [rd, List.getD, List.getElem?_eq_getElem h]

theorem wr_of_lt {buf : List Nat} {i : Nat} (w : Nat) (h : i < buf.length) :
    wr buf i w = .ok (buf.set i w) := by
  simp [wr, h]

theorem bit_set_congr {a b : Bitmap} (h : a.buf = b.buf) (v : Nat) : bit_set a v = bit_set b v := by
  simp [bit_set, h]

theorem count_congr_buf {a b : Bitmap} (h : a.buf = b.buf) (n : Nat) :
    Nat.count (fun v => bit_set a v = true) n = Nat.count (fun v => bit_set b v = true) n := by
  have : (fun v => bit_set a v = true) = (fun v => bit_set b v = true) := by
    funext v; rw [bit_set_congr h]
  simp only [this]

/-! ### The rescan `update_info` -/

theorem update_info_step_frame (bm : Bitmap) (i w : Nat) :
    SameFrame (update_info_step bm i w) bm := by
  unfold update_info_step SameFrame
  split_ifs <;> simp

theorem count_bits_zero_iff (bm : Bitmap) (n : Nat) :
    Nat.count (fun v => bit_set bm v = true) n = 0 ↔ ∀ v < n, bit_set bm v = false := by
  rw [Nat.count_iff_forall_not]
  simp

theorem count_bits_pos_iff (bm : Bitmap) (n : Nat) :
    0 < Nat.count (fun v => bit_set bm v = true) n ↔ ∃ v < n, bit_set bm v = true := by
  rw [Nat.pos_iff_ne_zero, ne_eq, count_bits_zero_iff]
  simp

theorem update_info_step_spec (bm : Bitmap) (i : Nat) (hi : i < 65535)
    (h : StatsUpTo bm i) :
    StatsUpTo (update_info_step bm i (bm.buf.getD (i / 32) 0)) (i + 1) := by
  have hfr := update_info_step_frame bm i (bm.buf.getD (i / 32) 0)
  have hb : ∀ v, bit_set (update_info_step bm i (bm.buf.getD (i / 32) 0)) v = bit_set bm v :=
    fun v => bit_set_congr hfr.2.2.2 v
  obtain ⟨hn, hpos, hzero⟩ := h
  have hcle : Nat.count (fun v => bit_set bm v = true) i ≤ i := Nat.count_le _
  unfold StatsUpTo
  simp only [hb, Nat.count_succ]
  unfold update_info_step
  by_cases hbit : bit_set bm i = true
  · -- the bit at `i` is set
    have htest : (bm.buf.getD (i / 32) 0) &&& (1 <<< (i % BITSIZEOF_u32)) ≠ 0 := by
      rw [and_one_shl_ne_zero]; exact hbit
    simp only [hbit, if_true, htest, ne_eq, not_false_eq_true]
    refine ⟨by omega, fun _ => ?_, fun h0 => by omega⟩
    by_cases hc : Nat.count (fun v => bit_set bm v = true) i = 0
    · obtain ⟨hf, hl⟩ := hzero hc
      have hnone := (count_bits_zero_iff bm i).mp hc
      have e1 : (if i < bm.first_value then i else bm.first_value) = i := by
        rw [hf]; simp [hi]
      have e2 : (if i > bm.last_value then i else bm.last_value) = i := by
        rw [hl]; split_ifs <;> omega
      simp only [e1, e2]
      refine ⟨by omega, hbit, by omega, hbit, ?_⟩
      intro v hv hvb
      rcases Nat.lt_succ_iff_lt_or_eq.mp hv with hlt | heq
      · rw [hnone v hlt] at hvb; cases hvb
      · omega
    · obtain ⟨hf, hfb, hl, hlb, hall⟩ := hpos (Nat.pos_of_ne_zero hc)
      have e1 : (if i < bm.first_value then i else bm.first_value) = bm.first_value := by
        split_ifs <;> omega
      have e2 : (if i > bm.last_value then i else bm.last_value) = i := by
        split_ifs <;> omega
      simp only [e1, e2]
      refine ⟨by omega, hfb, by omega, hbit, ?_⟩
      intro v hv hvb
      rcases Nat.lt_succ_iff_lt_or_eq.mp hv with hlt | heq
      · have := hall v hlt hvb; omega
      · omega
  · have hbit' : bit_set bm i = false := by simpa using hbit
    have htest : ¬ ((bm.buf.getD (i / 32) 0) &&& (1 <<< (i % BITSIZEOF_u32)) ≠ 0) := by
      rw [and_one_shl_ne_zero]; exact hbit
    simp only [htest, if_false, hbit', Bool.false_eq_true, add_zero]
    refine ⟨hn, fun hp => ?_, hzero⟩
    obtain ⟨hf, hfb, hl, hlb, hall⟩ := hpos hp
    refine ⟨by omega, hfb, by omega, hlb, ?_⟩
    intro v hv hvb
    rcases Nat.lt_succ_iff_lt_or_eq.mp hv with hlt | heq
    · exact hall v hlt hvb
    · subst heq; rw [hbit'] at hvb; cases hvb

theorem update_info_loop_spec : ∀ (fuel i : Nat) (bm : Bitmap),
    i ≤ bm.max_value → bm.max_value ≤ 65535 → bm.max_value ≤ bm.buf.length * 32 →
    bm.max_value - i < fuel → StatsUpTo bm i →
    ∃ bm1, update_info_loop fuel i bm = .ok bm1 ∧ StatsUpTo bm1 bm.max_value ∧ SameFrame bm1 bm := by
  intro fuel
  induction fuel with
  | zero => intro i bm _ _ _ h; omega
  | succ fuel ih =>
    intro i bm hi hmax hlen hfuel hst
    unfold update_info_loop
    by_cases hlt : i < bm.max_value
    · have hidx : i / BITSIZEOF_u32 < bm.buf.length := by
        unfold BITSIZEOF_u32; omega
      simp only [hlt, if_true, rd_of_lt hidx]
      have hwrap : (i + 1) % 65536 = i + 1 := by omega
      rw [hwrap]
      have hfr := update_info_step_frame bm i (bm.buf.getD (i / BITSIZEOF_u32) 0)
      obtain ⟨bm1, h1, h2, h3⟩ := ih (i + 1) (update_info_step bm i (bm.buf.getD (i / BITSIZEOF_u32) 0))
        (by rw [hfr.2.1]; omega) (by rw [hfr.2.1]; omega) (by rw [hfr.2.1, hfr.2.2.2]; exact hlen)
        (by rw [hfr.2.1]; omega) (update_info_step_spec bm i (by omega) hst)
      refine ⟨bm1, h1, ?_, ?_⟩
      · rw [hfr.2.1] at h2; exact h2
      · exact ⟨h3.1.trans hfr.1, h3.2.1.trans hfr.2.1, h3.2.2.1.trans hfr.2.2.1, h3.2.2.2.trans hfr.2.2.2⟩
    · have : i = bm.max_value := by omega
      simp only [hlt, if_false]
      exact ⟨bm, rfl, this ▸ hst, rfl, rfl, rfl, rfl⟩

theorem update_info_spec (bm : Bitmap) (hmax : bm.max_value ≤ 65535)
    (hlen : bm.max_value ≤ bm.buf.length * 32) :
    ∃ bm1, update_info bm = .ok bm1 ∧ StatsOK bm1 ∧ SameFrame bm1 bm := by
  unfold update_info
  obtain ⟨bm1, h1, h2, h3⟩ := update_info_loop_spec 65536 0
    { bm with first_value := UINT16_MAX, last_value := 0, numbers := 0 }
    (Nat.zero_le _) hmax hlen (by simp only; omega)
    (by unfold StatsUpTo; simp [UINT16_MAX])
  refine ⟨bm1, h1, ?_, h3⟩
  have hm : bm1.max_value = bm.max_value := h3.2.1
  unfold StatsOK count_set
  rw [hm]
  exact h2
theorem stats_unique {a b : Bitmap} (ha : StatsOK a) (hb : StatsOK b) (h : SameFrame a b) :
    a = b := by
  obtain ⟨h1, h2, h3, h4⟩ := h
  have hbit : ∀ v, bit_set a v = bit_set b v := fun v => bit_set_congr h4 v
  have hc : count_set a = count_set b := by
    unfold count_set; rw [h2]; exact count_congr_buf h4 _
  obtain ⟨an, ap, az⟩ := ha
  obtain ⟨bn, bp, bz⟩ := hb
  have hnum : a.numbers = b.numbers := by rw [an, bn, hc]
  have hfl : a.first_value = b.first_value ∧ a.last_value = b.last_value := by
    by_cases h0 : count_set a = 0
    · have := az h0
      have := bz (hc ▸ h0)
      omega
    · obtain ⟨af, afb, al, alb, aall⟩ := ap (Nat.pos_of_ne_zero h0)
      obtain ⟨bf, bfb, bl, blb, ball⟩ := bp (hc ▸ Nat.pos_of_ne_zero h0)
      have := aall b.first_value (h2 ▸ bf) (by rw [hbit]; exact bfb)
      have := aall b.last_value (h2 ▸ bl) (by rw [hbit]; exact blb)
      have := ball a.first_value (h2 ▸ af) (by rw [← hbit]; exact afb)
      have := ball a.last_value (h2 ▸ al) (by rw [← hbit]; exact alb)
      omega
  cases a; cases b
  simp only [Bitmap.mk.injEq]
  simp only at h1 h2 h3 h4 hnum hfl
  exact ⟨h1, h2, hfl.1, hfl.2, hnum, h3, h4⟩

theorem bit_set_of_set {a b : Bitmap} {idx w : Nat} (h : b.buf = a.buf.set idx w)
    (hidx : idx < a.buf.length) (u : Nat) :
    bit_set b u = if u / 32 = idx then w.testBit (u % 32) else bit_set a u := by
  unfold bit_set
  rw [h, List.getD_eq_getElem?_getD, List.getD_eq_getElem?_getD, List.getElem?_set]
  by_cases hu : u / 32 = idx
  · simp [hu, hidx]
  · have : ¬ idx = u / 32 := fun e => hu e.symm
    simp [hu, this]

theorem count_succ_of_flip {p q : Nat → Prop} [DecidablePred p] [DecidablePred q] {v : Nat}
    (hq : q v) (hp : ¬ p v) (hother : ∀ u, u ≠ v → (q u ↔ p u)) :
    ∀ n, Nat.count q n = Nat.count p n + if v < n then 1 else 0 := by
  intro n
  induction n with
  | zero => simp
  | succ n ih =>
    rw [Nat.count_succ, Nat.count_succ, ih]
    by_cases hvn : v = n
    · subst hvn
      simp [hq, hp]
    · have := hother n (fun e => hvn e.symm)
      by_cases hpn : p n
      · have hqn : q n := this.mpr hpn
        simp only [hpn, hqn, if_true]
        split_ifs <;> omega
      · have hqn : ¬ q n := fun h => hpn (this.mp h)
        simp only [hpn, hqn, if_false]
        split_ifs <;> omega

theorem count_lt_of_not {p : Nat → Prop} [DecidablePred p] {v n : Nat} (hv : v < n) (hp : ¬ p v) :
    Nat.count p n < n := by
  rcases Nat.lt_or_eq_of_le (Nat.count_le p (n := n)) with h | h
  · exact h
  · exact absurd ((Nat.count_iff_forall.mp h) v hv) hp

/-- The bounds that `bitmap_check` gives on a bitmap whose `buf` has `buf_len` words. -/
theorem check_bounds {bm : Bitmap} (hc : bitmap_check bm = true) :
    bm.bm_self = true ∧ 0 < bm.max_value ∧ 0 < bm.buf_len ∧ bm.numbers ≤ bm.max_value ∧
      bm.max_value ≤ bm.buf_len * 32 := by
  unfold bitmap_check BITSIZEOF_u32 at hc
  split_ifs at hc with h1 h2 h3 h4
  simp only [ne_eq, Bool.not_eq_true] at h1
  refine ⟨by simpa using h1, by omega, by omega, by omega, by omega⟩
theorem valid_len {bm : Bitmap} (h : Valid bm) : bm.max_value ≤ bm.buf.length * 32 := by
  have := check_bounds h.2
  rw [h.1.1]; exact this.2.2.2.2

theorem valid_max {bm : Bitmap} (h : Valid bm) : bm.max_value ≤ 65535 := by
  have := h.1.2.2.1; omega

theorem valid_idx {bm : Bitmap} (h : Valid bm) {v : Nat} (hv : v < bm.max_value) :
    v / 32 < bm.buf.length := by
  have := valid_len h; omega

theorem wellFormed_of_set {a b : Bitmap} {idx w : Nat} (ha : WellFormed a)
    (hbuf : b.buf = a.buf.set idx w) (hw : w < 4294967296)
    (hmax : b.max_value = a.max_value) (hlen : b.buf_len = a.buf_len)
    (hf : b.first_value < 65536) (hl : b.last_value < 65536) (hn : b.numbers < 65536) :
    WellFormed b := by
  obtain ⟨h1, h2, h3, _, _, _, h7⟩ := ha
  refine ⟨by rw [hbuf, List.length_set, hlen, h1], by rw [hlen, hmax, h2], by rw [hmax]; exact h3,
    hf, hl, hn, ?_⟩
  intro x hx
  rw [hbuf] at hx
  rcases List.mem_or_eq_of_mem_set hx with h | h
  · exact h7 x h
  · rw [h]; exact hw

theorem word_lt {bm : Bitmap} (h : WellFormed bm) (i : Nat) : bm.buf.getD i 0 < 4294967296 := by
  rw [List.getD_eq_getElem?_getD]
  by_cases hi : i < bm.buf.length
  · rw [List.getElem?_eq_getElem hi]
    exact h.2.2.2.2.2.2 _ (List.getElem_mem hi)
  · rw [List.getElem?_eq_none (by omega)]; simp

theorem test_iff_bit_set (bm : Bitmap) (v : Nat) :
    bm.buf.getD (v / 32) 0 &&& 1 <<< (v % 32) ≠ 0 ↔ bit_set bm v = true :=
  and_one_shl_ne_zero _ _

theorem add_existing {bm : Bitmap} {value : Nat} (hv : Valid bm) (hlt : value < bm.max_value)
    (hbit : bit_set bm value = true) : bitmap_add_value bm value = .ok (true, bm) := by
  unfold bitmap_add_value
  have htest : (bm.buf.getD (value / 32) 0) &&& (1 <<< (value % 32)) ≠ 0 :=
    (test_iff_bit_set bm value).mpr hbit
  simp only [hv.2, Bool.not_true, Bool.false_eq_true, ge_iff_le, false_or, not_le.mpr hlt,
    if_false, BITSIZEOF_u32, rd_of_lt (valid_idx hv hlt)]
  rw [if_pos htest]

theorem add_new_raw {bm : Bitmap} {value : Nat} (hv : Valid bm)
    (hlt : value < bm.max_value) (hbit : bit_set bm value = false) :
    ∃ bm1, bitmap_add_value bm value = .ok (true, bm1) ∧
      bm1.buf = bm.buf.set (value / 32) (bm.buf.getD (value / 32) 0 ||| 1 <<< (value % 32)) ∧
      bm1.first_value = (if value < bm.first_value then value else bm.first_value) ∧
      bm1.last_value = (if value > bm.last_value then value else bm.last_value) ∧
      bm1.numbers = (bm.numbers + 1) % 65536 ∧
      bm1.max_value = bm.max_value ∧ bm1.buf_len = bm.buf_len ∧ bm1.bm_self = bm.bm_self := by
  have hidx := valid_idx hv hlt
  have htest : ¬ ((bm.buf.getD (value / 32) 0) &&& (1 <<< (value % 32)) ≠ 0) := by
    rw [test_iff_bit_set, hbit]; simp
  refine ⟨{ bm with
      buf := bm.buf.set (value / 32) (bm.buf.getD (value / 32) 0 ||| 1 <<< (value % 32))
      first_value := if value < bm.first_value then value else bm.first_value
      last_value := if value > bm.last_value then value else bm.last_value
      numbers := (bm.numbers + 1) % 65536 }, ?_, rfl, rfl, rfl, rfl, rfl, rfl, rfl⟩
  unfold bitmap_add_value
  simp only [hv.2, Bool.not_true, Bool.false_eq_true, ge_iff_le, false_or, not_le.mpr hlt,
    if_false, BITSIZEOF_u32, rd_of_lt hidx, htest, wr_of_lt _ hidx]

theorem add_new {bm : Bitmap} {value : Nat} (hv : Valid bm) (hs : StatsOK bm)
    (hlt : value < bm.max_value) (hbit : bit_set bm value = false) :
    ∃ bm1, bitmap_add_value bm value = .ok (true, bm1) ∧
      (∀ u, bit_set bm1 u = (decide (u = value) || bit_set bm u)) ∧
      bm1.numbers = bm.numbers + 1 ∧
      bm1.first_value = min bm.first_value value ∧
      bm1.last_value = max bm.last_value value ∧
      bm1.max_value = bm.max_value ∧ bm1.buf_len = bm.buf_len ∧
      Valid bm1 ∧ StatsOK bm1 := by
  obtain ⟨bm1, hrun, hbuf, hfirst, hlast, hnumber, hmv, hbl, hself⟩ := add_new_raw hv hlt hbit
  have hidx := valid_idx hv hlt
  have hbits : ∀ u, bit_set bm1 u = (decide (u = value) || bit_set bm u) := by
    intro u
    rw [bit_set_of_set hbuf hidx]
    by_cases hu : u / 32 = value / 32
    · simp only [hu, if_true, Nat.testBit_or, Nat.one_shiftLeft, Nat.testBit_two_pow]
      unfold bit_set
      rw [hu, Bool.or_comm]
      congr 1
      by_cases h2 : u = value
      · simp [h2]
      · have : ¬ value % 32 = u % 32 := by omega
        simp [h2, this]
    · have : u ≠ value := fun e => hu (by rw [e])
      simp [hu, this]
  obtain ⟨hn, hpos, hzero⟩ := hs
  have hcnt : count_set bm < bm.max_value := by
    unfold count_set
    exact count_lt_of_not hlt (by simp [hbit])
  have hmax := valid_max hv
  have hnum : (bm.numbers + 1) % 65536 = bm.numbers + 1 := by omega
  have hb := check_bounds hv.2
  have hf := hv.1.2.2.2.1
  have hl := hv.1.2.2.2.2.1
  refine ⟨bm1, hrun, hbits, by omega, ?_, ?_, hmv, hbl, ?_, ?_⟩
  · rw [hfirst]; simp only [min_def]; split_ifs <;> omega
  · rw [hlast]; simp only [max_def]; split_ifs <;> omega
  · have hw : bm.buf.getD (value / 32) 0 ||| 1 <<< (value % 32) < 4294967296 := by
      have h1 := word_lt hv.1 (value / 32)
      have h2 : 1 <<< (value % 32) < 2 ^ 32 := by
        rw [Nat.one_shiftLeft]
        exact Nat.pow_lt_pow_right (by norm_num) (Nat.mod_lt _ (by norm_num))
      exact Nat.or_lt_two_pow (n := 32) h1 h2
    refine ⟨wellFormed_of_set hv.1 hbuf hw hmv hbl ?_ ?_ ?_, ?_⟩
    · rw [hfirst]; split_ifs <;> omega
    · rw [hlast]; split_ifs <;> omega
    · omega
    · unfold bitmap_check
      simp only [hself, hb.1, BITSIZEOF_u32, hmv, hbl, hnumber]
      rw [if_neg (by simp), if_neg (by omega), if_neg (by omega), if_neg (by omega)]
  · have hc : count_set bm1 = count_set bm + 1 := by
      unfold count_set
      rw [hmv, count_succ_of_flip (p := fun v => bit_set bm v = true) (v := value)
        (by simp [hbits]) (by simp [hbit]) (fun u hu => by simp [hbits, hu]), if_pos hlt]
    unfold StatsOK
    rw [hc, hmv]
    simp only [hbits]
    refine ⟨by omega, fun _ => ?_, fun h => by omega⟩
    by_cases h0 : count_set bm = 0
    · obtain ⟨hf, hl⟩ := hzero h0
      have hnone := (count_bits_zero_iff bm bm.max_value).mp h0
      have e1 : bm1.first_value = value := by
        rw [hfirst]; split_ifs <;> omega
      have e2 : bm1.last_value = value := by
        rw [hlast]; split_ifs <;> omega
      simp only [e1, e2]
      refine ⟨hlt, by simp, hlt, by simp, ?_⟩
      intro v hvm hvb
      by_cases hvv : v = value
      · omega
      · simp [hvv, hnone v hvm] at hvb
    · obtain ⟨hf, hfb, hl, hlb, hall⟩ := hpos (Nat.pos_of_ne_zero h0)
      refine ⟨by rw [hfirst]; split_ifs <;> omega, by rw [hfirst]; split_ifs <;> simp [hfb],
        by rw [hlast]; split_ifs <;> omega, by rw [hlast]; split_ifs <;> simp [hlb], ?_⟩
      intro v hvm hvb
      by_cases hvv : v = value
      · subst hvv; rw [hfirst, hlast]; split_ifs <;> omega
      · simp only [hvv, decide_False, Bool.false_or] at hvb
        have := hall v hvm hvb
        rw [hfirst, hlast]; split_ifs <;> omega
theorem valid_of_stats {a b : Bitmap} (ha : Valid a) (hs : StatsOK b) (hf : SameFrame b a) :
    Valid b := by
  obtain ⟨h1, h2, h3, h4⟩ := hf
  obtain ⟨⟨w1, w2, w3, _, _, _, w7⟩, hc⟩ := ha
  have hb := check_bounds hc
  obtain ⟨sn, sp, sz⟩ := hs
  have hcle : count_set b ≤ b.max_value := Nat.count_le _
  have hfl : b.first_value < 65536 ∧ b.last_value < 65536 := by
    by_cases h0 : count_set b = 0
    · have := sz h0; omega
    · have := sp (Nat.pos_of_ne_zero h0); omega
  refine ⟨⟨by rw [h4, h3, w1], by rw [h3, h2, w2], by omega, hfl.1, hfl.2, by omega,
    by rw [h4]; exact w7⟩, ?_⟩
  unfold bitmap_check
  simp only [h1, hb.1, BITSIZEOF_u32, h2, h3]
  rw [if_neg (by simp), if_neg (by omega), if_neg (by omega), if_neg (by omega)]

theorem valid_of_set {bm : Bitmap} (hv : Valid bm) (idx w : Nat) (hw : w < 4294967296) :
    Valid { bm with buf := bm.buf.set idx w } := by
  refine ⟨wellFormed_of_set hv.1 rfl hw rfl rfl hv.1.2.2.2.1 hv.1.2.2.2.2.1 hv.1.2.2.2.2.2.1, ?_⟩
  have := hv.2
  unfold bitmap_check at this ⊢
  exact this

theorem not_u32_lt {w : Nat} (hw : w < 4294967296) : not_u32 w < 4294967296 := by
  unfold not_u32
  exact Nat.xor_lt_two_pow (n := 32) hw (by norm_num)

theorem testBit_not_u32 (w j : Nat) (hj : j < 32) : (not_u32 w).testBit j = !w.testBit j := by
  unfold not_u32
  rw [Nat.testBit_xor, show (4294967295 : Nat) = 2 ^ 32 - 1 by norm_num,
    Nat.testBit_two_pow_sub_one]
  simp [hj]

theorem del_absent {bm : Bitmap} {value : Nat} (hv : Valid bm) (hlt : value < bm.max_value)
    (hbit : bit_set bm value = false) : bitmap_del_value bm value = .ok (true, bm) := by
  unfold bitmap_del_value
  have htest : (bm.buf.getD (value / 32) 0) &&& (1 <<< (value % 32)) = 0 :=
    (and_one_shl_eq_zero _ _).mpr hbit
  simp only [hv.2, Bool.not_true, Bool.false_eq_true, ge_iff_le, false_or, not_le.mpr hlt,
    if_false, BITSIZEOF_u32, rd_of_lt (valid_idx hv hlt)]
  rw [if_pos htest]

theorem del_present {bm : Bitmap} {value : Nat} (hv : Valid bm)
    (hlt : value < bm.max_value) (hbit : bit_set bm value = true) :
    ∃ bm1, bitmap_del_value bm value = .ok (true, bm1) ∧
      (∀ u, bit_set bm1 u = (!decide (u = value) && bit_set bm u)) ∧
      bm1.buf = bm.buf.set (value / 32)
        (bm.buf.getD (value / 32) 0 &&& not_u32 (1 <<< (value % 32))) ∧
      bm1.max_value = bm.max_value ∧ bm1.buf_len = bm.buf_len ∧
      count_set bm = count_set bm1 + 1 ∧
      Valid bm1 ∧ StatsOK bm1 := by
  have hidx := valid_idx hv hlt
  have htest : ¬ (bm.buf.getD (value / 32) 0) &&& (1 <<< (value % 32)) = 0 := by
    intro h
    have h2 := (and_one_shl_eq_zero _ _).mp h
    unfold bit_set at hbit
    rw [hbit] at h2
    cases h2
  have hw : bm.buf.getD (value / 32) 0 &&& not_u32 (1 <<< (value % 32)) < 4294967296 :=
    lt_of_le_of_lt Nat.and_le_left (word_lt hv.1 _)
  have hv1 := valid_of_set hv (value / 32) _ hw
  obtain ⟨bm1, hrun, hst, hfr⟩ := update_info_spec
    { bm with buf := (bm.buf.set (value / 32)
        (bm.buf.getD (value / 32) 0 &&& not_u32 (1 <<< (value % 32)))) }
    (valid_max hv1) (valid_len hv1)
  have hbits : ∀ u, bit_set bm1 u = (!decide (u = value) && bit_set bm u) := by
    intro u
    rw [bit_set_of_set (a := bm) hfr.2.2.2 hidx]
    by_cases hu : u / 32 = value / 32
    · simp only [hu, if_true, Nat.testBit_and, Nat.one_shiftLeft]
      rw [← Nat.one_shiftLeft, testBit_not_u32 _ _ (Nat.mod_lt _ (by norm_num)),
        Nat.one_shiftLeft, Nat.testBit_two_pow]
      unfold bit_set
      rw [hu, Bool.and_comm]
      congr 1
      by_cases h2 : u = value
      · simp [h2]
      · have : ¬ value % 32 = u % 32 := by omega
        simp [h2, this]
    · have : u ≠ value := fun e => hu (by rw [e])
      simp [hu, this]
  refine ⟨bm1, ?_, hbits, hfr.2.2.2, hfr.2.1, hfr.2.2.1, ?_, valid_of_stats hv1 hst hfr, hst⟩
  · unfold bitmap_del_value
    simp only [hv.2, Bool.not_true, Bool.false_eq_true, ge_iff_le, false_or, not_le.mpr hlt,
      if_false, BITSIZEOF_u32, rd_of_lt hidx, htest, wr_of_lt _ hidx, hrun]
  · unfold count_set
    rw [hfr.2.1]
    simp only
    rw [count_succ_of_flip (q := fun v => bit_set bm v = true)
      (p := fun v => bit_set bm1 v = true) (v := value)
      hbit (by simp [hbits]) (fun u hu => by simp [hbits, hu]), if_pos hlt]
theorem getD_set_word (l : List Nat) (i j w : Nat) (hi : i < l.length) :
    (l.set i w).getD j 0 = if j = i then w else l.getD j 0 := by
  rw [List.getD_eq_getElem?_getD, List.getD_eq_getElem?_getD, List.getElem?_set]
  by_cases h : j = i
  · subst h; simp [hi]
  · have : ¬ i = j := fun e => h e.symm
    simp [h, this]

theorem not_loop_spec : ∀ (fuel i : Nat) (bm : Bitmap),
    bm.max_value / 32 < bm.buf.length → bm.max_value < 65536 → i ≤ bm.max_value / 32 + 1 →
    bm.max_value / 32 + 1 - i < fuel →
    ∃ bm1, bitmap_not_loop fuel i bm = .ok bm1 ∧ SameShape bm1 bm ∧
      ∀ j, bm1.buf.getD j 0 =
        if i ≤ j ∧ j ≤ bm.max_value / 32 then not_u32 (bm.buf.getD j 0) else bm.buf.getD j 0 := by
  intro fuel
  induction fuel with
  | zero => intro i bm _ _ _ h; omega
  | succ fuel ih =>
    intro i bm hK hmax hi hfuel
    unfold bitmap_not_loop
    simp only [BITSIZEOF_u32]
    by_cases hle : i ≤ bm.max_value / 32
    · have hidx : i < bm.buf.length := by omega
      simp only [hle, if_true, rd_of_lt hidx, wr_of_lt _ hidx]
      have hwrap : (i + 1) % 4294967296 = i + 1 := by omega
      rw [hwrap]
      obtain ⟨bm1, h1, h2, h3⟩ := ih (i + 1)
        { bm with buf := bm.buf.set i (not_u32 (bm.buf.getD i 0)) }
        (by simp only [List.length_set]; exact hK) hmax (by simp only; omega) (by simp only; omega)
      refine ⟨bm1, h1, ?_, ?_⟩
      · obtain ⟨a, b, c, d⟩ := h2
        exact ⟨a, b, c, by rw [d]; simp⟩
      · intro j
        rw [h3 j]
        simp only [getD_set_word _ _ _ _ hidx]
        by_cases hj : j = i
        · subst hj
          have : ¬ (j + 1 ≤ j ∧ j ≤ bm.max_value / 32) := by omega
          simp [this, hle]
        · by_cases hc : i + 1 ≤ j ∧ j ≤ bm.max_value / 32
          · have : i ≤ j ∧ j ≤ bm.max_value / 32 := by omega
            simp [hc, this, hj]
          · have : ¬ (i ≤ j ∧ j ≤ bm.max_value / 32) := by omega
            simp [hc, this, hj]
    · simp only [hle, if_false]
      refine ⟨bm, rfl, ⟨rfl, rfl, rfl, rfl⟩, ?_⟩
      intro j
      have : ¬ (i ≤ j ∧ j ≤ bm.max_value / 32) := by omega
      simp [this]

theorem mask_last_spec (bm : Bitmap) (hK : bm.max_value / 32 < bm.buf.length) :
    ∃ bm1, mask_last bm = .ok bm1 ∧ SameShape bm1 bm ∧
      ∀ j, bm1.buf.getD j 0 =
        if j = bm.max_value / 32 then bm.buf.getD j 0 &&& (2 ^ (bm.max_value % 32) - 1)
        else bm.buf.getD j 0 := by
  refine ⟨{ bm with buf := (bm.buf.set (bm.max_value / 32)
      (bm.buf.getD (bm.max_value / 32) 0 &&& (2 ^ (bm.max_value % 32) - 1))) }, ?_,
    ⟨rfl, rfl, rfl, by simp⟩, ?_⟩
  · unfold mask_last
    simp only [BITSIZEOF_u32, rd_of_lt hK, wr_of_lt _ hK, Nat.one_shiftLeft]
  · intro j
    simp only [getD_set_word _ _ _ _ hK]
    by_cases hj : j = bm.max_value / 32
    · subst hj; simp
    · simp [hj]

theorem words_of_getD {l : List Nat} {B : Nat} (h : ∀ j, l.getD j 0 < B) : ∀ w ∈ l, w < B := by
  intro w hw
  obtain ⟨j, hj, rfl⟩ := List.getElem_of_mem hw
  have := h j
  rwa [List.getD_eq_getElem?_getD, List.getElem?_eq_getElem hj] at this

theorem sameShape_trans {a b c : Bitmap} (h1 : SameShape a b) (h2 : SameShape b c) :
    SameShape a c :=
  ⟨h1.1.trans h2.1, h1.2.1.trans h2.2.1, h1.2.2.1.trans h2.2.2.1, h1.2.2.2.trans h2.2.2.2⟩

theorem sameShape_of_frame {a b : Bitmap} (h : SameFrame a b) : SameShape a b :=
  ⟨h.1, h.2.1, h.2.2.1, by rw [h.2.2.2]⟩

theorem valid_of_shape {a b : Bitmap} (ha : Valid a) (hsh : SameShape b a)
    (hw : ∀ j, b.buf.getD j 0 < 4294967296) (hs : StatsOK b) : Valid b := by
  obtain ⟨h1, h2, h3, h4⟩ := hsh
  obtain ⟨⟨w1, w2, w3, _, _, _, w7⟩, hc⟩ := ha
  have hb := check_bounds hc
  obtain ⟨sn, sp, sz⟩ := hs
  have hcle : count_set b ≤ b.max_value := Nat.count_le _
  have hfl : b.first_value < 65536 ∧ b.last_value < 65536 := by
    by_cases h0 : count_set b = 0
    · have := sz h0; omega
    · have := sp (Nat.pos_of_ne_zero h0); omega
  refine ⟨⟨by rw [h4, h3, w1], by rw [h3, h2, w2], by omega, hfl.1, hfl.2, by omega,
    words_of_getD hw⟩, ?_⟩
  unfold bitmap_check
  simp only [h1, hb.1, BITSIZEOF_u32, h2, h3]
  rw [if_neg (by simp), if_neg (by omega), if_neg (by omega), if_neg (by omega)]

theorem last_word_idx {bm : Bitmap} (hv : Valid bm) (hm : bm.max_value % 32 ≠ 0) :
    bm.buf.length = bm.max_value / 32 + 1 := by
  have h1 := hv.1.1
  have h2 := hv.1.2.1
  omega

theorem and_mask_lt {w : Nat} (n : Nat) (hw : w < 4294967296) : w &&& (2 ^ n - 1) < 4294967296 :=
  lt_of_le_of_lt Nat.and_le_left hw

theorem bit_set_eq_false_of_ge (bm : Bitmap) {u : Nat} (hu : bm.buf.length * 32 ≤ u) :
    bit_set bm u = false := by
  unfold bit_set
  rw [List.getD_eq_getElem?_getD, List.getElem?_eq_none (by omega)]
  simp

theorem not_spec {bm : Bitmap} (hv : Valid bm) (hm : bm.max_value % 32 ≠ 0) :
    ∃ bm1, bitmap_not bm = .ok (true, bm1) ∧
      (∀ u, bit_set bm1 u = (decide (u < bm.max_value) && !bit_set bm u)) ∧
      SameShape bm1 bm ∧ Valid bm1 ∧ StatsOK bm1 := by
  have hlen := last_word_idx hv hm
  have hK : bm.max_value / 32 < bm.buf.length := by omega
  have hmax := valid_max hv
  obtain ⟨ba, ha, hsa, hwa⟩ := not_loop_spec 65536 0 bm hK (by omega) (by omega) (by omega)
  have hKa : ba.max_value / 32 < ba.buf.length := by rw [hsa.2.1, hsa.2.2.2]; exact hK
  obtain ⟨bb, hb, hsb, hwb⟩ := mask_last_spec ba hKa
  have hsb' := sameShape_trans hsb hsa
  obtain ⟨bc, hc, hst, hfr⟩ := update_info_spec bb (by rw [hsb'.2.1]; exact hmax)
    (by rw [hsb'.2.1, hsb'.2.2.2]; exact valid_len hv)
  have hsc := sameShape_trans (sameShape_of_frame hfr) hsb'
  have hword : ∀ j, bc.buf.getD j 0 =
      if j < bm.max_value / 32 then not_u32 (bm.buf.getD j 0)
      else if j = bm.max_value / 32 then
        not_u32 (bm.buf.getD j 0) &&& (2 ^ (bm.max_value % 32) - 1)
      else bm.buf.getD j 0 := by
    intro j
    rw [hfr.2.2.2, hwb j, hsa.2.1, hwa j]
    by_cases h1 : j < bm.max_value / 32
    · have h2 : j ≠ bm.max_value / 32 := by omega
      have h3 : 0 ≤ j ∧ j ≤ bm.max_value / 32 := by omega
      rw [if_neg h2, if_pos h3, if_pos h1]
    · by_cases h2 : j = bm.max_value / 32
      · have h3 : 0 ≤ j ∧ j ≤ bm.max_value / 32 := by omega
        rw [if_pos h2, if_pos h3, if_neg h1, if_pos h2]
      · have h3 : ¬ (0 ≤ j ∧ j ≤ bm.max_value / 32) := by omega
        rw [if_neg h2, if_neg h3, if_neg h1, if_neg h2]
  have hwlt : ∀ j, bc.buf.getD j 0 < 4294967296 := by
    intro j
    rw [hword j]
    have := word_lt hv.1 j
    split_ifs
    · exact not_u32_lt this
    · exact and_mask_lt _ (not_u32_lt this)
    · exact this
  refine ⟨bc, ?_, ?_, hsc, valid_of_shape hv hsc hwlt hst, hst⟩
  · unfold bitmap_not
    simp only [hv.2, Bool.not_true, Bool.false_eq_true, if_false, ha, hb, hc]
  · intro u
    by_cases hu : u < bm.buf.length * 32
    · have hmod : u % 32 < 32 := Nat.mod_lt _ (by norm_num)
      unfold bit_set
      rw [hword (u / 32)]
      by_cases h1 : u / 32 < bm.max_value / 32
      · have : u < bm.max_value := by omega
        simp [h1, this, testBit_not_u32 _ _ hmod]
      · have h2 : u / 32 = bm.max_value / 32 := by omega
        rw [h2, if_neg (lt_irrefl _), if_pos rfl, Nat.testBit_and, Nat.testBit_two_pow_sub_one,
          testBit_not_u32 _ _ hmod, Bool.and_comm]
        congr 1
        simp only [decide_eq_decide]
        omega
    · rw [bit_set_eq_false_of_ge bm (by omega),
        bit_set_eq_false_of_ge bc (by rw [hsc.2.2.2]; omega)]
      have : ¬ u < bm.max_value := by have := valid_len hv; omega
      simp [this]
theorem or_loop_spec (m : Nat) (src : Bitmap) : ∀ (fuel i : Nat) (dst : Bitmap),
    m ≤ dst.buf.length → m ≤ src.buf.length → m < 65536 → i ≤ m → m - i < fuel →
    ∃ bm1, bitmap_or_loop m src fuel i dst = .ok bm1 ∧ SameShape bm1 dst ∧
      ∀ j, bm1.buf.getD j 0 =
        if i ≤ j ∧ j < m then dst.buf.getD j 0 ||| src.buf.getD j 0 else dst.buf.getD j 0 := by
  intro fuel
  induction fuel with
  | zero => intro i dst _ _ _ _ h; omega
  | succ fuel ih =>
    intro i dst hd hs hm hi hfuel
    unfold bitmap_or_loop
    by_cases hlt : i < m
    · have hidx : i < dst.buf.length := by omega
      have hidx2 : i < src.buf.length := by omega
      simp only [hlt, if_true, rd_of_lt hidx, rd_of_lt hidx2, wr_of_lt _ hidx]
      have hwrap : (i + 1) % 65536 = i + 1 := by omega
      rw [hwrap]
      obtain ⟨bm1, h1, h2, h3⟩ := ih (i + 1)
        { dst with buf := dst.buf.set i (dst.buf.getD i 0 ||| src.buf.getD i 0) }
        (by simp only [List.length_set]; exact hd) hs hm (by omega) (by omega)
      refine ⟨bm1, h1, ?_, ?_⟩
      · obtain ⟨a, b, c, d⟩ := h2
        exact ⟨a, b, c, by rw [d]; simp⟩
      · intro j
        rw [h3 j]
        simp only [getD_set_word _ _ _ _ hidx]
        by_cases hj : j = i
        · subst hj
          have h4 : ¬ (j + 1 ≤ j ∧ j < m) := by omega
          have h5 : j ≤ j ∧ j < m := by omega
          rw [if_neg h4, if_pos rfl, if_pos h5]
        · by_cases hc : i + 1 ≤ j ∧ j < m
          · have h5 : i ≤ j ∧ j < m := by omega
            rw [if_pos hc, if_neg hj, if_pos h5]
          · have h5 : ¬ (i ≤ j ∧ j < m) := by omega
            rw [if_neg hc, if_neg hj, if_neg h5]
    · simp only [hlt, if_false]
      refine ⟨dst, rfl, ⟨rfl, rfl, rfl, rfl⟩, ?_⟩
      intro j
      have : ¬ (i ≤ j ∧ j < m) := by omega
      rw [if_neg this]

theorem and_loop_spec (m : Nat) (src : Bitmap) : ∀ (fuel i : Nat) (dst : Bitmap),
    m ≤ dst.buf.length → m ≤ src.buf.length → m < 65536 → i ≤ m → m - i < fuel →
    ∃ bm1, bitmap_and_loop m src fuel i dst = .ok (m, bm1) ∧ SameShape bm1 dst ∧
      ∀ j, bm1.buf.getD j 0 =
        if i ≤ j ∧ j < m then dst.buf.getD j 0 &&& src.buf.getD j 0 else dst.buf.getD j 0 := by
  intro fuel
  induction fuel with
  | zero => intro i dst _ _ _ _ h; omega
  | succ fuel ih =>
    intro i dst hd hs hm hi hfuel
    unfold bitmap_and_loop
    by_cases hlt : i < m
    · have hidx : i < dst.buf.length := by omega
      have hidx2 : i < src.buf.length := by omega
      simp only [hlt, if_true, rd_of_lt hidx, rd_of_lt hidx2, wr_of_lt _ hidx]
      have hwrap : (i + 1) % 65536 = i + 1 := by omega
      rw [hwrap]
      obtain ⟨bm1, h1, h2, h3⟩ := ih (i + 1)
        { dst with buf := dst.buf.set i (dst.buf.getD i 0 &&& src.buf.getD i 0) }
        (by simp only [List.length_set]; exact hd) hs hm (by omega) (by omega)
      refine ⟨bm1, h1, ?_, ?_⟩
      · obtain ⟨a, b, c, d⟩ := h2
        exact ⟨a, b, c, by rw [d]; simp⟩
      · intro j
        rw [h3 j]
        simp only [getD_set_word _ _ _ _ hidx]
        by_cases hj : j = i
        · subst hj
          have h4 : ¬ (j + 1 ≤ j ∧ j < m) := by omega
          have h5 : j ≤ j ∧ j < m := by omega
          rw [if_neg h4, if_pos rfl, if_pos h5]
        · by_cases hc : i + 1 ≤ j ∧ j < m
          · have h5 : i ≤ j ∧ j < m := by omega
            rw [if_pos hc, if_neg hj, if_pos h5]
          · have h5 : ¬ (i ≤ j ∧ j < m) := by omega
            rw [if_neg hc, if_neg hj, if_neg h5]
    · simp only [hlt, if_false]
      have him : i = m := by omega
      subst him
      refine ⟨dst, rfl, ⟨rfl, rfl, rfl, rfl⟩, ?_⟩
      intro j
      have : ¬ (i ≤ j ∧ j < i) := by omega
      rw [if_neg this]

theorem and_clear_spec : ∀ (fuel i : Nat) (dst : Bitmap),
    dst.buf_len ≤ dst.buf.length → dst.buf_len < 65536 → dst.buf_len - i < fuel →
    ∃ bm1, bitmap_and_clear fuel i dst = .ok bm1 ∧ SameShape bm1 dst ∧
      ∀ j, bm1.buf.getD j 0 = if i ≤ j ∧ j < dst.buf_len then 0 else dst.buf.getD j 0 := by
  intro fuel
  induction fuel with
  | zero => intro i dst _ _ h; omega
  | succ fuel ih =>
    intro i dst hd hm hfuel
    unfold bitmap_and_clear
    by_cases hlt : i < dst.buf_len
    · have hidx : i < dst.buf.length := by omega
      simp only [hlt, if_true, wr_of_lt _ hidx]
      have hwrap : (i + 1) % 65536 = i + 1 := by omega
      rw [hwrap]
      obtain ⟨bm1, h1, h2, h3⟩ := ih (i + 1)
        { dst with buf := dst.buf.set i 0 }
        (by simp only [List.length_set]; exact hd) hm (by simp only; omega)
      refine ⟨bm1, h1, ?_, ?_⟩
      · obtain ⟨a, b, c, d⟩ := h2
        exact ⟨a, b, c, by rw [d]; simp⟩
      · intro j
        rw [h3 j]
        simp only [getD_set_word _ _ _ _ hidx]
        by_cases hj : j = i
        · subst hj
          have h4 : ¬ (j + 1 ≤ j ∧ j < dst.buf_len) := by omega
          have h5 : j ≤ j ∧ j < dst.buf_len := by omega
          rw [if_neg h4, if_pos rfl, if_pos h5]
        · by_cases hc : i + 1 ≤ j ∧ j < dst.buf_len
          · have h5 : i ≤ j ∧ j < dst.buf_len := by omega
            rw [if_pos hc, if_pos h5]
          · have h5 : ¬ (i ≤ j ∧ j < dst.buf_len) := by omega
            rw [if_neg hc, if_neg hj, if_neg h5]
    · simp only [hlt, if_false]
      refine ⟨dst, rfl, ⟨rfl, rfl, rfl, rfl⟩, ?_⟩
      intro j
      have : ¬ (i ≤ j ∧ j < dst.buf_len) := by omega
      rw [if_neg this]
theorem or_spec {dst src : Bitmap} (hd : Valid dst) (hs : Valid src)
    (hm : dst.max_value % 32 ≠ 0) :
    ∃ bm1, bitmap_or dst src = .ok (true, bm1) ∧ SameShape bm1 dst ∧ Valid bm1 ∧ StatsOK bm1 ∧
      (∀ j, bm1.buf.getD j 0 =
        if j = dst.max_value / 32 then
          (if j < min dst.buf_len src.buf_len then dst.buf.getD j 0 ||| src.buf.getD j 0
            else dst.buf.getD j 0) &&& (2 ^ (dst.max_value % 32) - 1)
        else if j < min dst.buf_len src.buf_len then dst.buf.getD j 0 ||| src.buf.getD j 0
        else dst.buf.getD j 0) := by
  have hlen := last_word_idx hd hm
  have hK : dst.max_value / 32 < dst.buf.length := by omega
  have hmax := valid_max hd
  have hmin : (if dst.buf_len < src.buf_len then dst.buf_len else src.buf_len)
      = min dst.buf_len src.buf_len := by
    simp only [min_def]; split_ifs <;> omega
  have hdl := hd.1.1
  have hsl := hs.1.1
  have hm1 : min dst.buf_len src.buf_len ≤ dst.buf.length := by rw [hdl]; exact Nat.min_le_left _ _
  have hm2 : min dst.buf_len src.buf_len ≤ src.buf.length := by rw [hsl]; exact Nat.min_le_right _ _
  obtain ⟨ba, ha, hsa, hwa⟩ := or_loop_spec (min dst.buf_len src.buf_len) src 65536 0 dst
    hm1 hm2 (by omega) (by omega) (by omega)
  have hKa : ba.max_value / 32 < ba.buf.length := by rw [hsa.2.1, hsa.2.2.2]; exact hK
  obtain ⟨bb, hb, hsb, hwb⟩ := mask_last_spec ba hKa
  have hsb' := sameShape_trans hsb hsa
  obtain ⟨bc, hc, hst, hfr⟩ := update_info_spec bb (by rw [hsb'.2.1]; exact hmax)
    (by rw [hsb'.2.1, hsb'.2.2.2]; exact valid_len hd)
  have hsc := sameShape_trans (sameShape_of_frame hfr) hsb'
  have hword : ∀ j, bc.buf.getD j 0 =
        if j = dst.max_value / 32 then
          (if j < min dst.buf_len src.buf_len then dst.buf.getD j 0 ||| src.buf.getD j 0
            else dst.buf.getD j 0) &&& (2 ^ (dst.max_value % 32) - 1)
        else if j < min dst.buf_len src.buf_len then dst.buf.getD j 0 ||| src.buf.getD j 0
        else dst.buf.getD j 0 := by
    intro j
    rw [hfr.2.2.2, hwb j, hsa.2.1, hwa j]
    simp only [Nat.zero_le, true_and]
  have hwlt : ∀ j, bc.buf.getD j 0 < 4294967296 := by
    intro j
    rw [hword j]
    have h1 := word_lt hd.1 j
    have h2 := word_lt hs.1 j
    have h3 : dst.buf.getD j 0 ||| src.buf.getD j 0 < 4294967296 := Nat.or_lt_two_pow (n := 32) h1 h2
    split_ifs
    · exact and_mask_lt _ h3
    · exact and_mask_lt _ h1
    · exact h3
    · exact h1
  refine ⟨bc, ?_, hsc, valid_of_shape hd hsc hwlt hst, hst, hword⟩
  unfold bitmap_or
  simp only [hd.2, hs.2, Bool.not_true, Bool.false_eq_true, or_self, if_false, hmin, ha, hb, hc]

theorem and_spec {dst src : Bitmap} (hd : Valid dst) (hs : Valid src)
    (hm : dst.max_value % 32 ≠ 0) :
    ∃ bm1, bitmap_and dst src = .ok (true, bm1) ∧ SameShape bm1 dst ∧ Valid bm1 ∧ StatsOK bm1 ∧
      (∀ j, bm1.buf.getD j 0 =
        if j < min dst.buf_len src.buf_len then
          if j = dst.max_value / 32 then
            (dst.buf.getD j 0 &&& src.buf.getD j 0) &&& (2 ^ (dst.max_value % 32) - 1)
          else dst.buf.getD j 0 &&& src.buf.getD j 0
        else 0) := by
  have hlen := last_word_idx hd hm
  have hK : dst.max_value / 32 < dst.buf.length := by omega
  have hmax := valid_max hd
  have hmin : (if dst.buf_len < src.buf_len then dst.buf_len else src.buf_len)
      = min dst.buf_len src.buf_len := by
    simp only [min_def]; split_ifs <;> omega
  have hdl := hd.1.1
  have hsl := hs.1.1
  have hm1 : min dst.buf_len src.buf_len ≤ dst.buf.length := by rw [hdl]; exact Nat.min_le_left _ _
  have hm2 : min dst.buf_len src.buf_len ≤ src.buf.length := by rw [hsl]; exact Nat.min_le_right _ _
  obtain ⟨ba, ha, hsa, hwa⟩ := and_loop_spec (min dst.buf_len src.buf_len) src 65536 0 dst
    hm1 hm2 (by omega) (by omega) (by omega)
  have hKa : ba.max_value / 32 < ba.buf.length := by rw [hsa.2.1, hsa.2.2.2]; exact hK
  obtain ⟨bb, hb, hsb, hwb⟩ := mask_last_spec ba hKa
  have hsb' := sameShape_trans hsb hsa
  obtain ⟨bk, hk, hsk, hwk⟩ := and_clear_spec 65536 (min dst.buf_len src.buf_len) bb
    (by rw [hsb'.2.2.1, hsb'.2.2.2, hdl]) (by rw [hsb'.2.2.1]; omega) (by rw [hsb'.2.2.1]; omega)
  have hsk' := sameShape_trans hsk hsb'
  obtain ⟨bc, hc, hst, hfr⟩ := update_info_spec bk (by rw [hsk'.2.1]; exact hmax)
    (by rw [hsk'.2.1, hsk'.2.2.2]; exact valid_len hd)
  have hsc := sameShape_trans (sameShape_of_frame hfr) hsk'
  have hword : ∀ j, bc.buf.getD j 0 =
        if j < min dst.buf_len src.buf_len then
          if j = dst.max_value / 32 then
            (dst.buf.getD j 0 &&& src.buf.getD j 0) &&& (2 ^ (dst.max_value % 32) - 1)
          else dst.buf.getD j 0 &&& src.buf.getD j 0
        else 0 := by
    intro j
    rw [hfr.2.2.2, hwk j, hsb'.2.2.1, hwb j, hsa.2.1, hwa j]
    simp only [Nat.zero_le, true_and]
    by_cases h1 : j < min dst.buf_len src.buf_len
    · have h2 : ¬ (min dst.buf_len src.buf_len ≤ j ∧ j < dst.buf_len) := by omega
      rw [if_neg h2, if_pos h1, if_pos h1]
    · simp only [h1, if_false]
      by_cases h2 : j < dst.buf_len
      · rw [if_pos ⟨by omega, h2⟩]
      · rw [if_neg (by omega)]
        have : dst.buf.getD j 0 = 0 := by
          rw [List.getD_eq_getElem?_getD, List.getElem?_eq_none (by omega)]; rfl
        rw [this]
        split_ifs <;> simp
  have hwlt : ∀ j, bc.buf.getD j 0 < 4294967296 := by
    intro j
    rw [hword j]
    have h1 := word_lt hd.1 j
    have h3 : dst.buf.getD j 0 &&& src.buf.getD j 0 < 4294967296 :=
      lt_of_le_of_lt Nat.and_le_left h1
    split_ifs
    · exact and_mask_lt _ h3
    · exact h3
    · norm_num
  refine ⟨bc, ?_, hsc, valid_of_shape hd hsc hwlt hst, hst, hword⟩
  unfold bitmap_and
  simp only [hd.2, hs.2, Bool.not_true, Bool.false_eq_true, or_self, if_false, hmin, ha, hb, hk, hc]
theorem count_compl {p q : Nat → Prop} [DecidablePred p] [DecidablePred q] :
    ∀ n, (∀ v < n, (q v ↔ ¬ p v)) → Nat.count q n + Nat.count p n = n := by
  intro n
  induction n with
  | zero => intro _; simp
  | succ n ih =>
    intro h
    have := ih (fun v hv => h v (by omega))
    rw [Nat.count_succ, Nat.count_succ]
    have hn := h n (by omega)
    by_cases hp : p n
    · have hq : ¬ q n := fun hq => (hn.mp hq) hp
      simp only [hp, hq, if_true, if_false]; omega
    · have hq : q n := hn.mpr hp
      simp only [hp, hq, if_true, if_false]; omega

theorem member_eq_bit {bm : Bitmap} {v : Nat} (h : v < bm.max_value) :
    member bm v = bit_set bm v := by
  simp [member, h]

theorem member_of_overflow {bm : Bitmap} (ho : OverflowZero bm) (v : Nat) :
    member bm v = bit_set bm v := by
  by_cases h : v < bm.max_value
  · exact member_eq_bit h
  · have hb : bit_set bm v = false := by
      by_cases h2 : v < bm.buf.length * 32
      · exact ho v h2 (by omega)
      · exact bit_set_eq_false_of_ge bm (by omega)
    simp [member, h, hb]

/-- Two well-formed buffers of the same length with the same bits are equal. -/
theorem buf_eq_of_bits {a b : Bitmap} (ha : WellFormed a) (hb : WellFormed b)
    (hlen : a.buf.length = b.buf.length) (h : ∀ u, bit_set a u = bit_set b u) : a.buf = b.buf := by
  apply List.ext_getElem hlen
  intro i h1 h2
  apply Nat.eq_of_testBit_eq
  intro j
  by_cases hj : j < 32
  · have := h (32 * i + j)
    unfold bit_set at this
    have e1 : (32 * i + j) / 32 = i := by omega
    have e2 : (32 * i + j) % 32 = j := by omega
    rw [e1, e2, List.getD_eq_getElem?_getD, List.getD_eq_getElem?_getD,
      List.getElem?_eq_getElem h1, List.getElem?_eq_getElem h2] at this
    exact this
  · have hp : (4294967296 : Nat) ≤ 2 ^ j := by
      have : (2 : Nat) ^ 32 ≤ 2 ^ j := Nat.pow_le_pow_right (by norm_num) (by omega)
      norm_num at this; exact this
    have w1 := ha.2.2.2.2.2.2 _ (List.getElem_mem h1)
    have w2 := hb.2.2.2.2.2.2 _ (List.getElem_mem h2)
    rw [Nat.testBit_lt_two_pow (lt_of_lt_of_le w1 hp),
      Nat.testBit_lt_two_pow (lt_of_lt_of_le w2 hp)]

theorem or_bits {dst src bm1 : Bitmap} (hd : Valid dst) (hm : dst.max_value % 32 ≠ 0)
    (hsh : SameShape bm1 dst)
    (hw : ∀ j, bm1.buf.getD j 0 =
        if j = dst.max_value / 32 then
          (if j < min dst.buf_len src.buf_len then dst.buf.getD j 0 ||| src.buf.getD j 0
            else dst.buf.getD j 0) &&& (2 ^ (dst.max_value % 32) - 1)
        else if j < min dst.buf_len src.buf_len then dst.buf.getD j 0 ||| src.buf.getD j 0
        else dst.buf.getD j 0) (u : Nat) :
    bit_set bm1 u = (decide (u < dst.max_value) &&
      (bit_set dst u || (decide (u / 32 < min dst.buf_len src.buf_len) && bit_set src u))) := by
  have hlen := last_word_idx hd hm
  by_cases hu : u < dst.buf.length * 32
  · unfold bit_set
    rw [hw (u / 32)]
    by_cases h1 : u / 32 = dst.max_value / 32
    · rw [if_pos h1, Nat.testBit_and, Nat.testBit_two_pow_sub_one, Bool.and_comm]
      congr 1
      · simp only [decide_eq_decide]; omega
      · split_ifs with h2
        · simp [h2]
        · simp [h2]
    · rw [if_neg h1]
      have : u < dst.max_value := by omega
      split_ifs with h2
      · simp [h2, this]
      · simp [h2, this]
  · rw [bit_set_eq_false_of_ge bm1 (by rw [hsh.2.2.2]; omega)]
    have : ¬ u < dst.max_value := by have := valid_len hd; omega
    simp [this]

theorem and_bits {dst src bm1 : Bitmap} (hd : Valid dst) (hm : dst.max_value % 32 ≠ 0)
    (hsh : SameShape bm1 dst)
    (hw : ∀ j, bm1.buf.getD j 0 =
        if j < min dst.buf_len src.buf_len then
          if j = dst.max_value / 32 then
            (dst.buf.getD j 0 &&& src.buf.getD j 0) &&& (2 ^ (dst.max_value % 32) - 1)
          else dst.buf.getD j 0 &&& src.buf.getD j 0
        else 0) (u : Nat) :
    bit_set bm1 u = (decide (u < dst.max_value) &&
      (decide (u / 32 < min dst.buf_len src.buf_len) && (bit_set dst u && bit_set src u))) := by
  have hlen := last_word_idx hd hm
  by_cases hu : u < dst.buf.length * 32
  · unfold bit_set
    rw [hw (u / 32)]
    by_cases h2 : u / 32 < min dst.buf_len src.buf_len
    · rw [if_pos h2]
      by_cases h1 : u / 32 = dst.max_value / 32
      · rw [if_pos h1, Nat.testBit_and, Nat.testBit_two_pow_sub_one, Bool.and_comm]
        congr 1
        · simp only [decide_eq_decide]; omega
        · simp [h2]
      · rw [if_neg h1]
        have : u < dst.max_value := by omega
        simp [h2, this]
    · rw [if_neg h2]
      simp [h2]
  · rw [bit_set_eq_false_of_ge bm1 (by rw [hsh.2.2.2]; omega)]
    have : ¬ u < dst.max_value := by have := valid_len hd; omega
    simp [this]

/-- For a position below the destination's capacity, the bit of the source taking part in
the word loop is exactly membership in the source. -/
theorem src_part_eq_member {dst src : Bitmap} (hd : Valid dst) (hs : Valid src)
    (ho : OverflowZero src) {u : Nat} (hu : u < dst.max_value) :
    (decide (u / 32 < min dst.buf_len src.buf_len) && bit_set src u) = member src u := by
  rw [member_of_overflow ho]
  have h1 := valid_len hd
  have h2 := hd.1.1
  by_cases hb : bit_set src u = true
  · have h3 : u < src.buf.length * 32 := by
      by_contra hc
      rw [bit_set_eq_false_of_ge src (by omega)] at hb
      cases hb
    have h4 := hs.1.1
    have : u / 32 < min dst.buf_len src.buf_len := by
      rw [Nat.lt_min]; omega
    simp [this]
  · have : bit_set src u = false := by simpa using hb
    simp [this]
theorem deref_cons (c : Char) (s : List Char) : deref (c :: s) = c := rfl

theorem deref_nil : deref [] = CHAR_NULL := rfl

theorem isdigit_facts {c : Char} (h : isdigit c = true) :
    c ≠ CHAR_NULL ∧ c ≠ CHAR_SPACE ∧ c ≠ CHAR_RANGE_SEPARATOR ∧ c ≠ CHAR_ENTRY_SEPARATOR ∧
      c ≠ '+' ∧ isspace c = false := by
  refine ⟨?_, ?_, ?_, ?_, ?_, ?_⟩
  · rintro rfl; revert h; decide
  · rintro rfl; revert h; decide
  · rintro rfl; revert h; decide
  · rintro rfl; revert h; decide
  · rintro rfl; revert h; decide
  · unfold isdigit at h
    unfold isspace
    simp only [Bool.and_eq_true, decide_eq_true_eq] at h
    have h1 : (48 : Nat) ≤ c.toNat := by
      have := h.1
      rw [Char.le_def] at this
      exact this
    have hne : c ≠ ' ' := by rintro rfl; revert h; decide
    simp [hne]
    intro _
    omega

theorem takeWhile_digits (ds rest : List Char) (hds : ∀ c ∈ ds, isdigit c = true)
    (hrest : isdigit (deref rest) = false) : (ds ++ rest).takeWhile isdigit = ds := by
  rw [List.takeWhile_append_of_pos hds]
  cases rest with
  | nil => simp
  | cons c r =>
    rw [deref_cons] at hrest
    simp [List.takeWhile_cons, hrest]

theorem dropWhile_digits (ds rest : List Char) (hds : ∀ c ∈ ds, isdigit c = true)
    (hrest : isdigit (deref rest) = false) : (ds ++ rest).dropWhile isdigit = rest := by
  rw [List.dropWhile_append_of_pos hds]
  cases rest with
  | nil => simp
  | cons c r =>
    rw [deref_cons] at hrest
    simp [List.dropWhile_cons, hrest]

/-- The call of `strtol` on a literal that fits: the value, and `endptr` right after the digits. -/
theorem strtol_digits (ds rest : List Char) (hne : ds ≠ []) (hds : ∀ c ∈ ds, isdigit c = true)
    (hrest : isdigit (deref rest) = false) (hv : digits_value ds < 65535) :
    strtol (ds ++ rest) = { value := digits_value ds, endptr := rest, erange := false } := by
  obtain ⟨d, ds1, rfl⟩ := List.exists_cons_of_ne_nil hne
  have hd := hds d (List.mem_cons_self _ _)
  obtain ⟨h0, h1, h2, h3, h4, h5⟩ := isdigit_facts hd
  unfold strtol
  have e1 : (d :: ds1 ++ rest).dropWhile isspace = d :: ds1 ++ rest := by
    simp [List.dropWhile_cons, h5]
  simp only [e1]
  have e2 : deref (d :: ds1 ++ rest) = d := rfl
  simp only [e2]
  have h2' : ¬ d = '-' := h2
  have h4' : ¬ d = '+' := h4
  simp only [h2', h4', or_self, if_false, decide_False, Bool.false_eq_true,
    takeWhile_digits _ _ hds hrest, dropWhile_digits _ _ hds hrest]
  have : ¬ ((digits_value (d :: ds1) : Int) > LONG_MAX) := by
    unfold LONG_MAX; omega
  simp [this]
theorem scan_nil (m : Int) : ScanTo [] m (some m) := by
  intro fuel hf
  cases fuel with
  | zero => simp at hf
  | succ f => simp [parse_scan, deref_nil]

theorem scan_sep {c : Char} {s : List Char} {m : Int} {r : Option Int}
    (hc : c = CHAR_SPACE ∨ c = CHAR_RANGE_SEPARATOR ∨ c = CHAR_ENTRY_SEPARATOR)
    (h : ScanTo s m r) : ScanTo (c :: s) m r := by
  intro fuel hf
  cases fuel with
  | zero => simp at hf
  | succ f =>
    have hn : c ≠ CHAR_NULL := by
      rcases hc with rfl | rfl | rfl <;> decide
    unfold parse_scan
    simp only [deref_cons, hn, if_false, hc, if_true, List.tail_cons]
    exact h f (by simpa using hf)

theorem scan_spaces (k : Nat) {s : List Char} {m : Int} {r : Option Int}
    (h : ScanTo s m r) : ScanTo (List.replicate k CHAR_SPACE ++ s) m r := by
  induction k with
  | zero => simpa using h
  | succ k ih =>
    rw [List.replicate_succ, List.cons_append]
    exact scan_sep (Or.inl rfl) ih

theorem scan_digits {ds rest : List Char} {m : Int} {r : Option Int}
    (hne : ds ≠ []) (hds : ∀ c ∈ ds, isdigit c = true)
    (hrest : isdigit (deref rest) = false) (hv : digits_value ds < 65535)
    (h : ScanTo rest (scan_max m [digits_value ds]) r) : ScanTo (ds ++ rest) m r := by
  intro fuel hf
  cases fuel with
  | zero => simp at hf
  | succ f =>
    obtain ⟨d, ds1, rfl⟩ := List.exists_cons_of_ne_nil hne
    have hd := hds d (List.mem_cons_self _ _)
    obtain ⟨h0, h1, h2, h3, h4, h5⟩ := isdigit_facts hd
    unfold parse_scan
    have e2 : deref (d :: ds1 ++ rest) = d := rfl
    simp only [e2, h0, h1, h2, h3, or_self, if_false, hd, if_true,
      strtol_digits _ _ hne hds hrest hv]
    have hc : ¬ ((digits_value (d :: ds1) : Int) ≥ 65535 ∨ (digits_value (d :: ds1) : Int) < 0 ∨
        false = true) := by
      simp only [Bool.false_eq_true, or_false, not_or]
      omega
    rw [if_neg hc]
    apply h f
    simp only [List.length_append, List.length_cons] at hf
    omega

theorem not_digit_spaces (k : Nat) {rest : List Char} (hrest : isdigit (deref rest) = false) :
    isdigit (deref (List.replicate k CHAR_SPACE ++ rest)) = false := by
  cases k with
  | zero => simpa using hrest
  | succ k => rw [List.replicate_succ, List.cons_append, deref_cons]; decide

theorem scan_tok {t : NumTok} {rest : List Char} {m : Int} {r : Option Int} (ht : t.ok)
    (hrest : isdigit (deref rest) = false)
    (h : ScanTo rest (scan_max m [t.value]) r) : ScanTo (t.text ++ rest) m r := by
  unfold NumTok.text
  rw [List.append_assoc, List.append_assoc]
  exact scan_spaces _ (scan_digits ht.1 ht.2.1 (not_digit_spaces _ hrest) ht.2.2
    (scan_spaces _ h))

theorem scan_max_append (m : Int) (a b : List Nat) :
    scan_max m (a ++ b) = scan_max (scan_max m a) b := by
  unfold scan_max; rw [List.foldl_append]

theorem scan_entry {e : Entry} {rest : List Char} {m : Int} {r : Option Int} (he : e.ok)
    (hrest : isdigit (deref rest) = false)
    (h : ScanTo rest (scan_max m e.literals) r) : ScanTo (e.text ++ rest) m r := by
  cases e with
  | single n => exact scan_tok he hrest h
  | range a b =>
    unfold Entry.text
    rw [List.append_assoc, List.cons_append]
    refine scan_tok he.1 (by rw [deref_cons]; decide) (scan_sep (Or.inr (Or.inl rfl)) ?_)
    refine scan_tok he.2.1 hrest ?_
    have : scan_max (scan_max m [a.value]) [b.value] = scan_max m (Entry.range a b).literals := by
      rw [← scan_max_append]; rfl
    rw [this]; exact h

theorem scan_tail (es : List Entry) (hes : ∀ e ∈ es, e.ok) (m : Int) :
    ScanTo (tail_text es) m (some (scan_max m (all_literals es))) := by
  induction es generalizing m with
  | nil => exact scan_nil m
  | cons e es ih =>
    have hrest : isdigit (deref (tail_text es)) = false := by
      cases es with
      | nil => decide
      | cons e2 es2 => simp only [tail_text, List.foldr_cons, deref_cons]; decide
    show ScanTo (CHAR_ENTRY_SEPARATOR :: (e.text ++ tail_text es)) m _
    refine scan_sep (Or.inr (Or.inr rfl)) (scan_entry (hes e (List.mem_cons_self _ _)) hrest ?_)
    have : scan_max m (all_literals (e :: es)) = scan_max (scan_max m e.literals) (all_literals es) := by
      rw [← scan_max_append]; rfl
    rw [this]
    exact ih (fun x hx => hes x (List.mem_cons_of_mem _ hx)) _

theorem tail_text_not_digit (es : List Entry) : isdigit (deref (tail_text es)) = false := by
  cases es with
  | nil => decide
  | cons e2 es2 => simp only [tail_text, List.foldr_cons, deref_cons]; decide

theorem scan_entries (e : Entry) (es : List Entry) (hes : ∀ x ∈ e :: es, x.ok) (m : Int) :
    ScanTo (entries_text (e :: es)) m (some (scan_max m (all_literals (e :: es)))) := by
  show ScanTo (e.text ++ tail_text es) m _
  refine scan_entry (hes e (List.mem_cons_self _ _)) (tail_text_not_digit es) ?_
  have : scan_max m (all_literals (e :: es)) = scan_max (scan_max m e.literals) (all_literals es) := by
    rw [← scan_max_append]; rfl
  rw [this]
  exact scan_tail es (fun x hx => hes x (List.mem_cons_of_mem _ hx)) _

/-- The tracked maximum is the largest of the start value and the literals. -/
theorem scan_max_spec (lits : List Nat) (m : Int) :
    m ≤ scan_max m lits ∧ (∀ n ∈ lits, (n : Int) ≤ scan_max m lits) ∧
      (scan_max m lits = m ∨ ∃ n ∈ lits, scan_max m lits = (n : Int)) := by
  induction lits generalizing m with
  | nil => simp [scan_max]
  | cons a l ih =>
    have e : scan_max m (a :: l) = scan_max (if (a : Int) > m then (a : Int) else m) l := rfl
    rw [e]
    by_cases hc : (a : Int) > m
    · rw [if_pos hc]
      obtain ⟨h1, h2, h3⟩ := ih (a : Int)
      refine ⟨by omega, ?_, ?_⟩
      · intro n hn
        rcases List.mem_cons.mp hn with rfl | hn
        · exact h1
        · exact h2 n hn
      · rcases h3 with h3 | ⟨n, hn, h3⟩
        · exact Or.inr ⟨a, List.mem_cons_self _ _, h3⟩
        · exact Or.inr ⟨n, List.mem_cons_of_mem _ hn, h3⟩
    · rw [if_neg hc]
      obtain ⟨h1, h2, h3⟩ := ih m
      refine ⟨h1, ?_, ?_⟩
      · intro n hn
        rcases List.mem_cons.mp hn with rfl | hn
        · omega
        · exact h2 n hn
      · rcases h3 with h3 | ⟨n, hn, h3⟩
        · exact Or.inl h3
        · exact Or.inr ⟨n, List.mem_cons_of_mem _ hn, h3⟩
theorem add_any {bm : Bitmap} {v : Nat} (hv : Valid bm) (hs : StatsOK bm)
    (hlt : v < bm.max_value) :
    ∃ r bm1, bitmap_add_value bm v = .ok (r, bm1) ∧
      (∀ u, bit_set bm1 u = (decide (u = v) || bit_set bm u)) ∧
      bm1.max_value = bm.max_value ∧ Valid bm1 ∧ StatsOK bm1 := by
  cases hb : bit_set bm v
  · obtain ⟨bm1, hrun, hbits, _, _, _, hmv, _, hv1, hs1⟩ := add_new hv hs hlt hb
    exact ⟨true, bm1, hrun, hbits, hmv, hv1, hs1⟩
  · refine ⟨true, bm, add_existing hv hlt hb, ?_, rfl, hv, hs⟩
    intro u
    by_cases hu : u = v
    · subst hu; simp [hb]
    · simp [hu]

theorem expand_spec : ∀ (fuel a b : Nat) (bm : Bitmap), Valid bm → StatsOK bm →
    a ≤ b + 1 → b < bm.max_value → b + 1 - a < fuel →
    ∃ bm1, parse_expand fuel a (b : Int) bm = .ok (b + 1, bm1) ∧
      (∀ u, bit_set bm1 u = ((decide (a ≤ u) && decide (u ≤ b)) || bit_set bm u)) ∧
      bm1.max_value = bm.max_value ∧ Valid bm1 ∧ StatsOK bm1 := by
  intro fuel
  induction fuel with
  | zero => intro a b bm _ _ _ _ h; omega
  | succ fuel ih =>
    intro a b bm hv hs hab hb hfuel
    unfold parse_expand
    by_cases hle : a ≤ b
    · have hle' : (a : Int) ≤ (b : Int) := by omega
      obtain ⟨r, bm1, hrun, hbits, hmv, hv1, hs1⟩ := add_any hv hs (v := a) (by omega)
      have hmax := valid_max hv
      have hwrap : (a + 1) % 65536 = a + 1 := by omega
      simp only [hle', if_true, hrun, hwrap]
      obtain ⟨bm2, hrun2, hbits2, hmv2, hv2, hs2⟩ := ih (a + 1) b bm1 hv1 hs1 (by omega)
        (by rw [hmv]; exact hb) (by omega)
      refine ⟨bm2, hrun2, ?_, hmv2.trans hmv, hv2, hs2⟩
      intro u
      rw [hbits2 u, hbits u]
      by_cases h1 : u = a
      · subst h1; simp [hle]
      · by_cases h2 : a + 1 ≤ u
        · have : a ≤ u := by omega
          simp [h1, h2, this]
        · have : ¬ a ≤ u := by omega
          simp [h1, h2, this]
    · have hle' : ¬ (a : Int) ≤ (b : Int) := by omega
      have hab' : a = b + 1 := by omega
      simp only [hle', if_false]
      subst hab'
      refine ⟨bm, rfl, ?_, rfl, hv, hs⟩
      intro u
      have : ¬ (b + 1 ≤ u ∧ u ≤ b) := by omega
      by_cases h1 : b + 1 ≤ u
      · have : ¬ u ≤ b := by omega
        simp [h1, this]
      · simp [h1]

theorem skip_space_spaces (k : Nat) (s : List Char) (hs : deref s ≠ CHAR_SPACE) :
    skip_space (List.replicate k CHAR_SPACE ++ s) = s := by
  unfold skip_space
  rw [List.dropWhile_append_of_pos (by
    intro c hc
    rw [List.eq_of_mem_replicate hc]; simp)]
  cases s with
  | nil => rfl
  | cons c r =>
    rw [deref_cons] at hs
    simp [List.dropWhile_cons, hs]

theorem deref_tok_ne_null (t : NumTok) (ht : t.ok) (tl : List Char) :
    deref (t.text ++ tl) ≠ CHAR_NULL := by
  obtain ⟨d, ds1, hd⟩ := List.exists_cons_of_ne_nil ht.1
  have hdig := ht.2.1 d (by rw [hd]; exact List.mem_cons_self _ _)
  unfold NumTok.text
  cases hp : t.pre with
  | zero =>
    simp only [List.replicate_zero, List.nil_append, hd, List.cons_append, deref_cons]
    exact (isdigit_facts hdig).1
  | succ k =>
    simp only [List.replicate_succ, List.cons_append, deref_cons]
    decide

/-- One iteration of the second loop of the parser on a number followed by `tl`, where `tl`
starts neither with a space nor with a digit. -/
theorem fill_front (t : NumTok) (ht : t.ok) (tl : List Char)
    (htl1 : deref tl ≠ CHAR_SPACE) (htl2 : isdigit (deref tl) = false)
    (f : Nat) (ir : Bool) (st : Nat) (bm : Bitmap) :
    parse_fill (f + 1) (t.text ++ tl) ir st bm =
      if deref tl = CHAR_ENTRY_SEPARATOR ∨ deref tl = CHAR_NULL then
        if ir then
          if (st : Int) > (t.value : Int) then .ok none
          else
            match parse_expand 65536 st (t.value : Int) bm with
            | .error e => .error e
            | .ok (start_value1, bm1) =>
              parse_fill f (if deref tl = CHAR_ENTRY_SEPARATOR then tl.tail else tl) false
                start_value1 bm1
        else
          match bitmap_add_value bm t.value with
          | .error e => .error e
          | .ok (_, bm1) =>
            parse_fill f (if deref tl = CHAR_ENTRY_SEPARATOR then tl.tail else tl) false st bm1
      else if deref tl = CHAR_RANGE_SEPARATOR ∧ ir = false then
        parse_fill f tl.tail true t.value bm
      else .ok none := by
  obtain ⟨d, ds1, hd⟩ := List.exists_cons_of_ne_nil ht.1
  have hdig := ht.2.1 d (by rw [hd]; exact List.mem_cons_self _ _)
  obtain ⟨h0, h1, h2, h3, h4, h5⟩ := isdigit_facts hdig
  have hnn := deref_tok_ne_null t ht tl
  have hrest := not_digit_spaces t.post htl2
  have hp1 : skip_space (t.text ++ tl) = t.digits ++ (List.replicate t.post CHAR_SPACE ++ tl) := by
    unfold NumTok.text
    rw [List.append_assoc, List.append_assoc]
    apply skip_space_spaces
    rw [hd]; exact h1
  have hderef : deref (t.digits ++ (List.replicate t.post CHAR_SPACE ++ tl)) = d := by
    rw [hd]; rfl
  have hst := strtol_digits t.digits (List.replicate t.post CHAR_SPACE ++ tl) ht.1 ht.2.1 hrest
    ht.2.2
  have hp2 : skip_space (List.replicate t.post CHAR_SPACE ++ tl) = tl :=
    skip_space_spaces _ _ htl1
  have hv : t.value = digits_value t.digits := rfl
  have hlen : ¬ (List.replicate t.post CHAR_SPACE ++ tl
      = t.digits ++ (List.replicate t.post CHAR_SPACE ++ tl)) := by
    intro h
    have := congrArg List.length h
    rw [hd] at this
    simp at this
    omega
  have hc : ¬ ((t.value : Int) ≥ 65535 ∨ (t.value : Int) < 0 ∨ false = true) := by
    have := ht.2.2
    simp only [Bool.false_eq_true, or_false, not_or]
    omega
  have hmod : (t.value : Int).toNat % 65536 = t.value := by
    have := ht.2.2
    simp only [Int.toNat_ofNat]
    omega
  rw [← hv] at hst
  rw [parse_fill]
  simp only [hnn, if_false, hp1, hderef, h0, h2, hst, hc, hlen, and_false, hp2, hmod]
  try rfl

theorem fill_nil (st : Nat) (bm : Bitmap) : FillTo [] false st bm (some bm) := by
  intro fuel hf
  cases fuel with
  | zero => simp at hf
  | succ f => simp [parse_fill, deref_nil]

theorem tok_text_length_pos (t : NumTok) (ht : t.ok) : 0 < t.text.length := by
  obtain ⟨d, ds1, hd⟩ := List.exists_cons_of_ne_nil ht.1
  unfold NumTok.text
  rw [hd]
  simp

theorem entryEnd_facts {tl p3 : List Char} (h : EntryEnd tl p3) :
    deref tl ≠ CHAR_SPACE ∧ isdigit (deref tl) = false ∧
    (deref tl = CHAR_ENTRY_SEPARATOR ∨ deref tl = CHAR_NULL) ∧
    (if deref tl = CHAR_ENTRY_SEPARATOR then tl.tail else tl) = p3 ∧ p3.length ≤ tl.length := by
  rcases h with ⟨rfl, rfl⟩ | rfl
  · refine ⟨by decide, by decide, Or.inr rfl, by decide, le_refl _⟩
  · refine ⟨by rw [deref_cons]; decide, by rw [deref_cons]; decide, Or.inl rfl, ?_, ?_⟩
    · rw [deref_cons]; simp
    · simp

theorem fill_single {t : NumTok} (ht : t.ok) {tl p3 : List Char} (he : EntryEnd tl p3)
    {bm bm1 : Bitmap} {r0 : Bool} {st : Nat} {r : Option Bitmap}
    (hadd : bitmap_add_value bm t.value = .ok (r0, bm1))
    (h : FillTo p3 false st bm1 r) : FillTo (t.text ++ tl) false st bm r := by
  intro fuel hf
  cases fuel with
  | zero => simp at hf
  | succ f =>
    obtain ⟨h1, h2, h3, h4, h5⟩ := entryEnd_facts he
    rw [fill_front t ht tl h1 h2, if_pos h3]
    simp only [Bool.false_eq_true, if_false, hadd, h4]
    apply h f
    have := tok_text_length_pos t ht
    simp only [List.length_append] at hf
    omega

theorem fill_close {t : NumTok} (ht : t.ok) {tl p3 : List Char} (he : EntryEnd tl p3)
    {bm bm1 : Bitmap} {a st1 : Nat} {r : Option Bitmap} (hle : a ≤ t.value)
    (hexp : parse_expand 65536 a (t.value : Int) bm = .ok (st1, bm1))
    (h : FillTo p3 false st1 bm1 r) : FillTo (t.text ++ tl) true a bm r := by
  intro fuel hf
  cases fuel with
  | zero => simp at hf
  | succ f =>
    obtain ⟨h1, h2, h3, h4, h5⟩ := entryEnd_facts he
    have hgt : ¬ ((a : Int) > (t.value : Int)) := by omega
    rw [fill_front t ht tl h1 h2, if_pos h3]
    simp only [if_true, hgt, if_false, hexp, h4]
    apply h f
    have := tok_text_length_pos t ht
    simp only [List.length_append] at hf
    omega

theorem fill_open {t : NumTok} (ht : t.ok) {rest : List Char}
    {bm : Bitmap} {st : Nat} {r : Option Bitmap}
    (h : FillTo rest true t.value bm r) :
    FillTo (t.text ++ CHAR_RANGE_SEPARATOR :: rest) false st bm r := by
  intro fuel hf
  cases fuel with
  | zero => simp at hf
  | succ f =>
    rw [fill_front t ht _ (by rw [deref_cons]; decide) (by rw [deref_cons]; decide)]
    have h3 : ¬ (deref (CHAR_RANGE_SEPARATOR :: rest) = CHAR_ENTRY_SEPARATOR ∨
        deref (CHAR_RANGE_SEPARATOR :: rest) = CHAR_NULL) := by
      rw [deref_cons]; decide
    rw [if_neg h3, if_pos ⟨rfl, rfl⟩]
    apply h f
    simp only [List.length_append, List.length_cons, List.tail_cons] at hf ⊢
    omega

theorem fill_entry {e : Entry} (he : e.ok) {bm : Bitmap} (hv : Valid bm) (hs : StatsOK bm)
    (hlits : ∀ n ∈ e.literals, n < bm.max_value) :
    ∃ bm1, (∀ u, bit_set bm1 u = (e.covers u || bit_set bm u)) ∧
      bm1.max_value = bm.max_value ∧ Valid bm1 ∧ StatsOK bm1 ∧
      ∀ (tl p3 : List Char) (st : Nat) (r : Option Bitmap), EntryEnd tl p3 →
        (∀ st1, FillTo p3 false st1 bm1 r) → FillTo (e.text ++ tl) false st bm r := by
  cases e with
  | single n =>
    obtain ⟨r0, bm1, hrun, hbits, hmv, hv1, hs1⟩ := add_any hv hs (v := n.value)
      (hlits _ (List.mem_cons_self _ _))
    refine ⟨bm1, hbits, hmv, hv1, hs1, ?_⟩
    intro tl p3 st r hend h
    exact fill_single he hend hrun (h st)
  | range a b =>
    have hmax := valid_max hv
    have hb : b.value < bm.max_value := hlits _ (by simp [Entry.literals])
    obtain ⟨bm1, hrun, hbits, hmv, hv1, hs1⟩ := expand_spec 65536 a.value b.value bm hv hs
      (by have := he.2.2; omega) hb (by omega)
    refine ⟨bm1, hbits, hmv, hv1, hs1, ?_⟩
    intro tl p3 st r hend h
    show FillTo (a.text ++ CHAR_RANGE_SEPARATOR :: b.text ++ tl) false st bm r
    rw [List.append_assoc, List.cons_append]
    exact fill_open he.1 (fill_close he.2.1 hend he.2.2 hrun (h _))

theorem fill_entries : ∀ (es : List Entry) (e : Entry) (bm : Bitmap), Valid bm → StatsOK bm →
    (∀ x ∈ e :: es, x.ok) → (∀ n ∈ all_literals (e :: es), n < bm.max_value) →
    ∃ bm1, (∀ st, FillTo (entries_text (e :: es)) false st bm (some bm1)) ∧
      (∀ u, bit_set bm1 u = ((e :: es).any (fun x => x.covers u) || bit_set bm u)) ∧
      bm1.max_value = bm.max_value ∧ Valid bm1 ∧ StatsOK bm1 := by
  intro es
  induction es with
  | nil =>
    intro e bm hv hs hok hlits
    obtain ⟨bm1, hbits, hmv, hv1, hs1, hfill⟩ := fill_entry (hok e (List.mem_cons_self _ _)) hv hs
      (fun n hn => hlits n (by simpa [all_literals] using hn))
    refine ⟨bm1, ?_, ?_, hmv, hv1, hs1⟩
    · intro st
      have := hfill [] [] st (some bm1) (Or.inl ⟨rfl, rfl⟩) (fun st1 => fill_nil st1 bm1)
      simpa [entries_text, tail_text] using this
    · intro u; rw [hbits u]; simp
  | cons e2 es ih =>
    intro e bm hv hs hok hlits
    obtain ⟨bm1, hbits, hmv, hv1, hs1, hfill⟩ := fill_entry (hok e (List.mem_cons_self _ _)) hv hs
      (fun n hn => hlits n (by
        show n ∈ e.literals ++ all_literals (e2 :: es)
        exact List.mem_append_left _ hn))
    obtain ⟨bm2, hrun2, hbits2, hmv2, hv2, hs2⟩ := ih e2 bm1 hv1 hs1
      (fun x hx => hok x (List.mem_cons_of_mem _ hx))
      (fun n hn => by
        rw [hmv]
        apply hlits n
        show n ∈ e.literals ++ all_literals (e2 :: es)
        exact List.mem_append_right _ hn)
    refine ⟨bm2, ?_, ?_, hmv2.trans hmv, hv2, hs2⟩
    · intro st
      exact hfill (tail_text (e2 :: es)) (entries_text (e2 :: es)) st (some bm2) (Or.inr rfl) hrun2
    · intro u
      rw [hbits2 u, hbits u]
      simp only [List.any_cons]
      cases e.covers u <;> cases e2.covers u <;> cases (es.any fun x => x.covers u) <;>
        cases bit_set bm u <;> rfl
theorem bit_set_replicate (bm : Bitmap) (k : Nat) (h : bm.buf = List.replicate k 0) (u : Nat) :
    bit_set bm u = false := by
  unfold bit_set
  rw [h, List.getD_eq_getElem?_getD]
  by_cases hu : u / 32 < k
  · rw [List.getElem?_eq_getElem (by simpa using hu)]
    simp
  · rw [List.getElem?_eq_none (by simpa using hu)]
    simp

theorem stats_of_empty (bm : Bitmap) (hbits : ∀ u, bit_set bm u = false)
    (hn : bm.numbers = 0) (hf : bm.first_value = 65535) (hl : bm.last_value = 0) :
    StatsOK bm := by
  have hc : count_set bm = 0 := by
    rw [count_set, count_bits_zero_iff]
    intro v _; exact hbits v
  refine ⟨by rw [hn, hc], fun h => by omega, fun _ => ⟨hf, hl⟩⟩

theorem create_spec (malloc_ok : Bool) (capacity : Nat) (bm : Bitmap)
    (h : bitmap_create malloc_ok capacity = some bm) :
    bm.max_value = capacity ∧ 0 < capacity ∧ bm.buf_len = bm.buf.length ∧
      bm.bm_self = true ∧ bm.numbers = 0 ∧
      bm.first_value = 65535 ∧ bm.last_value = 0 ∧ (∀ u, bit_set bm u = false) ∧
      (∀ w ∈ bm.buf, w = 0) ∧
      (capacity < 65536 → bm.buf_len = (capacity + 31) / 32) := by
  unfold bitmap_create at h
  split_ifs at h with h1 h2
  simp only [Option.some.injEq] at h
  subst h
  refine ⟨rfl, Nat.pos_of_ne_zero h1, by simp, rfl, rfl, rfl, rfl, ?_, ?_, ?_⟩
  · intro u
    exact bit_set_replicate _ _ rfl u
  · intro w hw
    exact List.eq_of_mem_replicate hw
  · intro hc
    simp only [BITSIZEOF_u32]
    split_ifs <;> omega

theorem create_ok (capacity : Nat) (h0 : 0 < capacity) :
    ∃ bm, bitmap_create true capacity = some bm := by
  unfold bitmap_create
  simp [Nat.pos_iff_ne_zero.mp h0]

theorem create_valid (malloc_ok : Bool) (capacity : Nat) (bm : Bitmap)
    (h : bitmap_create malloc_ok capacity = some bm) (hc : capacity < 65536) :
    Valid bm ∧ StatsOK bm := by
  obtain ⟨h1, h2, h3, h4, h5, h6, h7, h8, h9, h10⟩ := create_spec malloc_ok capacity bm h
  have hlen := h10 hc
  refine ⟨⟨⟨h3.symm, by rw [h1]; exact hlen, by rw [h1]; exact hc, by omega, by omega, by omega,
    fun w hw => by rw [h9 w hw]; norm_num⟩, ?_⟩, stats_of_empty bm h8 h5 h6 h7⟩
  unfold bitmap_check
  simp only [h4, BITSIZEOF_u32, h1, h5, hlen]
  rw [if_neg (by simp), if_neg (by omega), if_neg (by omega), if_neg (by omega)]

theorem literals_lt (es : List Entry) (hok : ∀ x ∈ es, x.ok) :
    ∀ n ∈ all_literals es, n < 65535 := by
  induction es with
  | nil => intro n hn; simp [all_literals] at hn
  | cons e es ih =>
    intro n hn
    have hn' : n ∈ e.literals ++ all_literals es := hn
    rcases List.mem_append.mp hn' with h | h
    · have he := hok e (List.mem_cons_self _ _)
      cases e with
      | single t =>
        simp only [Entry.literals, List.mem_singleton] at h
        rw [h]; exact he.2.2
      | range a b =>
        simp only [Entry.literals, List.mem_cons, List.mem_singleton, List.not_mem_nil,
          or_false] at h
        rcases h with h | h
        · rw [h]; exact he.1.2.2
        · rw [h]; exact he.2.1.2.2
    · exact ih (fun x hx => hok x (List.mem_cons_of_mem _ hx)) n h

theorem entry_literals_ne_nil (e : Entry) : e.literals ≠ [] := by
  cases e <;> simp [Entry.literals]

theorem deref_entry_ne_null (e : Entry) (he : e.ok) (tl : List Char) :
    deref (e.text ++ tl) ≠ CHAR_NULL := by
  cases e with
  | single t => exact deref_tok_ne_null t he tl
  | range a b =>
    show deref (a.text ++ CHAR_RANGE_SEPARATOR :: b.text ++ tl) ≠ CHAR_NULL
    rw [List.append_assoc]
    exact deref_tok_ne_null a he.1 _

/-- Parse of a well-formed text: the capacity is the largest literal plus one and the bits
set are those the entries denote. -/
theorem parse_entries (e : Entry) (es : List Entry) (hok : ∀ x ∈ e :: es, x.ok) :
    ∃ bm L, bitmap_parse_str true (entries_text (e :: es)) = .ok (some bm) ∧
      L ∈ all_literals (e :: es) ∧ (∀ n ∈ all_literals (e :: es), n ≤ L) ∧
      bm.max_value = L + 1 ∧
      (∀ u, bit_set bm u = (e :: es).any (fun x => x.covers u)) ∧ Valid bm ∧ StatsOK bm := by
  have hlt := literals_lt (e :: es) hok
  obtain ⟨h1, h2, h3⟩ := scan_max_spec (all_literals (e :: es)) (-1)
  -- the tracked maximum is a literal
  obtain ⟨l0, hl0⟩ : ∃ l0, l0 ∈ all_literals (e :: es) := by
    obtain ⟨a, as, ha⟩ := List.exists_cons_of_ne_nil (entry_literals_ne_nil e)
    exact ⟨a, by
      show a ∈ e.literals ++ all_literals es
      rw [ha]; exact List.mem_cons_self _ _⟩
  have hL : ∃ L ∈ all_literals (e :: es), scan_max (-1) (all_literals (e :: es)) = (L : Int) := by
    rcases h3 with h3 | h3
    · have := h2 l0 hl0; omega
    · exact h3
  obtain ⟨L, hLmem, hLeq⟩ := hL
  have hL65 := hlt L hLmem
  have hscan := scan_entries e es hok (-1) ((entries_text (e :: es)).length + 1) (by omega)
  obtain ⟨bm0, hcreate⟩ := create_ok (L + 1) (by omega)
  obtain ⟨hv0, hs0⟩ := create_valid true (L + 1) bm0 hcreate (by omega)
  obtain ⟨hm0, _, _, _, _, _, _, hb0, _, _⟩ := create_spec true (L + 1) bm0 hcreate
  have hLle : ∀ n ∈ all_literals (e :: es), n ≤ L := by
    intro n hn
    have := h2 n hn
    omega
  obtain ⟨bm1, hfill, hbits, hmv, hv1, hs1⟩ := fill_entries es e bm0 hv0 hs0 hok
    (fun n hn => by rw [hm0]; have := hLle n hn; omega)
  refine ⟨bm1, L, ?_, hLmem, hLle, by rw [hmv, hm0], ?_, hv1, hs1⟩
  · unfold bitmap_parse_str
    have hnn : deref (entries_text (e :: es)) ≠ CHAR_NULL :=
      deref_entry_ne_null e (hok e (List.mem_cons_self _ _)) _
    have hneg : ¬ ((L : Int) < 0) := by omega
    have hcap : ((L : Int).toNat % 65536 + 1) % 65536 = L + 1 := by
      simp only [Int.toNat_ofNat]; omega
    simp only [hnn, if_false, hscan, hLeq, hneg, hcap, hcreate]
    exact hfill 0 _ (by omega)
  · intro u
    rw [hbits u, hb0 u, Bool.or_false]
theorem covers_le_literal (x : Entry) (v : Nat) (h : x.covers v = true) :
    ∃ n ∈ x.literals, v ≤ n := by
  cases x with
  | single t =>
    simp only [Entry.covers, decide_eq_true_eq] at h
    exact ⟨t.value, List.mem_cons_self _ _, by omega⟩
  | range a b =>
    simp only [Entry.covers, Bool.and_eq_true, decide_eq_true_eq] at h
    exact ⟨b.value, by simp [Entry.literals], h.2⟩

theorem mem_all_literals {es : List Entry} {x : Entry} {n : Nat} (hx : x ∈ es)
    (hn : n ∈ x.literals) : n ∈ all_literals es := by
  induction es with
  | nil => cases hx
  | cons e es ih =>
    show n ∈ e.literals ++ all_literals es
    rcases List.mem_cons.mp hx with rfl | h
    · exact List.mem_append_left _ hn
    · exact List.mem_append_right _ (ih h)
theorem sameShape_set (bm : Bitmap) (i w : Nat) :
    SameShape { bm with buf := bm.buf.set i w } bm :=
  ⟨rfl, rfl, rfl, by simp⟩

theorem wr_ok {buf buf1 : List Nat} {i w : Nat} (h : wr buf i w = .ok buf1) :
    buf1 = buf.set i w := by
  unfold wr at h
  split_ifs at h
  injection h with h
  exact h.symm

theorem not_loop_shape : ∀ (fuel i : Nat) (bm bm1 : Bitmap),
    bitmap_not_loop fuel i bm = .ok bm1 → SameShape bm1 bm := by
  intro fuel
  induction fuel with
  | zero => intro i bm bm1 h; simp [bitmap_not_loop] at h
  | succ fuel ih =>
    intro i bm bm1 h
    unfold bitmap_not_loop at h
    split_ifs at h
    · split at h
      · cases h
      · split at h
        · cases h
        · rename_i w _ buf1 hw
          have := ih _ _ _ h
          rw [wr_ok hw] at this
          exact sameShape_trans this (sameShape_set bm _ _)
    · injection h with h; subst h; exact ⟨rfl, rfl, rfl, rfl⟩

theorem or_loop_shape (m : Nat) (src : Bitmap) : ∀ (fuel i : Nat) (bm bm1 : Bitmap),
    bitmap_or_loop m src fuel i bm = .ok bm1 → SameShape bm1 bm := by
  intro fuel
  induction fuel with
  | zero => intro i bm bm1 h; simp [bitmap_or_loop] at h
  | succ fuel ih =>
    intro i bm bm1 h
    unfold bitmap_or_loop at h
    split_ifs at h
    · split at h
      · split at h
        · cases h
        · rename_i buf1 hw
          have := ih _ _ _ h
          rw [wr_ok hw] at this
          exact sameShape_trans this (sameShape_set bm _ _)
      · cases h
      · cases h
    · injection h with h; subst h; exact ⟨rfl, rfl, rfl, rfl⟩

theorem and_loop_shape (m : Nat) (src : Bitmap) : ∀ (fuel i : Nat) (bm bm1 : Bitmap) (k : Nat),
    bitmap_and_loop m src fuel i bm = .ok (k, bm1) → SameShape bm1 bm := by
  intro fuel
  induction fuel with
  | zero => intro i bm bm1 k h; simp [bitmap_and_loop] at h
  | succ fuel ih =>
    intro i bm bm1 k h
    unfold bitmap_and_loop at h
    split_ifs at h
    · split at h
      · split at h
        · cases h
        · rename_i buf1 hw
          have := ih _ _ _ _ h
          rw [wr_ok hw] at this
          exact sameShape_trans this (sameShape_set bm _ _)
      · cases h
      · cases h
    · injection h with h; injection h with h1 h2; subst h2; exact ⟨rfl, rfl, rfl, rfl⟩

theorem and_clear_shape : ∀ (fuel i : Nat) (bm bm1 : Bitmap),
    bitmap_and_clear fuel i bm = .ok bm1 → SameShape bm1 bm := by
  intro fuel
  induction fuel with
  | zero => intro i bm bm1 h; simp [bitmap_and_clear] at h
  | succ fuel ih =>
    intro i bm bm1 h
    unfold bitmap_and_clear at h
    split_ifs at h
    · split at h
      · cases h
      · rename_i buf1 hw
        have := ih _ _ _ h
        rw [wr_ok hw] at this
        exact sameShape_trans this (sameShape_set bm _ _)
    · injection h with h; subst h; exact ⟨rfl, rfl, rfl, rfl⟩

theorem mask_last_shape (bm bm1 : Bitmap) (h : mask_last bm = .ok bm1) : SameShape bm1 bm := by
  unfold mask_last at h
  simp only at h
  split at h
  · cases h
  · split at h
    · cases h
    · rename_i buf1 hw
      injection h with h
      subst h
      rw [wr_ok hw]
      exact sameShape_set bm _ _

/-- After a rescan of a state with the shape of a valid bitmap the statistics are right. -/
theorem update_info_of_shape {bm b2 b3 : Bitmap} (hv : Valid bm) (hsh : SameShape b2 bm)
    (h : update_info b2 = .ok b3) : StatsOK b3 := by
  obtain ⟨b3', h', hst, _⟩ := update_info_spec b2 (by rw [hsh.2.1]; exact valid_max hv)
    (by rw [hsh.2.1, hsh.2.2.2]; exact valid_len hv)
  rw [h] at h'
  injection h' with h'
  rw [h']; exact hst

theorem not_stats {bm bm1 : Bitmap} {r : Bool} (hv : Valid bm)
    (h : bitmap_not bm = .ok (r, bm1)) : StatsOK bm1 := by
  unfold bitmap_not at h
  simp only [hv.2, Bool.not_true, Bool.false_eq_true, if_false] at h
  split at h
  · cases h
  · rename_i b1 h1
    split at h
    · cases h
    · rename_i b2 h2
      split at h
      · cases h
      · rename_i b3 h3
        injection h with h
        injection h with _ h
        subst h
        exact update_info_of_shape hv
          (sameShape_trans (mask_last_shape _ _ h2) (not_loop_shape _ _ _ _ h1)) h3

theorem or_stats {dst src bm1 : Bitmap} {r : Bool} (hd : Valid dst) (hs : Valid src)
    (h : bitmap_or dst src = .ok (r, bm1)) : StatsOK bm1 := by
  unfold bitmap_or at h
  simp only [hd.2, hs.2, Bool.not_true, Bool.false_eq_true, or_self, if_false] at h
  split at h
  · cases h
  · rename_i b1 h1
    split at h
    · cases h
    · rename_i b2 h2
      split at h
      · cases h
      · rename_i b3 h3
        injection h with h
        injection h with _ h
        subst h
        exact update_info_of_shape hd
          (sameShape_trans (mask_last_shape _ _ h2) (or_loop_shape _ _ _ _ _ _ h1)) h3

theorem and_stats {dst src bm1 : Bitmap} {r : Bool} (hd : Valid dst) (hs : Valid src)
    (h : bitmap_and dst src = .ok (r, bm1)) : StatsOK bm1 := by
  unfold bitmap_and at h
  simp only [hd.2, hs.2, Bool.not_true, Bool.false_eq_true, or_self, if_false] at h
  split at h
  · cases h
  · rename_i k b1 h1
    split at h
    · cases h
    · rename_i b2 h2
      split at h
      · cases h
      · rename_i b3 h3
        split at h
        · cases h
        · rename_i b4 h4
          injection h with h
          injection h with _ h
          subst h
          exact update_info_of_shape hd
            (sameShape_trans (and_clear_shape _ _ _ _ h3)
              (sameShape_trans (mask_last_shape _ _ h2) (and_loop_shape _ _ _ _ _ _ _ h1))) h4
theorem add_out_of_range {bm : Bitmap} {v : Nat} (h : bm.max_value ≤ v) :
    bitmap_add_value bm v = .ok (false, bm) := by
  unfold bitmap_add_value
  simp [h]

theorem del_out_of_range {bm : Bitmap} {v : Nat} (h : bm.max_value ≤ v) :
    bitmap_del_value bm v = .ok (false, bm) := by
  unfold bitmap_del_value
  simp [h]

theorem add_inv {bm bm1 : Bitmap} {v : Nat} {r : Bool} (hv : Valid bm) (hs : StatsOK bm)
    (h : bitmap_add_value bm v = .ok (r, bm1)) : Valid bm1 ∧ StatsOK bm1 := by
  by_cases hlt : v < bm.max_value
  · obtain ⟨r', bm1', hrun, _, _, hv1, hs1⟩ := add_any hv hs hlt
    rw [hrun] at h
    injection h with h
    injection h with _ h
    subst h
    exact ⟨hv1, hs1⟩
  · rw [add_out_of_range (by omega)] at h
    injection h with h
    injection h with _ h
    subst h
    exact ⟨hv, hs⟩

theorem del_inv {bm bm1 : Bitmap} {v : Nat} {r : Bool} (hv : Valid bm) (hs : StatsOK bm)
    (h : bitmap_del_value bm v = .ok (r, bm1)) : Valid bm1 ∧ StatsOK bm1 := by
  by_cases hlt : v < bm.max_value
  · cases hb : bit_set bm v
    · rw [del_absent hv hlt hb] at h
      injection h with h
      injection h with _ h
      subst h
      exact ⟨hv, hs⟩
    · obtain ⟨bm1', hrun, _, _, _, _, _, hv1, hs1⟩ := del_present hv hlt hb
      rw [hrun] at h
      injection h with h
      injection h with _ h
      subst h
      exact ⟨hv1, hs1⟩
  · rw [del_out_of_range (by omega)] at h
    injection h with h
    injection h with _ h
    subst h
    exact ⟨hv, hs⟩

theorem expand_inv : ∀ (fuel a : Nat) (v : Int) (bm bm1 : Bitmap) (st1 : Nat),
    Valid bm → StatsOK bm → parse_expand fuel a v bm = .ok (st1, bm1) →
    Valid bm1 ∧ StatsOK bm1 := by
  intro fuel
  induction fuel with
  | zero => intro a v bm bm1 st1 _ _ h; simp [parse_expand] at h
  | succ fuel ih =>
    intro a v bm bm1 st1 hv hs h
    unfold parse_expand at h
    split_ifs at h
    · split at h
      · cases h
      · rename_i r b1 hadd
        obtain ⟨hv1, hs1⟩ := add_inv hv hs hadd
        exact ih _ _ _ _ _ hv1 hs1 h
    · injection h with h
      injection h with _ h
      subst h
      exact ⟨hv, hs⟩

theorem fill_inv : ∀ (fuel : Nat) (s : List Char) (ir : Bool) (st : Nat) (bm bm1 : Bitmap),
    Valid bm → StatsOK bm → parse_fill fuel s ir st bm = .ok (some bm1) →
    Valid bm1 ∧ StatsOK bm1 := by
  intro fuel
  induction fuel with
  | zero => intro s ir st bm bm1 _ _ h; simp [parse_fill] at h
  | succ fuel ih =>
    intro s ir st bm bm1 hv hs h
    rw [parse_fill] at h
    simp only at h
    split_ifs at h
    all_goals first
      | (injection h with h; injection h with h; subst h; exact ⟨hv, hs⟩)
      | (injection h with h; cases h)
      | (exact ih _ _ _ _ _ hv hs h)
      | (split at h
         · cases h
         · rename_i hrun
           first
             | exact ih _ _ _ _ _ (expand_inv _ _ _ _ _ _ hv hs hrun).1
                 (expand_inv _ _ _ _ _ _ hv hs hrun).2 h
             | exact ih _ _ _ _ _ (add_inv hv hs hrun).1 (add_inv hv hs hrun).2 h)

theorem parse_inv (malloc_ok : Bool) (str : List Char) (bm : Bitmap)
    (h : bitmap_parse_str malloc_ok str = .ok (some bm)) : Valid bm ∧ StatsOK bm := by
  unfold bitmap_parse_str at h
  split_ifs at h
  · cases h
  · split at h
    · cases h
    · cases h
    · rename_i m hscan
      split_ifs at h
      · cases h
      · split at h
        · cases h
        · rename_i bm0 hcreate
          obtain ⟨hv0, hs0⟩ := create_valid _ _ bm0 hcreate (Nat.mod_lt _ (by norm_num))
          exact fill_inv _ _ _ _ _ _ hv0 hs0 h

theorem clone_spec (malloc_ok : Bool) (bm bm1 : Bitmap) (hv : Valid bm)
    (h : bitmap_clone malloc_ok bm = .ok (some bm1)) :
    bm1 = { bm with bm_self := true } := by
  unfold bitmap_clone at h
  split_ifs at h
  · injection h with h; cases h
  · injection h with h; cases h
  · injection h with h
    injection h with h
    subst h
    have : bm.buf.take bm.buf_len = bm.buf := by
      rw [← hv.1.1]; exact List.take_length _
    rw [this]
theorem digitChar_facts : ∀ d < 10, isdigit (Nat.digitChar d) = true ∧
    (Nat.digitChar d).toNat - 48 = d := by
  decide

theorem digits_value_foldl (l : List Char) (a : Nat) :
    l.foldl (fun acc c => 10 * acc + (c.toNat - 48)) a
      = a * 10 ^ l.length + digits_value l := by
  induction l generalizing a with
  | nil => simp [digits_value]
  | cons c l ih =>
    unfold digits_value
    simp only [List.foldl_cons, List.length_cons]
    rw [ih, ih (10 * 0 + (c.toNat - 48))]
    ring

theorem digits_value_cons (c : Char) (l : List Char) :
    digits_value (c :: l) = (c.toNat - 48) * 10 ^ l.length + digits_value l := by
  unfold digits_value
  simp only [List.foldl_cons]
  rw [digits_value_foldl]
  simp [digits_value]

theorem toDigitsCore_spec : ∀ (fuel n : Nat) (acc : List Char), n < fuel →
    (∀ c ∈ acc, isdigit c = true) →
    Nat.toDigitsCore 10 fuel n acc ≠ [] ∧
    (∀ c ∈ Nat.toDigitsCore 10 fuel n acc, isdigit c = true) ∧
    digits_value (Nat.toDigitsCore 10 fuel n acc) = n * 10 ^ acc.length + digits_value acc := by
  intro fuel
  induction fuel with
  | zero => intro n acc h; omega
  | succ fuel ih =>
    intro n acc hn hacc
    have hd := digitChar_facts (n % 10) (Nat.mod_lt _ (by norm_num))
    have hacc' : ∀ c ∈ Nat.digitChar (n % 10) :: acc, isdigit c = true := by
      intro c hc
      rcases List.mem_cons.mp hc with rfl | hc
      · exact hd.1
      · exact hacc c hc
    unfold Nat.toDigitsCore
    simp only
    by_cases h0 : n / 10 = 0
    · rw [if_pos h0]
      refine ⟨by simp, hacc', ?_⟩
      rw [digits_value_cons, hd.2]
      have : n % 10 = n := by omega
      rw [this]
    · rw [if_neg h0]
      obtain ⟨h1, h2, h3⟩ := ih (n / 10) (Nat.digitChar (n % 10) :: acc) (by omega) hacc'
      refine ⟨h1, h2, ?_⟩
      rw [h3, digits_value_cons, hd.2, List.length_cons, pow_succ]
      conv_rhs => rw [← Nat.div_add_mod n 10]
      ring

theorem toDigits_spec (n : Nat) :
    Nat.toDigits 10 n ≠ [] ∧ (∀ c ∈ Nat.toDigits 10 n, isdigit c = true) ∧
    digits_value (Nat.toDigits 10 n) = n := by
  obtain ⟨h1, h2, h3⟩ := toDigitsCore_spec (n + 1) n [] (by omega) (by simp)
  refine ⟨h1, h2, ?_⟩
  unfold Nat.toDigits
  rw [h3]
  simp [digits_value]
theorem print_exit (bm : Bitmap) (i : Nat) (st : PrintState) (h : bm.last_value < i) :
    PrintTo bm i st st := by
  intro fuel hf
  cases fuel with
  | zero => omega
  | succ f =>
    unfold bitmap_print_loop
    rw [if_neg (by omega)]

theorem print_one {bm : Bitmap} {i : Nat} {st R : PrintState} (hi : i ≤ bm.last_value)
    (hB : bm.last_value < 65535) (hlen : bm.last_value / 32 < bm.buf.length)
    (h : PrintTo bm (i + 1) (bitmap_print_step bm i (bm.buf.getD (i / 32) 0) st) R) :
    PrintTo bm i st R := by
  intro fuel hf
  cases fuel with
  | zero => omega
  | succ f =>
    have hidx : i / 32 < bm.buf.length := by omega
    have hwrap : (i + 1) % 65536 = i + 1 := by omega
    unfold bitmap_print_loop
    simp only [hi, if_true, BITSIZEOF_u32, rd_of_lt hidx, hwrap]
    exact h f (by omega)

theorem step_member_in {bm : Bitmap} {i : Nat} {st : PrintState} (hb : bit_set bm i = true)
    (hin : st.in_range = true) : bitmap_print_step bm i (bm.buf.getD (i / 32) 0) st = st := by
  unfold bitmap_print_step BITSIZEOF_u32
  rw [if_pos ((test_iff_bit_set bm i).mpr hb), if_neg (by rw [hin]; simp)]

theorem step_member_start {bm : Bitmap} {i : Nat} {st : PrintState} (hb : bit_set bm i = true)
    (hin : st.in_range = false) :
    bitmap_print_step bm i (bm.buf.getD (i / 32) 0) st
      = { st with range_start := i, in_range := true } := by
  unfold bitmap_print_step BITSIZEOF_u32
  rw [if_pos ((test_iff_bit_set bm i).mpr hb), if_pos hin]

theorem step_gap {bm : Bitmap} {i : Nat} {st : PrintState} (hb : bit_set bm i = false)
    (hin : st.in_range = false) : bitmap_print_step bm i (bm.buf.getD (i / 32) 0) st = st := by
  unfold bitmap_print_step BITSIZEOF_u32
  have : ¬ (bm.buf.getD (i / 32) 0 &&& 1 <<< (i % 32) ≠ 0) := by
    rw [test_iff_bit_set, hb]; simp
  rw [if_neg this, if_neg (by rw [hin]; simp)]

theorem step_end {bm : Bitmap} {i : Nat} {st : PrintState} (hb : bit_set bm i = false)
    (hin : st.in_range = true) (h0 : 0 < i) (hi : i < bm.last_value)
    (hB : bm.last_value < 65535) :
    bitmap_print_step bm i (bm.buf.getD (i / 32) 0) st
      = { st with
          range_end := i - 1
          in_range := false
          out := st.out ++ print_range st.range_start (i - 1) ++ [CHAR_ENTRY_SEPARATOR] } := by
  unfold bitmap_print_step BITSIZEOF_u32
  have : ¬ (bm.buf.getD (i / 32) 0 &&& 1 <<< (i % 32) ≠ 0) := by
    rw [test_iff_bit_set, hb]; simp
  have hw : (i + 65535) % 65536 = i - 1 := by omega
  rw [if_neg this, if_pos hin]
  simp only [hw, hi, if_true]

theorem print_members {bm : Bitmap} (hB : bm.last_value < 65535)
    (hlen : bm.last_value / 32 < bm.buf.length) {st R : PrintState}
    (hin : st.in_range = true) : ∀ (n i : Nat),
    (∀ u, i ≤ u → u < i + n → bit_set bm u = true) → i + n ≤ bm.last_value + 1 →
    PrintTo bm (i + n) st R → PrintTo bm i st R := by
  intro n
  induction n with
  | zero => intro i _ _ h; exact h
  | succ n ih =>
    intro i hbits hle h
    apply print_one (by omega) hB hlen
    rw [step_member_in (hbits i (le_refl _) (by omega)) hin]
    apply ih (i + 1) (fun u h1 h2 => hbits u (by omega) (by omega)) (by omega)
    have : i + 1 + n = i + (n + 1) := by omega
    rw [this]; exact h

theorem print_gap {bm : Bitmap} (hB : bm.last_value < 65535)
    (hlen : bm.last_value / 32 < bm.buf.length) {st R : PrintState}
    (hin : st.in_range = false) : ∀ (n i : Nat),
    (∀ u, i ≤ u → u < i + n → bit_set bm u = false) → i + n ≤ bm.last_value + 1 →
    PrintTo bm (i + n) st R → PrintTo bm i st R := by
  intro n
  induction n with
  | zero => intro i _ _ h; exact h
  | succ n ih =>
    intro i hbits hle h
    apply print_one (by omega) hB hlen
    rw [step_gap (hbits i (le_refl _) (by omega)) hin]
    apply ih (i + 1) (fun u h1 h2 => hbits u (by omega) (by omega)) (by omega)
    have : i + 1 + n = i + (n + 1) := by omega
    rw [this]; exact h

/-- In a chain of runs every later run starts beyond the end of the first. -/
theorem chain_later {r : Nat × Nat} {rs : List (Nat × Nat)}
    (hch : List.Chain' (fun r s : Nat × Nat => r.2 + 1 < s.1) (r :: rs))
    (hok : ∀ s ∈ r :: rs, s.1 ≤ s.2) : ∀ s ∈ rs, r.2 + 1 < s.1 := by
  induction rs generalizing r with
  | nil => intro s hs; cases hs
  | cons r2 rs ih =>
    intro s hs
    rw [List.chain'_cons] at hch
    rcases List.mem_cons.mp hs with rfl | hs
    · exact hch.1
    · have := ih hch.2 (fun x hx => hok x (List.mem_cons_of_mem _ hx)) s hs
      have := hok r2 (List.mem_cons_of_mem _ (List.mem_cons_self _ _))
      omega

theorem le_last_end {r : Nat × Nat} {rs : List (Nat × Nat)}
    (hch : List.Chain' (fun r s : Nat × Nat => r.2 + 1 < s.1) (r :: rs))
    (hok : ∀ s ∈ r :: rs, s.1 ≤ s.2) : ∀ s ∈ r :: rs, s.2 ≤ last_end r rs := by
  induction rs generalizing r with
  | nil =>
    intro s hs
    rcases List.mem_cons.mp hs with rfl | hs
    · exact le_refl _
    · cases hs
  | cons r2 rs ih =>
    intro s hs
    rw [List.chain'_cons] at hch
    have h2 := ih hch.2 (fun x hx => hok x (List.mem_cons_of_mem _ hx))
    show s.2 ≤ last_end r2 rs
    rcases List.mem_cons.mp hs with rfl | hs
    · have := h2 r2 (List.mem_cons_self _ _)
      have := hok r2 (List.mem_cons_of_mem _ (List.mem_cons_self _ _))
      omega
    · exact h2 s hs

theorem in_runs_cons (r : Nat × Nat) (rs : List (Nat × Nat)) (u : Nat) :
    in_runs (r :: rs) u = ((decide (r.1 ≤ u) && decide (u ≤ r.2)) || in_runs rs u) := by
  simp [in_runs]

theorem in_runs_false_of_lt {rs : List (Nat × Nat)} {u : Nat} (h : ∀ s ∈ rs, u < s.1) :
    in_runs rs u = false := by
  induction rs with
  | nil => rfl
  | cons r rs ih =>
    rw [in_runs_cons, ih (fun s hs => h s (List.mem_cons_of_mem _ hs))]
    have := h r (List.mem_cons_self _ _)
    have : ¬ r.1 ≤ u := by omega
    simp [this]

theorem canon_entry_eq (r : Nat × Nat) : canon_entry r = print_range r.1 r.2 := by
  unfold canon_entry print_range fmt_u CHAR_RANGE_SEPARATOR
  split_ifs <;> simp

theorem print_runs {bm : Bitmap} (hB : bm.last_value < 65535)
    (hlen : bm.last_value / 32 < bm.buf.length) : ∀ (rs : List (Nat × Nat)) (r : Nat × Nat)
    (st : PrintState), st.in_range = false →
    List.Chain' (fun r s : Nat × Nat => r.2 + 1 < s.1) (r :: rs) →
    (∀ s ∈ r :: rs, s.1 ≤ s.2) → last_end r rs = bm.last_value →
    (∀ u, r.1 ≤ u → u ≤ bm.last_value → bit_set bm u = in_runs (r :: rs) u) →
    ∃ R, PrintTo bm r.1 st R ∧ R.in_range = true ∧
      R.out ++ print_range R.range_start bm.last_value = st.out ++ canon_text (r :: rs) := by
  intro rs
  induction rs with
  | nil =>
    intro r st hin _ hok hlast hbits
    have hr := hok r (List.mem_cons_self _ _)
    have hlast' : r.2 = bm.last_value := hlast
    have hin_r : ∀ u, r.1 ≤ u → u ≤ bm.last_value → bit_set bm u = true := by
      intro u h1 h2
      rw [hbits u h1 h2, in_runs_cons]
      have : u ≤ r.2 := by omega
      simp [h1, this]
    refine ⟨{ st with range_start := r.1, in_range := true }, ?_, rfl, ?_⟩
    · apply print_one (by omega) hB hlen
      rw [step_member_start (hin_r r.1 (le_refl _) (by omega)) hin]
      apply print_members hB hlen rfl (bm.last_value - r.1) (r.1 + 1)
        (fun u h1 h2 => hin_r u (by omega) (by omega)) (by omega)
      exact print_exit bm _ _ (by omega)
    · show st.out ++ print_range r.1 bm.last_value = st.out ++ canon_text [r]
      rw [← hlast', ← canon_entry_eq]
      simp [canon_text, canon_tail]
  | cons r2 rs ih =>
    intro r st hin hch hok hlast hbits
    have hr := hok r (List.mem_cons_self _ _)
    have hr2 := hok r2 (List.mem_cons_of_mem _ (List.mem_cons_self _ _))
    have hch' := hch
    rw [List.chain'_cons] at hch'
    have hok2 : ∀ s ∈ r2 :: rs, s.1 ≤ s.2 := fun s hs => hok s (List.mem_cons_of_mem _ hs)
    have hlast2 : last_end r2 rs = bm.last_value := hlast
    have hr2B : r2.2 ≤ bm.last_value := by
      rw [← hlast2]; exact le_last_end hch'.2 hok2 r2 (List.mem_cons_self _ _)
    have hlater := chain_later hch'.2 hok2
    have hin_r : ∀ u, r.1 ≤ u → u ≤ r.2 → bit_set bm u = true := by
      intro u h1 h2
      rw [hbits u h1 (by omega), in_runs_cons]
      simp [h1, h2]
    have hgap : ∀ u, r.2 + 1 ≤ u → u < r2.1 → bit_set bm u = false := by
      intro u h1 h2
      rw [hbits u (by omega) (by omega), in_runs_cons, in_runs_false_of_lt]
      · have : ¬ u ≤ r.2 := by omega
        simp [this]
      · intro s hs
        rcases List.mem_cons.mp hs with rfl | hs
        · exact h2
        · have := hlater s hs; omega
    obtain ⟨R, hR, hRin, hRout⟩ := ih r2
      { in_range := false, range_start := r.1, range_end := r.2,
        out := st.out ++ print_range r.1 r.2 ++ [CHAR_ENTRY_SEPARATOR] }
      rfl hch'.2 hok2 hlast2
      (by
        intro u h1 h2
        rw [hbits u (by omega) h2, in_runs_cons]
        have : ¬ u ≤ r.2 := by omega
        simp [this])
    refine ⟨R, ?_, hRin, ?_⟩
    · apply print_one (by omega) hB hlen
      rw [step_member_start (hin_r r.1 (le_refl _) hr) hin]
      apply print_members hB hlen rfl (r.2 - r.1) (r.1 + 1)
        (fun u h1 h2 => hin_r u (by omega) (by omega)) (by omega)
      have e1 : r.1 + 1 + (r.2 - r.1) = r.2 + 1 := by omega
      rw [e1]
      apply print_one (by omega) hB hlen
      rw [step_end (hgap (r.2 + 1) (le_refl _) hch'.1) rfl (by omega) (by omega) hB]
      simp only [Nat.add_sub_cancel]
      apply print_gap hB hlen rfl (r2.1 - (r.2 + 2)) (r.2 + 1 + 1)
        (fun u h1 h2 => hgap u (by omega) (by omega)) (by omega)
      have e2 : r.2 + 1 + 1 + (r2.1 - (r.2 + 2)) = r2.1 := by omega
      rw [e2]
      exact hR
    · rw [hRout]
      show st.out ++ print_range r.1 r.2 ++ [CHAR_ENTRY_SEPARATOR] ++ canon_text (r2 :: rs)
        = st.out ++ canon_text (r :: r2 :: rs)
      rw [← canon_entry_eq]
      simp [canon_text, canon_tail, CHAR_ENTRY_SEPARATOR]
theorem last_end_mem (r : Nat × Nat) (rs : List (Nat × Nat)) :
    ∃ s ∈ r :: rs, s.2 = last_end r rs := by
  induction rs generalizing r with
  | nil => exact ⟨r, List.mem_cons_self _ _, rfl⟩
  | cons r2 rs ih =>
    obtain ⟨s, hs, h⟩ := ih r2
    exact ⟨s, List.mem_cons_of_mem _ hs, h⟩

/-- The text printed for a valid bitmap whose members between `first_value` and
`last_value` are the runs of a canonical list. -/
theorem print_of_runs {bm : Bitmap} (hv : Valid bm) (r : Nat × Nat) (rs : List (Nat × Nat))
    (hc : Canonical (r :: rs)) (hnum : bm.numbers ≠ 0) (hfirst : bm.first_value = r.1)
    (hlast : bm.last_value = last_end r rs) (hlt : bm.last_value < bm.max_value)
    (hbits : ∀ u, r.1 ≤ u → u ≤ bm.last_value → bit_set bm u = in_runs (r :: rs) u) :
    bitmap_print bm = .ok (canon_text (r :: rs) ++ [Char.ofNat 10]) := by
  obtain ⟨_, hok, hch⟩ := hc
  have hB : bm.last_value < 65535 := by
    obtain ⟨s, hs, h⟩ := last_end_mem r rs
    rw [hlast, ← h]; exact (hok s hs).2
  have hlen : bm.last_value / 32 < bm.buf.length := valid_idx hv hlt
  obtain ⟨R, hR, hRin, hRout⟩ := print_runs hB hlen rs r
    { in_range := false, range_start := 0, range_end := 0, out := [] } rfl hch
    (fun s hs => (hok s hs).1) hlast.symm hbits
  unfold bitmap_print
  have hrun := hR 65536 (by omega)
  rw [← hfirst] at hrun
  simp only [hv.2, Bool.not_true, Bool.false_eq_true, if_false, hnum, hrun, hRin, if_true, hRout,
    List.nil_append]

theorem run_entry_ok (r : Nat × Nat) (h1 : r.1 ≤ r.2) (h2 : r.2 < 65535) : (run_entry r).ok := by
  obtain ⟨a1, a2, a3⟩ := toDigits_spec r.1
  obtain ⟨b1, b2, b3⟩ := toDigits_spec r.2
  unfold run_entry
  split_ifs with h
  · exact ⟨a1, a2, by show digits_value _ < 65535; rw [a3]; omega⟩
  · exact ⟨⟨a1, a2, by show digits_value _ < 65535; rw [a3]; omega⟩,
      ⟨b1, b2, by show digits_value _ < 65535; rw [b3]; omega⟩,
      by show digits_value _ ≤ digits_value _; rw [a3, b3]; exact h1⟩

theorem run_entry_text (r : Nat × Nat) : (run_entry r).text = canon_entry r := by
  unfold run_entry canon_entry
  split_ifs <;> simp [Entry.text, NumTok.text, CHAR_RANGE_SEPARATOR]

theorem run_entry_covers (r : Nat × Nat) (u : Nat) :
    (run_entry r).covers u = (decide (r.1 ≤ u) && decide (u ≤ r.2)) := by
  obtain ⟨_, _, a3⟩ := toDigits_spec r.1
  obtain ⟨_, _, b3⟩ := toDigits_spec r.2
  unfold run_entry
  split_ifs with h
  · simp only [Entry.covers, NumTok.value, a3]
    rw [← h]
    by_cases hu : u = r.1
    · simp [hu]
    · have : ¬ (r.1 ≤ u ∧ u ≤ r.1) := by omega
      simp only [hu, decide_False]
      by_cases h3 : r.1 ≤ u
      · have : ¬ u ≤ r.1 := by omega
        simp [h3, this]
      · simp [h3]
  · simp only [Entry.covers, NumTok.value, a3, b3]

theorem run_entry_literals (r : Nat × Nat) :
    r.1 ∈ (run_entry r).literals ∧ r.2 ∈ (run_entry r).literals := by
  obtain ⟨_, _, a3⟩ := toDigits_spec r.1
  obtain ⟨_, _, b3⟩ := toDigits_spec r.2
  unfold run_entry
  split_ifs with h
  · simp [Entry.literals, NumTok.value, a3, ← h]
  · simp [Entry.literals, NumTok.value, a3, b3]

theorem tail_text_map (rs : List (Nat × Nat)) :
    tail_text (rs.map run_entry) = canon_tail rs := by
  induction rs with
  | nil => rfl
  | cons r rs ih =>
    show CHAR_ENTRY_SEPARATOR :: ((run_entry r).text ++ tail_text (rs.map run_entry))
      = ',' :: (canon_entry r ++ canon_tail rs)
    rw [ih, run_entry_text]; rfl

theorem entries_text_map (r : Nat × Nat) (rs : List (Nat × Nat)) :
    entries_text (run_entry r :: rs.map run_entry) = canon_text (r :: rs) := by
  show (run_entry r).text ++ tail_text (rs.map run_entry) = canon_entry r ++ canon_tail rs
  rw [tail_text_map, run_entry_text]

theorem any_covers_map (rs : List (Nat × Nat)) (u : Nat) :
    (rs.map run_entry).any (fun x => x.covers u) = in_runs rs u := by
  induction rs with
  | nil => rfl
  | cons r rs ih =>
    rw [List.map_cons, List.any_cons, in_runs_cons, ih, run_entry_covers r]

theorem in_runs_true_iff (rs : List (Nat × Nat)) (u : Nat) :
    in_runs rs u = true ↔ ∃ s ∈ rs, s.1 ≤ u ∧ u ≤ s.2 := by
  simp [in_runs]
/-- The bitmap parsed from a canonical text and what `bitmap_print` writes for it. -/
theorem parse_print_canonical (r : Nat × Nat) (rs : List (Nat × Nat))
    (hc : Canonical (r :: rs)) :
    ∃ bm, bitmap_parse_str true (canon_text (r :: rs)) = .ok (some bm) ∧
      bitmap_print bm = .ok (canon_text (r :: rs) ++ [Char.ofNat 10]) ∧
      (∀ u, bit_set bm u = in_runs (r :: rs) u) ∧ Valid bm ∧ StatsOK bm ∧
      bm.max_value = last_end r rs + 1 := by
  obtain ⟨_, hok, hch⟩ := hc
  have hle : ∀ s ∈ r :: rs, s.1 ≤ s.2 := fun s hs => (hok s hs).1
  have heok : ∀ x ∈ run_entry r :: rs.map run_entry, x.ok := by
    intro x hx
    rw [← List.map_cons] at hx
    obtain ⟨s, hs, rfl⟩ := List.mem_map.mp hx
    exact run_entry_ok s (hok s hs).1 (hok s hs).2
  obtain ⟨bm, L, hrun, hL, hLle, hmv, hbits, hv, hst⟩ :=
    parse_entries (run_entry r) (rs.map run_entry) heok
  rw [entries_text_map] at hrun
  have hbits' : ∀ u, bit_set bm u = in_runs (r :: rs) u := by
    intro u
    rw [hbits u, ← List.map_cons, any_covers_map]
  -- every end of a run is below the capacity
  have hend : ∀ s ∈ r :: rs, s.2 ≤ L := by
    intro s hs
    apply hLle
    exact @mem_all_literals (run_entry r :: rs.map run_entry) _ _
      (by rw [← List.map_cons]; exact List.mem_map_of_mem _ hs) (run_entry_literals s).2
  have hset : ∀ s ∈ r :: rs, ∀ u, s.1 ≤ u → u ≤ s.2 → bit_set bm u = true ∧ u < bm.max_value := by
    intro s hs u h1 h2
    refine ⟨?_, by have := hend s hs; omega⟩
    rw [hbits' u, in_runs_true_iff]
    exact ⟨s, hs, h1, h2⟩
  have hr := hle r (List.mem_cons_self _ _)
  have hr1 := hset r (List.mem_cons_self _ _) r.1 (le_refl _) hr
  have hpos : 0 < count_set bm := by
    rw [count_set, count_bits_pos_iff]
    exact ⟨r.1, hr1.2, hr1.1⟩
  obtain ⟨hn, hp, _⟩ := hst
  obtain ⟨hf, hfb, hl, hlb, hall⟩ := hp hpos
  have hlater := chain_later hch hle
  have hfirst : bm.first_value = r.1 := by
    have h1 := (hall r.1 hr1.2 hr1.1).1
    rw [hbits' _, in_runs_true_iff] at hfb
    obtain ⟨s, hs, hs1, _⟩ := hfb
    rcases List.mem_cons.mp hs with rfl | hs
    · omega
    · have := hlater s hs; omega
  obtain ⟨sl, hsl, hsl2⟩ := last_end_mem r rs
  have hlast : bm.last_value = last_end r rs := by
    have hl1 := hset sl hsl sl.2 (hle sl hsl) (le_refl _)
    have h1 := (hall sl.2 hl1.2 hl1.1).2
    rw [hbits' _, in_runs_true_iff] at hlb
    obtain ⟨s, hs, _, hs2⟩ := hlb
    have := le_last_end hch hle s hs
    omega
  -- the largest literal is the end of the last run
  have hLeq : L = last_end r rs := by
    have h1 : last_end r rs ≤ L := by rw [← hsl2]; exact hend sl hsl
    have h2 : L < bm.max_value := by omega
    have h3 : bit_set bm L = true := by
      rw [hbits' L, in_runs_true_iff]
      -- `L` is a literal of some run, hence one of its ends
      have hLm : ∃ s ∈ r :: rs, L = s.1 ∨ L = s.2 := by
        clear hLle hbits hrun hend hset
        have : ∀ (l : List (Nat × Nat)), L ∈ all_literals (l.map run_entry) →
            ∃ s ∈ l, L = s.1 ∨ L = s.2 := by
          intro l
          induction l with
          | nil => intro h; simp [all_literals] at h
          | cons a l ih =>
            intro h
            have h' : L ∈ (run_entry a).literals ++ all_literals (l.map run_entry) := h
            rcases List.mem_append.mp h' with h | h
            · refine ⟨a, List.mem_cons_self _ _, ?_⟩
              obtain ⟨_, _, a3⟩ := toDigits_spec a.1
              obtain ⟨_, _, b3⟩ := toDigits_spec a.2
              unfold run_entry at h
              split_ifs at h
              · simp [Entry.literals, NumTok.value, a3] at h; exact Or.inl h
              · simp [Entry.literals, NumTok.value, a3, b3] at h; exact h
            · obtain ⟨s, hs, h⟩ := ih h
              exact ⟨s, List.mem_cons_of_mem _ hs, h⟩
        exact this (r :: rs) hL
      obtain ⟨s, hs, h⟩ := hLm
      refine ⟨s, hs, ?_⟩
      have := hle s hs
      rcases h with h | h <;> omega
    have := (hall L h2 h3).2
    omega
  refine ⟨bm, hrun, ?_, hbits', hv, ⟨hn, hp, by assumption⟩, by rw [hmv, hLeq]⟩
  exact print_of_runs hv r rs ⟨by simp, hok, hch⟩ (by omega) hfirst hlast hl
    (fun u _ _ => hbits' u)

/-! ### Further lemmas -/

/-- Bits of the words after the bit of `value` has been set in its word. -/
theorem bits_after_set {bm bm1 : Bitmap} {value : Nat} (hidx : value / 32 < bm.buf.length)
    (hbuf : bm1.buf = bm.buf.set (value / 32) (bm.buf.getD (value / 32) 0 ||| 1 <<< (value % 32)))
    (u : Nat) : bit_set bm1 u = (decide (u = value) || bit_set bm u) := by
  rw [bit_set_of_set hbuf hidx]
  by_cases hu : u / 32 = value / 32
  · simp only [hu, if_true, Nat.testBit_or, Nat.one_shiftLeft, Nat.testBit_two_pow]
    unfold bit_set
    rw [hu, Bool.or_comm]
    congr 1
    by_cases h2 : u = value
    · simp [h2]
    · have : ¬ value % 32 = u % 32 := by omega
      simp [h2, this]
  · have : u ≠ value := fun e => hu (by rw [e])
    simp [hu, this]

/-- A call of `bitmap_add_value` on a value whose bit is set never changes the bitmap. -/
theorem add_again {bm : Bitmap} {value : Nat} (hidx : value / 32 < bm.buf.length)
    (hbit : bit_set bm value = true) :
    ∃ r, bitmap_add_value bm value = .ok (r, bm) ∧
      (bitmap_check bm = true → value < bm.max_value → r = true) := by
  have htest : (bm.buf.getD (value / 32) 0) &&& (1 <<< (value % 32)) ≠ 0 :=
    (test_iff_bit_set bm value).mpr hbit
  unfold bitmap_add_value
  by_cases hc : bitmap_check bm = true
  · by_cases hlt : value < bm.max_value
    · refine ⟨true, ?_, fun _ _ => rfl⟩
      simp only [hc, Bool.not_true, Bool.false_eq_true, ge_iff_le, false_or, not_le.mpr hlt,
        if_false, BITSIZEOF_u32, rd_of_lt hidx]
      rw [if_pos htest]
    · refine ⟨false, ?_, fun _ h => absurd h hlt⟩
      have : bm.max_value ≤ value := by omega
      simp [this]
  · refine ⟨false, ?_, fun h => absurd h hc⟩
    have : bitmap_check bm = false := by simpa using hc
    simp [this]

theorem add_overflow {bm bm1 : Bitmap} {v : Nat} {r : Bool} (hv : Valid bm)
    (ho : OverflowZero bm) (h : bitmap_add_value bm v = .ok (r, bm1)) : OverflowZero bm1 := by
  by_cases hlt : v < bm.max_value
  · cases hb : bit_set bm v
    · obtain ⟨b, hrun, hbuf, _, _, _, hmv, _, _⟩ := add_new_raw hv hlt hb
      rw [hrun] at h
      injection h with h
      injection h with _ h
      subst h
      intro u hu hge
      rw [bits_after_set (valid_idx hv hlt) hbuf u]
      have hne : u ≠ v := by omega
      have hlen : b.buf.length = bm.buf.length := by rw [hbuf]; simp
      rw [ho u (by rw [← hlen]; exact hu) (by omega)]
      simp [hne]
    · rw [add_existing hv hlt hb] at h
      injection h with h
      injection h with _ h
      subst h
      exact ho
  · rw [add_out_of_range (by omega)] at h
    injection h with h
    injection h with _ h
    subst h
    exact ho

theorem del_overflow {bm bm1 : Bitmap} {v : Nat} {r : Bool} (hv : Valid bm)
    (ho : OverflowZero bm) (h : bitmap_del_value bm v = .ok (r, bm1)) : OverflowZero bm1 := by
  by_cases hlt : v < bm.max_value
  · cases hb : bit_set bm v
    · rw [del_absent hv hlt hb] at h
      injection h with h
      injection h with _ h
      subst h
      exact ho
    · obtain ⟨b, hrun, hbits, hbuf, hmv, _, _, _, _⟩ := del_present hv hlt hb
      rw [hrun] at h
      injection h with h
      injection h with _ h
      subst h
      intro u hu hge
      have hlen : b.buf.length = bm.buf.length := by rw [hbuf]; simp
      rw [hbits u, ho u (by rw [← hlen]; exact hu) (by omega)]
      simp
  · rw [del_out_of_range (by omega)] at h
    injection h with h
    injection h with _ h
    subst h
    exact ho

theorem mask_last_idx {bm bm1 : Bitmap} (h : mask_last bm = .ok bm1) :
    bm.max_value / 32 < bm.buf.length := by
  unfold mask_last rd at h
  simp only [BITSIZEOF_u32] at h
  by_contra hc
  rw [List.getElem?_eq_none (by omega)] at h
  simp at h

/-- On a valid bitmap the re-mask statement can only run when the capacity is not a
multiple of 32. -/
theorem mask_last_not_multiple {bm b1 b2 : Bitmap} (hv : Valid bm) (hsh : SameShape b1 bm)
    (h : mask_last b1 = .ok b2) : bm.max_value % 32 ≠ 0 := by
  have h1 := mask_last_idx h
  rw [hsh.2.1, hsh.2.2.2, hv.1.1, hv.1.2.1] at h1
  omega

theorem not_overflow {bm bm1 : Bitmap} {r : Bool} (hv : Valid bm)
    (h : bitmap_not bm = .ok (r, bm1)) : OverflowZero bm1 := by
  have hm : bm.max_value % 32 ≠ 0 := by
    unfold bitmap_not at h
    simp only [hv.2, Bool.not_true, Bool.false_eq_true, if_false] at h
    split at h
    · cases h
    · rename_i b1 h1
      split at h
      · cases h
      · rename_i b2 h2
        exact mask_last_not_multiple hv (not_loop_shape _ _ _ _ h1) h2
  obtain ⟨b, hrun, hbits, hsh, _, _⟩ := not_spec hv hm
  rw [hrun] at h
  injection h with h
  injection h with _ h
  subst h
  intro u _ hge
  rw [hbits u]
  have : ¬ u < bm.max_value := by rw [hsh.2.1] at hge; omega
  simp [this]

theorem or_overflow {dst src bm1 : Bitmap} {r : Bool} (hd : Valid dst) (hs : Valid src)
    (h : bitmap_or dst src = .ok (r, bm1)) : OverflowZero bm1 := by
  have hm : dst.max_value % 32 ≠ 0 := by
    unfold bitmap_or at h
    simp only [hd.2, hs.2, Bool.not_true, Bool.false_eq_true, or_self, if_false] at h
    split at h
    · cases h
    · rename_i b1 h1
      split at h
      · cases h
      · rename_i b2 h2
        exact mask_last_not_multiple hd (or_loop_shape _ _ _ _ _ _ h1) h2
  obtain ⟨b, hrun, hsh, _, _, hw⟩ := or_spec hd hs hm
  have hbits := @or_bits dst src b hd hm hsh hw
  rw [hrun] at h
  injection h with h
  injection h with _ h
  subst h
  intro u _ hge
  rw [hbits u]
  have : ¬ u < dst.max_value := by rw [hsh.2.1] at hge; omega
  simp [this]

theorem and_overflow {dst src bm1 : Bitmap} {r : Bool} (hd : Valid dst) (hs : Valid src)
    (h : bitmap_and dst src = .ok (r, bm1)) : OverflowZero bm1 := by
  have hm : dst.max_value % 32 ≠ 0 := by
    unfold bitmap_and at h
    simp only [hd.2, hs.2, Bool.not_true, Bool.false_eq_true, or_self, if_false] at h
    split at h
    · cases h
    · rename_i k b1 h1
      split at h
      · cases h
      · rename_i b2 h2
        exact mask_last_not_multiple hd (and_loop_shape _ _ _ _ _ _ _ h1) h2
  obtain ⟨b, hrun, hsh, _, _, hw⟩ := and_spec hd hs hm
  have hbits := @and_bits dst src b hd hm hsh hw
  rw [hrun] at h
  injection h with h
  injection h with _ h
  subst h
  intro u _ hge
  rw [hbits u]
  have : ¬ u < dst.max_value := by rw [hsh.2.1] at hge; omega
  simp [this]

theorem expand_inv_gen (P : Bitmap → Prop)
    (hadd : ∀ (bm : Bitmap) (v : Nat) (r : Bool) (bm1 : Bitmap), P bm →
      bitmap_add_value bm v = .ok (r, bm1) → P bm1) :
    ∀ (fuel a : Nat) (v : Int) (bm bm1 : Bitmap) (st1 : Nat),
    P bm → parse_expand fuel a v bm = .ok (st1, bm1) → P bm1 := by
  intro fuel
  induction fuel with
  | zero => intro a v bm bm1 st1 _ h; simp [parse_expand] at h
  | succ fuel ih =>
    intro a v bm bm1 st1 hp h
    unfold parse_expand at h
    split_ifs at h
    · split at h
      · cases h
      · rename_i r b1 hrun
        exact ih _ _ _ _ _ (hadd _ _ _ _ hp hrun) h
    · injection h with h
      injection h with _ h
      subst h
      exact hp

theorem fill_inv_gen (P : Bitmap → Prop)
    (hadd : ∀ (bm : Bitmap) (v : Nat) (r : Bool) (bm1 : Bitmap), P bm →
      bitmap_add_value bm v = .ok (r, bm1) → P bm1) :
    ∀ (fuel : Nat) (s : List Char) (ir : Bool) (st : Nat) (bm bm1 : Bitmap),
    P bm → parse_fill fuel s ir st bm = .ok (some bm1) → P bm1 := by
  intro fuel
  induction fuel with
  | zero => intro s ir st bm bm1 _ h; simp [parse_fill] at h
  | succ fuel ih =>
    intro s ir st bm bm1 hp h
    rw [parse_fill] at h
    simp only at h
    split_ifs at h
    all_goals first
      | (injection h with h; injection h with h; subst h; exact hp)
      | (injection h with h; cases h)
      | (exact ih _ _ _ _ _ hp h)
      | (split at h
         · cases h
         · rename_i hrun
           first
             | exact ih _ _ _ _ _ (expand_inv_gen P hadd _ _ _ _ _ _ hp hrun) h
             | exact ih _ _ _ _ _ (hadd _ _ _ _ hp hrun) h)

theorem overflow_of_empty (bm : Bitmap) (hbits : ∀ u, bit_set bm u = false) : OverflowZero bm :=
  fun u _ _ => hbits u

theorem parse_overflow (malloc_ok : Bool) (str : List Char) (bm : Bitmap)
    (h : bitmap_parse_str malloc_ok str = .ok (some bm)) : OverflowZero bm := by
  unfold bitmap_parse_str at h
  split_ifs at h
  · cases h
  · split at h
    · cases h
    · cases h
    · rename_i m hscan
      split_ifs at h
      · cases h
      · split at h
        · cases h
        · rename_i bm0 hcreate
          obtain ⟨hv0, hs0⟩ := create_valid _ _ bm0 hcreate (Nat.mod_lt _ (by norm_num))
          obtain ⟨_, _, _, _, _, _, _, hb0, _, _⟩ := create_spec _ _ bm0 hcreate
          have := fill_inv_gen (fun b => Valid b ∧ StatsOK b ∧ OverflowZero b)
            (fun b v r b1 hp hrun =>
              ⟨(add_inv hp.1 hp.2.1 hrun).1, (add_inv hp.1 hp.2.1 hrun).2,
                add_overflow hp.1 hp.2.2 hrun⟩)
            _ _ _ _ _ _ ⟨hv0, hs0, overflow_of_empty bm0 hb0⟩ h
          exact this.2.2

theorem in_runs_false_of_gt {rs : List (Nat × Nat)} {u : Nat} (h : ∀ s ∈ rs, s.2 < u) :
    in_runs rs u = false := by
  induction rs with
  | nil => rfl
  | cons r rs ih =>
    rw [in_runs_cons, ih (fun s hs => h s (List.mem_cons_of_mem _ hs))]
    have := h r (List.mem_cons_self _ _)
    have : ¬ u ≤ r.2 := by omega
    simp [this]

/-- The set bits between a set bit `lo` and a set bit `hi` form a chain of maximal runs. -/
theorem runs_exist (p : Nat → Bool) : ∀ (n lo hi : Nat), hi - lo ≤ n → lo ≤ hi →
    p lo = true → p hi = true →
    ∃ (r : Nat × Nat) (rs : List (Nat × Nat)), r.1 = lo ∧ last_end r rs = hi ∧
      List.Chain' (fun r s : Nat × Nat => r.2 + 1 < s.1) (r :: rs) ∧
      (∀ s ∈ r :: rs, s.1 ≤ s.2) ∧
      (∀ u, lo ≤ u → u ≤ hi → p u = in_runs (r :: rs) u) := by
  intro n
  induction n with
  | zero =>
    intro lo hi hn hle hlo hhi
    have : hi = lo := by omega
    subst this
    refine ⟨(hi, hi), [], rfl, rfl, List.chain'_singleton _, ?_, ?_⟩
    · intro s hs
      rw [List.mem_singleton] at hs
      subst hs
      exact le_refl _
    · intro u h1 h2
      have : u = hi := by omega
      subst this
      simp [in_runs, hlo]
  | succ n ih =>
    intro lo hi hn hle hlo hhi
    by_cases hall : ∀ u, lo ≤ u → u ≤ hi → p u = true
    · refine ⟨(lo, hi), [], rfl, rfl, List.chain'_singleton _, ?_, ?_⟩
      · intro s hs
        rw [List.mem_singleton] at hs
        subst hs
        exact hle
      · intro u h1 h2
        rw [hall u h1 h2]
        simp [in_runs, h1, h2]
    · -- the first clear position after `lo`
      have hex : ∃ u, lo ≤ u ∧ u ≤ hi ∧ p u = false := by
        by_contra hc
        apply hall
        intro u h1 h2
        by_contra h3
        exact hc ⟨u, h1, h2, by simpa using h3⟩
      classical
      let u0 := Nat.find hex
      have hu0 : lo ≤ u0 ∧ u0 ≤ hi ∧ p u0 = false := Nat.find_spec hex
      have hmin : ∀ u, lo ≤ u → u < u0 → p u = true := by
        intro u h1 h2
        by_contra h3
        exact Nat.find_min hex h2 ⟨h1, by omega, by simpa using h3⟩
      have hlo0 : lo < u0 := by
        rcases Nat.lt_or_ge lo u0 with h | h
        · exact h
        · have : u0 = lo := by omega
          rw [this, hlo] at hu0
          exact absurd hu0.2.2 (by simp)
      have hu0hi : u0 < hi := by
        rcases Nat.lt_or_ge u0 hi with h | h
        · exact h
        · have : u0 = hi := by omega
          rw [this, hhi] at hu0
          exact absurd hu0.2.2 (by simp)
      -- the next set position
      have hex2 : ∃ a, u0 < a ∧ p a = true := ⟨hi, hu0hi, hhi⟩
      let a2 := Nat.find hex2
      have ha2 : u0 < a2 ∧ p a2 = true := Nat.find_spec hex2
      have ha2hi : a2 ≤ hi := Nat.find_min' hex2 ⟨hu0hi, hhi⟩
      have hgap : ∀ u, u0 ≤ u → u < a2 → p u = false := by
        intro u h1 h2
        rcases Nat.eq_or_lt_of_le h1 with h | h
        · rw [← h]; exact hu0.2.2
        · by_contra h3
          exact Nat.find_min hex2 h2 ⟨h, by simpa using h3⟩
      obtain ⟨r2, rs2, hr2, hlast, hch, hok, hbits⟩ := ih a2 hi (by omega) ha2hi ha2.2 hhi
      have hlater := chain_later hch hok
      have hr2ok := hok r2 (List.mem_cons_self _ _)
      refine ⟨(lo, u0 - 1), r2 :: rs2, rfl, hlast, ?_, ?_, ?_⟩
      · rw [List.chain'_cons]
        refine ⟨?_, hch⟩
        show u0 - 1 + 1 < r2.1
        omega
      · intro s hs
        rcases List.mem_cons.mp hs with rfl | hs
        · show lo ≤ u0 - 1
          omega
        · exact hok s hs
      · intro u h1 h2
        rw [in_runs_cons]
        show p u = ((decide (lo ≤ u) && decide (u ≤ u0 - 1)) || in_runs (r2 :: rs2) u)
        by_cases hc1 : u < u0
        · have : u ≤ u0 - 1 := by omega
          rw [hmin u h1 hc1]
          simp [h1, this]
        · have hn1 : ¬ u ≤ u0 - 1 := by omega
          by_cases hc2 : u < a2
          · rw [hgap u (by omega) hc2, in_runs_false_of_lt]
            · simp [hn1]
            · intro s hs
              rcases List.mem_cons.mp hs with rfl | hs
              · omega
              · have := hlater s hs; omega
          · rw [hbits u (by omega) h2]
            simp [hn1]

/-- What `bitmap_print` writes for a valid non-empty bitmap satisfying the invariants. -/
theorem print_spec {bm : Bitmap} (hv : Valid bm) (hi : Invariants bm) (hne : bm.numbers ≠ 0) :
    ∃ rs, Canonical rs ∧ (∀ u, member bm u = in_runs rs u) ∧
      bitmap_print bm = .ok (canon_text rs ++ [Char.ofNat 10]) := by
  obtain ⟨ho, hn, hp, _⟩ := hi
  have hpos : 0 < count_set bm := by omega
  obtain ⟨hf, hfb, hl, hlb, hall⟩ := hp hpos
  have hfl := (hall bm.first_value hf hfb).2
  obtain ⟨r, rs, hr, hlast, hch, hok, hbits⟩ :=
    runs_exist (bit_set bm) _ bm.first_value bm.last_value (le_refl _) hfl hfb hlb
  have hmax := valid_max hv
  have hends := le_last_end hch hok
  have hlater := chain_later hch hok
  have hcan : Canonical (r :: rs) := by
    refine ⟨by simp, fun s hs => ⟨hok s hs, ?_⟩, hch⟩
    have := hends s hs
    omega
  refine ⟨r :: rs, hcan, ?_, ?_⟩
  · intro u
    by_cases h1 : u < bm.first_value
    · have hm : member bm u = false := by
        cases hb : member bm u
        · rfl
        · unfold member at hb
          simp only [Bool.and_eq_true, decide_eq_true_eq] at hb
          have := (hall u hb.1 hb.2).1
          omega
      rw [hm, in_runs_false_of_lt]
      intro s hs
      rcases List.mem_cons.mp hs with rfl | hs
      · omega
      · have := hlater s hs
        have := hok r (List.mem_cons_self _ _)
        omega
    · by_cases h2 : u ≤ bm.last_value
      · rw [member_eq_bit (by omega)]
        exact hbits u (by omega) h2
      · have hm : member bm u = false := by
          cases hb : member bm u
          · rfl
          · unfold member at hb
            simp only [Bool.and_eq_true, decide_eq_true_eq] at hb
            have := (hall u hb.1 hb.2).2
            omega
        rw [hm, in_runs_false_of_gt]
        intro s hs
        have := hends s hs
        omega
  · exact print_of_runs hv r rs hcan hne hr.symm hlast.symm hl
      (fun u h1 h2 => hbits u (by rw [← hr]; exact h1) h2)

/-! ### The parser, one iteration at a time -/

theorem dropWhile_head {p : Char → Bool} {l : List Char} {c : Char} {r : List Char}
    (h : l.dropWhile p = c :: r) : p c = false := by
  induction l with
  | nil => simp at h
  | cons a l ih =>
    rw [List.dropWhile_cons] at h
    by_cases ha : p a = true
    · rw [if_pos ha] at h; exact ih h
    · rw [if_neg ha] at h
      injection h with h1 _
      subst h1
      simpa using ha

theorem mem_of_dropWhile {p : Char → Bool} {l : List Char} {c : Char}
    (h : c ∈ l.dropWhile p) : c ∈ l :=
  (List.dropWhile_sublist p).subset h

theorem length_dropWhile_le (p : Char → Bool) (l : List Char) :
    (l.dropWhile p).length ≤ l.length :=
  (List.dropWhile_sublist p).length_le

theorem length_skip_space_le (l : List Char) : (skip_space l).length ≤ l.length :=
  length_dropWhile_le _ l

theorem length_dropWhile_digit (d : Char) (s : List Char) (hd : isdigit d = true) :
    ((d :: s).dropWhile isdigit).length ≤ s.length := by
  rw [List.dropWhile_cons, if_pos hd]
  exact length_dropWhile_le _ s

theorem takeWhile_digit_ne_nil (d : Char) (s : List Char) (hd : isdigit d = true) :
    (d :: s).takeWhile isdigit ≠ [] := by
  rw [List.takeWhile_cons, if_pos hd]
  exact List.cons_ne_nil _ _

/-- The call of `strtol` at a decimal digit converts the maximal run of digits. -/
theorem strtol_at_digit (d : Char) (s : List Char) (hd : isdigit d = true) :
    strtol (d :: s) =
      if (digits_value ((d :: s).takeWhile isdigit) : Int) > LONG_MAX then
        { value := LONG_MAX, endptr := (d :: s).dropWhile isdigit, erange := true }
      else
        { value := (digits_value ((d :: s).takeWhile isdigit) : Int),
          endptr := (d :: s).dropWhile isdigit, erange := false } := by
  obtain ⟨h0, h1, h2, h3, h4, h5⟩ := isdigit_facts hd
  unfold strtol
  have e1 : (d :: s).dropWhile isspace = d :: s := by
    simp [List.dropWhile_cons, h5]
  simp only [e1]
  have e2 : deref (d :: s) = d := rfl
  simp only [e2]
  have h2' : ¬ d = '-' := h2
  have h4' : ¬ d = '+' := h4
  simp only [h2', h4', or_self, if_false, decide_False, Bool.false_eq_true,
    takeWhile_digit_ne_nil d s hd]

/-- The call of `strtol` at an entry separator makes no conversion. -/
theorem strtol_at_comma (s : List Char) :
    strtol (CHAR_ENTRY_SEPARATOR :: s) =
      { value := 0, endptr := CHAR_ENTRY_SEPARATOR :: s, erange := false } := by
  unfold strtol
  have e1 : (CHAR_ENTRY_SEPARATOR :: s).dropWhile isspace = CHAR_ENTRY_SEPARATOR :: s := by
    rw [List.dropWhile_cons, if_neg (by decide)]
  simp only [e1]
  have e2 : deref (CHAR_ENTRY_SEPARATOR :: s) = CHAR_ENTRY_SEPARATOR := rfl
  simp only [e2]
  have h2 : ¬ CHAR_ENTRY_SEPARATOR = '-' := by decide
  have h4 : ¬ CHAR_ENTRY_SEPARATOR = '+' := by decide
  have h5 : (CHAR_ENTRY_SEPARATOR :: s).takeWhile isdigit = [] := by
    rw [List.takeWhile_cons, if_neg (by decide)]
  simp only [h2, h4, or_self, if_false, h5, if_true]

theorem alpha_cases {c : Char} (h : Alpha c = true) :
    isdigit c = true ∨ c = CHAR_SPACE ∨ c = CHAR_RANGE_SEPARATOR ∨ c = CHAR_ENTRY_SEPARATOR := by
  unfold Alpha at h
  simp only [Bool.or_eq_true, decide_eq_true_eq] at h
  tauto

theorem alpha_ne_null {c : Char} (h : Alpha c = true) : c ≠ CHAR_NULL := by
  rintro rfl; revert h; decide

theorem alphaText_cons {c : Char} {s : List Char} (h : AlphaText (c :: s)) :
    Alpha c = true ∧ AlphaText s :=
  ⟨h c (List.mem_cons_self _ _), fun x hx => h x (List.mem_cons_of_mem _ hx)⟩

theorem alphaText_append {a b : List Char} :
    AlphaText (a ++ b) ↔ AlphaText a ∧ AlphaText b := by
  unfold AlphaText
  simp only [List.mem_append]
  constructor
  · intro h; exact ⟨fun c hc => h c (Or.inl hc), fun c hc => h c (Or.inr hc)⟩
  · rintro ⟨h1, h2⟩ c (hc | hc)
    · exact h1 c hc
    · exact h2 c hc

theorem alphaText_dropWhile (p : Char → Bool) {s : List Char} (h : AlphaText s) :
    AlphaText (s.dropWhile p) :=
  fun c hc => h c (mem_of_dropWhile hc)

theorem alphaText_tail {s : List Char} (h : AlphaText s) : AlphaText s.tail :=
  fun c hc => h c (List.mem_of_mem_tail hc)

theorem alphaText_skip {s : List Char} (h : AlphaText s) : AlphaText (skip_space s) :=
  alphaText_dropWhile _ h

theorem deref_ne_null_of_alpha {s : List Char} (h : AlphaText s) (hne : s ≠ []) :
    deref s ≠ CHAR_NULL := by
  obtain ⟨c, r, rfl⟩ := List.exists_cons_of_ne_nil hne
  exact alpha_ne_null (alphaText_cons h).1

theorem deref_eq_null_iff {s : List Char} (h : AlphaText s) :
    deref s = CHAR_NULL ↔ s = [] := by
  constructor
  · intro hd
    by_contra hne
    exact deref_ne_null_of_alpha h hne hd
  · rintro rfl; rfl

theorem skip_space_head {s : List Char} {c : Char} {r : List Char}
    (h : skip_space s = c :: r) : c ≠ CHAR_SPACE := by
  have := dropWhile_head h
  simpa using this
/-- One iteration of the second loop of the parser on a text of allowed characters, in
terms of the text after the leading spaces, its leading digits and the text after the
spaces that follow them. -/
theorem fill_step (s : List Char) (hs : AlphaText s) (f : Nat) (ir : Bool) (st : Nat)
    (bm : Bitmap) (p1 ds p2 : List Char) (hp1 : p1 = skip_space s)
    (hds : ds = p1.takeWhile isdigit) (hp2 : p2 = skip_space (p1.dropWhile isdigit)) :
    parse_fill (f + 1) s ir st bm =
      if p1 = [] then (if ir then .ok none else .ok (some bm))
      else if ds = [] ∨ 65535 ≤ digits_value ds then .ok none
      else if deref p2 = CHAR_ENTRY_SEPARATOR ∨ p2 = [] then
        if ir then
          if st > digits_value ds then .ok none
          else
            match parse_expand 65536 st (digits_value ds : Int) bm with
            | .error e => .error e
            | .ok (start_value1, bm1) => parse_fill f p2.tail false start_value1 bm1
        else
          match bitmap_add_value bm (digits_value ds) with
          | .error e => .error e
          | .ok (_, bm1) => parse_fill f p2.tail false st bm1
      else if deref p2 = CHAR_RANGE_SEPARATOR ∧ ir = false then
        parse_fill f p2.tail true (digits_value ds) bm
      else .ok none := by
  have hs1 : AlphaText p1 := by rw [hp1]; exact alphaText_skip hs
  have hs2 : AlphaText p2 := by
    rw [hp2]; exact alphaText_skip (alphaText_dropWhile _ hs1)
  rw [parse_fill]
  by_cases h1 : p1 = []
  · have hd1 : deref (skip_space s) = CHAR_NULL := by rw [← hp1, h1]; rfl
    simp only [h1, if_true, hd1, ite_self]
  · obtain ⟨c1, r1, hc1⟩ := List.exists_cons_of_ne_nil h1
    have hsne : s ≠ [] := by
      rintro rfl
      rw [hp1] at h1
      exact h1 rfl
    have hd0 : deref s ≠ CHAR_NULL := deref_ne_null_of_alpha hs hsne
    have hd1 : deref p1 ≠ CHAR_NULL := deref_ne_null_of_alpha hs1 h1
    have hnsp : c1 ≠ CHAR_SPACE := skip_space_head (hp1 ▸ hc1)
    have ha1 : Alpha c1 = true := hs1 c1 (by rw [hc1]; exact List.mem_cons_self _ _)
    rw [if_neg hd0, if_neg h1]
    simp only [← hp1]
    rw [if_neg hd1]
    rcases alpha_cases ha1 with hdig | hsp | hr | he
    · -- a digit
      obtain ⟨g0, g1, g2, g3, g4, g5⟩ := isdigit_facts hdig
      have hde : deref p1 = c1 := by rw [hc1]; rfl
      have hnr : ¬ deref p1 = CHAR_RANGE_SEPARATOR := by rw [hde]; exact g2
      rw [if_neg hnr]
      have hdsne : ds ≠ [] := by
        rw [hds, hc1]; exact takeWhile_digit_ne_nil c1 r1 hdig
      have hstr := strtol_at_digit c1 r1 hdig
      rw [← hc1, ← hds] at hstr
      have hlen : (p1.dropWhile isdigit).length < p1.length := by
        rw [hc1]
        have := length_dropWhile_digit c1 r1 hdig
        simp only [List.length_cons]
        omega
      have hne : ¬ (p1.dropWhile isdigit = p1) := by
        intro h
        rw [h] at hlen
        exact lt_irrefl _ hlen
      by_cases hbig : 65535 ≤ digits_value ds
      · have : (ds = [] ∨ 65535 ≤ digits_value ds) := Or.inr hbig
        rw [if_pos this]
        by_cases hlm : (digits_value ds : Int) > LONG_MAX
        · rw [hstr, if_pos hlm]
          simp
        · rw [hstr, if_neg hlm]
          have : ((digits_value ds : Int) ≥ 65535 ∨ (digits_value ds : Int) < 0 ∨ false = true) :=
            Or.inl (by omega)
          simp only [this, if_true]
      · have : ¬ (ds = [] ∨ 65535 ≤ digits_value ds) := by
          rintro (h | h)
          · exact hdsne h
          · exact hbig h
        rw [if_neg this]
        have hlm : ¬ (digits_value ds : Int) > LONG_MAX := by
          unfold LONG_MAX; omega
        rw [hstr, if_neg hlm]
        have hc : ¬ ((digits_value ds : Int) ≥ 65535 ∨ (digits_value ds : Int) < 0 ∨
            false = true) := by
          simp only [Bool.false_eq_true, or_false, not_or]
          omega
        have hmod : (digits_value ds : Int).toNat % 65536 = digits_value ds := by
          simp only [Int.toNat_ofNat]
          omega
        have hgt : ((st : Int) > (digits_value ds : Int)) ↔ st > digits_value ds := by
          omega
        have hnull : deref p2 = CHAR_NULL ↔ p2 = [] := deref_eq_null_iff hs2
        simp only [hc, if_false, hne, and_false, ← hp2, hmod, hgt, hnull]
        by_cases he : deref p2 = CHAR_ENTRY_SEPARATOR
        · simp only [he, true_or, if_true]
          try rfl
        · by_cases hn : p2 = []
          · simp only [he, hn, or_true, if_true, if_false, List.tail_nil]
            try rfl
          · simp only [he, hn, or_self, if_false]
    · exact absurd hsp hnsp
    · -- a range separator
      have hde : deref p1 = CHAR_RANGE_SEPARATOR := by rw [hc1, hr]; rfl
      rw [if_pos hde]
      have : ds = [] := by
        rw [hds, hc1, hr, List.takeWhile_cons, if_neg (by decide)]
      simp only [this, true_or, if_true]
    · -- an entry separator
      have hde : deref p1 = CHAR_ENTRY_SEPARATOR := by rw [hc1, he]; rfl
      have hnr : ¬ deref p1 = CHAR_RANGE_SEPARATOR := by rw [hde]; decide
      rw [if_neg hnr]
      have hdsnil : ds = [] := by
        rw [hds, hc1, he, List.takeWhile_cons, if_neg (by decide)]
      have hstr : strtol p1 = { value := 0, endptr := p1, erange := false } := by
        rw [hc1, he]; exact strtol_at_comma r1
      rw [hstr]
      simp [hdsnil]

/-! ### The first loop of the parser -/

/-- One iteration of the first loop of the parser. -/
theorem scan_step (c : Char) (s : List Char) (f : Nat) (m : Int) :
    parse_scan (f + 1) (c :: s) m =
      if c = CHAR_NULL then .ok (some m)
      else if c = CHAR_SPACE ∨ c = CHAR_RANGE_SEPARATOR ∨ c = CHAR_ENTRY_SEPARATOR then
        parse_scan f s m
      else if isdigit c then
        if 65535 ≤ digits_value ((c :: s).takeWhile isdigit) then .ok none
        else parse_scan f ((c :: s).dropWhile isdigit)
          (scan_max m [digits_value ((c :: s).takeWhile isdigit)])
      else .ok none := by
  rw [parse_scan]
  simp only [deref_cons, List.tail_cons]
  by_cases h0 : c = CHAR_NULL
  · simp only [h0, if_true]
  · rw [if_neg h0, if_neg h0]
    by_cases h1 : c = CHAR_SPACE ∨ c = CHAR_RANGE_SEPARATOR ∨ c = CHAR_ENTRY_SEPARATOR
    · rw [if_pos h1, if_pos h1]
    · rw [if_neg h1, if_neg h1]
      by_cases hd : isdigit c = true
      · rw [if_pos hd, if_pos hd, strtol_at_digit c s hd]
        by_cases hlm : (digits_value ((c :: s).takeWhile isdigit) : Int) > LONG_MAX
        · rw [if_pos hlm]
          have : 65535 ≤ digits_value ((c :: s).takeWhile isdigit) := by
            unfold LONG_MAX at hlm; omega
          simp [this]
        · rw [if_neg hlm]
          by_cases hbig : 65535 ≤ digits_value ((c :: s).takeWhile isdigit)
          · rw [if_pos hbig]
            have : ((digits_value ((c :: s).takeWhile isdigit) : Int) ≥ 65535 ∨
                (digits_value ((c :: s).takeWhile isdigit) : Int) < 0 ∨ false = true) :=
              Or.inl (by omega)
            simp only [this, if_true]
          · rw [if_neg hbig]
            have hc : ¬ ((digits_value ((c :: s).takeWhile isdigit) : Int) ≥ 65535 ∨
                (digits_value ((c :: s).takeWhile isdigit) : Int) < 0 ∨ false = true) := by
              simp only [Bool.false_eq_true, or_false, not_or]
              omega
            simp only [hc, if_false]
            rfl
      · rw [if_neg hd, if_neg hd]

/-- The first loop of the parser ends, whatever the text. -/
theorem scan_total : ∀ (n : Nat) (s : List Char), s.length ≤ n → ∀ m : Int,
    ∃ r, ScanTo s m r := by
  intro n
  induction n with
  | zero =>
    intro s hs m
    have : s = [] := List.length_eq_zero.mp (Nat.le_zero.mp hs)
    subst this
    exact ⟨_, scan_nil m⟩
  | succ n ih =>
    intro s hs m
    cases s with
    | nil => exact ⟨_, scan_nil m⟩
    | cons c s =>
      have hlen : s.length ≤ n := by simpa using hs
      by_cases h0 : c = CHAR_NULL
      · refine ⟨some m, fun fuel hf => ?_⟩
        cases fuel with
        | zero => simp at hf
        | succ f => rw [scan_step, if_pos h0]
      · by_cases h1 : c = CHAR_SPACE ∨ c = CHAR_RANGE_SEPARATOR ∨ c = CHAR_ENTRY_SEPARATOR
        · obtain ⟨r, hr⟩ := ih s hlen m
          exact ⟨r, scan_sep h1 hr⟩
        · by_cases hd : isdigit c = true
          · by_cases hbig : 65535 ≤ digits_value ((c :: s).takeWhile isdigit)
            · refine ⟨none, fun fuel hf => ?_⟩
              cases fuel with
              | zero => simp at hf
              | succ f => rw [scan_step, if_neg h0, if_neg h1, if_pos hd, if_pos hbig]
            · have hl := length_dropWhile_digit c s hd
              obtain ⟨r, hr⟩ := ih ((c :: s).dropWhile isdigit) (by omega)
                (scan_max m [digits_value ((c :: s).takeWhile isdigit)])
              refine ⟨r, fun fuel hf => ?_⟩
              cases fuel with
              | zero => simp at hf
              | succ f =>
                rw [scan_step, if_neg h0, if_neg h1, if_pos hd, if_neg hbig]
                apply hr
                simp only [List.length_cons] at hf
                omega
          · refine ⟨none, fun fuel hf => ?_⟩
            cases fuel with
            | zero => simp at hf
            | succ f => rw [scan_step, if_neg h0, if_neg h1, if_neg hd]

/-- The result of the first loop does not depend on the bound, once above the length. -/
theorem scan_fuel {s : List Char} {m : Int} {r : Option Int} {f : Nat} (hf : s.length < f)
    (h : parse_scan f s m = .ok r) : ScanTo s m r := by
  obtain ⟨r1, hr1⟩ := scan_total s.length s le_rfl m
  have := hr1 f hf
  rw [h] at this
  injection this with this
  rw [this]
  exact hr1

/-- A C string that passes the first loop is made of allowed characters. -/
theorem scan_alpha : ∀ (f : Nat) (s : List Char) (m r : Int), CString s →
    parse_scan f s m = .ok (some r) → AlphaText s := by
  intro f
  induction f with
  | zero => intro s m r _ h; simp [parse_scan] at h
  | succ f ih =>
    intro s m r hcs h
    cases s with
    | nil => intro c hc; simp at hc
    | cons c s =>
      have h0 : c ≠ CHAR_NULL := by
        intro hc
        apply hcs
        rw [← hc]
        exact List.mem_cons_self _ _
      have hcs1 : CString s := fun hm => hcs (List.mem_cons_of_mem _ hm)
      rw [scan_step, if_neg h0] at h
      by_cases h1 : c = CHAR_SPACE ∨ c = CHAR_RANGE_SEPARATOR ∨ c = CHAR_ENTRY_SEPARATOR
      · rw [if_pos h1] at h
        have hs := ih s m r hcs1 h
        intro x hx
        rcases List.mem_cons.mp hx with rfl | hx
        · rcases h1 with rfl | rfl | rfl <;> decide
        · exact hs x hx
      · rw [if_neg h1] at h
        by_cases hd : isdigit c = true
        · rw [if_pos hd] at h
          by_cases hbig : 65535 ≤ digits_value ((c :: s).takeWhile isdigit)
          · rw [if_pos hbig] at h; cases h
          · rw [if_neg hbig] at h
            have hcs2 : CString ((c :: s).dropWhile isdigit) :=
              fun hm => hcs (mem_of_dropWhile hm)
            have hs := ih _ _ r hcs2 h
            intro x hx
            rw [← List.takeWhile_append_dropWhile isdigit (c :: s)] at hx
            rcases List.mem_append.mp hx with hx | hx
            · have := List.mem_takeWhile_imp hx
              unfold Alpha
              simp [this]
            · exact hs x hx
        · rw [if_neg hd] at h; cases h

theorem digit_before_nil : digit_before [] = false := rfl

theorem digit_before_append (a : List Char) {b : List Char} (hb : b ≠ []) :
    digit_before (a ++ b) = digit_before b := by
  unfold digit_before
  rw [List.getLast?_append_of_ne_nil a hb]

theorem digit_before_singleton (c : Char) : digit_before [c] = isdigit c := rfl

/-- The condition that a position does not split a run of digits is inherited by the
positions that have a suffix of the text before them. -/
theorem split_suffix (a : List Char) {b post : List Char}
    (h : digit_before (a ++ b) = false ∨ isdigit (deref post) = false) :
    digit_before b = false ∨ isdigit (deref post) = false := by
  rcases h with h | h
  · by_cases hb : b = []
    · subst hb; exact Or.inl rfl
    · rw [digit_before_append a hb] at h; exact Or.inl h
  · exact Or.inr h

theorem split_dropWhile (p : Char → Bool) {pre post : List Char}
    (h : digit_before pre = false ∨ isdigit (deref post) = false) :
    digit_before (pre.dropWhile p) = false ∨ isdigit (deref post) = false := by
  apply split_suffix (pre.takeWhile p)
  rw [List.takeWhile_append_dropWhile]
  exact h

theorem split_tail {c : Char} {pre post : List Char}
    (h : digit_before (c :: pre) = false ∨ isdigit (deref post) = false) :
    digit_before pre = false ∨ isdigit (deref post) = false :=
  split_suffix [c] h

theorem takeWhile_not_digit {post : List Char} (h : isdigit (deref post) = false) :
    post.takeWhile isdigit = [] ∧ post.dropWhile isdigit = post := by
  cases post with
  | nil => exact ⟨rfl, rfl⟩
  | cons c r =>
    rw [deref_cons] at h
    simp [List.takeWhile_cons, List.dropWhile_cons, h]

/-- The leading digits of a text are those of a non-empty initial part of it, when the
part does not end within a run of digits. -/
theorem split_digits : ∀ (pre : List Char) (post : List Char), pre ≠ [] →
    (digit_before pre = false ∨ isdigit (deref post) = false) →
    (pre ++ post).takeWhile isdigit = pre.takeWhile isdigit ∧
      (pre ++ post).dropWhile isdigit = pre.dropWhile isdigit ++ post := by
  intro pre
  induction pre with
  | nil => intro post h; exact absurd rfl h
  | cons c p ih =>
    intro post _ hsp
    by_cases hd : isdigit c = true
    · simp only [List.cons_append, List.takeWhile_cons, List.dropWhile_cons, if_pos hd]
      by_cases hp : p = []
      · subst hp
        have hpost : isdigit (deref post) = false := by
          rcases hsp with h | h
          · rw [digit_before_singleton, hd] at h; cases h
          · exact h
        obtain ⟨h1, h2⟩ := takeWhile_not_digit hpost
        simp [h1, h2]
      · obtain ⟨h1, h2⟩ := ih post hp (split_tail hsp)
        rw [h1, h2]
        exact ⟨rfl, rfl⟩
    · constructor
      · simp [List.takeWhile_cons, hd]
      · simp [List.dropWhile_cons, hd]

theorem cstring_append {a b : List Char} : CString (a ++ b) ↔ CString a ∧ CString b := by
  unfold CString
  simp only [List.mem_append, not_or]

theorem cstring_cons {c : Char} {s : List Char} (h : CString (c :: s)) :
    c ≠ CHAR_NULL ∧ CString s := by
  unfold CString at *
  simp only [List.mem_cons, not_or] at h
  exact ⟨fun hc => h.1 hc.symm, h.2⟩

theorem cstring_dropWhile (p : Char → Bool) {s : List Char} (h : CString s) :
    CString (s.dropWhile p) :=
  fun hm => h (mem_of_dropWhile hm)

/-- A successful run of the first loop over a text is, from any position that does not
split a run of digits, a successful run over the rest of the text. -/
theorem scan_factor : ∀ (f : Nat) (pre rest : List Char) (m r : Int), CString pre →
    (digit_before pre = false ∨ isdigit (deref rest) = false) →
    parse_scan f (pre ++ rest) m = .ok (some r) →
    ∃ f1 m1, parse_scan f1 rest m1 = .ok (some r) := by
  intro f
  induction f with
  | zero => intro pre rest m r _ _ h; simp [parse_scan] at h
  | succ f ih =>
    intro pre rest m r hcs hsp h
    cases pre with
    | nil => exact ⟨f + 1, m, h⟩
    | cons c p =>
      obtain ⟨h0, hcs1⟩ := cstring_cons hcs
      rw [List.cons_append, scan_step, if_neg h0] at h
      by_cases h1 : c = CHAR_SPACE ∨ c = CHAR_RANGE_SEPARATOR ∨ c = CHAR_ENTRY_SEPARATOR
      · rw [if_pos h1] at h
        exact ih p rest m r hcs1 (split_tail hsp) h
      · rw [if_neg h1] at h
        by_cases hd : isdigit c = true
        · rw [if_pos hd] at h
          by_cases hbig : 65535 ≤ digits_value ((c :: (p ++ rest)).takeWhile isdigit)
          · rw [if_pos hbig] at h; cases h
          · rw [if_neg hbig, ← List.cons_append] at h
            rw [(split_digits (c :: p) rest (List.cons_ne_nil _ _) hsp).2] at h
            exact ih _ rest _ r (cstring_dropWhile _ hcs) (split_dropWhile _ hsp) h
        · rw [if_neg hd] at h; cases h

/-- Inserting a space at a position that does not split a run of digits does not change
the result of the first loop. -/
theorem scan_insert : ∀ (n : Nat) (pre : List Char), pre.length ≤ n →
    ∀ (post : List Char) (m : Int) (r : Option Int),
    (digit_before pre = false ∨ isdigit (deref post) = false) →
    ScanTo (pre ++ post) m r → ScanTo (pre ++ CHAR_SPACE :: post) m r := by
  intro n
  induction n with
  | zero =>
    intro pre hn post m r _ h
    have : pre = [] := List.length_eq_zero.mp (Nat.le_zero.mp hn)
    subst this
    exact scan_sep (Or.inl rfl) h
  | succ n ih =>
    intro pre hn post m r hsp h
    cases pre with
    | nil => exact scan_sep (Or.inl rfl) h
    | cons c p =>
      have hlen : p.length ≤ n := by simpa using hn
      intro fuel hf
      cases fuel with
      | zero => simp at hf
      | succ f =>
        simp only [List.cons_append, List.length_cons, List.length_append] at hf
        have hf2 : (c :: p ++ post).length < f + 1 := by
          simp only [List.cons_append, List.length_cons, List.length_append]
          omega
        have h2 := h (f + 1) hf2
        rw [List.cons_append, scan_step] at h2 ⊢
        by_cases h0 : c = CHAR_NULL
        · rw [if_pos h0] at h2 ⊢; exact h2
        · rw [if_neg h0] at h2 ⊢
          by_cases h1 : c = CHAR_SPACE ∨ c = CHAR_RANGE_SEPARATOR ∨ c = CHAR_ENTRY_SEPARATOR
          · rw [if_pos h1] at h2 ⊢
            have h3 := scan_fuel (by simp only [List.length_append]; omega) h2
            exact ih p hlen post m r (split_tail hsp) h3 f
              (by simp only [List.length_append, List.length_cons]; omega)
          · rw [if_neg h1] at h2 ⊢
            by_cases hd : isdigit c = true
            · rw [if_pos hd] at h2 ⊢
              rw [← List.cons_append] at h2 ⊢
              obtain ⟨e1, e2⟩ := split_digits (c :: p) post (List.cons_ne_nil _ _) hsp
              obtain ⟨e3, e4⟩ := split_digits (c :: p) (CHAR_SPACE :: post)
                (List.cons_ne_nil _ _) (Or.inr (by rw [deref_cons]; decide))
              rw [e1, e2] at h2
              rw [e3, e4]
              by_cases hbig : 65535 ≤ digits_value ((c :: p).takeWhile isdigit)
              · rw [if_pos hbig] at h2 ⊢; exact h2
              · rw [if_neg hbig] at h2 ⊢
                have hl := length_dropWhile_digit c p hd
                have h3 := scan_fuel (by simp only [List.length_append]; omega) h2
                exact ih _ (by omega) post _ r (split_dropWhile _ hsp) h3 f
                  (by simp only [List.length_append, List.length_cons]; omega)
            · rw [if_neg hd] at h2 ⊢; exact h2

/-- Without a decimal digit in the text, the first loop leaves its maximum as it was. -/
theorem scan_no_digit : ∀ (f : Nat) (s : List Char) (m r : Int),
    (∀ c ∈ s, isdigit c = false) → parse_scan f s m = .ok (some r) → r = m := by
  intro f
  induction f with
  | zero => intro s m r _ h; simp [parse_scan] at h
  | succ f ih =>
    intro s m r hs h
    cases s with
    | nil =>
      simp only [parse_scan, deref_nil, if_true] at h
      injection h with h; injection h with h; exact h.symm
    | cons c s =>
      have hc : ¬ (isdigit c = true) := by
        rw [hs c (List.mem_cons_self _ _)]; simp
      rw [scan_step, if_neg hc] at h
      split_ifs at h with h0 h1
      · injection h with h; injection h with h; exact h.symm
      · exact ih s m r (fun x hx => hs x (List.mem_cons_of_mem _ hx)) h
      · cases h

/-- The function `bitmap_parse_str` in terms of its two loops; the test of an empty text
at its start is subsumed by the test of the maximum. -/
theorem parse_unfold (malloc_ok : Bool) (str : List Char) :
    bitmap_parse_str malloc_ok str =
      match parse_scan (str.length + 1) str (-1) with
      | .error e => .error e
      | .ok none => .ok none
      | .ok (some max_value) =>
        if max_value < 0 then .ok none
        else
          match bitmap_create malloc_ok ((max_value.toNat % 65536 + 1) % 65536) with
          | none => .ok none
          | some bm => parse_fill (str.length + 1) str false 0 bm := by
  unfold bitmap_parse_str
  by_cases h : deref str = CHAR_NULL
  · rw [if_pos h]
    have : parse_scan (str.length + 1) str (-1) = .ok (some (-1)) := by
      rw [parse_scan, if_pos h]
    rw [this]
    rfl
  · rw [if_neg h]
    try rfl

/-- A text that the first loop rejects is rejected. -/
theorem parse_scan_none (malloc_ok : Bool) {str : List Char} (h : ScanTo str (-1) none) :
    bitmap_parse_str malloc_ok str = .ok none := by
  rw [parse_unfold, h _ (Nat.lt_succ_self _)]

/-- A text is rejected when no run of the first loop over it succeeds. -/
theorem parse_scan_fails (malloc_ok : Bool) {str : List Char}
    (h : ∀ f r, parse_scan f str (-1) ≠ .ok (some r)) :
    bitmap_parse_str malloc_ok str = .ok none := by
  obtain ⟨r, hr⟩ := scan_total str.length str le_rfl (-1)
  cases r with
  | none => exact parse_scan_none malloc_ok hr
  | some r => exact absurd (hr _ (Nat.lt_succ_self _)) (h _ r)

/-! ### The second loop of the parser -/

theorem add_total {bm : Bitmap} (v : Nat) (hv : Valid bm) (hs : StatsOK bm) :
    ∃ r bm1, bitmap_add_value bm v = .ok (r, bm1) ∧ Valid bm1 ∧ StatsOK bm1 := by
  by_cases hlt : v < bm.max_value
  · obtain ⟨r, bm1, hrun, _, _, hv1, hs1⟩ := add_any hv hs hlt
    exact ⟨r, bm1, hrun, hv1, hs1⟩
  · exact ⟨false, bm, add_out_of_range (not_lt.mp hlt), hv, hs⟩

/-- The loop that expands a range ends, whatever the capacity of the bitmap. -/
theorem expand_total : ∀ (fuel a b : Nat) (bm : Bitmap), Valid bm → StatsOK bm →
    a ≤ b + 1 → b < 65535 → b + 1 - a < fuel →
    ∃ bm1, parse_expand fuel a (b : Int) bm = .ok (b + 1, bm1) ∧ Valid bm1 ∧ StatsOK bm1 := by
  intro fuel
  induction fuel with
  | zero => intro a b bm _ _ _ _ h; omega
  | succ fuel ih =>
    intro a b bm hv hs hab hb hfuel
    unfold parse_expand
    by_cases hle : a ≤ b
    · have hle1 : (a : Int) ≤ (b : Int) := by omega
      rw [if_pos hle1]
      obtain ⟨r, bm1, hrun, hv1, hs1⟩ := add_total a hv hs
      rw [hrun]
      have hmod : (a + 1) % 65536 = a + 1 := Nat.mod_eq_of_lt (by omega)
      simp only [hmod]
      exact ih (a + 1) b bm1 hv1 hs1 (by omega) hb (by omega)
    · have hle1 : ¬ (a : Int) ≤ (b : Int) := by omega
      rw [if_neg hle1]
      have : a = b + 1 := by omega
      subst this
      exact ⟨bm, rfl, hv, hs⟩

theorem length_tail_le (l : List Char) : l.tail.length ≤ l.length := by
  cases l <;> simp

/-- The text left after a number is shorter than the text. -/
theorem length_after_number {s p1 ds p2 : List Char} (hp1 : p1 = skip_space s)
    (hds : ds = p1.takeWhile isdigit) (hp2 : p2 = skip_space (p1.dropWhile isdigit))
    (hne : ds ≠ []) : p2.tail.length < s.length := by
  have h1 : p2.tail.length ≤ p2.length := length_tail_le p2
  have h2 : p2.length ≤ (p1.dropWhile isdigit).length := by
    rw [hp2]; exact length_skip_space_le _
  have h3 : p1.length ≤ s.length := by rw [hp1]; exact length_skip_space_le _
  have h4 : ds.length + (p1.dropWhile isdigit).length = p1.length := by
    rw [hds, ← List.length_append, List.takeWhile_append_dropWhile]
  have h5 : 0 < ds.length := List.length_pos.mpr hne
  omega

theorem alphaText_after_number {s p1 p2 : List Char} (hs : AlphaText s)
    (hp1 : p1 = skip_space s) (hp2 : p2 = skip_space (p1.dropWhile isdigit)) :
    AlphaText p2.tail := by
  rw [hp2, hp1]
  exact alphaText_tail (alphaText_skip (alphaText_dropWhile _ (alphaText_skip hs)))

/-- The second loop of the parser ends on every text of allowed characters, from a valid
bitmap that satisfies the statistics invariant. -/
theorem fill_total : ∀ (n : Nat) (s : List Char), s.length ≤ n → AlphaText s →
    ∀ (ir : Bool) (st : Nat) (bm : Bitmap), Valid bm → StatsOK bm →
    ∃ r, FillTo s ir st bm r := by
  intro n
  induction n with
  | zero =>
    intro s hn hs ir st bm _ _
    have : s = [] := List.length_eq_zero.mp (Nat.le_zero.mp hn)
    subst this
    refine ⟨if ir then none else some bm, fun fuel hf => ?_⟩
    cases fuel with
    | zero => simp at hf
    | succ f =>
      rw [parse_fill, if_pos deref_nil]
      cases ir <;> rfl
  | succ n ih =>
    intro s hn hs ir st bm hv hst
    have key := fun f => fill_step s hs f ir st bm _ _ _ rfl rfl rfl
    have hlt := @length_after_number s _ _ _ rfl rfl rfl
    have hal := @alphaText_after_number s _ _ hs rfl rfl
    by_cases h1 : skip_space s = []
    · refine ⟨if ir then none else some bm, fun fuel hf => ?_⟩
      cases fuel with
      | zero => simp at hf
      | succ f =>
        rw [key, if_pos h1]
        cases ir <;> rfl
    · by_cases h2 : (skip_space s).takeWhile isdigit = [] ∨
          65535 ≤ digits_value ((skip_space s).takeWhile isdigit)
      · refine ⟨none, fun fuel hf => ?_⟩
        cases fuel with
        | zero => simp at hf
        | succ f => rw [key, if_neg h1, if_pos h2]
      · have hne : (skip_space s).takeWhile isdigit ≠ [] := fun h => h2 (Or.inl h)
        have hsmall : digits_value ((skip_space s).takeWhile isdigit) < 65535 := by
          by_contra h
          exact h2 (Or.inr (not_lt.mp h))
        have hlt1 := hlt hne
        by_cases h3 : deref (skip_space ((skip_space s).dropWhile isdigit))
            = CHAR_ENTRY_SEPARATOR ∨ skip_space ((skip_space s).dropWhile isdigit) = []
        · cases ir with
          | true =>
            by_cases h4 : st > digits_value ((skip_space s).takeWhile isdigit)
            · refine ⟨none, fun fuel hf => ?_⟩
              cases fuel with
              | zero => simp at hf
              | succ f =>
                rw [key, if_neg h1, if_neg h2, if_pos h3, if_pos rfl, if_pos h4]
            · obtain ⟨bm1, hexp, hv1, hs1⟩ := expand_total 65536 st _ bm hv hst
                (by omega) hsmall (by omega)
              obtain ⟨r, hr⟩ := ih _ (by omega) hal false
                (digits_value ((skip_space s).takeWhile isdigit) + 1) bm1 hv1 hs1
              refine ⟨r, fun fuel hf => ?_⟩
              cases fuel with
              | zero => simp at hf
              | succ f =>
                rw [key, if_neg h1, if_neg h2, if_pos h3, if_pos rfl, if_neg h4, hexp]
                exact hr f (by omega)
          | false =>
            obtain ⟨b, bm1, hadd, hv1, hs1⟩ :=
              add_total (digits_value ((skip_space s).takeWhile isdigit)) hv hst
            obtain ⟨r, hr⟩ := ih _ (by omega) hal false st bm1 hv1 hs1
            refine ⟨r, fun fuel hf => ?_⟩
            cases fuel with
            | zero => simp at hf
            | succ f =>
              rw [key, if_neg h1, if_neg h2, if_pos h3, if_neg (by simp), hadd]
              exact hr f (by omega)
        · by_cases h5 : deref (skip_space ((skip_space s).dropWhile isdigit))
              = CHAR_RANGE_SEPARATOR ∧ ir = false
          · obtain ⟨r, hr⟩ := ih _ (by omega) hal true
              (digits_value ((skip_space s).takeWhile isdigit)) bm hv hst
            refine ⟨r, fun fuel hf => ?_⟩
            cases fuel with
            | zero => simp at hf
            | succ f =>
              rw [key, if_neg h1, if_neg h2, if_neg h3, if_pos h5]
              exact hr f (by omega)
          · refine ⟨none, fun fuel hf => ?_⟩
            cases fuel with
            | zero => simp at hf
            | succ f => rw [key, if_neg h1, if_neg h2, if_neg h3, if_neg h5]

/-- The result of the second loop does not depend on the bound, once above the length. -/
theorem fill_fuel {s : List Char} {ir : Bool} {st : Nat} {bm : Bitmap} {r : Option Bitmap}
    {f : Nat} (hs : AlphaText s) (hv : Valid bm) (hst : StatsOK bm) (hf : s.length < f)
    (h : parse_fill f s ir st bm = .ok r) : FillTo s ir st bm r := by
  obtain ⟨r1, hr1⟩ := fill_total s.length s le_rfl hs ir st bm hv hst
  have := hr1 f hf
  rw [h] at this
  injection this with this
  rw [this]
  exact hr1

/-! ### Positions within a text -/

theorem skip_space_append_ne {pre : List Char} (h : skip_space pre ≠ []) (post : List Char) :
    skip_space (pre ++ post) = skip_space pre ++ post := by
  unfold skip_space at *
  rw [List.dropWhile_append]
  have : ¬ ((List.dropWhile (fun c => decide (c = CHAR_SPACE)) pre).isEmpty = true) := by
    rw [List.isEmpty_iff]; exact h
  rw [if_neg this]

theorem skip_space_append_nil {pre : List Char} (h : skip_space pre = []) (post : List Char) :
    skip_space (pre ++ post) = skip_space post := by
  unfold skip_space at *
  rw [List.dropWhile_append]
  have : (List.dropWhile (fun c => decide (c = CHAR_SPACE)) pre).isEmpty = true := by
    rw [List.isEmpty_iff]; exact h
  rw [if_pos this]

theorem skip_space_cons_space (post : List Char) :
    skip_space (CHAR_SPACE :: post) = skip_space post := by
  unfold skip_space
  rw [List.dropWhile_cons, if_pos (by simp)]

theorem skip_space_cons_ne {c : Char} (hc : c ≠ CHAR_SPACE) (rest : List Char) :
    skip_space (c :: rest) = c :: rest := by
  unfold skip_space
  rw [List.dropWhile_cons, if_neg (by simpa using hc)]

/-- Skipping spaces stops at the latest at a character that is not a space. -/
theorem skip_space_stop {c : Char} (hc : c ≠ CHAR_SPACE) (pre rest : List Char) :
    skip_space (pre ++ c :: rest) = skip_space pre ++ c :: rest := by
  by_cases h : skip_space pre = []
  · rw [skip_space_append_nil h, h, skip_space_cons_ne hc]; rfl
  · exact skip_space_append_ne h _

/-- Reading digits stops at the latest at a character that is not a digit. -/
theorem digits_stop {c : Char} (hc : isdigit c = false) (pre rest : List Char) :
    (pre ++ c :: rest).takeWhile isdigit = pre.takeWhile isdigit ∧
      (pre ++ c :: rest).dropWhile isdigit = pre.dropWhile isdigit ++ c :: rest := by
  by_cases h : pre = []
  · subst h
    simp [List.takeWhile_cons, List.dropWhile_cons, hc]
  · exact split_digits pre (c :: rest) h (Or.inr (by rw [deref_cons]; exact hc))

theorem deref_append_ne {pre : List Char} (h : pre ≠ []) (post : List Char) :
    deref (pre ++ post) = deref pre := by
  obtain ⟨c, r, rfl⟩ := List.exists_cons_of_ne_nil h
  rfl

theorem tail_append_ne {pre : List Char} (h : pre ≠ []) (post : List Char) :
    (pre ++ post).tail = pre.tail ++ post := by
  obtain ⟨c, r, rfl⟩ := List.exists_cons_of_ne_nil h
  rfl

/-! ### Successful runs of the second loop -/

/-- What a successful iteration of the second loop has done: the text was at its end, or
a number below 65535 was read and the loop went on after the separator that follows it. -/
theorem fill_step_some {s : List Char} (hs : AlphaText s) {f : Nat} {ir : Bool} {st : Nat}
    {bm res : Bitmap} (h : parse_fill (f + 1) s ir st bm = .ok (some res)) :
    (skip_space s = [] ∧ ir = false) ∨
    ((skip_space s).takeWhile isdigit ≠ [] ∧
      digits_value ((skip_space s).takeWhile isdigit) < 65535 ∧
      (((deref (skip_space ((skip_space s).dropWhile isdigit)) = CHAR_ENTRY_SEPARATOR ∨
            skip_space ((skip_space s).dropWhile isdigit) = []) ∧
          (ir = true → st ≤ digits_value ((skip_space s).takeWhile isdigit)) ∧
          ∃ st1 bm1, parse_fill f (skip_space ((skip_space s).dropWhile isdigit)).tail
            false st1 bm1 = .ok (some res)) ∨
        (deref (skip_space ((skip_space s).dropWhile isdigit)) = CHAR_RANGE_SEPARATOR ∧
          ir = false ∧
          parse_fill f (skip_space ((skip_space s).dropWhile isdigit)).tail true
            (digits_value ((skip_space s).takeWhile isdigit)) bm = .ok (some res)))) := by
  rw [fill_step s hs f ir st bm _ _ _ rfl rfl rfl] at h
  by_cases h1 : skip_space s = []
  · rw [if_pos h1] at h
    cases ir with
    | true => simp at h
    | false => exact Or.inl ⟨h1, rfl⟩
  · rw [if_neg h1] at h
    by_cases h2 : (skip_space s).takeWhile isdigit = [] ∨
        65535 ≤ digits_value ((skip_space s).takeWhile isdigit)
    · rw [if_pos h2] at h; cases h
    · rw [if_neg h2] at h
      have hne : (skip_space s).takeWhile isdigit ≠ [] := fun h => h2 (Or.inl h)
      have hsmall : digits_value ((skip_space s).takeWhile isdigit) < 65535 := by
        by_contra hc
        exact h2 (Or.inr (not_lt.mp hc))
      refine Or.inr ⟨hne, hsmall, ?_⟩
      by_cases h3 : deref (skip_space ((skip_space s).dropWhile isdigit))
          = CHAR_ENTRY_SEPARATOR ∨ skip_space ((skip_space s).dropWhile isdigit) = []
      · rw [if_pos h3] at h
        left
        refine ⟨h3, ?_⟩
        cases ir with
        | true =>
          rw [if_pos rfl] at h
          by_cases h4 : st > digits_value ((skip_space s).takeWhile isdigit)
          · rw [if_pos h4] at h; cases h
          · rw [if_neg h4] at h
            refine ⟨fun _ => not_lt.mp h4, ?_⟩
            cases hexp : parse_expand 65536 st
                (digits_value ((skip_space s).takeWhile isdigit) : Int) bm with
            | error e => rw [hexp] at h; cases h
            | ok p =>
              obtain ⟨st1, bm1⟩ := p
              rw [hexp] at h
              exact ⟨st1, bm1, h⟩
        | false =>
          rw [if_neg (by simp)] at h
          refine ⟨fun hc => Bool.noConfusion hc, ?_⟩
          cases hadd : bitmap_add_value bm
              (digits_value ((skip_space s).takeWhile isdigit)) with
          | error e => rw [hadd] at h; cases h
          | ok p =>
            obtain ⟨b, bm1⟩ := p
            rw [hadd] at h
            exact ⟨st, bm1, h⟩
      · rw [if_neg h3] at h
        by_cases h5 : deref (skip_space ((skip_space s).dropWhile isdigit))
            = CHAR_RANGE_SEPARATOR ∧ ir = false
        · rw [if_pos h5] at h
          exact Or.inr ⟨h5.1, h5.2, h⟩
        · rw [if_neg h5] at h; cases h

/-- The text after a number, when the text is cut at a separator `c`. -/
theorem after_number_stop {c : Char} (hc1 : c ≠ CHAR_SPACE) (hc2 : isdigit c = false)
    (pre rest : List Char) :
    skip_space ((skip_space (pre ++ c :: rest)).dropWhile isdigit) =
      skip_space ((skip_space pre).dropWhile isdigit) ++ c :: rest := by
  rw [skip_space_stop hc1, (digits_stop hc2 _ _).2, skip_space_stop hc1]

/-- A successful run of the second loop over a text consumes each separator of the text
as the separator that follows a number: from a comma it goes on outside a range, from
a dash inside a range. -/
theorem fill_reach {c : Char}
    (hc : c = CHAR_ENTRY_SEPARATOR ∨ c = CHAR_RANGE_SEPARATOR) (rest : List Char)
    {res : Bitmap} : ∀ (f : Nat) (pre : List Char) (ir : Bool) (st : Nat) (bm : Bitmap),
    AlphaText (pre ++ c :: rest) →
    parse_fill f (pre ++ c :: rest) ir st bm = .ok (some res) →
    ∃ f1 st1 bm1,
      parse_fill f1 rest (decide (c = CHAR_RANGE_SEPARATOR)) st1 bm1 = .ok (some res) := by
  have hc1 : c ≠ CHAR_SPACE := by rcases hc with rfl | rfl <;> decide
  have hc2 : isdigit c = false := by rcases hc with rfl | rfl <;> decide
  intro f
  induction f with
  | zero => intro pre ir st bm _ h; simp [parse_fill] at h
  | succ f ih =>
    intro pre ir st bm hs h
    have hal := @alphaText_after_number (pre ++ c :: rest) _ _ hs rfl rfl
    have hp2 := after_number_stop hc1 hc2 pre rest
    rcases fill_step_some hs h with ⟨h1, _⟩ | ⟨_, _, hA | hB⟩
    · rw [skip_space_stop hc1] at h1
      simp at h1
    · obtain ⟨hsep, _, st1, bm1, hcont⟩ := hA
      rw [hp2] at hsep hcont hal
      by_cases h3 : skip_space ((skip_space pre).dropWhile isdigit) = []
      · rw [h3] at hsep hcont
        simp only [List.nil_append, deref_cons, List.tail_cons] at hsep hcont
        rcases hsep with hsep | hsep
        · subst hsep
          exact ⟨f, st1, bm1, hcont⟩
        · cases hsep
      · rw [tail_append_ne h3] at hcont hal
        exact ih _ false st1 bm1 hal hcont
    · obtain ⟨hsep, _, hcont⟩ := hB
      rw [hp2] at hsep hcont hal
      by_cases h3 : skip_space ((skip_space pre).dropWhile isdigit) = []
      · rw [h3] at hsep hcont
        simp only [List.nil_append, deref_cons, List.tail_cons] at hsep hcont
        subst hsep
        exact ⟨f, _, bm, hcont⟩
      · rw [tail_append_ne h3] at hcont hal
        exact ih _ true _ bm hal hcont

/-- Within a range, the end of the text (after spaces) is a failure. -/
theorem fill_spaces_open (k f st : Nat) (bm res : Bitmap) :
    parse_fill f (List.replicate k CHAR_SPACE) true st bm ≠ .ok (some res) := by
  intro h
  cases f with
  | zero => simp [parse_fill] at h
  | succ f =>
    have hs : AlphaText (List.replicate k CHAR_SPACE) := by
      intro c hc
      rw [List.eq_of_mem_replicate hc]; decide
    rcases fill_step_some hs h with ⟨_, h1⟩ | ⟨h1, _⟩
    · cases h1
    · apply h1
      have : skip_space (List.replicate k CHAR_SPACE) = [] := by
        have := skip_space_spaces k [] (by decide)
        simpa using this
      rw [this]; rfl

/-! ### Rejected texts -/

/-- The three parts of a number of the grammar, as the second loop reads them. -/
theorem tok_view (t : NumTok) (hl : Literal t.digits) (tl : List Char)
    (htl1 : deref tl ≠ CHAR_SPACE) (htl2 : isdigit (deref tl) = false) :
    skip_space (t.text ++ tl) = t.digits ++ (List.replicate t.post CHAR_SPACE ++ tl) ∧
      (skip_space (t.text ++ tl)).takeWhile isdigit = t.digits ∧
      skip_space ((skip_space (t.text ++ tl)).dropWhile isdigit) = tl := by
  obtain ⟨d, ds1, hd⟩ := List.exists_cons_of_ne_nil hl.1
  have hdig := hl.2 d (by rw [hd]; exact List.mem_cons_self _ _)
  obtain ⟨h0, h1, h2, h3, h4, h5⟩ := isdigit_facts hdig
  have hrest := not_digit_spaces t.post htl2
  have hp1 : skip_space (t.text ++ tl)
      = t.digits ++ (List.replicate t.post CHAR_SPACE ++ tl) := by
    unfold NumTok.text
    rw [List.append_assoc, List.append_assoc]
    apply skip_space_spaces
    rw [hd]; exact h1
  refine ⟨hp1, ?_, ?_⟩
  · rw [hp1]; exact takeWhile_digits _ _ hl.2 hrest
  · rw [hp1, dropWhile_digits _ _ hl.2 hrest]
    exact skip_space_spaces _ _ htl1

/-- A C string is rejected when no run of the second loop over it succeeds. -/
theorem parse_fill_fails (malloc_ok : Bool) {str : List Char} (hcs : CString str)
    (h : AlphaText str → ∀ f bm res, parse_fill f str false 0 bm ≠ .ok (some res)) :
    bitmap_parse_str malloc_ok str = .ok none := by
  obtain ⟨r, hr⟩ := scan_total str.length str le_rfl (-1)
  have hrun := hr _ (Nat.lt_succ_self _)
  rw [parse_unfold, hrun]
  cases r with
  | none => rfl
  | some mx =>
    have hal := scan_alpha _ _ _ _ hcs hrun
    simp only
    split_ifs with hneg
    · rfl
    · cases hc : bitmap_create malloc_ok ((mx.toNat % 65536 + 1) % 65536) with
      | none => rfl
      | some bm =>
        simp only
        obtain ⟨hv, hst⟩ := create_valid _ _ bm hc (Nat.mod_lt _ (by norm_num))
        obtain ⟨r2, hr2⟩ := fill_total str.length str le_rfl hal false 0 bm hv hst
        rw [hr2 _ (Nat.lt_succ_self _)]
        cases r2 with
        | none => rfl
        | some res => exact absurd (hr2 _ (Nat.lt_succ_self _)) (h hal _ bm res)

/-- From the start of a range entry `A-B` with `A > B`, no run of the second loop
succeeds. -/
theorem fill_inverted (a b : NumTok) (tl : List Char) (ha : Literal a.digits)
    (hb : Literal b.digits) (hab : a.value > b.value)
    (htl : tl = [] ∨ ∃ p3, tl = CHAR_ENTRY_SEPARATOR :: p3)
    (hs : AlphaText (a.text ++ CHAR_RANGE_SEPARATOR :: (b.text ++ tl)))
    (f st : Nat) (bm res : Bitmap) :
    parse_fill f (a.text ++ CHAR_RANGE_SEPARATOR :: (b.text ++ tl)) false st bm
      ≠ .ok (some res) := by
  intro h
  have htl1 : deref tl ≠ CHAR_SPACE := by
    rcases htl with rfl | ⟨p3, rfl⟩
    · decide
    · rw [deref_cons]; decide
  have htl2 : isdigit (deref tl) = false := by
    rcases htl with rfl | ⟨p3, rfl⟩ <;> rfl
  obtain ⟨a1, a2, a3⟩ := tok_view a ha (CHAR_RANGE_SEPARATOR :: (b.text ++ tl))
    (by rw [deref_cons]; decide) (by rw [deref_cons]; decide)
  obtain ⟨b1, b2, b3⟩ := tok_view b hb tl htl1 htl2
  have hs2 : AlphaText (b.text ++ tl) := by
    have := (alphaText_append.mp hs).2
    exact (alphaText_cons this).2
  cases f with
  | zero => simp [parse_fill] at h
  | succ f =>
    rcases fill_step_some hs h with ⟨h1, _⟩ | ⟨_, _, hA | hB⟩
    · rw [a1] at h1
      have := congrArg List.length h1
      have hpos := List.length_pos.mpr ha.1
      simp only [List.length_append, List.length_nil] at this
      omega
    · rw [a3, deref_cons] at hA
      rcases hA.1 with h2 | h2
      · revert h2; decide
      · cases h2
    · obtain ⟨_, _, hcont⟩ := hB
      rw [a3, a2, List.tail_cons] at hcont
      cases f with
      | zero => simp [parse_fill] at hcont
      | succ f =>
        rcases fill_step_some hs2 hcont with ⟨_, h1⟩ | ⟨_, _, hA | hB⟩
        · cases h1
        · have := hA.2.1 rfl
          rw [b2] at this
          unfold NumTok.value at hab
          omega
        · cases hB.2.1

/-! ### Texts that the second loop reads alike -/

/-- Two texts on which an iteration of the second loop reads the same number, finds the
same separator after it, and goes on alike, give the same result. -/
theorem fill_congr {s t : List Char} (hs : AlphaText s) (ht : AlphaText t) {f g : Nat}
    {ir : Bool} {st : Nat} {bm : Bitmap} {r : Option Bitmap} (hv : Valid bm)
    (hst : StatsOK bm)
    (h1 : skip_space s = [] ↔ skip_space t = [])
    (h2 : (skip_space s).takeWhile isdigit = (skip_space t).takeWhile isdigit)
    (h3 : deref (skip_space ((skip_space s).dropWhile isdigit))
      = deref (skip_space ((skip_space t).dropWhile isdigit)))
    (h4 : skip_space ((skip_space s).dropWhile isdigit) = [] ↔
      skip_space ((skip_space t).dropWhile isdigit) = [])
    (hcont : ∀ ir1 st1 bm1, Valid bm1 → StatsOK bm1 →
      parse_fill f (skip_space ((skip_space s).dropWhile isdigit)).tail ir1 st1 bm1 = .ok r →
      parse_fill g (skip_space ((skip_space t).dropWhile isdigit)).tail ir1 st1 bm1 = .ok r)
    (h : parse_fill (f + 1) s ir st bm = .ok r) :
    parse_fill (g + 1) t ir st bm = .ok r := by
  rw [fill_step s hs f ir st bm _ _ _ rfl rfl rfl] at h
  rw [fill_step t ht g ir st bm _ _ _ rfl rfl rfl]
  rw [← h2, ← h3]
  by_cases c1 : skip_space s = []
  · rw [if_pos c1] at h
    rw [if_pos (h1.mp c1)]
    exact h
  · rw [if_neg c1] at h
    rw [if_neg (fun hc => c1 (h1.mpr hc))]
    by_cases c2 : (skip_space s).takeWhile isdigit = [] ∨
        65535 ≤ digits_value ((skip_space s).takeWhile isdigit)
    · rw [if_pos c2] at h
      rw [if_pos c2]
      exact h
    · rw [if_neg c2] at h
      rw [if_neg c2]
      by_cases c3 : deref (skip_space ((skip_space s).dropWhile isdigit))
          = CHAR_ENTRY_SEPARATOR ∨ skip_space ((skip_space s).dropWhile isdigit) = []
      · have c3t : deref (skip_space ((skip_space s).dropWhile isdigit))
            = CHAR_ENTRY_SEPARATOR ∨ skip_space ((skip_space t).dropWhile isdigit) = [] := by
          rcases c3 with c | c
          · exact Or.inl c
          · exact Or.inr (h4.mp c)
        rw [if_pos c3] at h
        rw [if_pos c3t]
        cases ir with
        | true =>
          rw [if_pos rfl] at h
          rw [if_pos rfl]
          by_cases c4 : st > digits_value ((skip_space s).takeWhile isdigit)
          · rw [if_pos c4] at h
            rw [if_pos c4]
            exact h
          · rw [if_neg c4] at h
            rw [if_neg c4]
            cases hexp : parse_expand 65536 st
                (digits_value ((skip_space s).takeWhile isdigit) : Int) bm with
            | error e => rw [hexp] at h; exact h
            | ok p =>
              obtain ⟨st1, bm1⟩ := p
              rw [hexp] at h
              obtain ⟨hv1, hs1⟩ := expand_inv _ _ _ _ _ _ hv hst hexp
              exact hcont false st1 bm1 hv1 hs1 h
        | false =>
          rw [if_neg (by simp)] at h
          rw [if_neg (by simp)]
          cases hadd : bitmap_add_value bm
              (digits_value ((skip_space s).takeWhile isdigit)) with
          | error e => rw [hadd] at h; exact h
          | ok p =>
            obtain ⟨b, bm1⟩ := p
            rw [hadd] at h
            obtain ⟨hv1, hs1⟩ := add_inv hv hst hadd
            exact hcont false st bm1 hv1 hs1 h
      · have c3t : ¬ (deref (skip_space ((skip_space s).dropWhile isdigit))
            = CHAR_ENTRY_SEPARATOR ∨ skip_space ((skip_space t).dropWhile isdigit) = []) := by
          rintro (c | c)
          · exact c3 (Or.inl c)
          · exact c3 (Or.inr (h4.mpr c))
        rw [if_neg c3] at h
        rw [if_neg c3t]
        by_cases c5 : deref (skip_space ((skip_space s).dropWhile isdigit))
            = CHAR_RANGE_SEPARATOR ∧ ir = false
        · rw [if_pos c5] at h
          rw [if_pos c5]
          exact hcont true _ bm hv hst h
        · rw [if_neg c5] at h
          rw [if_neg c5]
          exact h

theorem alphaText_space_insert {pre post : List Char} (h : AlphaText (pre ++ post)) :
    AlphaText (pre ++ CHAR_SPACE :: post) := by
  obtain ⟨h1, h2⟩ := alphaText_append.mp h
  refine alphaText_append.mpr ⟨h1, ?_⟩
  intro c hc
  rcases List.mem_cons.mp hc with rfl | hc
  · decide
  · exact h2 c hc

theorem split_tail_list {pre post : List Char}
    (h : digit_before pre = false ∨ isdigit (deref post) = false) :
    digit_before pre.tail = false ∨ isdigit (deref post) = false := by
  cases pre with
  | nil => exact Or.inl rfl
  | cons c p => exact split_tail h

/-- Inserting a space at a position that does not split a run of digits does not change
the result of the second loop. -/
theorem fill_insert : ∀ (n : Nat) (pre : List Char), pre.length ≤ n →
    ∀ (post : List Char) (ir : Bool) (st : Nat) (bm : Bitmap) (r : Option Bitmap),
    AlphaText (pre ++ post) → Valid bm → StatsOK bm →
    (digit_before pre = false ∨ isdigit (deref post) = false) →
    FillTo (pre ++ post) ir st bm r → FillTo (pre ++ CHAR_SPACE :: post) ir st bm r := by
  intro n
  induction n using Nat.strong_induction_on with
  | _ n ih =>
    intro pre hn post ir st bm r hs hv hst hsp hfill fuel hfuel
    cases fuel with
    | zero => simp at hfuel
    | succ f =>
      have hlen : (pre ++ CHAR_SPACE :: post).length = (pre ++ post).length + 1 := by
        simp only [List.length_append, List.length_cons]; omega
      have h := hfill (f + 1) (by omega)
      have hs1 := alphaText_space_insert hs
      by_cases hA : skip_space pre = []
      · -- the position is within the leading spaces
        have e1 : skip_space (pre ++ post) = skip_space post := skip_space_append_nil hA _
        have e2 : skip_space (pre ++ CHAR_SPACE :: post) = skip_space post := by
          rw [skip_space_append_nil hA, skip_space_cons_space]
        refine fill_congr hs hs1 hv hst ?_ ?_ ?_ ?_ ?_ h
        · rw [e1, e2]
        · rw [e1, e2]
        · rw [e1, e2]
        · rw [e1, e2]
        · rw [e1, e2]; intro _ _ _ _ _ hc; exact hc
      · have e1 : skip_space (pre ++ post) = skip_space pre ++ post :=
          skip_space_append_ne hA _
        have e2 : skip_space (pre ++ CHAR_SPACE :: post)
            = skip_space pre ++ CHAR_SPACE :: post := skip_space_append_ne hA _
        have hsp1 : digit_before (skip_space pre) = false ∨ isdigit (deref post) = false :=
          split_dropWhile _ hsp
        obtain ⟨d1, d2⟩ := split_digits (skip_space pre) post hA hsp1
        obtain ⟨d3, d4⟩ := split_digits (skip_space pre) (CHAR_SPACE :: post) hA
          (Or.inr (by rw [deref_cons]; decide))
        by_cases hB : skip_space ((skip_space pre).dropWhile isdigit) = []
        · -- the position is within the spaces after the number
          have e3 : skip_space ((skip_space (pre ++ post)).dropWhile isdigit)
              = skip_space post := by
            rw [e1, d2, skip_space_append_nil hB]
          have e4 : skip_space ((skip_space (pre ++ CHAR_SPACE :: post)).dropWhile isdigit)
              = skip_space post := by
            rw [e2, d4, skip_space_append_nil hB, skip_space_cons_space]
          refine fill_congr hs hs1 hv hst ?_ ?_ ?_ ?_ ?_ h
          · rw [e1, e2]; simp [hA]
          · rw [e1, e2, d1, d3]
          · rw [e3, e4]
          · rw [e3, e4]
          · rw [e3, e4]; intro _ _ _ _ _ hc; exact hc
        · -- the position is after the separator that follows the number
          have e3 : skip_space ((skip_space (pre ++ post)).dropWhile isdigit)
              = skip_space ((skip_space pre).dropWhile isdigit) ++ post := by
            rw [e1, d2, skip_space_append_ne hB]
          have e4 : skip_space ((skip_space (pre ++ CHAR_SPACE :: post)).dropWhile isdigit)
              = skip_space ((skip_space pre).dropWhile isdigit) ++ CHAR_SPACE :: post := by
            rw [e2, d4, skip_space_append_ne hB]
          have hl3 : (skip_space ((skip_space pre).dropWhile isdigit)).tail.length
              < pre.length := by
            have a1 := length_skip_space_le ((skip_space pre).dropWhile isdigit)
            have a2 := length_dropWhile_le isdigit (skip_space pre)
            have a3 := length_skip_space_le pre
            have a4 := List.length_pos.mpr hB
            have a5 : (skip_space ((skip_space pre).dropWhile isdigit)).tail.length
                = (skip_space ((skip_space pre).dropWhile isdigit)).length - 1 :=
              List.length_tail _
            omega
          have hsp3 : digit_before (skip_space ((skip_space pre).dropWhile isdigit)).tail
              = false ∨ isdigit (deref post) = false :=
            split_tail_list (split_dropWhile _ (split_dropWhile _ hsp1))
          have hal3 : AlphaText
              ((skip_space ((skip_space pre).dropWhile isdigit)).tail ++ post) := by
            obtain ⟨g1, g2⟩ := alphaText_append.mp hs
            exact alphaText_append.mpr ⟨alphaText_tail (alphaText_skip
              (alphaText_dropWhile _ (alphaText_skip g1))), g2⟩
          refine fill_congr hs hs1 hv hst ?_ ?_ ?_ ?_ ?_ h
          · rw [e1, e2]; simp [hA]
          · rw [e1, e2, d1, d3]
          · rw [e3, e4, deref_append_ne hB, deref_append_ne hB]
          · rw [e3, e4]; simp [hB]
          · rw [e3, e4, tail_append_ne hB, tail_append_ne hB]
            intro ir1 st1 bm1 hv1 hs1 hc
            have hf3 : ((skip_space ((skip_space pre).dropWhile isdigit)).tail
                ++ post).length < f := by
              simp only [List.length_append, List.length_cons] at hlen hfuel ⊢
              omega
            have hfill3 := fill_fuel hal3 hv1 hs1 hf3 hc
            exact ih _ (lt_of_lt_of_le hl3 hn) _ le_rfl post ir1 st1 bm1 r hal3 hv1 hs1
              hsp3 hfill3 f (by
                simp only [List.length_append, List.length_cons] at hlen hfuel ⊢
                omega)

/-- The results of the two loops are not changed by spaces inserted at a position that
does not split a run of digits. -/
theorem insert_spaces (pre post : List Char)
    (hsp : digit_before pre = false ∨ isdigit (deref post) = false) : ∀ k : Nat,
    (∀ m r, ScanTo (pre ++ post) m r →
      ScanTo (pre ++ (List.replicate k CHAR_SPACE ++ post)) m r) ∧
    (∀ ir st bm r, AlphaText (pre ++ post) → Valid bm → StatsOK bm →
      FillTo (pre ++ post) ir st bm r →
      FillTo (pre ++ (List.replicate k CHAR_SPACE ++ post)) ir st bm r) ∧
    (AlphaText (pre ++ post) → AlphaText (pre ++ (List.replicate k CHAR_SPACE ++ post))) := by
  intro k
  induction k with
  | zero =>
    simp only [List.replicate_zero, List.nil_append]
    exact ⟨fun _ _ h => h, fun _ _ _ _ _ _ _ h => h, fun h => h⟩
  | succ k ih =>
    obtain ⟨i1, i2, i3⟩ := ih
    have hsp1 : digit_before pre = false ∨
        isdigit (deref (List.replicate k CHAR_SPACE ++ post)) = false := by
      cases k with
      | zero => simpa using hsp
      | succ j => right; rw [List.replicate_succ, List.cons_append, deref_cons]; decide
    rw [List.replicate_succ, List.cons_append]
    refine ⟨fun m r h => ?_, fun ir st bm r hs hv hst h => ?_, fun h => ?_⟩
    · exact scan_insert _ pre le_rfl _ m r hsp1 (i1 m r h)
    · exact fill_insert _ pre le_rfl _ ir st bm r (i3 hs) hv hst hsp1 (i2 ir st bm r hs hv hst h)
    · exact alphaText_space_insert (i3 h)

/-! ### Capacities that are a multiple of 32 -/

/-- For a capacity that is a multiple of 32, the word index `max_value / 32` is the number
of words. -/
theorem multiple_idx {bm : Bitmap} (hv : Valid bm) (hm : bm.max_value % 32 = 0) :
    bm.max_value / 32 = bm.buf.length ∧ bm.buf.length = bm.buf_len := by
  obtain ⟨⟨h1, h2, _⟩, _⟩ := hv
  omega

theorem rd_at_length (buf : List Nat) : rd buf buf.length = .error .out_of_bounds := by
  unfold rd
  simp

theorem mask_last_at_length {bm : Bitmap} (h : bm.max_value / 32 = bm.buf.length) :
    mask_last bm = .error .out_of_bounds := by
  unfold mask_last
  simp only [BITSIZEOF_u32, h, rd_at_length]

theorem not_loop_at_length : ∀ (fuel i : Nat) (bm : Bitmap),
    bm.max_value / 32 = bm.buf.length → i ≤ bm.buf.length → bm.buf.length - i < fuel →
    bm.buf.length < 4294967295 → bitmap_not_loop fuel i bm = .error .out_of_bounds := by
  intro fuel
  induction fuel with
  | zero => intro i bm _ _ h _; omega
  | succ fuel ih =>
    intro i bm hidx hi hf hlen
    unfold bitmap_not_loop
    have hle : i ≤ bm.max_value / BITSIZEOF_u32 := by
      simp only [BITSIZEOF_u32]; omega
    rw [if_pos hle]
    by_cases hlt : i < bm.buf.length
    · rw [rd_of_lt hlt]
      simp only
      rw [wr_of_lt _ hlt]
      simp only
      have hmod : (i + 1) % 4294967296 = i + 1 := Nat.mod_eq_of_lt (by omega)
      rw [hmod]
      apply ih
      · simpa using hidx
      · simpa using hlt
      · simp only [List.length_set]; omega
      · simpa using hlen
    · have : i = bm.buf.length := by omega
      rw [this, rd_at_length]

/-- On a capacity that is a multiple of 32, `bitmap_not` reads the word one past the last
word. -/
theorem not_multiple {bm : Bitmap} (hv : Valid bm) (hm : bm.max_value % 32 = 0) :
    bitmap_not bm = .error .out_of_bounds := by
  obtain ⟨h1, h2⟩ := multiple_idx hv hm
  have hmax := valid_max hv
  unfold bitmap_not
  simp only [hv.2, Bool.not_true, Bool.false_eq_true, if_false]
  rw [not_loop_at_length 65536 0 bm h1 (Nat.zero_le _) (by omega) (by omega)]

/-- On a capacity that is a multiple of 32, `bitmap_or` re-masks the word one past the last
word. -/
theorem or_multiple {dst src : Bitmap} (hd : Valid dst) (hs : Valid src)
    (hm : dst.max_value % 32 = 0) : bitmap_or dst src = .error .out_of_bounds := by
  obtain ⟨h1, h2⟩ := multiple_idx hd hm
  have hmax := valid_max hd
  have hmax2 := valid_max hs
  have hl2 := hs.1.1
  have hb2 := hs.1.2.1
  unfold bitmap_or
  simp only [hd.2, hs.2, Bool.not_true, Bool.false_eq_true, or_self, if_false]
  obtain ⟨bm1, hrun, hsh, _⟩ := or_loop_spec
    (if dst.buf_len < src.buf_len then dst.buf_len else src.buf_len) src 65536 0 dst
    (by split_ifs <;> omega) (by split_ifs <;> omega) (by split_ifs <;> omega)
    (Nat.zero_le _) (by split_ifs <;> omega)
  rw [hrun]
  simp only
  rw [mask_last_at_length (by rw [hsh.2.1, hsh.2.2.2]; exact h1)]

/-- On a capacity that is a multiple of 32, `bitmap_and` re-masks the word one past the
last word. -/
theorem and_multiple {dst src : Bitmap} (hd : Valid dst) (hs : Valid src)
    (hm : dst.max_value % 32 = 0) : bitmap_and dst src = .error .out_of_bounds := by
  obtain ⟨h1, h2⟩ := multiple_idx hd hm
  have hmax := valid_max hd
  have hmax2 := valid_max hs
  have hl2 := hs.1.1
  have hb2 := hs.1.2.1
  unfold bitmap_and
  simp only [hd.2, hs.2, Bool.not_true, Bool.false_eq_true, or_self, if_false]
  obtain ⟨bm1, hrun, hsh, _⟩ := and_loop_spec
    (if dst.buf_len < src.buf_len then dst.buf_len else src.buf_len) src 65536 0 dst
    (by split_ifs <;> omega) (by split_ifs <;> omega) (by split_ifs <;> omega)
    (Nat.zero_le _) (by split_ifs <;> omega)
  rw [hrun]
  simp only
  rw [mask_last_at_length (by rw [hsh.2.1, hsh.2.2.2]; exact h1)]

/-- Delete returns, whatever the value. -/
theorem del_total {bm : Bitmap} (v : Nat) (hv : Valid bm) :
    ∃ r bm1, bitmap_del_value bm v = .ok (r, bm1) := by
  by_cases hlt : v < bm.max_value
  · cases hb : bit_set bm v
    · exact ⟨true, bm, del_absent hv hlt hb⟩
    · obtain ⟨bm1, hrun, _⟩ := del_present hv hlt hb
      exact ⟨true, bm1, hrun⟩
  · exact ⟨false, bm, del_out_of_range (not_lt.mp hlt)⟩

/-- Print returns on a valid bitmap that satisfies the invariants. -/
theorem print_total {bm : Bitmap} (hv : Valid bm) (hi : Invariants bm) :
    ∃ out, bitmap_print bm = .ok out := by
  by_cases hne : bm.numbers = 0
  · refine ⟨"No values".toList ++ [Char.ofNat 10], ?_⟩
    unfold bitmap_print
    simp only [hv.2, Bool.not_true, Bool.false_eq_true, if_false, hne, if_true]
  · obtain ⟨rs, _, _, hrun⟩ := print_spec hv hi hne
    exact ⟨_, hrun⟩

/-! ### Delete after Add -/

/-- Deleting a value right after it was added as a new member gives back the bitmap. -/
theorem add_del_same {bm : Bitmap} {value : Nat} (hv : Valid bm) (hs : StatsOK bm)
    (hlt : value < bm.max_value) (hb : bit_set bm value = false) :
    ∃ bm1, bitmap_add_value bm value = .ok (true, bm1) ∧
      bitmap_del_value bm1 value = .ok (true, bm) := by
  obtain ⟨bm1, hadd, hbits1, _, _, _, hmv1, hbl1, hv1, hs1⟩ := add_new hv hs hlt hb
  have hb1 : bit_set bm1 value = true := by rw [hbits1]; simp
  obtain ⟨bm2, hdel, hbits2, _, hmv2, hbl2, _, hv2, hs2⟩ :=
    del_present hv1 (by rw [hmv1]; exact hlt) hb1
  have hbits : ∀ u, bit_set bm2 u = bit_set bm u := by
    intro u
    rw [hbits2, hbits1]
    by_cases hu : u = value
    · subst hu; simp [hb]
    · simp [hu]
  have hlen : bm2.buf.length = bm.buf.length := by
    rw [hv2.1.1, hv.1.1, hbl2, hbl1]
  have hbuf := buf_eq_of_bits hv2.1 hv.1 hlen hbits
  have hself : bm2.bm_self = bm.bm_self := by
    rw [(check_bounds hv2.2).1, (check_bounds hv.2).1]
  have : bm2 = bm :=
    stats_unique hs2 hs ⟨hself, by rw [hmv2, hmv1], by rw [hbl2, hbl1], hbuf⟩
  rw [this] at hdel
  exact ⟨bm1, hadd, hdel⟩

/-! ### Bitmaps with the same members -/

theorem count_member (a : Bitmap) : ∀ N : Nat,
    Nat.count (fun v => member a v = true) N
      = Nat.count (fun v => bit_set a v = true) (min N a.max_value) := by
  intro N
  induction N with
  | zero => simp
  | succ N ih =>
    rw [Nat.count_succ, ih]
    by_cases h : N < a.max_value
    · have e1 : min (N + 1) a.max_value = N + 1 := by omega
      have e2 : min N a.max_value = N := by omega
      rw [e1, e2, Nat.count_succ, member_eq_bit h]
    · have e1 : min (N + 1) a.max_value = min N a.max_value := by omega
      have hm : ¬ (member a N = true) := by
        unfold member
        simp [h]
      rw [e1, if_neg hm, Nat.add_zero]

theorem count_set_of_members {a b : Bitmap} (hm : ∀ u, member a u = member b u) :
    count_set a = count_set b := by
  have h1 := count_member a (max a.max_value b.max_value)
  have h2 := count_member b (max a.max_value b.max_value)
  have e1 : min (max a.max_value b.max_value) a.max_value = a.max_value := by omega
  have e2 : min (max a.max_value b.max_value) b.max_value = b.max_value := by omega
  rw [e1] at h1
  rw [e2] at h2
  have hf : (fun v => member a v = true) = (fun v => member b v = true) := by
    funext v; rw [hm v]
  unfold count_set
  rw [← h1, ← h2]
  simp only [hf]

/-- The cached statistics are determined by the members: two bitmaps with the same members
that satisfy the statistics invariant have the same `numbers`, `first_value` and
`last_value`, whatever their capacities. -/
theorem stats_of_members {a b : Bitmap} (ha : StatsOK a) (hb : StatsOK b)
    (hm : ∀ u, member a u = member b u) :
    a.numbers = b.numbers ∧ a.first_value = b.first_value ∧ a.last_value = b.last_value := by
  have hc := count_set_of_members hm
  obtain ⟨an, ap, az⟩ := ha
  obtain ⟨bn, bp, bz⟩ := hb
  refine ⟨by rw [an, bn, hc], ?_⟩
  by_cases hpos : 0 < count_set a
  · obtain ⟨a1, a2, a3, a4, a5⟩ := ap hpos
    obtain ⟨b1, b2, b3, b4, b5⟩ := bp (by rw [← hc]; exact hpos)
    have ma : ∀ u, member a u = true ↔ u < a.max_value ∧ bit_set a u = true := by
      intro u; unfold member; simp
    have mb : ∀ u, member b u = true ↔ u < b.max_value ∧ bit_set b u = true := by
      intro u; unfold member; simp
    have f1 := (mb a.first_value).mp (by rw [← hm]; exact (ma _).mpr ⟨a1, a2⟩)
    have f2 := (ma b.first_value).mp (by rw [hm]; exact (mb _).mpr ⟨b1, b2⟩)
    have l1 := (mb a.last_value).mp (by rw [← hm]; exact (ma _).mpr ⟨a3, a4⟩)
    have l2 := (ma b.last_value).mp (by rw [hm]; exact (mb _).mpr ⟨b3, b4⟩)
    have := b5 _ f1.1 f1.2
    have := a5 _ f2.1 f2.2
    have := b5 _ l1.1 l1.2
    have := a5 _ l2.1 l2.2
    omega
  · have h0 : count_set a = 0 := by omega
    obtain ⟨a1, a2⟩ := az h0
    obtain ⟨b1, b2⟩ := bz (by rw [← hc]; exact h0)
    omega

/-- Parsing the listing that `bitmap_print` writes for a non-empty bitmap gives a bitmap
with the same members and statistics, of capacity `last_value + 1`. -/
theorem print_parse_back {bm : Bitmap} (hv : Valid bm) (hi : Invariants bm)
    (hne : bm.numbers ≠ 0) :
    ∃ text bm1, bitmap_print bm = .ok (text ++ [Char.ofNat 10]) ∧
      bitmap_parse_str true text = .ok (some bm1) ∧
      (∀ u, member bm1 u = member bm u) ∧ bm1.numbers = bm.numbers ∧
      bm1.first_value = bm.first_value ∧ bm1.last_value = bm.last_value ∧
      bm1.max_value = bm.last_value + 1 ∧ Valid bm1 ∧ StatsOK bm1 := by
  obtain ⟨rs, hc, hmem, hprint⟩ := print_spec hv hi hne
  obtain ⟨r, rs1, rfl⟩ := List.exists_cons_of_ne_nil hc.1
  obtain ⟨bm1, hparse, _, hbits, hv1, hs1, hmv⟩ := parse_print_canonical r rs1 hc
  have hok : ∀ s ∈ r :: rs1, s.1 ≤ s.2 := fun s hs => (hc.2.1 s hs).1
  have hmem1 : ∀ u, member bm1 u = member bm u := by
    intro u
    rw [hmem u]
    unfold member
    rw [hbits u, hmv]
    cases hin : in_runs (r :: rs1) u
    · simp
    · obtain ⟨s, hs, _, h2⟩ := (in_runs_true_iff _ _).mp hin
      have := le_last_end hc.2.2 hok s hs
      have : u < last_end r rs1 + 1 := by omega
      simp [this]
  obtain ⟨e1, e2, e3⟩ := stats_of_members hs1 hi.2 hmem1
  -- the last member is the end of the last run
  have hpos : 0 < count_set bm := by
    have := hi.2.1
    omega
  obtain ⟨_, _, l3, l4, l5⟩ := hi.2.2.1 hpos
  have hlast : bm.last_value = last_end r rs1 := by
    have hin : in_runs (r :: rs1) bm.last_value = true := by
      rw [← hmem]; unfold member; simp [l3, l4]
    obtain ⟨s, hs, _, h2⟩ := (in_runs_true_iff _ _).mp hin
    have hle := le_last_end hc.2.2 hok s hs
    obtain ⟨t, ht, hte⟩ := last_end_mem r rs1
    have hin2 : in_runs (r :: rs1) (last_end r rs1) = true :=
      (in_runs_true_iff _ _).mpr ⟨t, ht, by rw [← hte]; exact hok t ht, by rw [hte]⟩
    rw [← hmem] at hin2
    unfold member at hin2
    simp only [Bool.and_eq_true, decide_eq_true_eq] at hin2
    have := (l5 _ hin2.1 hin2.2).2
    omega
  exact ⟨_, bm1, hprint, hparse, hmem1, e1, e2, e3, by rw [hmv, hlast], hv1, hs1⟩

/-! ### Empty entries and trailing commas -/

/-- Two texts on which an iteration of the second loop reads the same number, takes the
same branch after it, and goes on alike, give the same result. -/
theorem fill_congr_gen {s t : List Char} (hs : AlphaText s) (ht : AlphaText t) {f g : Nat}
    {ir : Bool} {st : Nat} {bm : Bitmap} {r : Option Bitmap} (hv : Valid bm)
    (hst : StatsOK bm)
    (h1 : skip_space s = [] ↔ skip_space t = [])
    (h2 : (skip_space s).takeWhile isdigit = (skip_space t).takeWhile isdigit)
    (hA : (deref (skip_space ((skip_space s).dropWhile isdigit)) = CHAR_ENTRY_SEPARATOR ∨
        skip_space ((skip_space s).dropWhile isdigit) = []) ↔
      (deref (skip_space ((skip_space t).dropWhile isdigit)) = CHAR_ENTRY_SEPARATOR ∨
        skip_space ((skip_space t).dropWhile isdigit) = []))
    (hB : deref (skip_space ((skip_space s).dropWhile isdigit)) = CHAR_RANGE_SEPARATOR ↔
      deref (skip_space ((skip_space t).dropWhile isdigit)) = CHAR_RANGE_SEPARATOR)
    (hcont : (deref (skip_space ((skip_space s).dropWhile isdigit)) = CHAR_ENTRY_SEPARATOR ∨
        skip_space ((skip_space s).dropWhile isdigit) = [] ∨
        deref (skip_space ((skip_space s).dropWhile isdigit)) = CHAR_RANGE_SEPARATOR) →
      ∀ ir1 st1 bm1, Valid bm1 → StatsOK bm1 →
      parse_fill f (skip_space ((skip_space s).dropWhile isdigit)).tail ir1 st1 bm1 = .ok r →
      parse_fill g (skip_space ((skip_space t).dropWhile isdigit)).tail ir1 st1 bm1 = .ok r)
    (h : parse_fill (f + 1) s ir st bm = .ok r) :
    parse_fill (g + 1) t ir st bm = .ok r := by
  rw [fill_step s hs f ir st bm _ _ _ rfl rfl rfl] at h
  rw [fill_step t ht g ir st bm _ _ _ rfl rfl rfl]
  rw [← h2]
  by_cases c1 : skip_space s = []
  · rw [if_pos c1] at h
    rw [if_pos (h1.mp c1)]
    exact h
  · rw [if_neg c1] at h
    rw [if_neg (fun hc => c1 (h1.mpr hc))]
    by_cases c2 : (skip_space s).takeWhile isdigit = [] ∨
        65535 ≤ digits_value ((skip_space s).takeWhile isdigit)
    · rw [if_pos c2] at h
      rw [if_pos c2]
      exact h
    · rw [if_neg c2] at h
      rw [if_neg c2]
      by_cases c3 : deref (skip_space ((skip_space s).dropWhile isdigit))
          = CHAR_ENTRY_SEPARATOR ∨ skip_space ((skip_space s).dropWhile isdigit) = []
      · have hc3 : deref (skip_space ((skip_space s).dropWhile isdigit))
            = CHAR_ENTRY_SEPARATOR ∨ skip_space ((skip_space s).dropWhile isdigit) = [] ∨
            deref (skip_space ((skip_space s).dropWhile isdigit)) = CHAR_RANGE_SEPARATOR := by
          rcases c3 with c | c
          · exact Or.inl c
          · exact Or.inr (Or.inl c)
        rw [if_pos c3] at h
        rw [if_pos (hA.mp c3)]
        cases ir with
        | true =>
          rw [if_pos rfl] at h
          rw [if_pos rfl]
          by_cases c4 : st > digits_value ((skip_space s).takeWhile isdigit)
          · rw [if_pos c4] at h
            rw [if_pos c4]
            exact h
          · rw [if_neg c4] at h
            rw [if_neg c4]
            cases hexp : parse_expand 65536 st
                (digits_value ((skip_space s).takeWhile isdigit) : Int) bm with
            | error e => rw [hexp] at h; exact h
            | ok p =>
              obtain ⟨st1, bm1⟩ := p
              rw [hexp] at h
              obtain ⟨hv1, hs1⟩ := expand_inv _ _ _ _ _ _ hv hst hexp
              exact hcont hc3 false st1 bm1 hv1 hs1 h
        | false =>
          rw [if_neg (by simp)] at h
          rw [if_neg (by simp)]
          cases hadd : bitmap_add_value bm
              (digits_value ((skip_space s).takeWhile isdigit)) with
          | error e => rw [hadd] at h; exact h
          | ok p =>
            obtain ⟨b, bm1⟩ := p
            rw [hadd] at h
            obtain ⟨hv1, hs1⟩ := add_inv hv hst hadd
            exact hcont hc3 false st bm1 hv1 hs1 h
      · rw [if_neg c3] at h
        rw [if_neg (fun hc => c3 (hA.mpr hc))]
        by_cases c5 : deref (skip_space ((skip_space s).dropWhile isdigit))
            = CHAR_RANGE_SEPARATOR ∧ ir = false
        · rw [if_pos c5] at h
          rw [if_pos ⟨hB.mp c5.1, c5.2⟩]
          exact hcont (Or.inr (Or.inr c5.1)) true _ bm hv hst h
        · rw [if_neg c5] at h
          rw [if_neg (fun hc => c5 ⟨hB.mpr hc.1, hc.2⟩)]
          exact h

/-- A text that ends in a digit has a digit after any run of characters of another kind
that is dropped from its start. -/
theorem digit_before_dropWhile {p : Char → Bool} (hp : ∀ c, isdigit c = true → p c = false)
    {l : List Char} (h : digit_before l = true) :
    l.dropWhile p ≠ [] ∧ digit_before (l.dropWhile p) = true := by
  have hne : l.dropWhile p ≠ [] := by
    intro hnil
    have hall := List.dropWhile_eq_nil_iff.mp hnil
    unfold digit_before at h
    cases hl : l.getLast? with
    | none => rw [hl] at h; cases h
    | some c =>
      rw [hl] at h
      have hmem : c ∈ l := List.mem_of_getLast?_eq_some hl
      have := hall c hmem
      rw [hp c h] at this
      cases this
  refine ⟨hne, ?_⟩
  have := digit_before_append (l.takeWhile p) hne
  rw [List.takeWhile_append_dropWhile] at this
  rw [← this]; exact h

theorem digit_before_skip {l : List Char} (h : digit_before l = true) :
    skip_space l ≠ [] ∧ digit_before (skip_space l) = true := by
  apply digit_before_dropWhile _ h
  intro c hc
  have := (isdigit_facts hc).2.1
  simpa using this

/-- The text after the first character of a text that ends in a digit and does not start
with one ends in a digit. -/
theorem digit_before_tail {l : List Char} (h : digit_before l = true)
    (hd : isdigit (deref l) = false) : digit_before l.tail = true := by
  cases l with
  | nil => cases h
  | cons c r =>
    rw [deref_cons] at hd
    cases r with
    | nil => rw [digit_before_singleton, hd] at h; cases h
    | cons c2 r2 =>
      have := digit_before_append [c] (List.cons_ne_nil c2 r2)
      simp only [List.singleton_append] at this
      rw [List.tail_cons, ← this]; exact h

/-- At the end of the text, or with only spaces left, the second loop stops. -/
theorem fill_spaces (k f : Nat) (ir : Bool) (st : Nat) (bm : Bitmap) :
    parse_fill (f + 1) (List.replicate k CHAR_SPACE) ir st bm
      = if ir then .ok none else .ok (some bm) := by
  have hs : AlphaText (List.replicate k CHAR_SPACE) := by
    intro c hc
    rw [List.eq_of_mem_replicate hc]; decide
  have hsk : skip_space (List.replicate k CHAR_SPACE) = [] := by
    have := skip_space_spaces k [] (by decide)
    simpa using this
  rw [fill_step _ hs f ir st bm _ _ _ rfl rfl rfl, if_pos hsk]

/-- After a text that ends in a digit, a comma and spaces do not change the result of the
second loop. -/
theorem fill_trailing (k : Nat) : ∀ (n : Nat) (pre : List Char), pre.length ≤ n →
    digit_before pre = true → AlphaText pre →
    ∀ (ir : Bool) (st : Nat) (bm : Bitmap) (r : Option Bitmap), Valid bm → StatsOK bm →
    FillTo pre ir st bm r →
    FillTo (pre ++ CHAR_ENTRY_SEPARATOR :: List.replicate k CHAR_SPACE) ir st bm r := by
  intro n
  induction n using Nat.strong_induction_on with
  | _ n ih =>
    intro pre hn hdb hs ir st bm r hv hst hfill fuel hfuel
    cases fuel with
    | zero => simp at hfuel
    | succ f =>
      simp only [List.length_append, List.length_cons, List.length_replicate] at hfuel
      have h := hfill (f + 1) (by omega)
      have hsp : AlphaText (CHAR_ENTRY_SEPARATOR :: List.replicate k CHAR_SPACE) := by
        intro c hc
        rcases List.mem_cons.mp hc with rfl | hc
        · decide
        · rw [List.eq_of_mem_replicate hc]; decide
      have hs1 : AlphaText (pre ++ CHAR_ENTRY_SEPARATOR :: List.replicate k CHAR_SPACE) :=
        alphaText_append.mpr ⟨hs, hsp⟩
      obtain ⟨q1, q2⟩ := digit_before_skip hdb
      have c1 : CHAR_ENTRY_SEPARATOR ≠ CHAR_SPACE := by decide
      have c2 : isdigit CHAR_ENTRY_SEPARATOR = false := by decide
      have e1 := skip_space_stop c1 pre (List.replicate k CHAR_SPACE)
      obtain ⟨d1, d2⟩ := digits_stop c2 (skip_space pre) (List.replicate k CHAR_SPACE)
      have e2 : skip_space ((skip_space (pre ++ CHAR_ENTRY_SEPARATOR ::
          List.replicate k CHAR_SPACE)).dropWhile isdigit)
          = skip_space ((skip_space pre).dropWhile isdigit) ++
            CHAR_ENTRY_SEPARATOR :: List.replicate k CHAR_SPACE :=
        after_number_stop c1 c2 pre _
      by_cases hB : skip_space ((skip_space pre).dropWhile isdigit) = []
      · -- the number read is the last of the text
        refine fill_congr_gen hs hs1 hv hst ?_ ?_ ?_ ?_ ?_ h
        · rw [e1]; simp [q1]
        · rw [e1, d1]
        · rw [e2, hB]; simp [deref_cons]
        · rw [e2, hB]
          simp only [List.nil_append, deref_cons, deref_nil]
          decide
        · rw [e2, hB]
          simp only [List.nil_append, List.tail_cons, List.tail_nil]
          intro _ ir1 st1 bm1 _ _ hc
          cases f with
          | zero => simp [parse_fill] at hc
          | succ f =>
            have h0 := fill_spaces 0 f ir1 st1 bm1
            simp only [List.replicate_zero] at h0
            rw [fill_spaces k f ir1 st1 bm1, ← h0]
            exact hc
      · have hl3 : (skip_space ((skip_space pre).dropWhile isdigit)).tail.length
            < pre.length := by
          have a1 := length_skip_space_le ((skip_space pre).dropWhile isdigit)
          have a2 := length_dropWhile_le isdigit (skip_space pre)
          have a3 := length_skip_space_le pre
          have a4 := List.length_pos.mpr hB
          have a5 : (skip_space ((skip_space pre).dropWhile isdigit)).tail.length
              = (skip_space ((skip_space pre).dropWhile isdigit)).length - 1 :=
            List.length_tail _
          omega
        have hal3 : AlphaText (skip_space ((skip_space pre).dropWhile isdigit)).tail :=
          alphaText_tail (alphaText_skip (alphaText_dropWhile _ (alphaText_skip hs)))
        refine fill_congr_gen hs hs1 hv hst ?_ ?_ ?_ ?_ ?_ h
        · rw [e1]; simp [q1]
        · rw [e1, d1]
        · rw [e2, deref_append_ne hB]; simp [hB]
        · rw [e2, deref_append_ne hB]
        · rw [e2, tail_append_ne hB]
          intro hsep ir1 st1 bm1 hv1 hs1' hc
          -- the text after the number starts with a separator, hence still ends in a digit
          have hnd : isdigit (deref (skip_space ((skip_space pre).dropWhile isdigit)))
              = false := by
            rcases hsep with c | c | c
            · rw [c]; decide
            · exact absurd c hB
            · rw [c]; decide
          have hdb3 : digit_before (skip_space ((skip_space pre).dropWhile isdigit)).tail
              = true := by
            apply digit_before_tail _ hnd
            have hne2 : (skip_space pre).dropWhile isdigit ≠ [] := by
              intro hnil
              apply hB
              rw [hnil]; rfl
            have s1 := digit_before_append ((skip_space pre).takeWhile isdigit) hne2
            rw [List.takeWhile_append_dropWhile] at s1
            exact (digit_before_skip (by rw [← s1]; exact q2)).2
          have hf3 : (skip_space ((skip_space pre).dropWhile isdigit)).tail.length < f := by
            omega
          have hfill3 := fill_fuel hal3 hv1 hs1' hf3 hc
          exact ih _ (lt_of_lt_of_le hl3 hn) _ le_rfl hdb3 hal3 ir1 st1 bm1 r hv1 hs1'
            hfill3 f (by
              simp only [List.length_append, List.length_cons, List.length_replicate]
              omega)

/-- A comma and spaces appended to a text do not change the result of the first loop. -/
theorem scan_trailing (k : Nat) : ∀ (n : Nat) (t : List Char), t.length ≤ n →
    ∀ (m : Int) (r : Option Int), ScanTo t m r →
    ScanTo (t ++ CHAR_ENTRY_SEPARATOR :: List.replicate k CHAR_SPACE) m r := by
  have hbase : ∀ (m : Int) (r : Option Int), ScanTo [] m r →
      ScanTo ([] ++ CHAR_ENTRY_SEPARATOR :: List.replicate k CHAR_SPACE) m r := by
    intro m r h
    have h1 := h 1 (by simp)
    rw [scan_nil m 1 (by simp)] at h1
    injection h1 with h1
    rw [← h1, List.nil_append]
    have := scan_spaces k (scan_nil m)
    rw [List.append_nil] at this
    exact scan_sep (Or.inr (Or.inr rfl)) this
  intro n
  induction n using Nat.strong_induction_on with
  | _ n ih =>
    intro t hn m r h
    cases t with
    | nil => exact hbase m r h
    | cons c p =>
      intro fuel hf
      cases fuel with
      | zero => simp at hf
      | succ f =>
        simp only [List.cons_append, List.length_cons, List.length_append,
          List.length_replicate] at hf
        simp only [List.length_cons] at hn
        have h2 := h (f + 1) (by simp only [List.length_cons]; omega)
        rw [List.cons_append, scan_step]
        rw [scan_step] at h2
        by_cases h0 : c = CHAR_NULL
        · rw [if_pos h0] at h2 ⊢; exact h2
        · rw [if_neg h0] at h2 ⊢
          by_cases h1 : c = CHAR_SPACE ∨ c = CHAR_RANGE_SEPARATOR ∨ c = CHAR_ENTRY_SEPARATOR
          · rw [if_pos h1] at h2 ⊢
            have h3 := scan_fuel (by omega) h2
            exact ih p.length (by omega) p le_rfl m r h3 f
              (by simp only [List.length_append, List.length_cons, List.length_replicate]
                  omega)
          · rw [if_neg h1] at h2 ⊢
            by_cases hd : isdigit c = true
            · rw [if_pos hd] at h2 ⊢
              rw [← List.cons_append]
              obtain ⟨e3, e4⟩ := digits_stop (by decide : isdigit CHAR_ENTRY_SEPARATOR = false)
                (c :: p) (List.replicate k CHAR_SPACE)
              rw [e3, e4]
              by_cases hbig : 65535 ≤ digits_value ((c :: p).takeWhile isdigit)
              · rw [if_pos hbig] at h2 ⊢; exact h2
              · rw [if_neg hbig] at h2 ⊢
                have hl := length_dropWhile_digit c p hd
                have h3 := scan_fuel (by omega) h2
                exact ih _ (by omega) _ le_rfl _ r h3 f
                  (by simp only [List.length_append, List.length_cons, List.length_replicate]
                      omega)
            · rw [if_neg hd] at h2 ⊢; exact h2

/-- Where the next character other than a space is a comma, no run of the second loop
succeeds. -/
theorem fill_at_comma (k : Nat) (rest : List Char)
    (hs : AlphaText (List.replicate k CHAR_SPACE ++ CHAR_ENTRY_SEPARATOR :: rest))
    (f : Nat) (ir : Bool) (st : Nat) (bm res : Bitmap) :
    parse_fill f (List.replicate k CHAR_SPACE ++ CHAR_ENTRY_SEPARATOR :: rest) ir st bm
      ≠ .ok (some res) := by
  intro h
  have hsk : skip_space (List.replicate k CHAR_SPACE ++ CHAR_ENTRY_SEPARATOR :: rest)
      = CHAR_ENTRY_SEPARATOR :: rest :=
    skip_space_spaces k _ (by rw [deref_cons]; decide)
  cases f with
  | zero => simp [parse_fill] at h
  | succ f =>
    rcases fill_step_some hs h with ⟨h1, _⟩ | ⟨h1, _⟩
    · rw [hsk] at h1; cases h1
    · apply h1
      rw [hsk, List.takeWhile_cons, if_neg (by decide)]

theorem digit_before_false_suffix (a : List Char) {b : List Char}
    (h : digit_before (a ++ b) = false) : digit_before b = false := by
  by_cases hb : b = []
  · subst hb; rfl
  · rw [digit_before_append a hb] at h; exact h

/-- A text that does not end in a digit keeps a character when its leading digits are
dropped. -/
theorem dropWhile_digit_ne_nil {q : List Char} (hq : q ≠ []) (h : digit_before q = false) :
    q.dropWhile isdigit ≠ [] := by
  intro hnil
  have hall := List.dropWhile_eq_nil_iff.mp hnil
  unfold digit_before at h
  cases hl : q.getLast? with
  | none => exact hq (List.getLast?_eq_none_iff.mp hl)
  | some c =>
    rw [hl] at h
    have := hall c (List.mem_of_getLast?_eq_some hl)
    simp only at h
    rw [h] at this
    cases this

/-- A successful run of the second loop over a text reads every number of the text from
its first digit: the run goes through the position of any digit that does not follow a
digit. -/
theorem fill_reach_number (post : List Char) (hpost : isdigit (deref post) = true)
    {res : Bitmap} : ∀ (f : Nat) (pre : List Char) (ir : Bool) (st : Nat) (bm : Bitmap),
    AlphaText (pre ++ post) → digit_before pre = false →
    parse_fill f (pre ++ post) ir st bm = .ok (some res) →
    ∃ f1 ir1 st1 bm1, parse_fill f1 post ir1 st1 bm1 = .ok (some res) := by
  have hpne : post ≠ [] := by
    rintro rfl
    revert hpost; decide
  have hskp : skip_space post = post := by
    obtain ⟨c, r, rfl⟩ := List.exists_cons_of_ne_nil hpne
    rw [deref_cons] at hpost
    exact skip_space_cons_ne (isdigit_facts hpost).2.1 r
  have hpal : ∀ pre, AlphaText (pre ++ post) → AlphaText post :=
    fun pre h => (alphaText_append.mp h).2
  intro f
  induction f with
  | zero => intro pre ir st bm _ _ h; simp [parse_fill] at h
  | succ f ih =>
    intro pre ir st bm hs hdb h
    by_cases hq : skip_space pre = []
    · -- only spaces before the number: this iteration reads it
      have e1 : skip_space (pre ++ post) = skip_space post := skip_space_append_nil hq _
      refine ⟨f + 1, ir, st, bm, ?_⟩
      rw [fill_step post (hpal pre hs) f ir st bm _ _ _ rfl rfl rfl]
      rw [fill_step (pre ++ post) hs f ir st bm _ _ _ rfl rfl rfl, e1] at h
      exact h
    · have e1 : skip_space (pre ++ post) = skip_space pre ++ post :=
        skip_space_append_ne hq _
      have hdb1 : digit_before (skip_space pre) = false := by
        apply digit_before_false_suffix (pre.takeWhile (fun c => c = CHAR_SPACE))
        unfold skip_space
        rw [List.takeWhile_append_dropWhile]; exact hdb
      obtain ⟨d1, d2⟩ := split_digits (skip_space pre) post hq (Or.inl hdb1)
      have hne2 := dropWhile_digit_ne_nil hq hdb1
      have hdb2 : digit_before ((skip_space pre).dropWhile isdigit) = false := by
        apply digit_before_false_suffix ((skip_space pre).takeWhile isdigit)
        rw [List.takeWhile_append_dropWhile]; exact hdb1
      have hal := @alphaText_after_number (pre ++ post) _ _ hs rfl rfl
      by_cases hB : skip_space ((skip_space pre).dropWhile isdigit) = []
      · -- only spaces between the number read and the next: the run fails
        have e2 : skip_space ((skip_space (pre ++ post)).dropWhile isdigit) = post := by
          rw [e1, d2, skip_space_append_nil hB, hskp]
        have hnc : deref post ≠ CHAR_ENTRY_SEPARATOR := by
          intro hc; rw [hc] at hpost; revert hpost; decide
        have hnr : deref post ≠ CHAR_RANGE_SEPARATOR := by
          intro hc; rw [hc] at hpost; revert hpost; decide
        rcases fill_step_some hs h with ⟨h1, _⟩ | ⟨_, _, hA | hB2⟩
        · rw [e1] at h1
          simp [hq] at h1
        · rw [e2] at hA
          rcases hA.1 with c | c
          · exact absurd c hnc
          · exact absurd c hpne
        · rw [e2] at hB2
          exact absurd hB2.1 hnr
      · have e2 : skip_space ((skip_space (pre ++ post)).dropWhile isdigit)
            = skip_space ((skip_space pre).dropWhile isdigit) ++ post := by
          rw [e1, d2, skip_space_append_ne hB]
        have hdb3 : digit_before (skip_space ((skip_space pre).dropWhile isdigit)).tail
            = false := by
          have a1 : digit_before (skip_space ((skip_space pre).dropWhile isdigit))
              = false := by
            apply digit_before_false_suffix
              (((skip_space pre).dropWhile isdigit).takeWhile (fun c => c = CHAR_SPACE))
            unfold skip_space
            rw [List.takeWhile_append_dropWhile]
            exact hdb2
          obtain ⟨c, r, hc⟩ := List.exists_cons_of_ne_nil hB
          rw [hc] at a1 ⊢
          exact digit_before_false_suffix [c] a1
        rw [e2, tail_append_ne hB] at hal
        rcases fill_step_some hs h with ⟨h1, _⟩ | ⟨_, _, hA | hB2⟩
        · rw [e1] at h1
          simp [hq] at h1
        · obtain ⟨_, _, st1, bm1, hcont⟩ := hA
          rw [e2, tail_append_ne hB] at hcont
          exact ih _ false st1 bm1 hal hdb3 hcont
        · obtain ⟨_, _, hcont⟩ := hB2
          rw [e2, tail_append_ne hB] at hcont
          exact ih _ true _ bm hal hdb3 hcont

/-- From a number that is followed by spaces and another number, no run of the second
loop succeeds. -/
theorem fill_two_numbers (ds1 rest : List Char) (k : Nat) (h1 : Literal ds1)
    (hrest : isdigit (deref rest) = true)
    (hs : AlphaText (ds1 ++ (List.replicate (k + 1) CHAR_SPACE ++ rest)))
    (f : Nat) (ir : Bool) (st : Nat) (bm res : Bitmap) :
    parse_fill f (ds1 ++ (List.replicate (k + 1) CHAR_SPACE ++ rest)) ir st bm
      ≠ .ok (some res) := by
  intro h
  obtain ⟨d, r1, hd⟩ := List.exists_cons_of_ne_nil h1.1
  have hdig := h1.2 d (by rw [hd]; exact List.mem_cons_self _ _)
  have hrne : rest ≠ [] := by
    rintro rfl
    revert hrest; decide
  have hnsp : deref rest ≠ CHAR_SPACE := by
    intro hc; rw [hc] at hrest; revert hrest; decide
  have e1 : skip_space (ds1 ++ (List.replicate (k + 1) CHAR_SPACE ++ rest))
      = ds1 ++ (List.replicate (k + 1) CHAR_SPACE ++ rest) := by
    rw [hd, List.cons_append]
    exact skip_space_cons_ne (isdigit_facts hdig).2.1 _
  have hnd : isdigit (deref (List.replicate (k + 1) CHAR_SPACE ++ rest)) = false := by
    rw [List.replicate_succ, List.cons_append, deref_cons]; decide
  have e2 := dropWhile_digits ds1 _ h1.2 hnd
  have e3 : skip_space (List.replicate (k + 1) CHAR_SPACE ++ rest) = rest :=
    skip_space_spaces _ _ hnsp
  cases f with
  | zero => simp [parse_fill] at h
  | succ f =>
    rcases fill_step_some hs h with ⟨h0, _⟩ | ⟨_, _, hA | hB⟩
    · rw [e1, hd] at h0; cases h0
    · rw [e1, e2, e3] at hA
      rcases hA.1 with c | c
      · rw [c] at hrest; revert hrest; decide
      · exact hrne c
    · rw [e1, e2, e3] at hB
      rw [hB.1] at hrest; revert hrest; decide

/-! ### The parser with its calls recorded -/

theorem with_calls_erase (s : List StrtolCall) (a : List AddCall)
    (x : Except Fault (Option Bitmap × List StrtolCall × List AddCall)) :
    Except.map Prod.fst (with_calls s a x) = Except.map Prod.fst x := by
  cases x with
  | error e => rfl
  | ok p => rfl

/-- Without its record of calls, `parse_scan_log` is `parse_scan`. -/
theorem scan_log_erase : ∀ (f : Nat) (s : List Char) (m : Int),
    Except.map Prod.fst (parse_scan_log f s m) = parse_scan f s m := by
  intro f
  induction f with
  | zero => intro s m; rfl
  | succ f ih =>
    intro s m
    rw [parse_scan_log, parse_scan]
    by_cases h0 : deref s = CHAR_NULL
    · rw [if_pos h0, if_pos h0]; rfl
    · rw [if_neg h0, if_neg h0]
      by_cases h1 : deref s = CHAR_SPACE ∨ deref s = CHAR_RANGE_SEPARATOR ∨
          deref s = CHAR_ENTRY_SEPARATOR
      · rw [if_pos h1, if_pos h1]; exact ih _ _
      · rw [if_neg h1, if_neg h1]
        by_cases hd : isdigit (deref s) = true
        · rw [if_pos hd, if_pos hd]
          dsimp only
          by_cases hr : (strtol s).value ≥ 65535 ∨ (strtol s).value < 0 ∨
              (strtol s).erange = true
          · rw [if_pos hr, if_pos hr]; rfl
          · rw [if_neg hr, if_neg hr, ← ih]
            cases parse_scan_log f (strtol s).endptr
                (if (strtol s).value > m then (strtol s).value else m) with
            | error e => rfl
            | ok p => rfl
        · rw [if_neg hd, if_neg hd]; rfl

/-- Without its record of calls, `parse_expand_log` is `parse_expand`. -/
theorem expand_log_erase : ∀ (f a : Nat) (v : Int) (bm : Bitmap),
    Except.map (fun x => (x.1, x.2.1)) (parse_expand_log f a v bm) = parse_expand f a v bm := by
  intro f
  induction f with
  | zero => intro a v bm; rfl
  | succ f ih =>
    intro a v bm
    rw [parse_expand_log, parse_expand]
    by_cases h : (a : Int) ≤ v
    · rw [if_pos h, if_pos h]
      cases hadd : bitmap_add_value bm a with
      | error e => rfl
      | ok p =>
        obtain ⟨b, bm1⟩ := p
        dsimp only
        rw [← ih]
        cases parse_expand_log f ((a + 1) % 65536) v bm1 with
        | error e => rfl
        | ok p => rfl
    · rw [if_neg h, if_neg h]; rfl

/-- Without its records of calls, `parse_fill_log` is `parse_fill`. -/
theorem fill_log_erase : ∀ (f : Nat) (s : List Char) (ir : Bool) (st : Nat) (bm : Bitmap),
    Except.map Prod.fst (parse_fill_log f s ir st bm) = parse_fill f s ir st bm := by
  intro f
  induction f with
  | zero => intro s ir st bm; rfl
  | succ f ih =>
    intro s ir st bm
    rw [parse_fill_log, parse_fill]
    by_cases h0 : deref s = CHAR_NULL
    · rw [if_pos h0, if_pos h0]; cases ir <;> rfl
    · rw [if_neg h0, if_neg h0]
      dsimp only
      by_cases h1 : deref (skip_space s) = CHAR_NULL
      · rw [if_pos h1, if_pos h1]; cases ir <;> rfl
      · rw [if_neg h1, if_neg h1]
        by_cases h2 : deref (skip_space s) = CHAR_RANGE_SEPARATOR
        · rw [if_pos h2, if_pos h2]; rfl
        · rw [if_neg h2, if_neg h2]
          by_cases h3 : (strtol (skip_space s)).value ≥ 65535 ∨
              (strtol (skip_space s)).value < 0 ∨ (strtol (skip_space s)).erange = true
          · rw [if_pos h3, if_pos h3]; rfl
          · rw [if_neg h3, if_neg h3]
            by_cases h4 : (strtol (skip_space s)).value = 0 ∧
                (strtol (skip_space s)).endptr = skip_space s
            · rw [if_pos h4, if_pos h4]; rfl
            · rw [if_neg h4, if_neg h4]
              by_cases h5 : deref (skip_space (strtol (skip_space s)).endptr)
                  = CHAR_ENTRY_SEPARATOR ∨
                  deref (skip_space (strtol (skip_space s)).endptr) = CHAR_NULL
              · rw [if_pos h5, if_pos h5]
                cases ir with
                | true =>
                  rw [if_pos rfl, if_pos rfl]
                  by_cases h6 : (st : Int) > (strtol (skip_space s)).value
                  · rw [if_pos h6, if_pos h6]; rfl
                  · rw [if_neg h6, if_neg h6, ← expand_log_erase]
                    cases parse_expand_log 65536 st (strtol (skip_space s)).value bm with
                    | error e => rfl
                    | ok p =>
                      obtain ⟨st1, bm1, calls⟩ := p
                      dsimp only [Except.map]
                      rw [← ih]
                      exact with_calls_erase _ _ _
                | false =>
                  rw [if_neg Bool.false_ne_true, if_neg Bool.false_ne_true]
                  cases bitmap_add_value bm
                      ((strtol (skip_space s)).value.toNat % 65536) with
                  | error e => rfl
                  | ok p =>
                    obtain ⟨b, bm1⟩ := p
                    dsimp only
                    rw [← ih]
                    exact with_calls_erase _ _ _
              · rw [if_neg h5, if_neg h5]
                by_cases h7 : deref (skip_space (strtol (skip_space s)).endptr)
                    = CHAR_RANGE_SEPARATOR ∧ ir = false
                · rw [if_pos h7, if_pos h7, ← ih]
                  exact with_calls_erase _ _ _
                · rw [if_neg h7, if_neg h7]; rfl

/-- The fields of what `strtol` yields at a decimal digit. -/
theorem strtol_digit_fields (d : Char) (s : List Char) (hd : isdigit d = true) :
    (strtol (d :: s)).endptr = (d :: s).dropWhile isdigit ∧
      (((strtol (d :: s)).value ≥ 65535 ∨ (strtol (d :: s)).value < 0 ∨
          (strtol (d :: s)).erange = true) ↔
        65535 ≤ digits_value ((d :: s).takeWhile isdigit)) ∧
      (digits_value ((d :: s).takeWhile isdigit) < 65535 →
        (strtol (d :: s)).value = (digits_value ((d :: s).takeWhile isdigit) : Int) ∧
        (strtol (d :: s)).erange = false) := by
  rw [strtol_at_digit d s hd]
  by_cases hlm : (digits_value ((d :: s).takeWhile isdigit) : Int) > LONG_MAX
  · rw [if_pos hlm]
    have hbig : 65535 ≤ digits_value ((d :: s).takeWhile isdigit) := by
      unfold LONG_MAX at hlm; omega
    refine ⟨rfl, ?_, ?_⟩
    · simp [hbig]
    · intro h; omega
  · rw [if_neg hlm]
    refine ⟨rfl, ?_, ?_⟩
    · simp only [Bool.false_eq_true, or_false]
      omega
    · intro _; exact ⟨rfl, rfl⟩

/-- One iteration of the first loop of the parser, with its record. -/
theorem scan_log_step (c : Char) (s : List Char) (f : Nat) (m : Int) :
    parse_scan_log (f + 1) (c :: s) m =
      if c = CHAR_NULL then .ok (some m, [])
      else if c = CHAR_SPACE ∨ c = CHAR_RANGE_SEPARATOR ∨ c = CHAR_ENTRY_SEPARATOR then
        parse_scan_log f s m
      else if isdigit c then
        if 65535 ≤ digits_value ((c :: s).takeWhile isdigit) then
          .ok (none, [⟨c :: s, strtol (c :: s)⟩])
        else
          match parse_scan_log f ((c :: s).dropWhile isdigit)
              (scan_max m [digits_value ((c :: s).takeWhile isdigit)]) with
          | .error e => .error e
          | .ok (res, log) => .ok (res, ⟨c :: s, strtol (c :: s)⟩ :: log)
      else .ok (none, []) := by
  rw [parse_scan_log]
  simp only [deref_cons, List.tail_cons]
  by_cases h0 : c = CHAR_NULL
  · simp only [h0, if_true]
  · rw [if_neg h0, if_neg h0]
    by_cases h1 : c = CHAR_SPACE ∨ c = CHAR_RANGE_SEPARATOR ∨ c = CHAR_ENTRY_SEPARATOR
    · rw [if_pos h1, if_pos h1]
    · rw [if_neg h1, if_neg h1]
      by_cases hd : isdigit c = true
      · rw [if_pos hd, if_pos hd]
        obtain ⟨e1, e2, e3⟩ := strtol_digit_fields c s hd
        by_cases hbig : 65535 ≤ digits_value ((c :: s).takeWhile isdigit)
        · rw [if_pos (e2.mpr hbig), if_pos hbig]
        · rw [if_neg (fun h => hbig (e2.mp h)), if_neg hbig]
          obtain ⟨e4, _⟩ := e3 (by omega)
          rw [e1, e4]
          try rfl
      · rw [if_neg hd, if_neg hd]

/-- A successful run of the first loop records calls of `strtol` at digits only, each
yielding a value in `[0, 65535)` that is at most the maximum the run ends with. -/
theorem scan_log_spec : ∀ (f : Nat) (s : List Char) (m mx : Int) (log : List StrtolCall),
    parse_scan_log f s m = .ok (some mx, log) →
    m ≤ mx ∧ ∀ c ∈ log, c.res = strtol c.arg ∧ isdigit (deref c.arg) = true ∧
      0 ≤ c.res.value ∧ c.res.value < 65535 ∧ c.res.value ≤ mx ∧ c.res.erange = false ∧
      c.res.endptr ≠ c.arg := by
  intro f
  induction f with
  | zero => intro s m mx log h; simp [parse_scan_log] at h
  | succ f ih =>
    intro s m mx log h
    cases s with
    | nil =>
      simp only [parse_scan_log, deref_nil, if_true] at h
      injection h with h
      injection h with h1 h2
      injection h1 with h1
      subst h1; subst h2
      exact ⟨le_refl _, fun c hc => by simp at hc⟩
    | cons c s =>
      rw [scan_log_step] at h
      by_cases h0 : c = CHAR_NULL
      · rw [if_pos h0] at h
        injection h with h
        injection h with h1 h2
        injection h1 with h1
        subst h1; subst h2
        exact ⟨le_refl _, fun c hc => by simp at hc⟩
      · rw [if_neg h0] at h
        by_cases h1 : c = CHAR_SPACE ∨ c = CHAR_RANGE_SEPARATOR ∨ c = CHAR_ENTRY_SEPARATOR
        · rw [if_pos h1] at h
          exact ih _ _ _ _ h
        · rw [if_neg h1] at h
          by_cases hd : isdigit c = true
          · rw [if_pos hd] at h
            by_cases hbig : 65535 ≤ digits_value ((c :: s).takeWhile isdigit)
            · rw [if_pos hbig] at h; cases h
            · rw [if_neg hbig] at h
              cases hrec : parse_scan_log f ((c :: s).dropWhile isdigit)
                  (scan_max m [digits_value ((c :: s).takeWhile isdigit)]) with
              | error e => rw [hrec] at h; cases h
              | ok p =>
                obtain ⟨res, log1⟩ := p
                rw [hrec] at h
                injection h with h
                injection h with h1 h2
                subst h1; subst h2
                obtain ⟨i1, i2⟩ := ih _ _ _ _ hrec
                obtain ⟨e1, _, e3⟩ := strtol_digit_fields c s hd
                obtain ⟨e4, e5⟩ := e3 (by omega)
                have hm := (scan_max_spec [digits_value ((c :: s).takeWhile isdigit)] m)
                refine ⟨le_trans hm.1 i1, ?_⟩
                intro x hx
                rcases List.mem_cons.mp hx with rfl | hx
                · refine ⟨rfl, hd, ?_, ?_, ?_, e5, ?_⟩
                  · show 0 ≤ (strtol (c :: s)).value
                    rw [e4]; omega
                  · show (strtol (c :: s)).value < 65535
                    rw [e4]; omega
                  · show (strtol (c :: s)).value ≤ mx
                    rw [e4]
                    exact le_trans (hm.2.1 _ (List.mem_singleton.mpr rfl)) i1
                  · show (strtol (c :: s)).endptr ≠ c :: s
                    rw [e1]
                    intro hc
                    have := congrArg List.length hc
                    have hl := length_dropWhile_digit c s hd
                    simp only [List.length_cons] at this
                    omega
                · exact i2 x hx
          · rw [if_neg hd] at h; cases h

/-- A successful run of the first loop calls `strtol` at the start of every number of the
text: at every digit that does not follow a digit. -/
theorem scan_log_covers (post : List Char) (hpost : isdigit (deref post) = true) :
    ∀ (f : Nat) (pre : List Char) (m mx : Int) (log : List StrtolCall), CString pre →
    digit_before pre = false → parse_scan_log f (pre ++ post) m = .ok (some mx, log) →
    (⟨post, strtol post⟩ : StrtolCall) ∈ log := by
  have hpne : post ≠ [] := by
    rintro rfl
    revert hpost; decide
  obtain ⟨d, r, rfl⟩ := List.exists_cons_of_ne_nil hpne
  rw [deref_cons] at hpost
  obtain ⟨g0, g1, g2, g3, _, _⟩ := isdigit_facts hpost
  intro f
  induction f with
  | zero => intro pre m mx log _ _ h; simp [parse_scan_log] at h
  | succ f ih =>
    intro pre m mx log hcs hdb h
    cases pre with
    | nil =>
      rw [List.nil_append, scan_log_step, if_neg g0, if_neg (by simp [g1, g2, g3]),
        if_pos hpost] at h
      by_cases hbig : 65535 ≤ digits_value ((d :: r).takeWhile isdigit)
      · rw [if_pos hbig] at h; cases h
      · rw [if_neg hbig] at h
        cases hrec : parse_scan_log f ((d :: r).dropWhile isdigit)
            (scan_max m [digits_value ((d :: r).takeWhile isdigit)]) with
        | error e => rw [hrec] at h; cases h
        | ok p =>
          obtain ⟨res, log1⟩ := p
          rw [hrec] at h
          injection h with h
          injection h with h1 h2
          rw [← h2]
          exact List.mem_cons_self _ _
    | cons c p =>
      obtain ⟨h0, hcs1⟩ := cstring_cons hcs
      have hdb1 : digit_before p = false := digit_before_false_suffix [c] hdb
      rw [List.cons_append, scan_log_step, if_neg h0] at h
      by_cases h1 : c = CHAR_SPACE ∨ c = CHAR_RANGE_SEPARATOR ∨ c = CHAR_ENTRY_SEPARATOR
      · rw [if_pos h1] at h
        exact ih p m mx log hcs1 hdb1 h
      · rw [if_neg h1] at h
        by_cases hd : isdigit c = true
        · rw [if_pos hd] at h
          by_cases hbig : 65535 ≤ digits_value ((c :: (p ++ d :: r)).takeWhile isdigit)
          · rw [if_pos hbig] at h; cases h
          · rw [if_neg hbig] at h
            cases hrec : parse_scan_log f ((c :: (p ++ d :: r)).dropWhile isdigit)
                (scan_max m [digits_value ((c :: (p ++ d :: r)).takeWhile isdigit)]) with
            | error e => rw [hrec] at h; cases h
            | ok q =>
              obtain ⟨res, log1⟩ := q
              rw [hrec] at h
              injection h with h
              injection h with h1' h2
              subst h1'
              rw [← h2]
              apply List.mem_cons_of_mem
              rw [← List.cons_append,
                (split_digits (c :: p) (d :: r) (List.cons_ne_nil _ _) (Or.inl hdb)).2] at hrec
              refine ih _ _ _ log1 (cstring_dropWhile _ hcs) ?_ hrec
              apply digit_before_false_suffix ((c :: p).takeWhile isdigit)
              rw [List.takeWhile_append_dropWhile]; exact hdb
        · rw [if_neg hd] at h; cases h

/-! ### The calls of `bitmap_add_value` -/

/-- A call of `bitmap_add_value` on a valid bitmap that satisfies the statistics invariant
returns, and returns `true` for a value below the capacity. -/
theorem add_call {bm : Bitmap} (v : Nat) (hv : Valid bm) (hs : StatsOK bm) :
    ∃ r bm1, bitmap_add_value bm v = .ok (r, bm1) ∧ Valid bm1 ∧ StatsOK bm1 ∧
      bm1.max_value = bm.max_value ∧ (v < bm.max_value → r = true) := by
  by_cases hlt : v < bm.max_value
  · cases hb : bit_set bm v
    · obtain ⟨bm1, hrun, _, _, _, _, hmv, _, hv1, hs1⟩ := add_new hv hs hlt hb
      exact ⟨true, bm1, hrun, hv1, hs1, hmv, fun _ => rfl⟩
    · exact ⟨true, bm, add_existing hv hlt hb, hv, hs, rfl, fun _ => rfl⟩
  · exact ⟨false, bm, add_out_of_range (not_lt.mp hlt), hv, hs, rfl, fun h => absurd h hlt⟩

/-- The loop that expands a range `a .. b` with `b ≤ 65534` ends after `b + 1 - a` calls of
`bitmap_add_value`, one for each value from `a` to `b` in order, its counter at `b + 1`. -/
theorem expand_log_spec : ∀ (fuel a b : Nat) (bm : Bitmap), Valid bm → StatsOK bm →
    a ≤ b + 1 → b < 65535 → b + 1 - a < fuel →
    ∃ bm1 calls, parse_expand_log fuel a (b : Int) bm = .ok (b + 1, bm1, calls) ∧
      calls.length = b + 1 - a ∧
      calls.map (fun c => c.value) = List.range' a (b + 1 - a) ∧
      (∀ c ∈ calls, c.max_value = bm.max_value ∧ (c.value < bm.max_value → c.result = true)) ∧
      Valid bm1 ∧ StatsOK bm1 ∧ bm1.max_value = bm.max_value := by
  intro fuel
  induction fuel with
  | zero => intro a b bm _ _ _ _ h; omega
  | succ fuel ih =>
    intro a b bm hv hs hab hb hfuel
    rw [parse_expand_log]
    by_cases hle : a ≤ b
    · have hle1 : (a : Int) ≤ (b : Int) := by omega
      rw [if_pos hle1]
      obtain ⟨r, bm1, hrun, hv1, hs1, hmv1, hr⟩ := add_call a hv hs
      rw [hrun]
      dsimp only
      have hmod : (a + 1) % 65536 = a + 1 := Nat.mod_eq_of_lt (by omega)
      rw [hmod]
      obtain ⟨bm2, calls, hrec, hlen, hvals, hall, hv2, hs2, hmv2⟩ :=
        ih (a + 1) b bm1 hv1 hs1 (by omega) hb (by omega)
      rw [hrec]
      refine ⟨bm2, _, rfl, ?_, ?_, ?_, hv2, hs2, by rw [hmv2, hmv1]⟩
      · simp only [List.length_cons, hlen]; omega
      · have e : b + 1 - a = (b + 1 - (a + 1)) + 1 := by omega
        rw [e, List.range'_succ, List.map_cons, hvals]
      · intro c hc
        rcases List.mem_cons.mp hc with rfl | hc
        · exact ⟨rfl, hr⟩
        · obtain ⟨q1, q2⟩ := hall c hc
          rw [hmv1] at q1 q2
          exact ⟨q1, q2⟩
    · have hle1 : ¬ (a : Int) ≤ (b : Int) := by omega
      rw [if_neg hle1]
      have : a = b + 1 := by omega
      subst this
      exact ⟨bm, [], rfl, by simp, by simp, fun c hc => by simp at hc, hv, hs, rfl⟩

/-- One iteration of the second loop of the parser with its records, on a text of allowed
characters. -/
theorem fill_log_step (s : List Char) (hs : AlphaText s) (f : Nat) (ir : Bool) (st : Nat)
    (bm : Bitmap) (p1 ds p2 : List Char) (hp1 : p1 = skip_space s)
    (hds : ds = p1.takeWhile isdigit) (hp2 : p2 = skip_space (p1.dropWhile isdigit)) :
    parse_fill_log (f + 1) s ir st bm =
      if p1 = [] then (if ir then .ok (none, [], []) else .ok (some bm, [], []))
      else if deref p1 = CHAR_RANGE_SEPARATOR then .ok (none, [], [])
      else if ds = [] ∨ 65535 ≤ digits_value ds then .ok (none, [⟨p1, strtol p1⟩], [])
      else if deref p2 = CHAR_ENTRY_SEPARATOR ∨ p2 = [] then
        if ir then
          if st > digits_value ds then .ok (none, [⟨p1, strtol p1⟩], [])
          else
            match parse_expand_log 65536 st (digits_value ds : Int) bm with
            | .error e => .error e
            | .ok (start_value1, bm1, calls) =>
              with_calls [⟨p1, strtol p1⟩] calls (parse_fill_log f p2.tail false start_value1 bm1)
        else
          match bitmap_add_value bm (digits_value ds) with
          | .error e => .error e
          | .ok (b, bm1) =>
            with_calls [⟨p1, strtol p1⟩] [⟨digits_value ds, bm.max_value, b⟩]
              (parse_fill_log f p2.tail false st bm1)
      else if deref p2 = CHAR_RANGE_SEPARATOR ∧ ir = false then
        with_calls [⟨p1, strtol p1⟩] [] (parse_fill_log f p2.tail true (digits_value ds) bm)
      else .ok (none, [⟨p1, strtol p1⟩], []) := by
  have hs1 : AlphaText p1 := by rw [hp1]; exact alphaText_skip hs
  have hs2 : AlphaText p2 := by
    rw [hp2]; exact alphaText_skip (alphaText_dropWhile _ hs1)
  rw [parse_fill_log]
  dsimp only
  rw [← hp1]
  by_cases h1 : p1 = []
  · have hd1 : deref p1 = CHAR_NULL := by rw [h1]; rfl
    rw [if_pos h1, if_pos hd1, ite_self]
  · obtain ⟨c1, r1, hc1⟩ := List.exists_cons_of_ne_nil h1
    have hsne : s ≠ [] := by
      rintro rfl
      rw [hp1] at h1
      exact h1 rfl
    have hd0 : deref s ≠ CHAR_NULL := deref_ne_null_of_alpha hs hsne
    have hd1 : deref p1 ≠ CHAR_NULL := deref_ne_null_of_alpha hs1 h1
    have hnsp : c1 ≠ CHAR_SPACE := skip_space_head (hp1 ▸ hc1)
    have ha1 : Alpha c1 = true := hs1 c1 (by rw [hc1]; exact List.mem_cons_self _ _)
    have hde : deref p1 = c1 := by rw [hc1]; rfl
    rw [if_neg hd0, if_neg h1, if_neg hd1]
    by_cases hr : deref p1 = CHAR_RANGE_SEPARATOR
    · rw [if_pos hr, if_pos hr]
    · rw [if_neg hr, if_neg hr]
      rcases alpha_cases ha1 with hdig | hsp | hr2 | he
      · -- a digit
        obtain ⟨e1, e2, e3⟩ := strtol_digit_fields c1 r1 hdig
        rw [← hc1] at e1 e2 e3
        rw [← hds] at e2 e3
        have hdsne : ds ≠ [] := by
          rw [hds, hc1]; exact takeWhile_digit_ne_nil c1 r1 hdig
        have hlen : (p1.dropWhile isdigit).length < p1.length := by
          rw [hc1]
          have := length_dropWhile_digit c1 r1 hdig
          simp only [List.length_cons]
          omega
        have hne : ¬ ((strtol p1).value = 0 ∧ (strtol p1).endptr = p1) := by
          rintro ⟨_, h⟩
          rw [e1] at h
          rw [h] at hlen
          exact lt_irrefl _ hlen
        by_cases hbig : 65535 ≤ digits_value ds
        · rw [if_pos (e2.mpr hbig), if_pos (Or.inr hbig)]
        · have hnb : ¬ (ds = [] ∨ 65535 ≤ digits_value ds) := by
            rintro (h | h)
            · exact hdsne h
            · exact hbig h
          obtain ⟨e4, e5⟩ := e3 (by omega)
          rw [if_neg (fun h => hbig (e2.mp h)), if_neg hnb, if_neg hne]
          rw [e1, ← hp2, e4]
          have hmod : (digits_value ds : Int).toNat % 65536 = digits_value ds := by
            simp only [Int.toNat_ofNat]
            omega
          have hgt : ((st : Int) > (digits_value ds : Int)) ↔ st > digits_value ds := by
            omega
          have hnull : deref p2 = CHAR_NULL ↔ p2 = [] := deref_eq_null_iff hs2
          rw [hmod]
          by_cases hA : deref p2 = CHAR_ENTRY_SEPARATOR ∨ p2 = []
          · have hA1 : deref p2 = CHAR_ENTRY_SEPARATOR ∨ deref p2 = CHAR_NULL := by
              rcases hA with h | h
              · exact Or.inl h
              · exact Or.inr (hnull.mpr h)
            have htail : (if deref p2 = CHAR_ENTRY_SEPARATOR then p2.tail else p2)
                = p2.tail := by
              by_cases h : deref p2 = CHAR_ENTRY_SEPARATOR
              · rw [if_pos h]
              · rw [if_neg h]
                rcases hA with h' | h'
                · exact absurd h' h
                · rw [h']; rfl
            rw [if_pos hA1, if_pos hA, htail]
            cases ir with
            | true =>
              rw [if_pos rfl, if_pos rfl]
              by_cases h4 : st > digits_value ds
              · rw [if_pos (hgt.mpr h4), if_pos h4]
              · rw [if_neg (fun h => h4 (hgt.mp h)), if_neg h4]
                try rfl
            | false =>
              rw [if_neg Bool.false_ne_true, if_neg Bool.false_ne_true]
              try rfl
          · have hA1 : ¬ (deref p2 = CHAR_ENTRY_SEPARATOR ∨ deref p2 = CHAR_NULL) := by
              rintro (h | h)
              · exact hA (Or.inl h)
              · exact hA (Or.inr (hnull.mp h))
            rw [if_neg hA1, if_neg hA]
      · exact absurd hsp hnsp
      · exact absurd (by rw [hde, hr2]) hr
      · -- an entry separator
        have hdsnil : ds = [] := by
          rw [hds, hc1, he, List.takeWhile_cons, if_neg (by decide)]
        have hstr : strtol p1 = { value := 0, endptr := p1, erange := false } := by
          rw [hc1, he]; exact strtol_at_comma r1
        have hv0 : (strtol p1).value = 0 := by rw [hstr]
        have hen : (strtol p1).endptr = p1 := by rw [hstr]
        have her : (strtol p1).erange = false := by rw [hstr]
        have hnr : ¬ ((strtol p1).value ≥ 65535 ∨ (strtol p1).value < 0 ∨
            (strtol p1).erange = true) := by
          rw [hv0, her]; simp
        rw [if_neg hnr, if_pos ⟨hv0, hen⟩, if_pos (Or.inl hdsnil)]

/-! ### The positions that the second loop goes through -/

/-- Dropping characters other than digits from a position that does not split a run of
digits leads to such a position. -/
theorem pos_dropWhile {p : Char → Bool} (hp : ∀ c, p c = true → isdigit c = false)
    {T pre s : List Char} (hT : T = pre ++ s)
    (hsp : digit_before pre = false ∨ isdigit (deref s) = false) :
    ∃ pre1, T = pre1 ++ s.dropWhile p ∧
      (digit_before pre1 = false ∨ isdigit (deref (s.dropWhile p)) = false) := by
  refine ⟨pre ++ s.takeWhile p, ?_, ?_⟩
  · rw [List.append_assoc, List.takeWhile_append_dropWhile]; exact hT
  · by_cases htw : s.takeWhile p = []
    · have : s.dropWhile p = s := by
        have := List.takeWhile_append_dropWhile p s
        rw [htw, List.nil_append] at this
        exact this
      rw [htw, List.append_nil, this]
      exact hsp
    · left
      rw [digit_before_append pre htw]
      unfold digit_before
      cases hl : (s.takeWhile p).getLast? with
      | none => rfl
      | some c =>
        have hmem := List.mem_of_getLast?_eq_some hl
        exact hp c (List.mem_takeWhile_imp hmem)

theorem pos_skip {T pre s : List Char} (hT : T = pre ++ s)
    (hsp : digit_before pre = false ∨ isdigit (deref s) = false) :
    ∃ pre1, T = pre1 ++ skip_space s ∧
      (digit_before pre1 = false ∨ isdigit (deref (skip_space s)) = false) := by
  apply pos_dropWhile _ hT hsp
  intro c hc
  have : c = CHAR_SPACE := by simpa using hc
  rw [this]; decide

theorem pos_digits {T pre s : List Char} (hT : T = pre ++ s) :
    ∃ pre1, T = pre1 ++ s.dropWhile isdigit ∧
      (digit_before pre1 = false ∨ isdigit (deref (s.dropWhile isdigit)) = false) := by
  refine ⟨pre ++ s.takeWhile isdigit, ?_, Or.inr ?_⟩
  · rw [List.append_assoc, List.takeWhile_append_dropWhile]; exact hT
  · cases hd : s.dropWhile isdigit with
    | nil => rfl
    | cons c r => rw [deref_cons]; exact dropWhile_head hd

theorem pos_tail {T pre s : List Char} (hT : T = pre ++ s)
    (hnd : isdigit (deref s) = false) :
    ∃ pre1, T = pre1 ++ s.tail ∧
      (digit_before pre1 = false ∨ isdigit (deref s.tail) = false) := by
  cases s with
  | nil => exact ⟨pre, hT, Or.inr rfl⟩
  | cons c r =>
    rw [deref_cons] at hnd
    refine ⟨pre ++ [c], by rw [List.append_assoc]; exact hT, Or.inl ?_⟩
    rw [digit_before_append pre (List.cons_ne_nil c []), digit_before_singleton]
    exact hnd

/-- The position after a number and the separator that follows it. -/
theorem pos_after_number {T pre s : List Char} (hT : T = pre ++ s)
    (hsp : digit_before pre = false ∨ isdigit (deref s) = false)
    (hnd : isdigit (deref (skip_space ((skip_space s).dropWhile isdigit))) = false) :
    ∃ pre1, T = pre1 ++ (skip_space ((skip_space s).dropWhile isdigit)).tail ∧
      (digit_before pre1 = false ∨
        isdigit (deref (skip_space ((skip_space s).dropWhile isdigit)).tail) = false) := by
  obtain ⟨a1, hT1, hs1⟩ := pos_skip hT hsp
  obtain ⟨a2, hT2, hs2⟩ := @pos_digits T a1 (skip_space s) hT1
  obtain ⟨a3, hT3, hs3⟩ := pos_skip hT2 hs2
  exact pos_tail hT3 hnd

theorem deref_takeWhile_nil {p1 : List Char} (h : p1.takeWhile isdigit = []) :
    isdigit (deref p1) = false := by
  cases p1 with
  | nil => rfl
  | cons c r =>
    rw [deref_cons]
    by_contra hc
    have hc1 : isdigit c = true := by simpa using hc
    rw [List.takeWhile_cons, if_pos hc1] at h
    cases h

theorem deref_takeWhile_ne_nil {p1 : List Char} (h : p1.takeWhile isdigit ≠ []) :
    isdigit (deref p1) = true := by
  cases p1 with
  | nil => exact absurd rfl h
  | cons c r =>
    rw [deref_cons]
    by_contra hc
    apply h
    rw [List.takeWhile_cons, if_neg hc]

/-- The call of `strtol` that the second loop makes at a digit was made by the first loop,
and yields the value of the digits, below 65535 and below the capacity `M`. -/
theorem fill_call_digit {T : List Char} {L : List StrtolCall} {M : Nat}
    (hcov : ∀ pre post, T = pre ++ post → digit_before pre = false →
      isdigit (deref post) = true → (⟨post, strtol post⟩ : StrtolCall) ∈ L)
    (hL : ∀ c ∈ L, 0 ≤ c.res.value ∧ c.res.value < 65535 ∧ c.res.value < (M : Int) ∧
      c.res.erange = false)
    {pre1 p1 : List Char} (hT1 : T = pre1 ++ p1)
    (hsp1 : digit_before pre1 = false ∨ isdigit (deref p1) = false)
    (hdne : p1.takeWhile isdigit ≠ []) :
    (⟨p1, strtol p1⟩ : StrtolCall) ∈ L ∧
      ¬ ((strtol p1).value ≥ 65535 ∨ (strtol p1).value < 0 ∨ (strtol p1).erange = true) ∧
      digits_value (p1.takeWhile isdigit) < 65535 ∧
      digits_value (p1.takeWhile isdigit) < M := by
  have hdig := deref_takeWhile_ne_nil hdne
  have hdb : digit_before pre1 = false := by
    rcases hsp1 with h | h
    · exact h
    · rw [hdig] at h; cases h
  have hmem := hcov pre1 p1 hT1 hdb hdig
  obtain ⟨l1, l2, l3, l4⟩ := hL _ hmem
  simp only at l1 l2 l3 l4
  have hnr : ¬ ((strtol p1).value ≥ 65535 ∨ (strtol p1).value < 0 ∨
      (strtol p1).erange = true) := by
    rw [l4]
    simp only [Bool.false_eq_true, or_false, not_or]
    omega
  have hpne : p1 ≠ [] := by
    rintro rfl
    exact hdne rfl
  obtain ⟨c1, r1, hc1⟩ := List.exists_cons_of_ne_nil hpne
  rw [hc1, deref_cons] at hdig
  obtain ⟨_, e2, e3⟩ := strtol_digit_fields c1 r1 hdig
  rw [← hc1] at e2 e3
  have hsmall : digits_value (p1.takeWhile isdigit) < 65535 := by
    by_contra hc
    exact hnr (e2.mpr (not_lt.mp hc))
  obtain ⟨e4, _⟩ := e3 hsmall
  rw [e4] at l3
  exact ⟨hmem, hnr, hsmall, by omega⟩

/-- The call of `strtol` that the second loop makes at a comma makes no conversion. -/
theorem fill_call_comma {p1 : List Char} (hs1 : AlphaText p1) (h1 : p1 ≠ [])
    (hnsp : deref p1 ≠ CHAR_SPACE) (h2 : deref p1 ≠ CHAR_RANGE_SEPARATOR)
    (hdn : p1.takeWhile isdigit = []) :
    strtol p1 = { value := 0, endptr := p1, erange := false } := by
  obtain ⟨c1, r1, hc1⟩ := List.exists_cons_of_ne_nil h1
  have hnd := deref_takeWhile_nil hdn
  rw [hc1, deref_cons] at hnsp h2 hnd
  have ha1 : Alpha c1 = true := hs1 c1 (by rw [hc1]; exact List.mem_cons_self _ _)
  rcases alpha_cases ha1 with h | h | h | h
  · rw [h] at hnd; cases hnd
  · exact absurd h hnsp
  · exact absurd h h2
  · rw [hc1, h]; exact strtol_at_comma r1

/-- What the second loop does, call by call: on a text of allowed characters, from a
position that does not split a run of digits, it ends; every call of `strtol` that makes a
conversion is a call `L` contains, none yields a value that the range check rejects, and
every call of `bitmap_add_value` has a value below the capacity `M` and returns `true`. -/
theorem fill_log_spec (T : List Char) (L : List StrtolCall) (M : Nat)
    (hcov : ∀ pre post, T = pre ++ post → digit_before pre = false →
      isdigit (deref post) = true → (⟨post, strtol post⟩ : StrtolCall) ∈ L)
    (hL : ∀ c ∈ L, 0 ≤ c.res.value ∧ c.res.value < 65535 ∧ c.res.value < (M : Int) ∧
      c.res.erange = false) :
    ∀ (n : Nat) (s : List Char), s.length ≤ n → ∀ (pre : List Char), T = pre ++ s →
    (digit_before pre = false ∨ isdigit (deref s) = false) → AlphaText s →
    ∀ (ir : Bool) (st : Nat) (bm : Bitmap), Valid bm → StatsOK bm → bm.max_value = M →
    ∃ r log2 calls,
      (∀ fuel, s.length < fuel → parse_fill_log fuel s ir st bm = .ok (r, log2, calls)) ∧
      (∀ c ∈ log2, c.res.endptr ≠ c.arg → c ∈ L) ∧
      (∀ c ∈ log2, ¬ (c.res.value ≥ 65535 ∨ c.res.value < 0 ∨ c.res.erange = true)) ∧
      (∀ a ∈ calls, a.value < a.max_value ∧ a.result = true ∧ a.max_value = M) := by
  intro n
  induction n using Nat.strong_induction_on with
  | _ n ih =>
    intro s hn pre hT hsp hs ir st bm hv hst hM
    have key := fun f => fill_log_step s hs f ir st bm _ _ _ rfl rfl rfl
    have hlt := @length_after_number s _ _ _ rfl rfl rfl
    have hal := @alphaText_after_number s _ _ hs rfl rfl
    obtain ⟨pre1, hT1, hsp1⟩ := pos_skip hT hsp
    have hs1 : AlphaText (skip_space s) := alphaText_skip hs
    by_cases h1 : skip_space s = []
    · refine ⟨if ir then none else some bm, [], [], fun fuel hf => ?_,
        fun c hc => by simp at hc, fun c hc => by simp at hc, fun c hc => by simp at hc⟩
      cases fuel with
      | zero => simp at hf
      | succ f =>
        rw [key, if_pos h1]
        cases ir <;> rfl
    · by_cases h2 : deref (skip_space s) = CHAR_RANGE_SEPARATOR
      · refine ⟨none, [], [], fun fuel hf => ?_,
          fun c hc => by simp at hc, fun c hc => by simp at hc, fun c hc => by simp at hc⟩
        cases fuel with
        | zero => simp at hf
        | succ f => rw [key, if_neg h1, if_pos h2]
      · have hnsp : deref (skip_space s) ≠ CHAR_SPACE := by
          obtain ⟨c1, r1, hc1⟩ := List.exists_cons_of_ne_nil h1
          rw [hc1, deref_cons]
          exact skip_space_head hc1
        by_cases hdn : (skip_space s).takeWhile isdigit = []
        · -- a comma where a number is expected
          have hstr := fill_call_comma hs1 h1 hnsp h2 hdn
          refine ⟨none, [⟨skip_space s, strtol (skip_space s)⟩], [], fun fuel hf => ?_,
            ?_, ?_, fun c hc => by simp at hc⟩
          · cases fuel with
            | zero => simp at hf
            | succ f => rw [key, if_neg h1, if_neg h2, if_pos (Or.inl hdn)]
          · intro c hc hconv
            rw [List.mem_singleton] at hc
            subst hc
            exfalso
            apply hconv
            show (strtol (skip_space s)).endptr = skip_space s
            rw [hstr]
          · intro c hc
            rw [List.mem_singleton] at hc
            subst hc
            show ¬ ((strtol (skip_space s)).value ≥ 65535 ∨ (strtol (skip_space s)).value < 0 ∨
              (strtol (skip_space s)).erange = true)
            rw [hstr]
            simp
        · -- a number
          obtain ⟨hmem, hnr, hsmall, hltM⟩ := fill_call_digit hcov hL hT1 hsp1 hdn
          have h3 : ¬ ((skip_space s).takeWhile isdigit = [] ∨
              65535 ≤ digits_value ((skip_space s).takeWhile isdigit)) := by
            rintro (h | h)
            · exact hdn h
            · omega
          have hlt1 := hlt hdn
          have hlog1 : ∀ c ∈ [(⟨skip_space s, strtol (skip_space s)⟩ : StrtolCall)],
              c.res.endptr ≠ c.arg → c ∈ L := by
            intro c hc _
            rw [List.mem_singleton] at hc
            rw [hc]; exact hmem
          have hlog2 : ∀ c ∈ [(⟨skip_space s, strtol (skip_space s)⟩ : StrtolCall)],
              ¬ (c.res.value ≥ 65535 ∨ c.res.value < 0 ∨ c.res.erange = true) := by
            intro c hc
            rw [List.mem_singleton] at hc
            rw [hc]; exact hnr
          by_cases hA : deref (skip_space ((skip_space s).dropWhile isdigit))
              = CHAR_ENTRY_SEPARATOR ∨ skip_space ((skip_space s).dropWhile isdigit) = []
          · have hnd : isdigit (deref (skip_space ((skip_space s).dropWhile isdigit)))
                = false := by
              rcases hA with h | h
              · rw [h]; decide
              · rw [h]; rfl
            obtain ⟨pre3, hT3, hsp3⟩ := pos_after_number hT hsp hnd
            cases ir with
            | true =>
              by_cases h4 : st > digits_value ((skip_space s).takeWhile isdigit)
              · refine ⟨none, [⟨skip_space s, strtol (skip_space s)⟩], [],
                  fun fuel hf => ?_, hlog1, hlog2, fun c hc => by simp at hc⟩
                cases fuel with
                | zero => simp at hf
                | succ f =>
                  rw [key, if_neg h1, if_neg h2, if_neg h3, if_pos hA, if_pos rfl, if_pos h4]
              · obtain ⟨bm1, calls, hexp, _, hvals, hall, hv1, hst1, hmv1⟩ :=
                  expand_log_spec 65536 st _ bm hv hst (by omega) hsmall (by omega)
                obtain ⟨r, log2, calls2, hrun, g1, g2, g3⟩ :=
                  ih _ (lt_of_lt_of_le hlt1 hn) _ le_rfl pre3 hT3 hsp3 hal false
                    (digits_value ((skip_space s).takeWhile isdigit) + 1) bm1 hv1 hst1
                    (by rw [hmv1, hM])
                refine ⟨r, [⟨skip_space s, strtol (skip_space s)⟩] ++ log2, calls ++ calls2,
                  fun fuel hf => ?_, ?_, ?_, ?_⟩
                · cases fuel with
                  | zero => simp at hf
                  | succ f =>
                    rw [key, if_neg h1, if_neg h2, if_neg h3, if_pos hA, if_pos rfl,
                      if_neg h4, hexp]
                    dsimp only
                    rw [hrun f (by omega)]
                    rfl
                · intro c hc
                  rcases List.mem_append.mp hc with hc | hc
                  · exact hlog1 c hc
                  · exact g1 c hc
                · intro c hc
                  rcases List.mem_append.mp hc with hc | hc
                  · exact hlog2 c hc
                  · exact g2 c hc
                · intro a ha
                  rcases List.mem_append.mp ha with ha | ha
                  · obtain ⟨q1, q2⟩ := hall a ha
                    have hmemv : a.value ∈ calls.map (fun c => c.value) :=
                      List.mem_map.mpr ⟨a, ha, rfl⟩
                    rw [hvals, List.mem_range'_1] at hmemv
                    have hav : a.value < bm.max_value := by omega
                    exact ⟨by rw [q1]; exact hav, q2 hav, by rw [q1, hM]⟩
                  · exact g3 a ha
            | false =>
              obtain ⟨b, bm1, hadd, hv1, hst1, hmv1, hb⟩ :=
                add_call (digits_value ((skip_space s).takeWhile isdigit)) hv hst
              have hbt : b = true := hb (by omega)
              obtain ⟨r, log2, calls2, hrun, g1, g2, g3⟩ :=
                ih _ (lt_of_lt_of_le hlt1 hn) _ le_rfl pre3 hT3 hsp3 hal false st bm1 hv1 hst1
                  (by rw [hmv1, hM])
              refine ⟨r, [⟨skip_space s, strtol (skip_space s)⟩] ++ log2,
                [⟨digits_value ((skip_space s).takeWhile isdigit), bm.max_value, b⟩] ++ calls2,
                fun fuel hf => ?_, ?_, ?_, ?_⟩
              · cases fuel with
                | zero => simp at hf
                | succ f =>
                  rw [key, if_neg h1, if_neg h2, if_neg h3, if_pos hA,
                    if_neg Bool.false_ne_true, hadd]
                  dsimp only
                  rw [hrun f (by omega)]
                  rfl
              · intro c hc
                rcases List.mem_append.mp hc with hc | hc
                · exact hlog1 c hc
                · exact g1 c hc
              · intro c hc
                rcases List.mem_append.mp hc with hc | hc
                · exact hlog2 c hc
                · exact g2 c hc
              · intro a ha
                rcases List.mem_append.mp ha with ha | ha
                · rw [List.mem_singleton] at ha
                  rw [ha]
                  have hlt2 : digits_value ((skip_space s).takeWhile isdigit) < bm.max_value := by
                    rw [hM]; exact hltM
                  exact ⟨hlt2, hbt, hM⟩
                · exact g3 a ha
          · by_cases hB : deref (skip_space ((skip_space s).dropWhile isdigit))
                = CHAR_RANGE_SEPARATOR ∧ ir = false
            · have hnd : isdigit (deref (skip_space ((skip_space s).dropWhile isdigit)))
                  = false := by
                rw [hB.1]; decide
              obtain ⟨pre3, hT3, hsp3⟩ := pos_after_number hT hsp hnd
              obtain ⟨r, log2, calls2, hrun, g1, g2, g3⟩ :=
                ih _ (lt_of_lt_of_le hlt1 hn) _ le_rfl pre3 hT3 hsp3 hal true
                  (digits_value ((skip_space s).takeWhile isdigit)) bm hv hst hM
              refine ⟨r, [⟨skip_space s, strtol (skip_space s)⟩] ++ log2, [] ++ calls2,
                fun fuel hf => ?_, ?_, ?_, ?_⟩
              · cases fuel with
                | zero => simp at hf
                | succ f =>
                  rw [key, if_neg h1, if_neg h2, if_neg h3, if_neg hA, if_pos hB,
                    hrun f (by omega)]
                  rfl
              · intro c hc
                rcases List.mem_append.mp hc with hc | hc
                · exact hlog1 c hc
                · exact g1 c hc
              · intro c hc
                rcases List.mem_append.mp hc with hc | hc
                · exact hlog2 c hc
                · exact g2 c hc
              · intro a ha
                exact g3 a (by simpa using ha)
            · refine ⟨none, [⟨skip_space s, strtol (skip_space s)⟩], [],
                fun fuel hf => ?_, hlog1, hlog2, fun c hc => by simp at hc⟩
              cases fuel with
              | zero => simp at hf
              | succ f =>
                rw [key, if_neg h1, if_neg h2, if_neg h3, if_neg hA, if_neg hB]

/-- The maximum that a successful run of the first loop ends with is the one it started
with or the value of a call it has recorded. -/
theorem scan_log_max : ∀ (f : Nat) (s : List Char) (m mx : Int) (log : List StrtolCall),
    parse_scan_log f s m = .ok (some mx, log) →
    mx = m ∨ ∃ c ∈ log, c.res.value = mx := by
  intro f
  induction f with
  | zero => intro s m mx log h; simp [parse_scan_log] at h
  | succ f ih =>
    intro s m mx log h
    cases s with
    | nil =>
      simp only [parse_scan_log, deref_nil, if_true] at h
      injection h with h
      injection h with h1 h2
      injection h1 with h1
      exact Or.inl h1.symm
    | cons c s =>
      rw [scan_log_step] at h
      by_cases h0 : c = CHAR_NULL
      · rw [if_pos h0] at h
        injection h with h
        injection h with h1 h2
        injection h1 with h1
        exact Or.inl h1.symm
      · rw [if_neg h0] at h
        by_cases h1 : c = CHAR_SPACE ∨ c = CHAR_RANGE_SEPARATOR ∨ c = CHAR_ENTRY_SEPARATOR
        · rw [if_pos h1] at h
          exact ih _ _ _ _ h
        · rw [if_neg h1] at h
          by_cases hd : isdigit c = true
          · rw [if_pos hd] at h
            by_cases hbig : 65535 ≤ digits_value ((c :: s).takeWhile isdigit)
            · rw [if_pos hbig] at h; cases h
            · rw [if_neg hbig] at h
              cases hrec : parse_scan_log f ((c :: s).dropWhile isdigit)
                  (scan_max m [digits_value ((c :: s).takeWhile isdigit)]) with
              | error e => rw [hrec] at h; cases h
              | ok p =>
                obtain ⟨res, log1⟩ := p
                rw [hrec] at h
                injection h with h
                injection h with h1 h2
                subst h1; subst h2
                obtain ⟨_, _, e3⟩ := strtol_digit_fields c s hd
                obtain ⟨e4, _⟩ := e3 (by omega)
                rcases ih _ _ _ _ hrec with i | ⟨x, hx, i⟩
                · have hm := (scan_max_spec [digits_value ((c :: s).takeWhile isdigit)] m).2.2
                  rcases hm with hm | ⟨n, hn, hm⟩
                  · exact Or.inl (by rw [i, hm])
                  · rw [List.mem_singleton] at hn
                    subst hn
                    right
                    exact ⟨_, List.mem_cons_self _ _, by
                      show (strtol (c :: s)).value = mx
                      rw [e4, i, hm]⟩
                · exact Or.inr ⟨x, List.mem_cons_of_mem _ hx, i⟩
          · rw [if_neg hd] at h; cases h

/-- The population pass after a validation pass that accepts the text: it ends, with the
result of `bitmap_parse_str`; the calls of `strtol` that read a literal are calls of the
validation pass, none is rejected by the range check, and every `bitmap_add_value` has a
value below the capacity and returns `true`. -/
theorem fill_after_scan (malloc_ok : Bool) (str : List Char) (mx : Int)
    (log1 : List StrtolCall) (bm : Bitmap) (hcs : CString str)
    (hscan : parse_scan_log (str.length + 1) str (-1) = .ok (some mx, log1)) (hmx : 0 ≤ mx)
    (hcreate : bitmap_create malloc_ok ((mx.toNat % 65536 + 1) % 65536) = some bm) :
    ∃ r log2 calls,
      parse_fill_log (str.length + 1) str false 0 bm = .ok (r, log2, calls) ∧
      bitmap_parse_str malloc_ok str = .ok r ∧
      (∀ c ∈ log2, c.res.endptr ≠ c.arg → c ∈ log1) ∧
      (∀ c ∈ log1, 0 ≤ c.res.value ∧ c.res.value < 65535 ∧ c.res.value ≤ mx) ∧
      (∀ c ∈ log2, ¬ (c.res.value ≥ 65535 ∨ c.res.value < 0 ∨ c.res.erange = true)) ∧
      (∀ a ∈ calls, a.value < a.max_value ∧ a.result = true ∧
        a.max_value = bm.max_value) := by
  obtain ⟨_, hspec⟩ := scan_log_spec _ _ _ _ _ hscan
  have hmxlt : mx < 65535 := by
    rcases scan_log_max _ _ _ _ _ hscan with h | ⟨c, hc, h⟩
    · omega
    · have := (hspec c hc).2.2.2.1
      omega
  have hscan1 : parse_scan (str.length + 1) str (-1) = .ok (some mx) := by
    rw [← scan_log_erase, hscan]; rfl
  have hal := scan_alpha _ _ _ _ hcs hscan1
  have hcap : (mx.toNat % 65536 + 1) % 65536 = mx.toNat + 1 := by omega
  rw [hcap] at hcreate
  obtain ⟨hv, hst⟩ := create_valid _ _ bm hcreate (by omega)
  have hM := (create_spec _ _ bm hcreate).1
  have hcov : ∀ pre post, str = pre ++ post → digit_before pre = false →
      isdigit (deref post) = true → (⟨post, strtol post⟩ : StrtolCall) ∈ log1 := by
    intro pre post hT hdb hpost
    have hcs1 : CString pre := by
      rw [hT] at hcs
      exact (cstring_append.mp hcs).1
    have h := hscan
    rw [hT] at h
    exact scan_log_covers post hpost _ pre _ _ _ hcs1 hdb h
  have hL : ∀ c ∈ log1, 0 ≤ c.res.value ∧ c.res.value < 65535 ∧
      c.res.value < ((mx.toNat + 1 : Nat) : Int) ∧ c.res.erange = false := by
    intro c hc
    obtain ⟨_, _, l1, l2, l3, l4, _⟩ := hspec c hc
    exact ⟨l1, l2, by omega, l4⟩
  obtain ⟨r, log2, calls, hrun, g1, g2, g3⟩ :=
    fill_log_spec str log1 (mx.toNat + 1) hcov hL str.length str le_rfl [] rfl (Or.inl rfl)
      hal false 0 bm hv hst hM
  have hrun1 := hrun _ (Nat.lt_succ_self _)
  refine ⟨r, log2, calls, hrun1, ?_, g1, ?_, g2, ?_⟩
  · have hfill : parse_fill (str.length + 1) str false 0 bm = .ok r := by
      rw [← fill_log_erase, hrun1]; rfl
    rw [parse_unfold, hscan1]
    simp only
    rw [if_neg (by omega), hcap, hcreate]
    exact hfill
  · intro c hc
    obtain ⟨_, _, l1, l2, l3, _⟩ := hspec c hc
    exact ⟨l1, l2, l3⟩
  · intro a ha
    obtain ⟨q1, q2, q3⟩ := g3 a ha
    exact ⟨q1, q2, by rw [q3, hM]⟩

/-! ### Termination of the loops -/

/-- The scan of `bitmap_print` ends, from any counter. -/
theorem print_loop_total {bm : Bitmap} (hB : bm.last_value < 65535)
    (hlen : bm.last_value / 32 < bm.buf.length) : ∀ (k i : Nat) (st : PrintState),
    bm.last_value + 1 - i ≤ k → ∃ R, PrintTo bm i st R := by
  intro k
  induction k with
  | zero =>
    intro i st hk
    exact ⟨st, print_exit bm i st (by omega)⟩
  | succ k ih =>
    intro i st hk
    by_cases hi : i ≤ bm.last_value
    · obtain ⟨R, hR⟩ := ih (i + 1) (bitmap_print_step bm i (bm.buf.getD (i / 32) 0) st)
        (by omega)
      exact ⟨R, print_one hi hB hlen hR⟩
    · exact ⟨st, print_exit bm i st (by omega)⟩

/-- A larger bound does not change the result of the rescan of `update_info`. -/
theorem update_loop_mono : ∀ (f i : Nat) (bm x : Bitmap),
    update_info_loop f i bm = .ok x → ∀ g, f ≤ g → update_info_loop g i bm = .ok x := by
  intro f
  induction f with
  | zero => intro i bm x h; simp [update_info_loop] at h
  | succ f ih =>
    intro i bm x h g hg
    cases g with
    | zero => omega
    | succ g =>
      rw [update_info_loop] at h ⊢
      by_cases hi : i < bm.max_value
      · rw [if_pos hi] at h ⊢
        cases hrd : rd bm.buf (i / BITSIZEOF_u32) with
        | error e => rw [hrd] at h; cases h
        | ok w =>
          rw [hrd] at h
          exact ih _ _ _ h g (by omega)
      · rw [if_neg hi] at h ⊢
        exact h

/-- A larger bound does not change the result of the loop that expands a range. -/
theorem expand_log_mono : ∀ (f a : Nat) (v : Int) (bm : Bitmap)
    (x : Nat × Bitmap × List AddCall),
    parse_expand_log f a v bm = .ok x → ∀ g, f ≤ g → parse_expand_log g a v bm = .ok x := by
  intro f
  induction f with
  | zero => intro a v bm x h; simp [parse_expand_log] at h
  | succ f ih =>
    intro a v bm x h g hg
    cases g with
    | zero => omega
    | succ g =>
      rw [parse_expand_log] at h ⊢
      by_cases hi : (a : Int) ≤ v
      · rw [if_pos hi] at h ⊢
        cases hadd : bitmap_add_value bm a with
        | error e => rw [hadd] at h; cases h
        | ok p =>
          obtain ⟨b, bm1⟩ := p
          rw [hadd] at h
          dsimp only at h ⊢
          cases hrec : parse_expand_log f ((a + 1) % 65536) v bm1 with
          | error e => rw [hrec] at h; cases h
          | ok q =>
            rw [hrec] at h
            rw [ih _ _ _ _ hrec g (by omega)]
            exact h
      · rw [if_neg hi] at h ⊢
        exact h

/-- The scans of `bitmap_print` and of `update_info` on a valid bitmap that satisfies the
invariants end within `max_value` iterations, their 16-bit counters never wrapping. -/
theorem scans_terminate {bm : Bitmap} (hv : Valid bm) (hi : Invariants bm) :
    bm.last_value + 1 ≤ bm.max_value ∧ bm.max_value ≤ 65535 ∧
      (∀ st, ∃ r, ∀ fuel, bm.max_value < fuel →
        bitmap_print_loop bm fuel bm.first_value st = .ok r) ∧
      (∃ bm1, update_info bm = .ok bm1 ∧ ∀ fuel, bm.max_value < fuel →
        update_info_loop fuel 0
          { bm with first_value := UINT16_MAX, last_value := 0, numbers := 0 } = .ok bm1) := by
  have hmax := valid_max hv
  have hpos := (check_bounds hv.2).2.1
  have hlast : bm.last_value < bm.max_value := by
    by_cases hc : 0 < count_set bm
    · exact (hi.2.2.1 hc).2.2.1
    · have := (hi.2.2.2 (by omega)).2
      omega
  refine ⟨by omega, hmax, ?_, ?_⟩
  · intro st
    obtain ⟨R, hR⟩ := print_loop_total (by omega) (valid_idx hv hlast) _ bm.first_value st
      (le_refl _)
    exact ⟨R, fun fuel hf => hR fuel (by omega)⟩
  · have hlen : bm.max_value ≤ bm.buf.length * 32 := valid_len hv
    obtain ⟨bm1, hrun, _, _⟩ := update_info_loop_spec (bm.max_value + 1) 0
      { bm with first_value := UINT16_MAX, last_value := 0, numbers := 0 }
      (Nat.zero_le _) hmax hlen (by simp only; omega)
      (by unfold StatsUpTo; simp [UINT16_MAX])
    refine ⟨bm1, ?_, fun fuel hf => ?_⟩
    · unfold update_info
      exact update_loop_mono _ _ _ _ hrun 65536 (by omega)
    · exact update_loop_mono _ _ _ _ hrun fuel (by omega)

/-- The expansion of a range `A-B` with `A ≤ B ≤ 65534` ends after exactly `B - A + 1`
additions, its counter at `B + 1`. -/
theorem expansion_terminates {bm : Bitmap} (A B : Nat) (hv : Valid bm) (hs : StatsOK bm)
    (hAB : A ≤ B) (hB : B ≤ 65534) :
    ∃ bm1 calls,
      (∀ fuel, B - A + 1 < fuel →
        parse_expand_log fuel A (B : Int) bm = .ok (B + 1, bm1, calls)) ∧
      calls.length = B - A + 1 ∧
      calls.map (fun c => c.value) = List.range' A (B - A + 1) ∧
      parse_expand 65536 A (B : Int) bm = .ok (B + 1, bm1) := by
  obtain ⟨bm1, calls, hrun, hlen, hvals, _⟩ :=
    expand_log_spec (B - A + 2) A B bm hv hs (by omega) (by omega) (by omega)
  have e : B + 1 - A = B - A + 1 := by omega
  rw [e] at hlen hvals
  refine ⟨bm1, calls, fun fuel hf => expand_log_mono _ _ _ _ _ hrun fuel (by omega),
    hlen, hvals, ?_⟩
  rw [← expand_log_erase, expand_log_mono _ _ _ _ _ hrun 65536 (by omega)]
  rfl

/-! ## The claims of the specification -/

/-- C1. Cached statistics invariant: whenever one of Create, Add, Delete, Not, Or, And,
Clone and Parse returns normally, on valid input bitmaps satisfying the statistics invariant
(needed for Add, Delete and Clone only: the others recompute the statistics), the resulting
bitmap has `numbers` equal to the number of set bits below `max_value`, and `first_value`,
`last_value` the smallest and largest set positions, or 65535 and 0 when there is none
(`StatsOK`).  Moreover after a successful Add the rescan `update_info` would leave the
bitmap as the incremental update made it. -/
theorem stats_invariant :
    (∀ (malloc_ok : Bool) (capacity : Nat) (bm : Bitmap),
      bitmap_create malloc_ok capacity = some bm → StatsOK bm) ∧
    (∀ (bm : Bitmap) (value : Nat) (r : Bool) (bm1 : Bitmap), Valid bm → StatsOK bm →
      bitmap_add_value bm value = .ok (r, bm1) → StatsOK bm1) ∧
    (∀ (bm : Bitmap) (value : Nat) (r : Bool) (bm1 : Bitmap), Valid bm → StatsOK bm →
      bitmap_del_value bm value = .ok (r, bm1) → StatsOK bm1) ∧
    (∀ (bm : Bitmap) (r : Bool) (bm1 : Bitmap), Valid bm →
      bitmap_not bm = .ok (r, bm1) → StatsOK bm1) ∧
    (∀ (dst src : Bitmap) (r : Bool) (bm1 : Bitmap), Valid dst → Valid src →
      bitmap_or dst src = .ok (r, bm1) → StatsOK bm1) ∧
    (∀ (dst src : Bitmap) (r : Bool) (bm1 : Bitmap), Valid dst → Valid src →
      bitmap_and dst src = .ok (r, bm1) → StatsOK bm1) ∧
    (∀ (malloc_ok : Bool) (bm bm1 : Bitmap), Valid bm → StatsOK bm →
      bitmap_clone malloc_ok bm = .ok (some bm1) → StatsOK bm1) ∧
    (∀ (malloc_ok : Bool) (str : List Char) (bm : Bitmap),
      bitmap_parse_str malloc_ok str = .ok (some bm) → StatsOK bm) ∧
    (∀ (bm : Bitmap) (value : Nat) (bm1 : Bitmap), Valid bm → StatsOK bm →
      bitmap_add_value bm value = .ok (true, bm1) → update_info bm1 = .ok bm1) := by
  refine ⟨?_, ?_, ?_, ?_, ?_, ?_, ?_, ?_, ?_⟩
  · intro ok cap bm h
    obtain ⟨_, _, _, _, h5, h6, h7, h8, _, _⟩ := create_spec ok cap bm h
    exact stats_of_empty bm h8 h5 h6 h7
  · intro bm v r bm1 hv hs h
    exact (add_inv hv hs h).2
  · intro bm v r bm1 hv hs h
    exact (del_inv hv hs h).2
  · intro bm r bm1 hv h
    exact not_stats hv h
  · intro dst src r bm1 hd hs h
    exact or_stats hd hs h
  · intro dst src r bm1 hd hs h
    exact and_stats hd hs h
  · intro ok bm bm1 hv hs h
    rw [clone_spec ok bm bm1 hv h]
    exact hs
  · intro ok str bm h
    exact (parse_inv ok str bm h).2
  · intro bm v bm1 hv hs h
    obtain ⟨hv1, hs1⟩ := add_inv hv hs h
    obtain ⟨b2, hrun, hs2, hfr⟩ := update_info_spec bm1 (valid_max hv1) (valid_len hv1)
    rw [hrun, stats_unique hs2 hs1 hfr]

theorem stats_invariant_witness :
    StatsOK { sample_dst with buf := [162], last_value := 7, numbers := 3 } :=
  stats_invariant.2.1 sample_dst 7 true _ (by decide) (by decide) (by decide)

/-- C2. Print after Parse round-trips: for every text in canonical form (`canon_text rs`
for a canonical list of runs `rs`: entries in strictly ascending order separated by `,`, no
spaces, no leading zeros, every literal below 65535, a run of two or more values written
`A-B`, at least one missing value between consecutive entries), `bitmap_parse_str` (the
allocation succeeding) returns a bitmap, and what `bitmap_print` writes for it is that text
followed by a newline. -/
theorem print_parse_roundtrip (rs : List (Nat × Nat)) (hc : Canonical rs) :
    ∃ bm, bitmap_parse_str true (canon_text rs) = .ok (some bm) ∧
      bitmap_print bm = .ok (canon_text rs ++ [Char.ofNat 10]) := by
  cases rs with
  | nil => exact absurd rfl hc.1
  | cons r rs =>
    obtain ⟨bm, h1, h2, _⟩ := parse_print_canonical r rs hc
    exact ⟨bm, h1, h2⟩

theorem print_parse_roundtrip_witness :
    Canonical [(1, 3), (5, 5), (7, 7)] ∧
    canon_text [(1, 3), (5, 5), (7, 7)] = "1-3,5,7".toList ∧
    ∃ bm, bitmap_parse_str true (canon_text [(1, 3), (5, 5), (7, 7)]) = .ok (some bm) ∧
      bitmap_print bm = .ok (canon_text [(1, 3), (5, 5), (7, 7)] ++ [Char.ofNat 10]) :=
  ⟨by simp [Canonical], by decide,
    print_parse_roundtrip [(1, 3), (5, 5), (7, 7)] (by simp [Canonical])⟩

/-- C3. Parse semantics on well-formed input: for a text that is a comma-separated sequence
of one or more entries, each a decimal literal `N < 65535` or a range `A-B` with
`A ≤ B < 65535`, with optional space characters around the numbers, `bitmap_parse_str`
(the allocation succeeding) returns a bitmap whose `max_value` is the largest literal of
the text plus one and whose members are exactly the values the entries denote. -/
theorem parse_semantics (e : Entry) (es : List Entry) (hok : ∀ x ∈ e :: es, x.ok) :
    ∃ bm L, bitmap_parse_str true (entries_text (e :: es)) = .ok (some bm) ∧
      L ∈ all_literals (e :: es) ∧ (∀ n ∈ all_literals (e :: es), n ≤ L) ∧
      bm.max_value = L + 1 ∧
      ∀ v, member bm v = true ↔ ∃ x ∈ e :: es, x.covers v = true := by
  obtain ⟨bm, L, hrun, hL, hLle, hmv, hbits, _, _⟩ := parse_entries e es hok
  refine ⟨bm, L, hrun, hL, hLle, hmv, ?_⟩
  intro v
  unfold member
  rw [hbits v, Bool.and_eq_true, decide_eq_true_eq, List.any_eq_true]
  constructor
  · rintro ⟨_, h⟩; exact h
  · rintro ⟨x, hx, hc⟩
    refine ⟨?_, x, hx, hc⟩
    have hlit := covers_le_literal x v hc
    obtain ⟨n, hn, hvn⟩ := hlit
    have := hLle n (mem_all_literals hx hn)
    omega

theorem parse_semantics_witness :
    ∃ bm L, bitmap_parse_str true
        (entries_text [Entry.range ⟨1, "7".toList, 1⟩ ⟨0, "09".toList, 0⟩,
          Entry.single ⟨2, "3".toList, 0⟩]) = .ok (some bm) ∧
      L ∈ all_literals [Entry.range ⟨1, "7".toList, 1⟩ ⟨0, "09".toList, 0⟩,
          Entry.single ⟨2, "3".toList, 0⟩] ∧
      (∀ n ∈ all_literals [Entry.range ⟨1, "7".toList, 1⟩ ⟨0, "09".toList, 0⟩,
          Entry.single ⟨2, "3".toList, 0⟩], n ≤ L) ∧
      bm.max_value = L + 1 ∧
      ∀ v, member bm v = true ↔ ∃ x ∈ [Entry.range ⟨1, "7".toList, 1⟩ ⟨0, "09".toList, 0⟩,
          Entry.single ⟨2, "3".toList, 0⟩], x.covers v = true :=
  parse_semantics _ _ (by decide)

/-- C4. `bitmap_or` is a union clipped to the destination's capacity: for valid bitmaps
`dst` and `src` satisfying the invariants, `dst.max_value` not a multiple of 32, the call
returns `true`; `max_value` and `buf_len` of `dst` are unchanged; a position below
`dst.max_value` is a member afterwards iff it was a member of `dst` or is a member of `src`;
no bit at a position `≥ dst.max_value` is set; and the words of `dst` beyond the word count
of `src` keep their value.  (The source operand is passed by value and only read: every
write of `bitmap_or` goes to `bm_store`.) -/
theorem or_union_clipped (dst src : Bitmap) (hd : Valid dst) (hdi : Invariants dst)
    (hs : Valid src) (hsi : Invariants src) (hm : dst.max_value % 32 ≠ 0) :
    ∃ bm1, bitmap_or dst src = .ok (true, bm1) ∧
      bm1.max_value = dst.max_value ∧ bm1.buf_len = dst.buf_len ∧
      (∀ v < dst.max_value, member bm1 v = (member dst v || member src v)) ∧
      (∀ v, dst.max_value ≤ v → bit_set bm1 v = false) ∧
      (∀ j, src.buf_len ≤ j → bm1.buf.getD j 0 = dst.buf.getD j 0) := by
  obtain ⟨bm1, hrun, hsh, hv1, hst, hw⟩ := or_spec hd hs hm
  have hbits := @or_bits dst src bm1 hd hm hsh hw
  refine ⟨bm1, hrun, hsh.2.1, hsh.2.2.1, ?_, ?_, ?_⟩
  · intro v hv
    rw [member_eq_bit (by rw [hsh.2.1]; exact hv), hbits v, member_eq_bit hv,
      src_part_eq_member hd hs hsi.1 hv]
    simp [hv]
  · intro v hv
    rw [hbits v]
    have : ¬ v < dst.max_value := by omega
    simp [this]
  · intro j hj
    rw [hw j]
    have h1 : ¬ j < min dst.buf_len src.buf_len := by
      rw [Nat.lt_min]; omega
    simp only [h1, if_false]
    split_ifs with h2
    · -- the re-mask leaves the last word as it is: its overflow bits are zero
      apply Nat.eq_of_testBit_eq
      intro i
      rw [Nat.testBit_and, Nat.testBit_two_pow_sub_one]
      by_cases hi : i < dst.max_value % 32
      · simp [hi]
      · have hz : (dst.buf.getD j 0).testBit i = false := by
          by_cases hi32 : i < 32
          · have hlen := last_word_idx hd hm
            have := hdi.1 (32 * j + i) (by omega) (by omega)
            unfold bit_set at this
            have e1 : (32 * j + i) / 32 = j := by omega
            have e2 : (32 * j + i) % 32 = i := by omega
            rwa [e1, e2] at this
          · have hp : (4294967296 : Nat) ≤ 2 ^ i := by
              have : (2 : Nat) ^ 32 ≤ 2 ^ i := Nat.pow_le_pow_right (by norm_num) (by omega)
              norm_num at this; exact this
            exact Nat.testBit_lt_two_pow (lt_of_lt_of_le (word_lt hd.1 j) hp)
        rw [hz]; rfl
    · rfl

theorem or_union_clipped_witness :
    ∃ bm1, bitmap_or sample_dst sample_src = .ok (true, bm1) ∧
      bm1.max_value = sample_dst.max_value ∧ bm1.buf_len = sample_dst.buf_len ∧
      (∀ v < sample_dst.max_value, member bm1 v = (member sample_dst v || member sample_src v)) ∧
      (∀ v, sample_dst.max_value ≤ v → bit_set bm1 v = false) ∧
      (∀ j, sample_src.buf_len ≤ j → bm1.buf.getD j 0 = sample_dst.buf.getD j 0) :=
  or_union_clipped sample_dst sample_src (by decide) (by decide) (by decide) (by decide)
    (by decide)

/-- C5. `bitmap_and` truncates the destination to the source's extent: for valid bitmaps
`dst` and `src`, `src` satisfying the invariants (those of `dst` are not needed: its
statistics are recomputed), `dst.max_value` not a multiple of 32, the call
returns `true`; a position below `dst.max_value` is a member afterwards iff it was a member
of `dst` and is a member of `src`; when `dst.max_value > src.max_value` no bit at a position
beyond the span of `src` is set; and every word of `dst` at an index `≥ src.buf_len` is zero.
(The source operand is passed by value and only read.) -/
theorem and_truncates (dst src : Bitmap) (hd : Valid dst) (hs : Valid src) (hsi : Invariants src) (hm : dst.max_value % 32 ≠ 0) :
    ∃ bm1, bitmap_and dst src = .ok (true, bm1) ∧
      (∀ v < dst.max_value, member bm1 v = (member dst v && member src v)) ∧
      (src.max_value < dst.max_value → ∀ v, src.max_value ≤ v → bit_set bm1 v = false) ∧
      (∀ j, src.buf_len ≤ j → bm1.buf.getD j 0 = 0) := by
  obtain ⟨bm1, hrun, hsh, hv1, hst, hw⟩ := and_spec hd hs hm
  have hbits := @and_bits dst src bm1 hd hm hsh hw
  refine ⟨bm1, hrun, ?_, ?_, ?_⟩
  · intro v hv
    rw [member_eq_bit (by rw [hsh.2.1]; exact hv), hbits v, member_eq_bit hv,
      ← src_part_eq_member hd hs hsi.1 hv]
    cases bit_set dst v <;> cases bit_set src v <;> simp [hv]
  · intro _ v hv
    rw [hbits v]
    by_cases h1 : v < dst.max_value
    · have h2 := src_part_eq_member hd hs hsi.1 h1
      have h3 : member src v = false := by
        have : ¬ v < src.max_value := by omega
        simp [member, this]
      rw [h3] at h2
      cases hb : bit_set dst v
      · simp
      · rw [Bool.true_and, h2]; simp
    · simp [h1]
  · intro j hj
    rw [hw j]
    have h1 : ¬ j < min dst.buf_len src.buf_len := by
      rw [Nat.lt_min]; omega
    rw [if_neg h1]

theorem and_truncates_witness :
    ∃ bm1, bitmap_and sample_src sample_dst = .ok (true, bm1) ∧
      (∀ v < sample_src.max_value, member bm1 v = (member sample_src v && member sample_dst v)) ∧
      (sample_dst.max_value < sample_src.max_value →
        ∀ v, sample_dst.max_value ≤ v → bit_set bm1 v = false) ∧
      (∀ j, sample_dst.buf_len ≤ j → bm1.buf.getD j 0 = 0) :=
  and_truncates sample_src sample_dst (by decide) (by decide) (by decide) (by decide)

/-- C6. `bitmap_not` is an involution: for a valid bitmap satisfying the invariants whose
`max_value` is not a multiple of 32, two calls of `bitmap_not` both return `true` and give
back the bitmap itself: every word of `buf` and `numbers`, `first_value`, `last_value`. -/
theorem not_involution (bm : Bitmap) (hv : Valid bm) (hi : Invariants bm)
    (hm : bm.max_value % 32 ≠ 0) :
    ∃ bm1 bm2, bitmap_not bm = .ok (true, bm1) ∧ bitmap_not bm1 = .ok (true, bm2) ∧
      bm2.buf = bm.buf ∧ bm2.numbers = bm.numbers ∧ bm2.first_value = bm.first_value ∧
      bm2.last_value = bm.last_value ∧ bm2 = bm := by
  obtain ⟨bm1, hrun1, hb1, hs1, hv1, hst1⟩ := not_spec hv hm
  obtain ⟨bm2, hrun2, hb2, hs2, hv2, hst2⟩ := not_spec hv1 (by rw [hs1.2.1]; exact hm)
  have hs := sameShape_trans hs2 hs1
  have hbits : ∀ u, bit_set bm2 u = bit_set bm u := by
    intro u
    rw [hb2 u, hb1 u, hs1.2.1, ← member_of_overflow hi.1 u]
    unfold member
    cases bit_set bm u <;> cases decide (u < bm.max_value) <;> rfl
  have hbuf : bm2.buf = bm.buf := buf_eq_of_bits hv2.1 hv.1 hs.2.2.2 hbits
  have heq : bm2 = bm := stats_unique hst2 hi.2 ⟨hs.1, hs.2.1, hs.2.2.1, hbuf⟩
  exact ⟨bm1, bm2, hrun1, hrun2, hbuf, by rw [heq], by rw [heq], by rw [heq], heq⟩

theorem not_involution_witness :
    ∃ bm1 bm2, bitmap_not sample_src = .ok (true, bm1) ∧ bitmap_not bm1 = .ok (true, bm2) ∧
      bm2.buf = sample_src.buf ∧ bm2.numbers = sample_src.numbers ∧
      bm2.first_value = sample_src.first_value ∧
      bm2.last_value = sample_src.last_value ∧ bm2 = sample_src :=
  not_involution sample_src (by decide) (by decide) (by decide)

/-- C7. `bitmap_not` complements membership within the capacity: for a valid bitmap
satisfying the invariants whose `max_value` is not a multiple of 32, after the call every
`v < max_value` is a member iff it was not one before, every bit at a position
`≥ max_value` is zero, and `numbers = max_value - (numbers before)`. -/
theorem not_complements (bm : Bitmap) (hv : Valid bm) (hi : Invariants bm)
    (hm : bm.max_value % 32 ≠ 0) :
    ∃ bm1, bitmap_not bm = .ok (true, bm1) ∧ bm1.max_value = bm.max_value ∧
      (∀ v < bm.max_value, member bm1 v = !member bm v) ∧
      (∀ v, bm.max_value ≤ v → bit_set bm1 v = false) ∧
      bm1.numbers = bm.max_value - bm.numbers := by
  obtain ⟨bm1, hrun1, hb1, hs1, hv1, hst1⟩ := not_spec hv hm
  refine ⟨bm1, hrun1, hs1.2.1, ?_, ?_, ?_⟩
  · intro v hlt
    rw [member_eq_bit (by rw [hs1.2.1]; exact hlt), member_eq_bit hlt, hb1 v]
    simp [hlt]
  · intro v hge
    rw [hb1 v]
    have : ¬ v < bm.max_value := by omega
    simp [this]
  · have hc := count_compl (p := fun v => bit_set bm v = true)
      (q := fun v => bit_set bm1 v = true) bm.max_value
      (by
        intro v hlt
        show bit_set bm1 v = true ↔ ¬ bit_set bm v = true
        rw [hb1 v]; simp [hlt])
    have h1 : bm1.numbers = Nat.count (fun v => bit_set bm1 v = true) bm.max_value := by
      rw [hst1.1]; unfold count_set; rw [hs1.2.1]
    have h2 : bm.numbers = Nat.count (fun v => bit_set bm v = true) bm.max_value := hi.2.1
    omega

theorem not_complements_witness :
    ∃ bm1, bitmap_not sample_dst = .ok (true, bm1) ∧ bm1.max_value = sample_dst.max_value ∧
      (∀ v < sample_dst.max_value, member bm1 v = !member sample_dst v) ∧
      (∀ v, sample_dst.max_value ≤ v → bit_set bm1 v = false) ∧
      bm1.numbers = sample_dst.max_value - sample_dst.numbers :=
  not_complements sample_dst (by decide) (by decide) (by decide)

/-- C8. Add of a new value: for a valid bitmap satisfying the invariants and a
`value < max_value` that is not yet a member, `bitmap_add_value` returns `true`; afterwards
`value` is a member, every other position keeps its membership (and its bit), `numbers` has
grown by exactly 1, `first_value = min (old first_value) value`,
`last_value = max (old last_value) value`, and `max_value`, `buf_len` are unchanged. -/
theorem add_new_value (bm : Bitmap) (value : Nat) (hv : Valid bm) (hi : Invariants bm)
    (hlt : value < bm.max_value) (hnew : member bm value = false) :
    ∃ bm1, bitmap_add_value bm value = .ok (true, bm1) ∧
      member bm1 value = true ∧
      (∀ u, u ≠ value → member bm1 u = member bm u ∧ bit_set bm1 u = bit_set bm u) ∧
      bm1.numbers = bm.numbers + 1 ∧
      bm1.first_value = min bm.first_value value ∧
      bm1.last_value = max bm.last_value value ∧
      bm1.max_value = bm.max_value ∧ bm1.buf_len = bm.buf_len := by
  have hbit : bit_set bm value = false := by rw [← member_eq_bit hlt]; exact hnew
  obtain ⟨bm1, hrun, hbits, hn, hf, hl, hmv, hbl, _, _⟩ := add_new hv hi.2 hlt hbit
  refine ⟨bm1, hrun, ?_, ?_, hn, hf, hl, hmv, hbl⟩
  · rw [member_eq_bit (by rw [hmv]; exact hlt), hbits value]; simp
  · intro u hu
    have hb : bit_set bm1 u = bit_set bm u := by rw [hbits u]; simp [hu]
    exact ⟨by unfold member; rw [hmv, hb], hb⟩

theorem add_new_value_witness :
    ∃ bm1, bitmap_add_value sample_dst 7 = .ok (true, bm1) ∧
      member bm1 7 = true ∧
      (∀ u, u ≠ 7 → member bm1 u = member sample_dst u ∧ bit_set bm1 u = bit_set sample_dst u) ∧
      bm1.numbers = sample_dst.numbers + 1 ∧
      bm1.first_value = min sample_dst.first_value 7 ∧
      bm1.last_value = max sample_dst.last_value 7 ∧
      bm1.max_value = sample_dst.max_value ∧ bm1.buf_len = sample_dst.buf_len :=
  add_new_value sample_dst 7 (by decide) (by decide) (by decide) (by decide)

/-- C9. Delete: for a valid bitmap satisfying the invariants and a `value < max_value`,
`bitmap_del_value` returns `true`; if `value` was not a member the bitmap is unchanged in
every field; if it was, afterwards `value` is not a member, every other position keeps its
membership (and its bit), `numbers` has decreased by exactly 1, and `first_value` /
`last_value` are the true minimum / maximum of the remaining members, or 65535 and 0 when
none remain (`StatsOK`). -/
theorem del_value_spec (bm : Bitmap) (value : Nat) (hv : Valid bm) (hi : Invariants bm)
    (hlt : value < bm.max_value) :
    ∃ bm1, bitmap_del_value bm value = .ok (true, bm1) ∧
      (member bm value = false → bm1 = bm) ∧
      (member bm value = true →
        member bm1 value = false ∧
        (∀ u, u ≠ value → member bm1 u = member bm u ∧ bit_set bm1 u = bit_set bm u) ∧
        bm1.numbers + 1 = bm.numbers ∧
        bm1.max_value = bm.max_value ∧ StatsOK bm1) := by
  cases hb : bit_set bm value
  · refine ⟨bm, del_absent hv hlt hb, fun _ => rfl, fun h => ?_⟩
    rw [member_eq_bit hlt, hb] at h
    cases h
  · obtain ⟨bm1, hrun, hbits, _, hmv, _, hc, _, hst⟩ := del_present hv hlt hb
    refine ⟨bm1, hrun, fun h => ?_, fun _ => ⟨?_, ?_, ?_, hmv, hst⟩⟩
    · rw [member_eq_bit hlt, hb] at h
      cases h
    · rw [member_eq_bit (by rw [hmv]; exact hlt), hbits value]; simp
    · intro u hu
      have hb : bit_set bm1 u = bit_set bm u := by rw [hbits u]; simp [hu]
      exact ⟨by unfold member; rw [hmv, hb], hb⟩
    · rw [hst.1, hi.2.1, hc]

theorem del_value_spec_witness :
    ∃ bm1, bitmap_del_value sample_dst 5 = .ok (true, bm1) ∧
      (member sample_dst 5 = false → bm1 = sample_dst) ∧
      (member sample_dst 5 = true →
        member bm1 5 = false ∧
        (∀ u, u ≠ 5 → member bm1 u = member sample_dst u ∧ bit_set bm1 u = bit_set sample_dst u) ∧
        bm1.numbers + 1 = sample_dst.numbers ∧
        bm1.max_value = sample_dst.max_value ∧ StatsOK bm1) :=
  del_value_spec sample_dst 5 (by decide) (by decide) (by decide)

/-- C10, as stated, fails: on the bitmap `{1, 5}` of capacity 10, adding the member 5 is a
no-op and deleting it afterwards leaves `numbers = 1`, not the 2 it was before the add. -/
theorem add_del_count_counterexample :
    Valid sample_dst ∧ Invariants sample_dst ∧ 5 < sample_dst.max_value ∧
    ∃ bm1 bm2, bitmap_add_value sample_dst 5 = .ok (true, bm1) ∧
      bitmap_del_value bm1 5 = .ok (true, bm2) ∧ bm2.numbers ≠ sample_dst.numbers := by
  refine ⟨by decide, by decide, by decide, sample_dst, ?_⟩
  exact ⟨{ sample_dst with numbers := 1, first_value := 1, last_value := 1, buf := [2] },
    by decide, by decide, by decide⟩

/-- C10, amended. For a valid bitmap satisfying the invariants and a `value < max_value`,
`bitmap_add_value` followed by `bitmap_del_value` both return `true`; if `value` was not
a member before the add, `numbers` ends equal to its value before the add; and if `value`
was the only member after the add, then afterwards `first_value = 65535` and
`last_value = 0`. -/
theorem add_del_count (bm : Bitmap) (value : Nat) (hv : Valid bm) (hi : Invariants bm)
    (hlt : value < bm.max_value) :
    ∃ bm1 bm2, bitmap_add_value bm value = .ok (true, bm1) ∧
      bitmap_del_value bm1 value = .ok (true, bm2) ∧
      (member bm value = false → bm2.numbers = bm.numbers) ∧
      ((∀ u, member bm1 u = true → u = value) →
        bm2.first_value = 65535 ∧ bm2.last_value = 0) := by
  -- the state after the add, in both cases
  have hadd : ∃ bm1, bitmap_add_value bm value = .ok (true, bm1) ∧
      bit_set bm1 value = true ∧ bm1.max_value = bm.max_value ∧ Valid bm1 ∧ StatsOK bm1 ∧
      (member bm value = false → bm1.numbers = bm.numbers + 1) := by
    cases hb : bit_set bm value
    · obtain ⟨bm1, hrun, hbits, hn, _, _, hmv, _, hv1, hs1⟩ := add_new hv hi.2 hlt hb
      exact ⟨bm1, hrun, by rw [hbits value]; simp, hmv, hv1, hs1, fun _ => hn⟩
    · refine ⟨bm, add_existing hv hlt hb, hb, rfl, hv, hi.2, fun h => ?_⟩
      rw [member_eq_bit hlt, hb] at h
      cases h
  obtain ⟨bm1, hrun1, hb1, hmv1, hv1, hs1, hn1⟩ := hadd
  have hlt1 : value < bm1.max_value := by rw [hmv1]; exact hlt
  obtain ⟨bm2, hrun2, hbits2, _, hmv2, _, hc2, _, hs2⟩ := del_present hv1 hlt1 hb1
  refine ⟨bm1, bm2, hrun1, hrun2, fun h => ?_, fun honly => ?_⟩
  · have := hn1 h
    have h3 := hs1.1
    have h4 := hs2.1
    omega
  · apply hs2.2.2
    rw [count_set, count_bits_zero_iff]
    intro v hv2
    rw [hbits2 v]
    by_cases hvv : v = value
    · simp [hvv]
    · have hm : member bm1 v = false := by
        cases hm : member bm1 v
        · rfl
        · exact absurd (honly v hm) hvv
      rw [member_eq_bit (by rw [← hmv2]; exact hv2)] at hm
      simp [hm]

theorem add_del_count_witness :
    ∃ bm1 bm2, bitmap_add_value sample_empty 3 = .ok (true, bm1) ∧
      bitmap_del_value bm1 3 = .ok (true, bm2) ∧
      (member sample_empty 3 = false → bm2.numbers = sample_empty.numbers) ∧
      ((∀ u, member bm1 u = true → u = 3) →
        bm2.first_value = 65535 ∧ bm2.last_value = 0) :=
  add_del_count sample_empty 3 (by decide) (by decide) (by decide)

/-- C11, as stated, fails: the bitmap `sample_miscounted` passes `bitmap_check`, the first
`bitmap_add_value` of 3 returns `true` and raises `numbers` to 11, above `max_value`, and
the second call is rejected by `bitmap_check`: it returns `false`. -/
theorem add_idempotent_counterexample :
    Valid sample_miscounted ∧ 3 < sample_miscounted.max_value ∧
    ∃ bm1, bitmap_add_value sample_miscounted 3 = .ok (true, bm1) ∧
      bitmap_add_value bm1 3 = .ok (false, bm1) := by
  refine ⟨by decide, by decide, { sample_miscounted with
    buf := [8], first_value := 3, last_value := 3, numbers := 11 }, by decide, by decide⟩

/-- C11, amended. For a valid bitmap and a `value < max_value`, the first
`bitmap_add_value` returns `true` and a second call leaves the bitmap unchanged in every
field; when the bitmap satisfies the statistics invariant the second call returns `true`
too: `add (add bm v) v = add bm v`. -/
theorem add_idempotent (bm : Bitmap) (value : Nat) (hv : Valid bm)
    (hlt : value < bm.max_value) :
    ∃ bm1 r, bitmap_add_value bm value = .ok (true, bm1) ∧
      bitmap_add_value bm1 value = .ok (r, bm1) ∧
      (StatsOK bm → r = true ∧ bitmap_add_value bm1 value = bitmap_add_value bm value) := by
  cases hb : bit_set bm value
  · obtain ⟨bm1, hrun, hbuf, _, _, _, hmv, _, _⟩ := add_new_raw hv hlt hb
    have hidx := valid_idx hv hlt
    have hb1 : bit_set bm1 value = true := by
      rw [bits_after_set hidx hbuf value]; simp
    have hidx1 : value / 32 < bm1.buf.length := by rw [hbuf]; simpa using hidx
    obtain ⟨r, hrun2, hr⟩ := add_again hidx1 hb1
    refine ⟨bm1, r, hrun, hrun2, fun hs => ?_⟩
    obtain ⟨b, hrun', _, _, _, _, _, _, hv1, _⟩ := add_new hv hs hlt hb
    rw [hrun] at hrun'
    injection hrun' with h
    injection h with _ h
    subst h
    have hrt := hr hv1.2 (by rw [hmv]; exact hlt)
    subst hrt
    exact ⟨rfl, by rw [hrun2, hrun]⟩
  · have h1 := add_existing hv hlt hb
    exact ⟨bm, true, h1, h1, fun _ => ⟨rfl, rfl⟩⟩

theorem add_idempotent_witness :
    ∃ bm1 r, bitmap_add_value sample_dst 7 = .ok (true, bm1) ∧
      bitmap_add_value bm1 7 = .ok (r, bm1) ∧
      (StatsOK sample_dst →
        r = true ∧ bitmap_add_value bm1 7 = bitmap_add_value sample_dst 7) :=
  add_idempotent sample_dst 7 (by decide) (by decide)

/-- C12. Out-of-range values are rejected without mutation: for every bitmap and every
`value ≥ max_value`, `bitmap_add_value` and `bitmap_del_value` return `false` and leave
the bitmap unchanged in every field; and on a valid bitmap with `value < max_value` both
return `true`. -/
theorem out_of_range_rejected :
    (∀ (bm : Bitmap) (value : Nat), bm.max_value ≤ value →
      bitmap_add_value bm value = .ok (false, bm) ∧
      bitmap_del_value bm value = .ok (false, bm)) ∧
    (∀ (bm : Bitmap) (value : Nat), Valid bm → value < bm.max_value →
      (∃ bm1, bitmap_add_value bm value = .ok (true, bm1)) ∧
      (∃ bm1, bitmap_del_value bm value = .ok (true, bm1))) := by
  refine ⟨fun bm value h => ⟨add_out_of_range h, del_out_of_range h⟩, ?_⟩
  intro bm value hv hlt
  cases hb : bit_set bm value
  · obtain ⟨bm1, hrun, _⟩ := add_new_raw hv hlt hb
    exact ⟨⟨bm1, hrun⟩, ⟨bm, del_absent hv hlt hb⟩⟩
  · obtain ⟨bm1, hrun, _⟩ := del_present hv hlt hb
    exact ⟨⟨bm, add_existing hv hlt hb⟩, ⟨bm1, hrun⟩⟩

theorem out_of_range_rejected_witness :
    (bitmap_add_value sample_dst 10 = .ok (false, sample_dst) ∧
      bitmap_del_value sample_dst 10 = .ok (false, sample_dst)) ∧
    ((∃ bm1, bitmap_add_value sample_dst 9 = .ok (true, bm1)) ∧
      (∃ bm1, bitmap_del_value sample_dst 9 = .ok (true, bm1))) :=
  ⟨out_of_range_rejected.1 sample_dst 10 (by decide),
    out_of_range_rejected.2 sample_dst 9 (by decide) (by decide)⟩

/-- C13. Invalid handles are rejected atomically: if a bitmap fails `bitmap_check` (self
pointer mismatch, `max_value = 0`, `buf_len = 0`, `numbers > max_value` or
`buf_len * 32 < max_value`), then `bitmap_add_value`, `bitmap_del_value` and `bitmap_not`
return `false` with the bitmap unchanged and `bitmap_clone` returns `NULL`; and
`bitmap_or` / `bitmap_and` return `false` with the destination unchanged whenever one of
the two operands fails `bitmap_check`, also when only the source does.  (The source
operand is passed by value and never written; a `NULL` handle is no `Bitmap`.) -/
theorem invalid_handle_rejected :
    (∀ (bm : Bitmap), bitmap_check bm = false →
      (∀ value, bitmap_add_value bm value = .ok (false, bm) ∧
        bitmap_del_value bm value = .ok (false, bm)) ∧
      bitmap_not bm = .ok (false, bm) ∧
      (∀ malloc_ok, bitmap_clone malloc_ok bm = .ok none)) ∧
    (∀ (dst src : Bitmap), bitmap_check dst = false ∨ bitmap_check src = false →
      bitmap_or dst src = .ok (false, dst) ∧ bitmap_and dst src = .ok (false, dst)) := by
  constructor
  · intro bm h
    refine ⟨fun value => ⟨?_, ?_⟩, ?_, fun ok => ?_⟩
    · unfold bitmap_add_value; simp [h]
    · unfold bitmap_del_value; simp [h]
    · unfold bitmap_not; simp [h]
    · unfold bitmap_clone; simp [h]
  · intro dst src h
    constructor
    · unfold bitmap_or
      rcases h with h | h <;> simp [h]
    · unfold bitmap_and
      rcases h with h | h <;> simp [h]

theorem invalid_handle_rejected_witness :
    ((∀ value, bitmap_add_value sample_stale value = .ok (false, sample_stale) ∧
        bitmap_del_value sample_stale value = .ok (false, sample_stale)) ∧
      bitmap_not sample_stale = .ok (false, sample_stale) ∧
      (∀ malloc_ok, bitmap_clone malloc_ok sample_stale = .ok none)) ∧
    (bitmap_or sample_dst sample_stale = .ok (false, sample_dst) ∧
      bitmap_and sample_dst sample_stale = .ok (false, sample_dst)) :=
  ⟨invalid_handle_rejected.1 sample_stale (by decide),
    invalid_handle_rejected.2 sample_dst sample_stale (Or.inr (by decide))⟩

/-- C14. Overflow bits invariant: whenever one of Create, Add, Delete, Not, Or, And, Clone
and Parse returns normally, on valid input bitmaps whose bits at the positions
`≥ max_value` of the words are zero (needed for Add, Delete and Clone only: Not, Or and And
re-mask the last word), every bit of the words of the resulting bitmap at a position
`≥ max_value` is zero. -/
theorem overflow_invariant :
    (∀ (malloc_ok : Bool) (capacity : Nat) (bm : Bitmap),
      bitmap_create malloc_ok capacity = some bm → OverflowZero bm) ∧
    (∀ (bm : Bitmap) (value : Nat) (r : Bool) (bm1 : Bitmap), Valid bm → OverflowZero bm →
      bitmap_add_value bm value = .ok (r, bm1) → OverflowZero bm1) ∧
    (∀ (bm : Bitmap) (value : Nat) (r : Bool) (bm1 : Bitmap), Valid bm → OverflowZero bm →
      bitmap_del_value bm value = .ok (r, bm1) → OverflowZero bm1) ∧
    (∀ (bm : Bitmap) (r : Bool) (bm1 : Bitmap), Valid bm →
      bitmap_not bm = .ok (r, bm1) → OverflowZero bm1) ∧
    (∀ (dst src : Bitmap) (r : Bool) (bm1 : Bitmap), Valid dst → Valid src →
      bitmap_or dst src = .ok (r, bm1) → OverflowZero bm1) ∧
    (∀ (dst src : Bitmap) (r : Bool) (bm1 : Bitmap), Valid dst → Valid src →
      bitmap_and dst src = .ok (r, bm1) → OverflowZero bm1) ∧
    (∀ (malloc_ok : Bool) (bm bm1 : Bitmap), Valid bm → OverflowZero bm →
      bitmap_clone malloc_ok bm = .ok (some bm1) → OverflowZero bm1) ∧
    (∀ (malloc_ok : Bool) (str : List Char) (bm : Bitmap),
      bitmap_parse_str malloc_ok str = .ok (some bm) → OverflowZero bm) := by
  refine ⟨?_, ?_, ?_, ?_, ?_, ?_, ?_, ?_⟩
  · intro ok cap bm h
    obtain ⟨_, _, _, _, _, _, _, h8, _, _⟩ := create_spec ok cap bm h
    exact overflow_of_empty bm h8
  · intro bm v r bm1 hv ho h
    exact add_overflow hv ho h
  · intro bm v r bm1 hv ho h
    exact del_overflow hv ho h
  · intro bm r bm1 hv h
    exact not_overflow hv h
  · intro dst src r bm1 hd hs h
    exact or_overflow hd hs h
  · intro dst src r bm1 hd hs h
    exact and_overflow hd hs h
  · intro ok bm bm1 hv ho h
    rw [clone_spec ok bm bm1 hv h]
    exact ho
  · intro ok str bm h
    exact parse_overflow ok str bm h

theorem overflow_invariant_witness :
    OverflowZero
      { sample_dst with buf := [989], first_value := 0, last_value := 9, numbers := 8 } :=
  overflow_invariant.2.2.2.1 sample_dst true _ (by decide) (by decide)

/-- C15. Print format: for every valid non-empty bitmap satisfying the invariants, what
`bitmap_print` writes is `canon_text rs` followed by a newline, where `rs` is the list of
the maximal runs of consecutive members in strictly ascending order (`Canonical rs`, and a
value is a member iff it lies in one of the runs): the runs are joined by single `,`
without a leading or trailing one, a run of one value `a` is written as the decimal `a`
and a run `a..b` of two or more values as `a-b`. -/
theorem print_format (bm : Bitmap) (hv : Valid bm) (hi : Invariants bm)
    (hne : bm.numbers ≠ 0) :
    ∃ rs, Canonical rs ∧ (∀ u, member bm u = in_runs rs u) ∧
      bitmap_print bm = .ok (canon_text rs ++ [Char.ofNat 10]) :=
  print_spec hv hi hne

theorem print_format_witness :
    bitmap_print sample_pair = .ok ("1-2".toList ++ [Char.ofNat 10]) ∧
    ∃ rs, Canonical rs ∧ (∀ u, member sample_pair u = in_runs rs u) ∧
      bitmap_print sample_pair = .ok (canon_text rs ++ [Char.ofNat 10]) :=
  ⟨by decide, print_format sample_pair (by decide) (by decide) (by decide)⟩

/-- C16. Create: `bitmap_create(0)` returns `NULL`; for every capacity `1 ≤ n ≤ 65535`,
the allocation succeeding, `bitmap_create(n)` returns a bitmap with `max_value = n`,
`buf_len = ceil(n / 32)` words all zero, `numbers = 0`, `first_value = 65535`,
`last_value = 0`, which passes `bitmap_check` (and is valid and satisfies the invariants)
and for which `bitmap_print` writes `No values` and a newline. -/
theorem create_contract :
    (∀ malloc_ok, bitmap_create malloc_ok 0 = none) ∧
    (∀ n, 1 ≤ n → n ≤ 65535 →
      ∃ bm, bitmap_create true n = some bm ∧ bm.max_value = n ∧
        bm.buf_len = (n + 31) / 32 ∧ bm.buf = List.replicate ((n + 31) / 32) 0 ∧
        bm.numbers = 0 ∧ bm.first_value = 65535 ∧ bm.last_value = 0 ∧
        bitmap_check bm = true ∧ Valid bm ∧ Invariants bm ∧
        bitmap_print bm = .ok ("No values".toList ++ [Char.ofNat 10])) := by
  constructor
  · intro ok; rfl
  · intro n h1 h2
    obtain ⟨bm, hc⟩ := create_ok n (by omega)
    obtain ⟨c1, _, c3, _, c5, c6, c7, c8, c9, c10⟩ := create_spec true n bm hc
    obtain ⟨hv, hs⟩ := create_valid true n bm hc (by omega)
    have hlen := c10 (by omega)
    refine ⟨bm, hc, c1, hlen, ?_, c5, c6, c7, hv.2, hv, ⟨overflow_of_empty bm c8, hs⟩, ?_⟩
    · rw [← hlen, c3]
      exact List.eq_replicate_of_mem c9
    · unfold bitmap_print
      simp only [hv.2, Bool.not_true, Bool.false_eq_true, if_false, c5, if_true]

theorem create_contract_witness :
    ∃ bm, bitmap_create true 65535 = some bm ∧ bm.max_value = 65535 ∧
      bm.buf_len = (65535 + 31) / 32 ∧ bm.buf = List.replicate ((65535 + 31) / 32) 0 ∧
      bm.numbers = 0 ∧ bm.first_value = 65535 ∧ bm.last_value = 0 ∧
      bitmap_check bm = true ∧ Valid bm ∧ Invariants bm ∧
      bitmap_print bm = .ok ("No values".toList ++ [Char.ofNat 10]) :=
  create_contract.2 65535 (by decide) (by decide)

/-- C17. Clone: for every valid bitmap, the allocation succeeding, `bitmap_clone` returns
a bitmap with the same `max_value`, `buf_len`, `numbers`, `first_value`, `last_value` and
the same words, whose self pointer points to the clone and which passes `bitmap_check`:
as a value it is the bitmap it was cloned from, so every operation gives on the clone the
result it gives on the original.  (A bitmap of the embedding is a value: the clone is a
fresh copy, and no operation applied to it can change the original.) -/
theorem clone_contract (bm : Bitmap) (hv : Valid bm) :
    ∃ c, bitmap_clone true bm = .ok (some c) ∧
      c.max_value = bm.max_value ∧ c.buf_len = bm.buf_len ∧ c.numbers = bm.numbers ∧
      c.first_value = bm.first_value ∧ c.last_value = bm.last_value ∧ c.buf = bm.buf ∧
      c.bm_self = true ∧ bitmap_check c = true ∧ c = bm := by
  have hself : bm.bm_self = true := (check_bounds hv.2).1
  have hrun : bitmap_clone true bm = .ok (some { bm with bm_self := true }) := by
    unfold bitmap_clone
    have hlen : bm.buf_len ≤ bm.buf.length := by rw [hv.1.1]
    have htake : bm.buf.take bm.buf_len = bm.buf := by
      rw [← hv.1.1]; exact List.take_length _
    simp only [hv.2, Bool.not_true, Bool.false_eq_true, if_false, hlen, if_true, htake]
  have heq : { bm with bm_self := true } = bm := by
    cases bm
    simp only at hself
    simp [hself]
  rw [heq] at hrun
  exact ⟨bm, hrun, rfl, rfl, rfl, rfl, rfl, rfl, hself, hv.2, rfl⟩

theorem clone_contract_witness :
    ∃ c, bitmap_clone true sample_src = .ok (some c) ∧
      c.max_value = sample_src.max_value ∧ c.buf_len = sample_src.buf_len ∧
      c.numbers = sample_src.numbers ∧
      c.first_value = sample_src.first_value ∧ c.last_value = sample_src.last_value ∧
      c.buf = sample_src.buf ∧
      c.bm_self = true ∧ bitmap_check c = true ∧ c = sample_src :=
  clone_contract sample_src (by decide)

/-- C18. Parse rejects inverted and open ranges. A C string (no NUL among its characters)
that contains a range entry `A-B` with `A > B` (two decimal literals of any size, spaces
allowed around each; the entry starts the text or follows a comma, and ends the text or is
followed by a comma) makes `bitmap_parse_str` return `NULL`, whatever `pre` comes before
and `tl` after the entry; and so does a C string whose last character other than a space
is `-`.  This holds whether or not the allocation succeeds. -/
theorem parse_rejects_bad_ranges (malloc_ok : Bool) :
    (∀ (pre tl : List Char) (a b : NumTok),
      CString (pre ++ ((Entry.range a b).text ++ tl)) → EntryStart pre →
      (∃ p3, EntryEnd tl p3) → Literal a.digits → Literal b.digits → a.value > b.value →
      bitmap_parse_str malloc_ok (pre ++ ((Entry.range a b).text ++ tl)) = .ok none) ∧
    (∀ (pre : List Char) (k : Nat),
      CString (pre ++ CHAR_RANGE_SEPARATOR :: List.replicate k CHAR_SPACE) →
      bitmap_parse_str malloc_ok (pre ++ CHAR_RANGE_SEPARATOR :: List.replicate k CHAR_SPACE)
        = .ok none) := by
  constructor
  · intro pre tl a b hcs hpre htl ha hb hab
    apply parse_fill_fails malloc_ok hcs
    intro hal f bm res h
    have htl1 : tl = [] ∨ ∃ p3, tl = CHAR_ENTRY_SEPARATOR :: p3 := by
      obtain ⟨p3, h3 | h3⟩ := htl
      · exact Or.inl h3.1
      · exact Or.inr ⟨p3, h3⟩
    have hE : (Entry.range a b).text ++ tl
        = a.text ++ CHAR_RANGE_SEPARATOR :: (b.text ++ tl) := by
      unfold Entry.text
      rw [List.append_assoc, List.cons_append]
    rw [hE] at h hal
    rcases hpre with rfl | ⟨p, rfl⟩
    · exact fill_inverted a b tl ha hb hab htl1 hal f 0 bm res h
    · rw [List.append_assoc, List.singleton_append] at h hal
      obtain ⟨f1, st1, bm1, h1⟩ := fill_reach (Or.inl rfl) _ f p false 0 bm hal h
      have hal1 := (alphaText_cons (alphaText_append.mp hal).2).2
      have hd : decide (CHAR_ENTRY_SEPARATOR = CHAR_RANGE_SEPARATOR) = false := by decide
      rw [hd] at h1
      exact fill_inverted a b tl ha hb hab htl1 hal1 f1 st1 bm1 res h1
  · intro pre k hcs
    apply parse_fill_fails malloc_ok hcs
    intro hal f bm res h
    obtain ⟨f1, st1, bm1, h1⟩ := fill_reach (Or.inr rfl) _ f pre false 0 bm hal h
    have hd : decide (CHAR_RANGE_SEPARATOR = CHAR_RANGE_SEPARATOR) = true := by decide
    rw [hd] at h1
    exact fill_spaces_open k f1 st1 bm1 res h1

theorem parse_rejects_bad_ranges_witness :
    bitmap_parse_str true ['1', ',', '5', '-', '3', ',', '9'] = .ok none ∧
      bitmap_parse_str true ['7', ',', '1', '-', ' '] = .ok none :=
  ⟨(parse_rejects_bad_ranges true).1 ['1', ','] [',', '9'] ⟨0, ['5'], 0⟩ ⟨0, ['3'], 0⟩
      (by decide) (Or.inr ⟨['1'], rfl⟩) ⟨['9'], Or.inr rfl⟩ (by decide) (by decide)
      (by decide),
    (parse_rejects_bad_ranges true).2 ['7', ',', '1'] 1 (by decide)⟩

/-- C19. The validation pass of the parser: `bitmap_parse_str` returns `NULL` for every
C string that contains a character other than a decimal digit, a space, `,` or `-`; for
every text in which a decimal literal (a maximal run of digits `ds`, of any length) has a
value `≥ 65535`, the text before the literal being free of NUL; and for every text
without a decimal digit (the empty text, or spaces, commas and dashes only).  The literal
`65534` is accepted: the result has capacity 65535 and the single member 65534. -/
theorem parse_validation (malloc_ok : Bool) :
    (∀ (pre post : List Char) (c : Char), CString (pre ++ c :: post) → Alpha c = false →
      bitmap_parse_str malloc_ok (pre ++ c :: post) = .ok none) ∧
    (∀ (pre ds post : List Char), CString pre → Literal ds → 65535 ≤ digits_value ds →
      digit_before pre = false → isdigit (deref post) = false →
      bitmap_parse_str malloc_ok (pre ++ (ds ++ post)) = .ok none) ∧
    (∀ s : List Char, (∀ c ∈ s, isdigit c = false) →
      bitmap_parse_str malloc_ok s = .ok none) ∧
    (∃ bm, bitmap_parse_str true ['6', '5', '5', '3', '4'] = .ok (some bm) ∧
      bm.max_value = 65535 ∧ ∀ v, member bm v = true ↔ v = 65534) := by
  refine ⟨?_, ?_, ?_, ?_⟩
  · intro pre post c hcs hc
    apply parse_scan_fails
    intro f r h
    have hal := scan_alpha f _ _ r hcs h
    have := hal c (List.mem_append_right _ (List.mem_cons_self _ _))
    rw [hc] at this
    cases this
  · intro pre ds post hcs hds hbig hpre hpost
    apply parse_scan_fails
    intro f r h
    obtain ⟨f1, m1, h1⟩ := scan_factor f pre (ds ++ post) (-1) r hcs (Or.inl hpre) h
    obtain ⟨d, ds1, hd⟩ := List.exists_cons_of_ne_nil hds.1
    have hdig := hds.2 d (by rw [hd]; exact List.mem_cons_self _ _)
    obtain ⟨g0, g1, g2, g3, _, _⟩ := isdigit_facts hdig
    have htw := takeWhile_digits ds post hds.2 hpost
    cases f1 with
    | zero => simp [parse_scan] at h1
    | succ f1 =>
      rw [hd, List.cons_append] at h1 htw
      rw [scan_step, if_neg g0, if_neg (by simp [g1, g2, g3]), if_pos hdig, htw, ← hd,
        if_pos hbig] at h1
      cases h1
  · intro s hs
    obtain ⟨r, hr⟩ := scan_total s.length s le_rfl (-1)
    have hrun := hr _ (Nat.lt_succ_self _)
    cases r with
    | none => exact parse_scan_none malloc_ok hr
    | some mx =>
      have := scan_no_digit _ _ _ _ hs hrun
      subst this
      rw [parse_unfold, hrun]
      rfl
  · obtain ⟨bm, L, hrun, hL, _, hmv, hbits, _, _⟩ :=
      parse_entries (Entry.single ⟨0, ['6', '5', '5', '3', '4'], 0⟩) [] (by decide)
    have hL1 : L = 65534 := by
      have : all_literals [Entry.single ⟨0, ['6', '5', '5', '3', '4'], 0⟩] = [65534] := by
        decide
      rw [this] at hL
      simpa using hL
    subst hL1
    refine ⟨bm, hrun, hmv, fun v => ?_⟩
    unfold member
    rw [hbits v, hmv]
    simp only [List.any_cons, List.any_nil, Bool.or_false, Entry.covers, Bool.and_eq_true,
      decide_eq_true_eq]
    have : NumTok.value ⟨0, ['6', '5', '5', '3', '4'], 0⟩ = 65534 := by decide
    rw [this]
    omega

theorem parse_validation_witness :
    bitmap_parse_str true ['1', ',', 'x', '2'] = .ok none ∧
      bitmap_parse_str true ['1', ',', '6', '5', '5', '3', '5', ' '] = .ok none ∧
      bitmap_parse_str true ['2', '-', '9', '9', '9', '9', '9', '9', '9', '9', '9', '9',
        '9', '9', '9', '9', '9', '9', '9', '9', '9', '9', '9', '9'] = .ok none ∧
      bitmap_parse_str true [' ', ',', '-'] = .ok none :=
  ⟨(parse_validation true).1 ['1', ','] ['2'] 'x' (by decide) (by decide),
    (parse_validation true).2.1 ['1', ','] ['6', '5', '5', '3', '5'] [' '] (by decide)
      (by decide) (by decide) (by decide) (by decide),
    (parse_validation true).2.1 ['2', '-'] ['9', '9', '9', '9', '9', '9', '9', '9', '9', '9',
        '9', '9', '9', '9', '9', '9', '9', '9', '9', '9', '9', '9'] [] (by decide)
      (by decide) (by decide) (by decide) (by decide),
    (parse_validation true).2.2.1 [' ', ',', '-'] (by decide)⟩

/-- C20, as stated, fails: the tab is a white-space character for `isspace`, the text `1`
parses successfully, and the text `1` followed by a tab is rejected, because the first
loop of the parser lets through the space character only. -/
theorem parse_whitespace_counterexample :
    isspace (Char.ofNat 9) = true ∧
      (∃ bm, bitmap_parse_str true ['1'] = .ok (some bm)) ∧
      bitmap_parse_str true ['1', Char.ofNat 9] = .ok none := by
  refine ⟨by decide, ?_, ?_⟩
  · obtain ⟨bm, _, hrun, _⟩ := parse_entries (Entry.single ⟨0, ['1'], 0⟩) [] (by decide)
    exact ⟨bm, hrun⟩
  · apply parse_scan_fails
    intro f r h
    have hal := scan_alpha f _ _ r (by decide) h
    have := hal (Char.ofNat 9) (by decide)
    revert this
    decide

/-- C20, amended. The parser tolerates space characters: for every C string and every
position of it that is not between two decimal digits (`pre` is the text before the
position and `post` the text after it), inserting any number of space characters at that
position does not change the result of `bitmap_parse_str`; in particular a text that
parses successfully still does, to the same bitmap, so with the same capacity and the
same members. -/
theorem parse_tolerates_spaces (malloc_ok : Bool) (pre post : List Char) (k : Nat)
    (hcs : CString (pre ++ post))
    (hsp : digit_before pre = false ∨ isdigit (deref post) = false) :
    bitmap_parse_str malloc_ok (pre ++ (List.replicate k CHAR_SPACE ++ post))
      = bitmap_parse_str malloc_ok (pre ++ post) := by
  obtain ⟨i1, i2, _⟩ := insert_spaces pre post hsp k
  obtain ⟨r, hr⟩ := scan_total (pre ++ post).length (pre ++ post) le_rfl (-1)
  have hrun := hr _ (Nat.lt_succ_self _)
  have hrun1 := i1 _ _ hr _ (Nat.lt_succ_self _)
  rw [parse_unfold, parse_unfold, hrun, hrun1]
  cases r with
  | none => rfl
  | some mx =>
    have hal := scan_alpha _ _ _ _ hcs hrun
    simp only
    split_ifs with hneg
    · rfl
    · cases hc : bitmap_create malloc_ok ((mx.toNat % 65536 + 1) % 65536) with
      | none => rfl
      | some bm =>
        simp only
        obtain ⟨hv, hst⟩ := create_valid _ _ bm hc (Nat.mod_lt _ (by norm_num))
        obtain ⟨r2, hr2⟩ := fill_total _ (pre ++ post) le_rfl hal false 0 bm hv hst
        rw [hr2 _ (Nat.lt_succ_self _), i2 _ _ _ _ hal hv hst hr2 _ (Nat.lt_succ_self _)]

theorem parse_tolerates_spaces_witness :
    CString ['1', '-', '3', ',', '7'] ∧
      bitmap_parse_str true [' ', '1', '-', '3', ',', '7']
        = bitmap_parse_str true ['1', '-', '3', ',', '7'] ∧
      bitmap_parse_str true ['1', '-', ' ', ' ', '3', ',', '7']
        = bitmap_parse_str true ['1', '-', '3', ',', '7'] ∧
      bitmap_parse_str true ['1', '-', '3', ' ', ' ', ' ', ',', '7']
        = bitmap_parse_str true ['1', '-', '3', ',', '7'] :=
  ⟨by decide,
    parse_tolerates_spaces true [] ['1', '-', '3', ',', '7'] 1 (by decide) (by decide),
    parse_tolerates_spaces true ['1', '-'] ['3', ',', '7'] 2 (by decide) (by decide),
    parse_tolerates_spaces true ['1', '-', '3'] [',', '7'] 3 (by decide) (by decide)⟩

/-- C21, at its own example: `bitmap_not` on the empty bitmap of capacity 32.
`bitmap_create(32)` gives one word, `buf_len = 1`; the mask `(1 << (max_value mod 32)) - 1`
is zero, and the word that the re-mask and the last round of the complement loop address
has the index `max_value / 32 = 1 = buf_len`, after the last word `buf[0]`.  Run with the
word of memory that follows the buffer, `bitmap_not` returns `true` with
`buf[0] = 0xFFFFFFFF` and `numbers = 32`, where the claim has `buf[0] = 0` and
`numbers = 0`: the zero mask falls on the word after the buffer.  Likewise the last word
`34` of a bitmap of capacity 32 is still `34` after `bitmap_or` and after `bitmap_and` with
a bitmap that holds the same members. -/
theorem remask_at_capacity_32 :
    bitmap_create true 32 = some sample_cap32 ∧ sample_cap32.buf_len = 1 ∧
      (1 <<< (sample_cap32.max_value % BITSIZEOF_u32)) - 1 = 0 ∧
      sample_cap32.max_value / BITSIZEOF_u32 = sample_cap32.buf_len ∧
      bitmap_not sample_cap32_spare =
        .ok (true, { sample_cap32_spare with
          buf := [4294967295, 0], first_value := 0, last_value := 31, numbers := 32 }) ∧
      bitmap_or sample_cap32_spare sample_dst =
        .ok (true, { sample_cap32_spare with
          buf := [34, 0], first_value := 1, last_value := 5, numbers := 2 }) ∧
      bitmap_and { sample_cap32_spare with
          buf := [34, 0], first_value := 1, last_value := 5, numbers := 2 } sample_dst =
        .ok (true, { sample_cap32_spare with
          buf := [34, 0], first_value := 1, last_value := 5, numbers := 2 }) := by
  refine ⟨by decide, by decide, by decide, by decide, ?_, ?_, ?_⟩
  · decide
  · decide
  · decide

/-- C22. Word indices and the buffer. `bitmap_create(n)` with `1 ≤ n ≤ 65535` gives a
valid bitmap with `buf_len = ceil(n / 32)` words.  For every valid bitmap, the index
`max_value / 32` of the re-mask write of `bitmap_not`, `bitmap_or` and `bitmap_and`, which
is also the last index of the complement loop of `bitmap_not`, is `< buf_len` if and only
if `max_value mod 32 ≠ 0`, and equals `buf_len` otherwise; accordingly the three
operations return when `max_value mod 32 ≠ 0` and run into an access outside the buffer
otherwise.  All other accesses are inside the buffer: `value / 32 < buf_len` for every
`value < max_value`, the loops of Or and And up to the smaller `buf_len` return, and so do
Add, Delete, `update_info` and (the invariants holding) Print. -/
theorem word_indices :
    (∀ n, 1 ≤ n → n ≤ 65535 →
      ∃ bm, bitmap_create true n = some bm ∧ bm.max_value = n ∧
        bm.buf_len = (n + 31) / 32 ∧ Valid bm ∧ Invariants bm) ∧
    (∀ bm, Valid bm →
      (bm.max_value / BITSIZEOF_u32 < bm.buf_len ↔ bm.max_value % 32 ≠ 0) ∧
      (bm.max_value % 32 = 0 → bm.max_value / BITSIZEOF_u32 = bm.buf_len) ∧
      bm.buf.length = bm.buf_len ∧
      (bm.max_value % 32 ≠ 0 →
        (∃ bm1, bitmap_not bm = .ok (true, bm1)) ∧
        ∀ src, Valid src → (∃ bm1, bitmap_or bm src = .ok (true, bm1)) ∧
          ∃ bm1, bitmap_and bm src = .ok (true, bm1)) ∧
      (bm.max_value % 32 = 0 →
        bitmap_not bm = .error .out_of_bounds ∧
        ∀ src, Valid src → bitmap_or bm src = .error .out_of_bounds ∧
          bitmap_and bm src = .error .out_of_bounds) ∧
      (∀ v, v < bm.max_value → v / BITSIZEOF_u32 < bm.buf_len) ∧
      (∀ src, Valid src →
        (∃ bm1, bitmap_or_loop (if bm.buf_len < src.buf_len then bm.buf_len else src.buf_len)
          src 65536 0 bm = .ok bm1) ∧
        ∃ i bm1, bitmap_and_loop (if bm.buf_len < src.buf_len then bm.buf_len else src.buf_len)
          src 65536 0 bm = .ok (i, bm1)) ∧
      (∀ v, ∃ r bm1, bitmap_add_value bm v = .ok (r, bm1)) ∧
      (∀ v, ∃ r bm1, bitmap_del_value bm v = .ok (r, bm1)) ∧
      (∃ bm1, update_info bm = .ok bm1) ∧
      (Invariants bm → ∃ out, bitmap_print bm = .ok out)) := by
  constructor
  · intro n h1 h2
    obtain ⟨bm, hc⟩ := create_ok n (by omega)
    obtain ⟨c1, _, _, _, _, _, _, c8, _, c10⟩ := create_spec true n bm hc
    obtain ⟨hv, hs⟩ := create_valid true n bm hc (by omega)
    exact ⟨bm, hc, c1, c10 (by omega), hv, overflow_of_empty bm c8, hs⟩
  · intro bm hv
    have hlen := hv.1.1
    have hbl := hv.1.2.1
    have hmax := valid_max hv
    refine ⟨?_, ?_, hlen, ?_, ?_, ?_, ?_, ?_, ?_, ?_, ?_⟩
    · simp only [BITSIZEOF_u32]; omega
    · intro hm; simp only [BITSIZEOF_u32]; omega
    · intro hm
      obtain ⟨bm1, hrun, _⟩ := not_spec hv hm
      refine ⟨⟨bm1, hrun⟩, fun src hs => ?_⟩
      obtain ⟨b1, hor, _⟩ := or_spec hv hs hm
      obtain ⟨b2, hand, _⟩ := and_spec hv hs hm
      exact ⟨⟨b1, hor⟩, ⟨b2, hand⟩⟩
    · intro hm
      exact ⟨not_multiple hv hm, fun src hs => ⟨or_multiple hv hs hm, and_multiple hv hs hm⟩⟩
    · intro v hlt
      have := valid_idx hv hlt
      simp only [BITSIZEOF_u32]; omega
    · intro src hs
      have hl2 := hs.1.1
      have hb2 := hs.1.2.1
      have hmax2 := valid_max hs
      obtain ⟨b1, hrun1, _⟩ := or_loop_spec
        (if bm.buf_len < src.buf_len then bm.buf_len else src.buf_len) src 65536 0 bm
        (by split_ifs <;> omega) (by split_ifs <;> omega) (by split_ifs <;> omega)
        (Nat.zero_le _) (by split_ifs <;> omega)
      obtain ⟨b2, hrun2, _⟩ := and_loop_spec
        (if bm.buf_len < src.buf_len then bm.buf_len else src.buf_len) src 65536 0 bm
        (by split_ifs <;> omega) (by split_ifs <;> omega) (by split_ifs <;> omega)
        (Nat.zero_le _) (by split_ifs <;> omega)
      exact ⟨⟨b1, hrun1⟩, ⟨_, b2, hrun2⟩⟩
    · intro v
      by_cases hlt : v < bm.max_value
      · cases hb : bit_set bm v
        · obtain ⟨bm1, hrun, _⟩ := add_new_raw hv hlt hb
          exact ⟨true, bm1, hrun⟩
        · exact ⟨true, bm, add_existing hv hlt hb⟩
      · exact ⟨false, bm, add_out_of_range (not_lt.mp hlt)⟩
    · intro v; exact del_total v hv
    · obtain ⟨bm1, hrun, _⟩ := update_info_spec bm hmax (valid_len hv)
      exact ⟨bm1, hrun⟩
    · intro hi; exact print_total hv hi

theorem word_indices_witness :
    (∃ bm, bitmap_create true 64 = some bm ∧ bm.max_value = 64 ∧
        bm.buf_len = (64 + 31) / 32 ∧ Valid bm ∧ Invariants bm) ∧
      Valid sample_cap32 ∧ sample_cap32.max_value % 32 = 0 ∧
      sample_cap32.max_value / BITSIZEOF_u32 = sample_cap32.buf_len ∧
      bitmap_not sample_cap32 = .error .out_of_bounds ∧
      Valid sample_dst ∧ sample_dst.max_value % 32 ≠ 0 ∧
      (∃ bm1, bitmap_not sample_dst = .ok (true, bm1)) :=
  ⟨word_indices.1 64 (by decide) (by decide), by decide, by decide,
    (word_indices.2 sample_cap32 (by decide)).2.1 (by decide),
    ((word_indices.2 sample_cap32 (by decide)).2.2.2.2.1 (by decide)).1,
    by decide, by decide,
    ((word_indices.2 sample_dst (by decide)).2.2.2.1 (by decide)).1⟩

/-- C23. The population pass never drops a value silently. Let the validation pass accept
a C string: the first loop of `bitmap_parse_str` ends with a maximum `mx ≥ 0`, having made
the calls `log1` of `strtol`, and `bitmap_create(mx + 1)` gives `bm`.  Then the second loop
ends (with the result of `bitmap_parse_str`); every call of `strtol` in it that reads a
literal is one of the calls of the first loop, whose values are in `[0, 65535)` and at
most `mx`; no call of `strtol` in it yields a value that the second range check rejects;
and every call of `bitmap_add_value` in it has a value below `max_value` and returns
`true`. -/
theorem population_pass_sound (malloc_ok : Bool) (str : List Char) (mx : Int)
    (log1 : List StrtolCall) (bm : Bitmap) (hcs : CString str)
    (hscan : parse_scan_log (str.length + 1) str (-1) = .ok (some mx, log1)) (hmx : 0 ≤ mx)
    (hcreate : bitmap_create malloc_ok ((mx.toNat % 65536 + 1) % 65536) = some bm) :
    ∃ r log2 calls,
      parse_fill_log (str.length + 1) str false 0 bm = .ok (r, log2, calls) ∧
      bitmap_parse_str malloc_ok str = .ok r ∧
      (∀ c ∈ log2, c.res.endptr ≠ c.arg → c ∈ log1) ∧
      (∀ c ∈ log1, 0 ≤ c.res.value ∧ c.res.value < 65535 ∧ c.res.value ≤ mx) ∧
      (∀ c ∈ log2, ¬ (c.res.value ≥ 65535 ∨ c.res.value < 0 ∨ c.res.erange = true)) ∧
      (∀ a ∈ calls, a.value < a.max_value ∧ a.result = true ∧
        a.max_value = bm.max_value) :=
  fill_after_scan malloc_ok str mx log1 bm hcs hscan hmx hcreate

theorem population_pass_sound_witness :
    CString ['1', '-', '2'] ∧
      parse_scan_log (['1', '-', '2'].length + 1) ['1', '-', '2'] (-1) =
        .ok (some 2, [⟨['1', '-', '2'], ⟨1, ['-', '2'], false⟩⟩, ⟨['2'], ⟨2, [], false⟩⟩]) ∧
      bitmap_create true (((2 : Int).toNat % 65536 + 1) % 65536)
        = some { sample_empty with max_value := 3 } ∧
      ∃ r log2 calls,
        parse_fill_log (['1', '-', '2'].length + 1) ['1', '-', '2'] false 0
          { sample_empty with max_value := 3 } = .ok (r, log2, calls) ∧
        bitmap_parse_str true ['1', '-', '2'] = .ok r ∧
        (∀ c ∈ log2, c.res.endptr ≠ c.arg →
          c ∈ [(⟨['1', '-', '2'], ⟨1, ['-', '2'], false⟩⟩ : StrtolCall),
            ⟨['2'], ⟨2, [], false⟩⟩]) ∧
        (∀ c ∈ [(⟨['1', '-', '2'], ⟨1, ['-', '2'], false⟩⟩ : StrtolCall),
            ⟨['2'], ⟨2, [], false⟩⟩],
          0 ≤ c.res.value ∧ c.res.value < 65535 ∧ c.res.value ≤ 2) ∧
        (∀ c ∈ log2, ¬ (c.res.value ≥ 65535 ∨ c.res.value < 0 ∨ c.res.erange = true)) ∧
        (∀ a ∈ calls, a.value < a.max_value ∧ a.result = true ∧
          a.max_value = ({ sample_empty with max_value := 3 } : Bitmap).max_value) :=
  ⟨by decide, by decide, by decide,
    population_pass_sound true ['1', '-', '2'] 2 _ _ (by decide) (by decide) (by decide)
      (by decide)⟩

/-- C24. Parse after Print round-trips: for every valid non-empty bitmap satisfying the
invariants, `bitmap_print` writes a listing `text` followed by a newline, and
`bitmap_parse_str` applied to `text` (the allocation succeeding) returns a bitmap with
the same members, the same `numbers`, `first_value` and `last_value`, and with
`max_value = last_value + 1`.  For a valid bitmap with `numbers = 0` the output is
`No values`, a text that `bitmap_parse_str` rejects. -/
theorem parse_after_print :
    (∀ bm, Valid bm → Invariants bm → bm.numbers ≠ 0 →
      ∃ text bm1, bitmap_print bm = .ok (text ++ [Char.ofNat 10]) ∧
        bitmap_parse_str true text = .ok (some bm1) ∧
        (∀ u, member bm1 u = member bm u) ∧ bm1.numbers = bm.numbers ∧
        bm1.first_value = bm.first_value ∧ bm1.last_value = bm.last_value ∧
        bm1.max_value = bm.last_value + 1) ∧
    (∀ bm, Valid bm → bm.numbers = 0 →
      bitmap_print bm = .ok ("No values".toList ++ [Char.ofNat 10])) ∧
    (∀ malloc_ok, bitmap_parse_str malloc_ok "No values".toList = .ok none) := by
  refine ⟨?_, ?_, ?_⟩
  · intro bm hv hi hne
    obtain ⟨text, bm1, h1, h2, h3, h4, h5, h6, h7, _⟩ := print_parse_back hv hi hne
    exact ⟨text, bm1, h1, h2, h3, h4, h5, h6, h7⟩
  · intro bm hv hn
    unfold bitmap_print
    simp only [hv.2, Bool.not_true, Bool.false_eq_true, if_false, hn, if_true]
  · intro malloc_ok
    apply parse_scan_fails
    intro f r h
    have hal := scan_alpha f _ _ r (by decide) h
    have := hal 'N' (by decide)
    revert this
    decide

theorem parse_after_print_witness :
    Valid sample_src ∧ Invariants sample_src ∧ sample_src.numbers ≠ 0 ∧
      ∃ text bm1, bitmap_print sample_src = .ok (text ++ [Char.ofNat 10]) ∧
        bitmap_parse_str true text = .ok (some bm1) ∧
        (∀ u, member bm1 u = member sample_src u) ∧ bm1.numbers = sample_src.numbers ∧
        bm1.first_value = sample_src.first_value ∧
        bm1.last_value = sample_src.last_value ∧
        bm1.max_value = sample_src.last_value + 1 :=
  ⟨by decide, by decide, by decide,
    parse_after_print.1 sample_src (by decide) (by decide) (by decide)⟩

/-- C25. Delete after Add of a non-member restores the whole state: for every valid bitmap
satisfying the invariants and every `value < max_value` that is not a member,
`bitmap_add_value` returns `true` and the following `bitmap_del_value` returns `true` and
leaves the bitmap equal to the one before the Add, in every word of `buf` and in
`numbers`, `first_value`, `last_value`, `max_value` and `buf_len`. -/
theorem add_del_restores (bm : Bitmap) (value : Nat) (hv : Valid bm) (hi : Invariants bm)
    (hlt : value < bm.max_value) (hm : member bm value = false) :
    ∃ bm1 bm2, bitmap_add_value bm value = .ok (true, bm1) ∧
      bitmap_del_value bm1 value = .ok (true, bm2) ∧
      bm2.buf = bm.buf ∧ bm2.numbers = bm.numbers ∧ bm2.first_value = bm.first_value ∧
      bm2.last_value = bm.last_value ∧ bm2.max_value = bm.max_value ∧
      bm2.buf_len = bm.buf_len ∧ bm2 = bm := by
  have hb : bit_set bm value = false := by
    unfold member at hm
    simpa [hlt] using hm
  obtain ⟨bm1, hadd, hdel⟩ := add_del_same hv hi.2 hlt hb
  exact ⟨bm1, bm, hadd, hdel, rfl, rfl, rfl, rfl, rfl, rfl, rfl⟩

theorem add_del_restores_witness :
    Valid sample_dst ∧ Invariants sample_dst ∧ 0 < sample_dst.max_value ∧
      member sample_dst 0 = false ∧
      ∃ bm1 bm2, bitmap_add_value sample_dst 0 = .ok (true, bm1) ∧
        bitmap_del_value bm1 0 = .ok (true, bm2) ∧
        bm2.buf = sample_dst.buf ∧ bm2.numbers = sample_dst.numbers ∧
        bm2.first_value = sample_dst.first_value ∧
        bm2.last_value = sample_dst.last_value ∧ bm2.max_value = sample_dst.max_value ∧
        bm2.buf_len = sample_dst.buf_len ∧ bm2 = sample_dst :=
  ⟨by decide, by decide, by decide, by decide,
    add_del_restores sample_dst 0 (by decide) (by decide) (by decide) (by decide)⟩

/-- C26. Empty entries in the grammar of the parser, on C strings (no NUL among the
characters).  A trailing comma is accepted: for a text `t` that ends in a digit,
`bitmap_parse_str` gives on `t` followed by a comma and any number of spaces the result
it gives on `t`, so the same bitmap when `t` parses successfully.  An empty entry is
rejected: a text whose first character other than a space is a comma, and a text with two
commas separated by spaces only, make `bitmap_parse_str` return `NULL`; and so does a
text in which two literals are separated by spaces only. -/
theorem parse_empty_entries (malloc_ok : Bool) :
    (∀ (t : List Char) (k : Nat), CString t → digit_before t = true →
      bitmap_parse_str malloc_ok (t ++ CHAR_ENTRY_SEPARATOR :: List.replicate k CHAR_SPACE)
        = bitmap_parse_str malloc_ok t) ∧
    (∀ (k : Nat) (rest : List Char),
      CString (List.replicate k CHAR_SPACE ++ CHAR_ENTRY_SEPARATOR :: rest) →
      bitmap_parse_str malloc_ok (List.replicate k CHAR_SPACE ++ CHAR_ENTRY_SEPARATOR :: rest)
        = .ok none) ∧
    (∀ (pre : List Char) (k : Nat) (rest : List Char),
      CString (pre ++ CHAR_ENTRY_SEPARATOR ::
        (List.replicate k CHAR_SPACE ++ CHAR_ENTRY_SEPARATOR :: rest)) →
      bitmap_parse_str malloc_ok (pre ++ CHAR_ENTRY_SEPARATOR ::
        (List.replicate k CHAR_SPACE ++ CHAR_ENTRY_SEPARATOR :: rest)) = .ok none) ∧
    (∀ (pre ds1 : List Char) (k : Nat) (ds2 post : List Char),
      CString (pre ++ (ds1 ++ (List.replicate (k + 1) CHAR_SPACE ++ (ds2 ++ post)))) →
      digit_before pre = false → Literal ds1 → Literal ds2 →
      bitmap_parse_str malloc_ok
        (pre ++ (ds1 ++ (List.replicate (k + 1) CHAR_SPACE ++ (ds2 ++ post)))) = .ok none) := by
  refine ⟨?_, ?_, ?_, ?_⟩
  · intro t k hcs hdb
    obtain ⟨r, hr⟩ := scan_total t.length t le_rfl (-1)
    have hrun := hr _ (Nat.lt_succ_self _)
    have hrun1 := scan_trailing k _ t le_rfl _ _ hr _ (Nat.lt_succ_self _)
    rw [parse_unfold, parse_unfold, hrun, hrun1]
    cases r with
    | none => rfl
    | some mx =>
      have hal := scan_alpha _ _ _ _ hcs hrun
      simp only
      split_ifs with hneg
      · rfl
      · cases hc : bitmap_create malloc_ok ((mx.toNat % 65536 + 1) % 65536) with
        | none => rfl
        | some bm =>
          simp only
          obtain ⟨hv, hst⟩ := create_valid _ _ bm hc (Nat.mod_lt _ (by norm_num))
          obtain ⟨r2, hr2⟩ := fill_total _ t le_rfl hal false 0 bm hv hst
          rw [hr2 _ (Nat.lt_succ_self _),
            fill_trailing k _ t le_rfl hdb hal false 0 bm r2 hv hst hr2 _ (Nat.lt_succ_self _)]
  · intro k rest hcs
    apply parse_fill_fails malloc_ok hcs
    intro hal f bm res
    exact fill_at_comma k rest hal f false 0 bm res
  · intro pre k rest hcs
    apply parse_fill_fails malloc_ok hcs
    intro hal f bm res h
    obtain ⟨f1, st1, bm1, h1⟩ := fill_reach (Or.inl rfl) _ f pre false 0 bm hal h
    have hal1 := (alphaText_cons (alphaText_append.mp hal).2).2
    exact fill_at_comma k rest hal1 f1 _ st1 bm1 res h1
  · intro pre ds1 k ds2 post hcs hdb h1 h2
    apply parse_fill_fails malloc_ok hcs
    intro hal f bm res h
    obtain ⟨d1, r1, hd1⟩ := List.exists_cons_of_ne_nil h1.1
    have hdig1 := h1.2 d1 (by rw [hd1]; exact List.mem_cons_self _ _)
    obtain ⟨d2, r2, hd2⟩ := List.exists_cons_of_ne_nil h2.1
    have hdig2 := h2.2 d2 (by rw [hd2]; exact List.mem_cons_self _ _)
    have hp1 : isdigit (deref (ds1 ++ (List.replicate (k + 1) CHAR_SPACE ++ (ds2 ++ post))))
        = true := by
      rw [hd1]; exact hdig1
    have hp2 : isdigit (deref (ds2 ++ post)) = true := by
      rw [hd2]; exact hdig2
    obtain ⟨f1, ir1, st1, bm1, hr⟩ := fill_reach_number _ hp1 f pre false 0 bm hal hdb h
    exact fill_two_numbers ds1 (ds2 ++ post) k h1 hp2 (alphaText_append.mp hal).2
      f1 ir1 st1 bm1 res hr

theorem parse_empty_entries_witness :
    bitmap_parse_str true ['1', '-', '3', ',', ' '] = bitmap_parse_str true ['1', '-', '3'] ∧
      bitmap_parse_str true [' ', ',', '1'] = .ok none ∧
      bitmap_parse_str true ['1', ',', ' ', ',', '2'] = .ok none ∧
      bitmap_parse_str true ['7', ',', '1', ' ', '2'] = .ok none :=
  ⟨(parse_empty_entries true).1 ['1', '-', '3'] 1 (by decide) (by decide),
    (parse_empty_entries true).2.1 1 ['1'] (by decide),
    (parse_empty_entries true).2.2.1 ['1'] 1 ['2'] (by decide),
    (parse_empty_entries true).2.2.2 ['7', ','] ['1'] 0 ['2'] [] (by decide) (by decide)
      (by decide) (by decide)⟩

/-- C27. The 16-bit loop counters never wrap, so every scan terminates.  A loop of the
embedding that is given the bound `fuel` can make `fuel - 1` iterations and its final test.
For every valid bitmap satisfying the invariants, `last_value ≤ max_value - 1 ≤ 65534`;
the increment of the counter is exact (it does not wrap at 65536) at every counter value
that passes the test `i <= last_value` of `bitmap_print` or `i < max_value` of
`update_info`; the scan of `bitmap_print` from `first_value`, in any state, and the rescan
of `update_info` end within `max_value` iterations.  For every range `A ≤ B ≤ 65534` the
expansion loop `while (start_value <= value)` ends after exactly `B - A + 1` calls of
`bitmap_add_value`, for the values `A, ..., B` in order, its counter at `B + 1 ≤ 65535`. -/
theorem loops_terminate :
    (∀ bm, Valid bm → Invariants bm →
      bm.last_value + 1 ≤ bm.max_value ∧ bm.max_value ≤ 65535 ∧
      (∀ i, i ≤ bm.last_value → (i + 1) % 65536 = i + 1) ∧
      (∀ i, i < bm.max_value → (i + 1) % 65536 = i + 1) ∧
      (∀ st, ∃ r, ∀ fuel, bm.max_value < fuel →
        bitmap_print_loop bm fuel bm.first_value st = .ok r) ∧
      (∃ bm1, update_info bm = .ok bm1 ∧ ∀ fuel, bm.max_value < fuel →
        update_info_loop fuel 0
          { bm with first_value := UINT16_MAX, last_value := 0, numbers := 0 } = .ok bm1)) ∧
    (∀ bm A B, Valid bm → StatsOK bm → A ≤ B → B ≤ 65534 →
      ∃ bm1 calls,
        (∀ fuel, B - A + 1 < fuel →
          parse_expand_log fuel A (B : Int) bm = .ok (B + 1, bm1, calls)) ∧
        calls.length = B - A + 1 ∧
        calls.map (fun c => c.value) = List.range' A (B - A + 1) ∧
        B + 1 ≤ 65535 ∧ (∀ i, A ≤ i → i ≤ B → (i + 1) % 65536 = i + 1) ∧
        parse_expand 65536 A (B : Int) bm = .ok (B + 1, bm1)) := by
  constructor
  · intro bm hv hi
    obtain ⟨h1, h2, h3, h4⟩ := scans_terminate hv hi
    refine ⟨h1, h2, ?_, ?_, h3, h4⟩
    · intro i hle; exact Nat.mod_eq_of_lt (by omega)
    · intro i hlt; exact Nat.mod_eq_of_lt (by omega)
  · intro bm A B hv hs hAB hB
    obtain ⟨bm1, calls, g1, g2, g3, g4⟩ := expansion_terminates A B hv hs hAB hB
    exact ⟨bm1, calls, g1, g2, g3, by omega,
      fun i _ hle => Nat.mod_eq_of_lt (by omega), g4⟩

theorem loops_terminate_witness :
    (Valid sample_src ∧ Invariants sample_src ∧
      sample_src.last_value + 1 ≤ sample_src.max_value ∧ sample_src.max_value ≤ 65535 ∧
      ∃ bm1, update_info sample_src = .ok bm1 ∧ ∀ fuel, sample_src.max_value < fuel →
        update_info_loop fuel 0
          { sample_src with first_value := UINT16_MAX, last_value := 0, numbers := 0 }
            = .ok bm1) ∧
      (Valid sample_dst ∧ StatsOK sample_dst ∧ 2 ≤ 5 ∧ 5 ≤ 65534 ∧
        ∃ bm1 calls,
          (∀ fuel, 5 - 2 + 1 < fuel →
            parse_expand_log fuel 2 ((5 : Nat) : Int) sample_dst = .ok (5 + 1, bm1, calls)) ∧
          calls.length = 5 - 2 + 1 ∧
          calls.map (fun c => c.value) = List.range' 2 (5 - 2 + 1)) :=
  ⟨⟨by decide, by decide,
      (loops_terminate.1 sample_src (by decide) (by decide)).1,
      (loops_terminate.1 sample_src (by decide) (by decide)).2.1,
      (loops_terminate.1 sample_src (by decide) (by decide)).2.2.2.2.2⟩,
    by decide, by decide, by decide, by decide,
    (loops_terminate.2 sample_dst 2 5 (by decide) (by decide) (by decide) (by decide)).imp
      fun bm1 h => h.imp fun calls h2 => ⟨h2.1, h2.2.1, h2.2.2.1⟩⟩
